import Mathlib

/-!
# Cliques and independent vertex sets (igraph `cliques.c`)

A shallow embedding of the two enumeration engines of `cliques.c`:

* the level expander `igraph_i_find_k_cliques` / `igraph_i_cliques`, which grows
  the generation of `k`-slots from the generation of `(k-1)`-slots, and
* the backtrack engine `igraph_i_maximal_independent_vertex_sets_backtrack`
  with its three drivers.

Vertex identifiers (stored as reals in the C buffers) are natural numbers, the
counters `IS[v]` are integers, and C arrays are total functions on indices or
lists. Each C function is embedded twice: under its own name as its error-free
path (no cancellation, no failing allocation or callee), and with the suffix
`_err` with its error paths, where an environment decides which fallible
operation fails and the cleanup stack and the result sink are explicit.
-/

namespace Igraph

/-! ## Graph view -/

/-- The read-only graph view: `n` is `igraph_vcount`, `nbrs v` is the vector that
`igraph_neighbors(graph, neis, v, IGRAPH_ALL)` writes into `neis`. -/
structure Graph where
  n : Nat
  nbrs : Nat → List Nat

/-- A finite simple undirected graph on the vertices `0..n-1`: each neighbour list
is strictly ascending, holds only vertices, has no self-loop and is symmetric. -/
def Graph.Simple (G : Graph) : Prop :=
  ∀ v, v < G.n →
    (G.nbrs v).Pairwise (fun a b => a < b) ∧
    ∀ u ∈ G.nbrs v, u < G.n ∧ u ≠ v ∧ v ∈ G.nbrs u

/-- Modelled from the spec: the complement adjacency builder
(`igraph_adjlist_init_complementer` with `loops = 0`, not under src/) lists, for
every `v`, the ascending enumeration of `V \ ({v} ∪ N(v))`. -/
def igraph_adjlist_init_complementer (G : Graph) : Nat → List Nat :=
  fun v => (List.range G.n).filter (fun u => decide (u ≠ v) && !decide (u ∈ G.nbrs v))

/-- Modelled from the spec: the adjacency-list builder (`igraph_adjlist_init` with
`IGRAPH_ALL`, not under src/) stores for every `v` the ascending neighbour
sequence of the graph view. -/
def igraph_adjlist_init (G : Graph) : Nat → List Nat :=
  fun v => G.nbrs v

/-- The edge-complement of `G`: two distinct vertices are adjacent exactly when
they are not adjacent in `G`. -/
def complement (G : Graph) : Graph :=
  { n := G.n, nbrs := igraph_adjlist_init_complementer G }

/-! ## Level expander -/

/-- Working state of `igraph_i_find_k_cliques`: `st` is the written part
`(*new_member_storage)[0 .. m-1]` (so `m = st.length`), `n` the committed length,
`cap` is `new_member_storage_size`, `warn` counts the "possible bug" warnings. -/
structure KState where
  st : List Nat
  n : Nat
  cap : Nat
  warn : Nat
deriving DecidableEq, Repr

/-- The loop `for (l=0; l<size-1 && c1[l]==c2[l]; l++) new[m++]=c1[l]`, with `r`
the number of positions left before `size-1`; returns the final `l` and buffer. -/
def scanPrefix (c1 c2 : Nat → Nat) : Nat → Nat → List Nat → Nat × List Nat
  | 0, l, st => (l, st)
  | r + 1, l, st =>
    if c1 l = c2 l then scanPrefix c1 c2 r (l + 1) (st ++ [c1 l]) else (l, st)

/-- The three-way scan `for (; l<size-1; l++) { ... }` over the remaining
positions, with `r` the number of positions left before `size-1`; returns the
final `l`, the carried `v2` and the buffer. -/
def scanRest (c1 c2 : Nat → Nat) (v1 : Nat) :
    Nat → Nat → Bool → Nat → List Nat → Nat × Nat × List Nat
  | 0, l, _, v2, st => (l, v2, st)
  | r + 1, l, ok, v2, st =>
    if c1 l = c2 l then
      scanRest c1 c2 v1 r (l + 1) false v2 (st ++ [c1 l])
    else if ok then
      if c1 l < c2 l then
        if c1 l = v1 then scanRest c1 c2 v1 r (l + 1) ok (c2 l) (st ++ [c1 l])
        else (l, v2, st)
      else
        if ok && decide (c2 l = v1) then
          scanRest c1 c2 v1 r (l + 1) ok (c1 l) (st ++ [c2 l])
        else (l, v2, st)
    else (l, v2, st)

/-- The reallocation test after a pair: `if (m == new_member_storage_size)` the
capacity is doubled. -/
def growIfFull (s : KState) : KState :=
  if s.st.length = s.cap then { s with cap := s.cap * 2 } else s

/-- The body of the pair loop of `igraph_i_find_k_cliques` for the slots `c1`
(index `j`) and `c2` (index `k`). -/
def mergePair (G : Graph) (independent_vertices : Bool) (size : Nat)
    (c1 c2 : Nat → Nat) (s : KState) : KState :=
  let p := scanPrefix c1 c2 (size - 1) 0 s.st
  let l := p.1
  if l = size - 1 then
    { s with st := p.2.take s.n, warn := s.warn + 1 }
  else
    let v1 := c1 l
    let q := scanRest c1 c2 v1 (size - 1 - (l + 1)) (l + 1) true (c2 l) (p.2 ++ [c1 l])
    let l2 := q.1
    let v2 := q.2.1
    let st2 := q.2.2
    let s2 : KState :=
      if l2 ≠ size - 1 then
        { s with st := st2.take s.n }
      else
        let found := decide (v2 ∈ G.nbrs v1)
        if (found && !independent_vertices) || (!found && independent_vertices) then
          if st2.length = s.n ∨ v2 > st2.getD (st2.length - 1) 0 then
            { s with st := st2 ++ [v2], n := st2.length + 1 }
          else
            { s with st := st2.take s.n }
        else
          { s with st := st2.take s.n }
    growIfFull s2

/-- Slot `j` of a generation of `w`-slots stored in `member_storage`, as the
function `l ↦ c[l]` with `c = member_storage + j*w`. -/
def slotAt (member_storage : List Nat) (w j : Nat) : Nat → Nat :=
  fun l => member_storage.getD (j * w + l) 0

/-- The pair loops of `igraph_i_find_k_cliques`, returning the final state. -/
def findLoop (G : Graph) (size : Nat) (member_storage : List Nat)
    (old_clique_count : Nat) (independent_vertices : Bool) : KState :=
  (List.range old_clique_count).foldl
    (fun s j =>
      (List.range' (j + 1) (old_clique_count - (j + 1))).foldl
        (fun s k =>
          mergePair G independent_vertices size
            (slotAt member_storage (size - 1) j) (slotAt member_storage (size - 1) k) s)
        s)
    { st := [], n := 0, cap := size * old_clique_count, warn := 0 }

/-- The function `igraph_i_find_k_cliques`: returns the committed part of
`*new_member_storage` and `*clique_count`. -/
def igraph_i_find_k_cliques (G : Graph) (size : Nat) (member_storage : List Nat)
    (old_clique_count : Nat) (independent_vertices : Bool) : List Nat × Nat :=
  let s := findLoop G size member_storage old_clique_count independent_vertices
  (s.st.take s.n, s.n / size)

/-- The copies `igraph_vector_init_copy(p, &new_member_storage[k], i)` for
`j = 0 .. clique_count-1`, `k = j*i`. -/
def emitSlots (new_member_storage : List Nat) (i clique_count : Nat) : List (List Nat) :=
  (List.range clique_count).map
    (fun j => (List.range i).map (fun t => new_member_storage.getD (j * i + t) 0))

/-- The generation loop `for (i=2; i<=max_size && clique_count>1; i++)` of
`igraph_i_cliques`; `none` when the fuel runs out before the loop condition
fails. -/
def cliquesLoop (G : Graph) (min_size max_size : Int) (independent_vertices : Bool) :
    Nat → Nat → List Nat → Nat → List (List Nat) → Option (List (List Nat))
  | 0, i, _, clique_count, res =>
    if (i : Int) ≤ max_size ∧ clique_count > 1 then none else some res
  | fuel + 1, i, new_member_storage, clique_count, res =>
    if (i : Int) ≤ max_size ∧ clique_count > 1 then
      let r := igraph_i_find_k_cliques G i new_member_storage clique_count independent_vertices
      let res2 :=
        if (i : Int) ≥ min_size ∧ (i : Int) ≤ max_size then res ++ emitSlots r.1 i r.2 else res
      cliquesLoop G min_size max_size independent_vertices fuel (i + 1) r.1 r.2 res2
    else some res

/-- The function `igraph_i_cliques`. -/
def igraph_i_cliques (G : Graph) (min_size max_size : Int) (independent_vertices : Bool) :
    Option (List (List Nat)) :=
  let no_of_nodes := G.n
  let min_size := if min_size < 0 then 0 else min_size
  let max_size := if max_size > (no_of_nodes : Int) ∨ max_size ≤ 0 then (no_of_nodes : Int) else max_size
  let new_member_storage := List.range no_of_nodes
  let clique_count := no_of_nodes
  let res : List (List Nat) :=
    if min_size ≤ 1 then (List.range no_of_nodes).map (fun i => [i]) else []
  cliquesLoop G min_size max_size independent_vertices no_of_nodes 2
    new_member_storage clique_count res

/-- The function `igraph_cliques`. -/
def igraph_cliques (G : Graph) (min_size max_size : Int) : Option (List (List Nat)) :=
  igraph_i_cliques G min_size max_size false

/-- The function `igraph_independent_vertex_sets`. -/
def igraph_independent_vertex_sets (G : Graph) (min_size max_size : Int) :
    Option (List (List Nat)) :=
  igraph_i_cliques G min_size max_size true

/-! ## Backtrack engine -/

/-- The record `igraph_i_max_ind_vsets_data_t`. -/
structure igraph_i_max_ind_vsets_data_t where
  matrix_size : Nat
  adj_list : Nat → List Nat
  deg : Nat → Nat
  buckets : Nat → List Nat
  IS : Nat → Int
  largest_set_size : Nat
  keep_only_largest : Bool

/-- Array write `a[i] = x`. -/
def upd {α : Type} (a : Nat → α) (i : Nat) (x : α) : Nat → α :=
  fun k => if k = i then x else a k

/-- Modelled from the spec: `igraph_set_add` on the integer set (`igraph_set_t` is
not under src/), kept as an ascending list without repetition. -/
def igraph_set_add : List Nat → Nat → List Nat
  | [], e => [e]
  | x :: xs, e =>
    if e < x then e :: x :: xs
    else if e = x then x :: xs
    else x :: igraph_set_add xs e

/-- The values `v2 = neis[j]` visited by
`j = 0; while (j < deg && (v2 = neis[j]) <= level) j++`, in order of `j`. -/
def lowScan (neis : List Nat) (deg level : Nat) : List Nat :=
  (neis.take deg).takeWhile (fun v2 => decide (v2 ≤ level))

/-- The count `c` of visited neighbours with `IS[v2] == 0`. -/
def countZero (IS : Nat → Int) (vs : List Nat) : Nat :=
  vs.foldl (fun c v2 => if IS v2 = 0 then c + 1 else c) 0

/-- The loop body `IS[v2]++` over the visited neighbours. -/
def incrAll (IS : Nat → Int) (vs : List Nat) : Nat → Int :=
  vs.foldl (fun a v2 => upd a v2 (a v2 + 1)) IS

/-- The loop body `IS[v2]--` over the visited neighbours. -/
def decrAll (IS : Nat → Int) (vs : List Nat) : Nat → Int :=
  vs.foldl (fun a v2 => upd a v2 (a v2 - 1)) IS

/-- The inner loop of the speculative removal: `IS[v3]--; if (IS[v3]==0) f=0`. -/
def removeInner (IS : Nat → Int) (f : Bool) (vs3 : List Nat) : (Nat → Int) × Bool :=
  vs3.foldl
    (fun p v3 =>
      let a := upd p.1 v3 (p.1 v3 - 1)
      (a, if a v3 = 0 then false else p.2))
    (IS, f)

/-- The speculative removal loop over the visited neighbours `v2 = neis1[j]`,
starting at position `j`, on the triple (`IS`, `buckets[v1]`, `f`). -/
def removeLoop (adj_list : Nat → List Nat) (deg : Nat → Nat) (level : Nat) :
    List Nat → Nat → (Nat → Int) × List Nat × Bool → (Nat → Int) × List Nat × Bool
  | [], _, s => s
  | v2 :: rest, j, (IS, bucket, f) =>
    let s1 : (Nat → Int) × List Nat × Bool :=
      if IS v2 = 0 then
        let p := removeInner IS f (lowScan (adj_list v2) (deg v2) level)
        (p.1, igraph_set_add bucket j, p.2)
      else (IS, bucket, f)
    removeLoop adj_list deg level rest (j + 1) (upd s1.1 v2 (s1.1 v2 + 1), s1.2.1, s1.2.2)

/-- The replay of `buckets[v1]` with `igraph_set_iterate`: for each stored
position `j`, `IS[v3]++` over the visited neighbours of `v2 = neis1[j]`. -/
def replayBucket (adj_list : Nat → List Nat) (deg : Nat → Nat) (level : Nat)
    (neis1 : List Nat) (IS : Nat → Int) (bucket : List Nat) : Nat → Int :=
  bucket.foldl
    (fun a j =>
      let v2 := neis1.getD j 0
      incrAll a (lowScan (adj_list v2) (deg v2) level))
    IS

/-- The leaf of the backtrack procedure: collects `{ v : IS[v] = 0 }` and applies
the sink policy; `res = none` is the null sink. -/
def leafStep (res : Option (List (List Nat))) (d : igraph_i_max_ind_vsets_data_t) :
    Option (List (List Nat)) × igraph_i_max_ind_vsets_data_t :=
  let vec := (List.range d.matrix_size).filter (fun v1 => decide (d.IS v1 = 0))
  let size := vec.length
  let res2 : Option (List (List Nat)) :=
    match res with
    | some r =>
      if !d.keep_only_largest then some (r ++ [vec])
      else if size > d.largest_set_size then some [vec]
      else if size = d.largest_set_size then some (r ++ [vec])
      else some r
    | none => none
  (res2, if size > d.largest_set_size then { d with largest_set_size := size } else d)

/-- The function `igraph_i_maximal_independent_vertex_sets_backtrack`; `none`
when the fuel runs out. -/
def igraph_i_maximal_independent_vertex_sets_backtrack :
    Nat → Option (List (List Nat)) → igraph_i_max_ind_vsets_data_t → Nat →
      Option (Option (List (List Nat)) × igraph_i_max_ind_vsets_data_t)
  | 0, _, _, _ => none
  | fuel + 1, res, d, level =>
    if (level : Int) ≥ (d.matrix_size : Int) - 1 then
      some (leafStep res d)
    else
      let v1 := level + 1
      let neis1 := d.adj_list v1
      let low := lowScan neis1 (d.deg v1) level
      let c := countZero d.IS low
      if c = 0 then
        match igraph_i_maximal_independent_vertex_sets_backtrack fuel res
            { d with IS := incrAll d.IS low } v1 with
        | none => none
        | some (res1, d1) => some (res1, { d1 with IS := decrAll d1.IS low })
      else
        match igraph_i_maximal_independent_vertex_sets_backtrack fuel res
            { d with IS := upd d.IS v1 (c : Int) } v1 with
        | none => none
        | some (res1, d1) =>
          let t := removeLoop d1.adj_list d1.deg level low 0
            (upd d1.IS v1 0, d1.buckets v1, true)
          let d2 := { d1 with IS := t.1, buckets := upd d1.buckets v1 t.2.1 }
          let r2 :=
            if t.2.2 then igraph_i_maximal_independent_vertex_sets_backtrack fuel res1 d2 v1
            else some (res1, d2)
          match r2 with
          | none => none
          | some (res2, d3) =>
            let IS4 := decrAll d3.IS low
            let IS5 := replayBucket d3.adj_list d3.deg level neis1 IS4 (d3.buckets v1)
            some (res2, { d3 with IS := IS5, buckets := upd d3.buckets v1 [] })

/-- The scratch record set up by the three drivers before the initial call. -/
def initData (no_of_nodes : Nat) (adj_list : Nat → List Nat) (keep_only_largest : Bool) :
    igraph_i_max_ind_vsets_data_t :=
  { matrix_size := no_of_nodes
    adj_list := adj_list
    deg := fun i => (adj_list i).length
    buckets := fun _ => []
    IS := fun _ => 0
    largest_set_size := 0
    keep_only_largest := keep_only_largest }

/-- The function `igraph_maximal_independent_vertex_sets`. -/
def igraph_maximal_independent_vertex_sets (G : Graph) : Option (List (List Nat)) :=
  match igraph_i_maximal_independent_vertex_sets_backtrack (G.n + 1) (some [])
      (initData G.n (igraph_adjlist_init G) false) 0 with
  | some (some res, _) => some res
  | _ => none

/-- The function `igraph_independence_number`. -/
def igraph_independence_number (G : Graph) : Option Nat :=
  match igraph_i_maximal_independent_vertex_sets_backtrack (G.n + 1) none
      (initData G.n (igraph_adjlist_init G) false) 0 with
  | some (_, d) => some d.largest_set_size
  | none => none

/-- The function `igraph_i_maximal_or_largest_cliques_or_indsets`: `want_res`
says whether `res` is non-null; the second component is what is stored through
`clique_number`. -/
def igraph_i_maximal_or_largest_cliques_or_indsets (G : Graph) (want_res : Bool)
    (keep_only_largest complementer : Bool) : Option (Option (List (List Nat)) × Nat) :=
  let adj := if complementer then igraph_adjlist_init_complementer G else igraph_adjlist_init G
  match igraph_i_maximal_independent_vertex_sets_backtrack (G.n + 1)
      (if want_res then some [] else none) (initData G.n adj keep_only_largest) 0 with
  | some (res, d) => some (res, d.largest_set_size)
  | none => none

/-- The function `igraph_maximal_cliques`. -/
def igraph_maximal_cliques (G : Graph) : Option (List (List Nat)) :=
  match igraph_i_maximal_or_largest_cliques_or_indsets G true false true with
  | some (some res, _) => some res
  | _ => none

/-- The function `igraph_largest_cliques`. -/
def igraph_largest_cliques (G : Graph) : Option (List (List Nat)) :=
  match igraph_i_maximal_or_largest_cliques_or_indsets G true true true with
  | some (some res, _) => some res
  | _ => none

/-- The function `igraph_largest_independent_vertex_sets`. -/
def igraph_largest_independent_vertex_sets (G : Graph) : Option (List (List Nat)) :=
  match igraph_i_maximal_or_largest_cliques_or_indsets G true true false with
  | some (some res, _) => some res
  | _ => none

/-- The function `igraph_clique_number`. -/
def igraph_clique_number (G : Graph) : Option Nat :=
  match igraph_i_maximal_or_largest_cliques_or_indsets G false false true with
  | some (_, no) => some no
  | none => none

/-! ## Example graphs -/

/-- The triangle `K3`. -/
def triangle : Graph := { n := 3, nbrs := fun v => (List.range 3).filter (fun u => u ≠ v) }

/-- The path `0-1-2-3`. -/
def path4 : Graph :=
  { n := 4, nbrs := fun v => match v with
      | 0 => [1] | 1 => [0, 2] | 2 => [1, 3] | 3 => [2] | _ => [] }

/-- The cycle `0-1-2-3-0`. -/
def cycle4 : Graph :=
  { n := 4, nbrs := fun v => match v with
      | 0 => [1, 3] | 1 => [0, 2] | 2 => [1, 3] | 3 => [0, 2] | _ => [] }

/-! ## Derived definitions used in the statements and proofs -/

/-- The sink policy of the leaf on the pair (sink, `largest_set_size`), for a
collected set `vec`. -/
def sinkPush (keep_only_largest : Bool) (p : Option (List (List Nat)) × Nat)
    (vec : List Nat) : Option (List (List Nat)) × Nat :=
  ((match p.1 with
    | some r =>
      if !keep_only_largest then some (r ++ [vec])
      else if vec.length > p.2 then some [vec]
      else if vec.length = p.2 then some (r ++ [vec])
      else some r
    | none => none),
   if vec.length > p.2 then vec.length else p.2)

/-- The sets collected at the leaves below a call of the backtrack procedure, in
the order of the traversal, as a function of the counters at entry only. -/
def leafSets (n : Nat) (adj_list : Nat → List Nat) (deg : Nat → Nat) :
    Nat → (Nat → Int) → Nat → List (List Nat)
  | 0, _, _ => []
  | fuel + 1, IS, level =>
    if (level : Int) ≥ (n : Int) - 1 then
      [(List.range n).filter (fun v1 => decide (IS v1 = 0))]
    else
      let v1 := level + 1
      let low := lowScan (adj_list v1) (deg v1) level
      let c := countZero IS low
      if c = 0 then leafSets n adj_list deg fuel (incrAll IS low) v1
      else
        let t := removeLoop adj_list deg level low 0 (IS, [], true)
        leafSets n adj_list deg fuel (upd IS v1 (c : Int)) v1
          ++ (if t.2.2 then leafSets n adj_list deg fuel t.1 v1 else [])

/-- The maximum of the sizes of the sets of a result list (`0` for the empty list). -/
def maxSize (r : List (List Nat)) : Nat :=
  (r.map List.length).foldl max 0

/-- The leaf sets of the top-level call `solve(0)` from the all-zero state, for the
adjacency lists `adj_list` with cached degrees. -/
def mainLeaves (n : Nat) (adj_list : Nat → List Nat) : List (List Nat) :=
  leafSets n adj_list (fun i => (adj_list i).length) (n + 1) (fun _ => 0) 0

/-- The neighbours of `v` with index at most `L`, in ascending order. -/
def low (G : Graph) (L v : Nat) : List Nat :=
  (G.nbrs v).filter (fun u => decide (u ≤ L))

/-- The entries of `l` whose counter is zero. -/
def zeros (IS : Nat → Int) (l : List Nat) : List Nat :=
  l.filter (fun u => decide (IS u = 0))

/-- The counter invariant at level `L`: for `v ≤ L` the counter `IS[v]` is the
number of neighbours `u ≤ L` of `v` with `IS[u] = 0`, and `IS[v] = 0` above `L`. -/
def CounterInv (G : Graph) (L : Nat) (IS : Nat → Int) : Prop :=
  (∀ v, v ≤ L → IS v = ((zeros IS (low G L v)).length : Int)) ∧ ∀ v, L < v → IS v = 0

/-- The counters after the speculative removal loop has handled the prefix `pre`
of the visited neighbours of `v1`, when every test `IS[v2] == 0` so far was
decided as in the state of entry. -/
def ideal (G : Graph) (L : Nat) (IS : Nat → Int) (pre : List Nat) : Nat → Int :=
  fun k => IS k + (pre.count k : Int)
    - (((zeros IS pre).map (fun u => ((low G L u).count k : Int))).sum)

/-- No decrement of the speculative removal loop over `lowv` reaches zero. -/
def NoHit (G : Graph) (L : Nat) (IS : Nat → Int) (lowv : List Nat) : Prop :=
  ∀ pre w rest, lowv = pre ++ w :: rest → IS w = 0 →
    ∀ k ∈ low G L w, ideal G L IS pre k ≠ 1

/-- The counter states with which the backtrack procedure recurses from the state
`IS` at `level` (non-leaf case), in the order of the recursive calls. -/
def kids (adj_list : Nat → List Nat) (deg : Nat → Nat) (level : Nat) (IS : Nat → Int) :
    List (Nat → Int) :=
  let v1 := level + 1
  let low := lowScan (adj_list v1) (deg v1) level
  let c := countZero IS low
  if c = 0 then [incrAll IS low]
  else
    let t := removeLoop adj_list deg level low 0 (IS, [], true)
    upd IS v1 (c : Int) :: (if t.2.2 then [t.1] else [])

/-- The states reached `m` levels below the states `xs` of level `L`. -/
def levelFrom (adj_list : Nat → List Nat) (deg : Nat → Nat) :
    Nat → Nat → List (Nat → Int) → List (Nat → Int)
  | _, 0, xs => xs
  | L, m + 1, xs => levelFrom adj_list deg (L + 1) m (xs.flatMap (kids adj_list deg L))

/-- The set collected at a leaf from the counters `IS`. -/
def leafSet (n : Nat) (IS : Nat → Int) : List Nat :=
  (List.range n).filter (fun v1 => decide (IS v1 = 0))

/-- No two vertices of `S` are adjacent in `G`. -/
def IsIndependentSet (G : Graph) (S : List Nat) : Prop :=
  ∀ u ∈ S, ∀ v ∈ S, u ∉ G.nbrs v

/-- The list `S` is a maximal independent set of `G`, given as its strictly
ascending vertex list: independent, and every vertex of `G` outside `S` has a
neighbour in `S`. -/
def IsMaximalIndependentSet (G : Graph) (S : List Nat) : Prop :=
  S.Pairwise (fun a b => a < b) ∧ (∀ v ∈ S, v < G.n) ∧ IsIndependentSet G S ∧
    ∀ v, v < G.n → v ∉ S → ∃ u ∈ S, u ∈ G.nbrs v

/-- Two counter states differ in their zero sets up to level `L`. -/
def Distinct (L : Nat) (a b : Nat → Int) : Prop :=
  ∃ v, v ≤ L ∧ ¬ (a v = 0 ↔ b v = 0)

/-- The vertex set `I` is a maximal independent set of the subgraph of `G` induced
on the vertices `0..L`. -/
def MaxIndepUpTo (G : Graph) (L : Nat) (I : Nat → Prop) : Prop :=
  (∀ v, I v → v ≤ L) ∧ (∀ u v, I u → I v → u ∉ G.nbrs v) ∧
    ∀ v, v ≤ L → ¬ I v → ∃ u, I u ∧ u ∈ G.nbrs v

/-- Every two distinct vertices of `S` are adjacent in `G`. -/
def IsClique (G : Graph) (S : List Nat) : Prop :=
  ∀ u ∈ S, ∀ v ∈ S, u ≠ v → u ∈ G.nbrs v

/-- The list `S` is a maximal clique of `G`, given as its strictly ascending vertex
list: a clique that no vertex outside it extends. -/
def IsMaximalClique (G : Graph) (S : List Nat) : Prop :=
  S.Pairwise (fun a b => a < b) ∧ (∀ v ∈ S, v < G.n) ∧ IsClique G S ∧
    ∀ v, v < G.n → v ∉ S → ∃ u ∈ S, u ∉ G.nbrs v

/-- Two vertex lists differ as vertex sets. -/
def DifferentSets (A B : List Nat) : Prop :=
  ∃ v, ¬ (v ∈ A ↔ v ∈ B)

/-- The adjacency test of the level expander on the pair `(v1, v2)`: an edge when
cliques are sought, no edge when independent vertex sets are sought. -/
def okPair (G : Graph) (independent_vertices : Bool) (v1 v2 : Nat) : Bool :=
  (decide (v2 ∈ G.nbrs v1) && !independent_vertices)
    || (!decide (v2 ∈ G.nbrs v1) && independent_vertices)

/-- Slot `j` of a generation of `w`-slots, as a list. -/
def slotList (member_storage : List Nat) (w j : Nat) : List Nat :=
  (List.range w).map (slotAt member_storage w j)

/-- The slot appended for the pair of slots `(j, k)` of a generation of `w`-slots:
the two slots agree except in their last entry and the adjacency test on the two
last entries passes. -/
def mergeAt (G : Graph) (indep : Bool) (ms : List Nat) (w j k : Nat) : Option (List Nat) :=
  if (∀ t, t < w - 1 → slotAt ms w j t = slotAt ms w k t) ∧
      okPair G indep (slotAt ms w j (w - 1)) (slotAt ms w k (w - 1)) = true
  then some (slotList ms w j ++ [slotAt ms w k (w - 1)]) else none

/-- The slots appended by the pair loops over a generation of `cc` slots of width
`w`, in the order of the loops. -/
def accSlots (G : Graph) (indep : Bool) (ms : List Nat) (w cc : Nat) : List (List Nat) :=
  (List.range cc).flatMap
    (fun j => (List.range' (j + 1) (cc - (j + 1))).filterMap (fun k => mergeAt G indep ms w j k))

/-- The slots of a generation are strictly ascending and strictly increasing in
lexicographic order (by their first difference). -/
def SlotsOK (ms : List Nat) (w cc : Nat) : Prop :=
  (∀ j, j < cc → ∀ i i', i < i' → i' < w → slotAt ms w j i < slotAt ms w j i') ∧
  ∀ j k, j < k → k < cc →
    ∃ i0, i0 < w ∧ (∀ t, t < i0 → slotAt ms w j t = slotAt ms w k t) ∧
      slotAt ms w j i0 < slotAt ms w k i0

/-- Strict lexicographic order on vertex lists, by the first position where the
two lists differ. -/
def lexlt (A B : List Nat) : Prop :=
  ∃ i, i < A.length ∧ i < B.length ∧ (∀ t, t < i → A.getD t 0 = B.getD t 0) ∧
    A.getD i 0 < B.getD i 0

/-- A strictly ascending list of vertices of `G` every two of which pass the
adjacency test: a clique (or, with `indep`, an independent vertex set). -/
def GoodSet (G : Graph) (indep : Bool) (S : List Nat) : Prop :=
  S.Pairwise (fun a b => a < b ∧ okPair G indep a b = true) ∧ ∀ v ∈ S, v < G.n

/-- The generation `gen` holds exactly the good sets of size `w`, in strictly
increasing lexicographic order. -/
def GenOK (G : Graph) (indep : Bool) (w : Nat) (gen : List (List Nat)) : Prop :=
  gen.Pairwise lexlt ∧ ∀ S, S ∈ gen ↔ (GoodSet G indep S ∧ S.length = w)

/-- The graph with `n` vertices and no edges. -/
def emptyGraph (n : Nat) : Graph := { n := n, nbrs := fun _ => [] }

/-- The complete graph `K_n` on the vertices `0..n-1`. -/
def completeGraph (n : Nat) : Graph :=
  { n := n, nbrs := fun v => (List.range n).filter (fun u => u ≠ v) }

/-- The strictly ascending vertex list `S` of a clique of `G` or, with `indep`, of
an independent vertex set of `G`. -/
def IsLevelSet (G : Graph) (indep : Bool) (S : List Nat) : Prop :=
  S.Pairwise (fun a b => a < b) ∧ (∀ v ∈ S, v < G.n) ∧
    (if indep = true then IsIndependentSet G S else IsClique G S)

/-- Lexicographic order on vertex lists, non-strict. -/
def lexle (A B : List Nat) : Prop :=
  A = B ∨ lexlt A B

/-- The invariant of a generation of slots: every slot is strictly ascending, the
slots are in lexicographically non-decreasing order, and no slot is repeated. -/
def GenInv (gen : List (List Nat)) : Prop :=
  (∀ S ∈ gen, S.Pairwise (fun a b => a < b)) ∧ gen.Pairwise lexle ∧ gen.Nodup

/-- The generations of a run of `igraph_i_cliques`, as (buffer, count): index `m`
is the generation of `(m+1)`-slots; the first is the singletons `0..n-1` and each
further one is written by `igraph_i_find_k_cliques` from the one before. -/
def runGeneration (G : Graph) (indep : Bool) : Nat → List Nat × Nat
  | 0 => (List.range G.n, G.n)
  | m + 1 =>
    igraph_i_find_k_cliques G (m + 2) (runGeneration G indep m).1 (runGeneration G indep m).2
      indep

/-! ## Error paths: cleanup stack, cancellation poll and failing callees -/

/-- The error codes an entry point can return: out of memory, interrupted, or any
other code reported by a callee outside this file. -/
inductive ErrorCode where
  | IGRAPH_ENOMEM
  | IGRAPH_INTERRUPTED
  | other (code : Nat)
deriving DecidableEq, Repr

/-- The cleanup functions that `cliques.c` registers with `IGRAPH_FINALLY`. -/
inductive Cleanup where
  | igraph_free
  | igraph_vector_destroy
  | igraph_adjlist_destroy
  | igraph_i_free_set_array
  | igraph_i_cliques_free_res
deriving DecidableEq, Repr

/-- Modelled from the spec: `igraph_vector_ptr_clear` (the pointer vector is not
under src/) removes every entry of the result sink; an entry of the sink is a
pointer to a vertex vector, `none` being the null pointer. -/
def igraph_vector_ptr_clear (_res : List (Option (List Nat))) : List (Option (List Nat)) :=
  []

/-- Modelled from the spec: `igraph_vector_ptr_resize` (not under src/) sets the
number of entries of the sink to `n`, keeping the entries it already has. -/
def igraph_vector_ptr_resize (res : List (Option (List Nat))) (n : Nat) :
    List (Option (List Nat)) :=
  res.take n ++ List.replicate (n - res.length) none

/-- Modelled from the spec: `igraph_vector_ptr_null` (not under src/) sets every
entry of the sink to the null pointer. -/
def igraph_vector_ptr_null (res : List (Option (List Nat))) : List (Option (List Nat)) :=
  res.map (fun _ => none)

/-- The function `igraph_i_cliques_free_res`: every non-null entry is destroyed
and freed, then the sink is cleared. -/
def igraph_i_cliques_free_res (res : List (Option (List Nat))) : List (Option (List Nat)) :=
  igraph_vector_ptr_clear res

/-- The part of the program state that the error paths act on: `tick` counts the
fallible operations performed so far, `finally_stack` is the stack of cleanup
registrations (top first) and `res` is the result sink `*res`. -/
structure Ctx where
  tick : Nat
  finally_stack : List Cleanup
  res : List (Option (List Nat))
deriving DecidableEq, Repr

/-- How a call ends: `ok a` is the return of `IGRAPH_SUCCESS` with the values `a`,
`error code res` is the return of the error `code` with the sink holding `res` on
return, `timeout` says that the fuel of a recursion ran out. -/
inductive Outcome (α : Type) where
  | ok (a : α)
  | error (code : ErrorCode) (res : List (Option (List Nat)))
  | timeout
deriving DecidableEq, Repr

/-- Sequencing of calls: an error or a timeout of the first part ends the call. -/
def Outcome.bind {α β : Type} (o : Outcome α) (f : α → Outcome β) : Outcome β :=
  match o with
  | Outcome.ok a => f a
  | Outcome.error code res => Outcome.error code res
  | Outcome.timeout => Outcome.timeout

/-- A loop whose body can fail: the body `f` is run for each entry of the list in
turn, and the first error ends the loop. -/
def Outcome.foldl {σ β : Type} (f : σ → β → Outcome σ) : List β → σ → Outcome σ
  | [], s => Outcome.ok s
  | b :: bs, s => (f s b).bind (fun s2 => Outcome.foldl f bs s2)

/-- Modelled from the spec: `IGRAPH_FINALLY(func, ptr)` (`error.h` is not under
src/) pushes a cleanup registration on the explicit stack of registrations. -/
def IGRAPH_FINALLY (f : Cleanup) (x : Ctx) : Ctx :=
  { x with finally_stack := f :: x.finally_stack }

/-- Modelled from the spec: `IGRAPH_FINALLY_CLEAN(num)` (`error.h` is not under
src/) drops the `num` topmost registrations without running them. -/
def IGRAPH_FINALLY_CLEAN (num : Nat) (x : Ctx) : Ctx :=
  { x with finally_stack := x.finally_stack.drop num }

/-- The effect of one registered cleanup on the sink: only
`igraph_i_cliques_free_res` was registered on the sink, the others release
scratch memory. -/
def runCleanup (f : Cleanup) (res : List (Option (List Nat))) : List (Option (List Nat)) :=
  match f with
  | Cleanup.igraph_i_cliques_free_res => igraph_i_cliques_free_res res
  | _ => res

/-- Modelled from the spec: `IGRAPH_FINALLY_FREE()` (`error.h` is not under src/),
the error-unwind chain: every registered cleanup is run, topmost first; the value
is the sink afterwards. -/
def IGRAPH_FINALLY_FREE (x : Ctx) : List (Option (List Nat)) :=
  x.finally_stack.foldl (fun res f => runCleanup f res) x.res

/-- The three kinds of fallible operation in `cliques.c`: the cancellation poll,
an allocation, and a call of a function outside this file. -/
inductive OpKind where
  | poll
  | allocation
  | callee
deriving DecidableEq, Repr

/-- The code returned when an operation of the given kind fails with the report
`e` of the environment: `IGRAPH_INTERRUPTED` for the poll, `IGRAPH_ENOMEM` for an
allocation, the code of the callee for a call. -/
def codeOf (kind : OpKind) (e : ErrorCode) : ErrorCode :=
  match kind with
  | OpKind.poll => ErrorCode.IGRAPH_INTERRUPTED
  | OpKind.allocation => ErrorCode.IGRAPH_ENOMEM
  | OpKind.callee => e

/-- Modelled from the spec: a fallible operation under `IGRAPH_ERROR` (`error.h`
is not under src/). The environment `env` says for each fallible operation,
numbered in the order of execution, whether it fails (`some e`) or not; a failure
runs the error-unwind chain of the cleanup stack and returns the code of the
operation. -/
def attempt (env : Nat → Option ErrorCode) (kind : OpKind) (x : Ctx) : Outcome Ctx :=
  match env x.tick with
  | some e => Outcome.error (codeOf kind e) (IGRAPH_FINALLY_FREE x)
  | none => Outcome.ok { x with tick := x.tick + 1 }

/-- Modelled from the spec: the cancellation poll `IGRAPH_ALLOW_INTERRUPTION()`
(`interruption.h` is not under src/); when the hosting environment asks to stop,
the scratch is released through the cleanup stack and `IGRAPH_INTERRUPTED` is
returned. -/
def IGRAPH_ALLOW_INTERRUPTION (env : Nat → Option ErrorCode) (x : Ctx) : Outcome Ctx :=
  attempt env OpKind.poll x

/-- An allocation `p = igraph_Calloc(..)` or `igraph_Realloc(..)` followed by
`if (p == 0) IGRAPH_ERROR(.., IGRAPH_ENOMEM)`. -/
def allocate (env : Nat → Option ErrorCode) (x : Ctx) : Outcome Ctx :=
  attempt env OpKind.allocation x

/-- Modelled from the spec: `IGRAPH_CHECK(f(..))` (`error.h` is not under src/) on
a callee `f` outside this file: when the callee fails, its error code is
returned after the unwinding. -/
def IGRAPH_CHECK (env : Nat → Option ErrorCode) (x : Ctx) : Outcome Ctx :=
  attempt env OpKind.callee x

/-- The body of the pair loop of `igraph_i_find_k_cliques` with its three fallible
operations: the cancellation poll, `igraph_neighbors` and the reallocation. -/
def mergePair_err (env : Nat → Option ErrorCode) (G : Graph) (independent_vertices : Bool)
    (size : Nat) (c1 c2 : Nat → Nat) (p : KState × Ctx) : Outcome (KState × Ctx) :=
  (IGRAPH_ALLOW_INTERRUPTION env p.2).bind (fun x =>
    let s := p.1
    let pr := scanPrefix c1 c2 (size - 1) 0 s.st
    let l := pr.1
    if l = size - 1 then
      Outcome.ok ({ s with st := pr.2.take s.n, warn := s.warn + 1 }, x)
    else
      let v1 := c1 l
      let q := scanRest c1 c2 v1 (size - 1 - (l + 1)) (l + 1) true (c2 l) (pr.2 ++ [c1 l])
      let l2 := q.1
      let v2 := q.2.1
      let st2 := q.2.2
      (if l2 ≠ size - 1 then
        Outcome.ok (({ s with st := st2.take s.n } : KState), x)
      else
        (IGRAPH_CHECK env x).bind (fun x2 =>
          let found := decide (v2 ∈ G.nbrs v1)
          Outcome.ok
            ((if (found && !independent_vertices) || (!found && independent_vertices) then
                if st2.length = s.n ∨ v2 > st2.getD (st2.length - 1) 0 then
                  { s with st := st2 ++ [v2], n := st2.length + 1 }
                else
                  { s with st := st2.take s.n }
              else
                { s with st := st2.take s.n } : KState), x2))).bind (fun p2 =>
        if p2.1.st.length = p2.1.cap then
          (allocate env p2.2).bind (fun x3 =>
            Outcome.ok (({ p2.1 with cap := p2.1.cap * 2 } : KState), x3))
        else Outcome.ok p2))

/-- The function `igraph_i_find_k_cliques` with its error paths: the first
reallocation, the registration of `*new_member_storage`, the pair loops, and
`IGRAPH_FINALLY_CLEAN(1)` on success. -/
def igraph_i_find_k_cliques_err (env : Nat → Option ErrorCode) (G : Graph) (size : Nat)
    (member_storage : List Nat) (old_clique_count : Nat) (independent_vertices : Bool)
    (x : Ctx) : Outcome ((List Nat × Nat) × Ctx) :=
  (allocate env x).bind (fun x1 =>
    (Outcome.foldl
      (fun p j =>
        Outcome.foldl
          (fun p k =>
            mergePair_err env G independent_vertices size
              (slotAt member_storage (size - 1) j) (slotAt member_storage (size - 1) k) p)
          (List.range' (j + 1) (old_clique_count - (j + 1))) p)
      (List.range old_clique_count)
      (({ st := [], n := 0, cap := size * old_clique_count, warn := 0 } : KState),
        IGRAPH_FINALLY Cleanup.igraph_free x1)).bind (fun p =>
      Outcome.ok ((p.1.st.take p.1.n, p.1.n / size), IGRAPH_FINALLY_CLEAN 1 p.2)))

/-- The emission loop of `igraph_i_cliques` over the slots just found: for each
slot, `p` is allocated and registered, the slot is copied into it
(`igraph_vector_init_copy`), `p` is registered for destruction, pushed to the sink
(`igraph_vector_ptr_push_back`) and the two registrations are dropped. -/
def emitSlots_err (env : Nat → Option ErrorCode) (slots : List (List Nat)) (x : Ctx) :
    Outcome Ctx :=
  Outcome.foldl
    (fun x S =>
      (allocate env x).bind (fun x1 =>
        (IGRAPH_CHECK env (IGRAPH_FINALLY Cleanup.igraph_free x1)).bind (fun x2 =>
          (IGRAPH_CHECK env (IGRAPH_FINALLY Cleanup.igraph_vector_destroy x2)).bind (fun x3 =>
            Outcome.ok (IGRAPH_FINALLY_CLEAN 2 { x3 with res := x3.res ++ [some S] })))))
    slots x

/-- The emission of the size-1 sets in `igraph_i_cliques`: the sink is resized to
`no_of_nodes` null entries, then for each vertex `i` a vector `p` is allocated,
registered, initialised (`igraph_vector_init`) and stored in entry `i`. -/
def emitSingles_err (env : Nat → Option ErrorCode) (no_of_nodes : Nat) (x : Ctx) :
    Outcome Ctx :=
  (IGRAPH_CHECK env x).bind (fun x1 =>
    Outcome.foldl
      (fun x i =>
        (allocate env x).bind (fun x2 =>
          (IGRAPH_CHECK env (IGRAPH_FINALLY Cleanup.igraph_free x2)).bind (fun x3 =>
            Outcome.ok (IGRAPH_FINALLY_CLEAN 1 { x3 with res := x3.res.set i (some [i]) }))))
      (List.range no_of_nodes)
      { x1 with res := igraph_vector_ptr_null (igraph_vector_ptr_resize x1.res no_of_nodes) })

/-- The generation loop of `igraph_i_cliques` with its error paths: the
cancellation poll, `IGRAPH_FINALLY_CLEAN(2)`, the call of
`igraph_i_find_k_cliques`, the two re-registrations and the emission. -/
def cliquesLoop_err (env : Nat → Option ErrorCode) (G : Graph) (min_size max_size : Int)
    (independent_vertices : Bool) : Nat → Nat → List Nat → Nat → Ctx → Outcome Ctx
  | 0, i, _, clique_count, x =>
    if (i : Int) ≤ max_size ∧ clique_count > 1 then Outcome.timeout else Outcome.ok x
  | fuel + 1, i, new_member_storage, clique_count, x =>
    if (i : Int) ≤ max_size ∧ clique_count > 1 then
      (IGRAPH_ALLOW_INTERRUPTION env x).bind (fun x1 =>
        (igraph_i_find_k_cliques_err env G i new_member_storage clique_count
            independent_vertices (IGRAPH_FINALLY_CLEAN 2 x1)).bind (fun r =>
          (if (i : Int) ≥ min_size ∧ (i : Int) ≤ max_size then
              emitSlots_err env (emitSlots r.1.1 i r.1.2)
                (IGRAPH_FINALLY Cleanup.igraph_free (IGRAPH_FINALLY Cleanup.igraph_free r.2))
            else
              Outcome.ok
                (IGRAPH_FINALLY Cleanup.igraph_free
                  (IGRAPH_FINALLY Cleanup.igraph_free r.2))).bind (fun x2 =>
            cliquesLoop_err env G min_size max_size independent_vertices fuel (i + 1)
              r.1.1 r.1.2 x2)))
    else Outcome.ok x

/-- The function `igraph_i_cliques` with its error paths, called with the sink
holding `res`; the value is the sink on return. -/
def igraph_i_cliques_err (env : Nat → Option ErrorCode) (G : Graph)
    (res : List (Option (List Nat))) (min_size max_size : Int)
    (independent_vertices : Bool) : Outcome (List (Option (List Nat))) :=
  let no_of_nodes := G.n
  let min_size := if min_size < 0 then 0 else min_size
  let max_size :=
    if max_size > (no_of_nodes : Int) ∨ max_size ≤ 0 then (no_of_nodes : Int) else max_size
  let x0 : Ctx := { tick := 0, finally_stack := [], res := igraph_vector_ptr_clear res }
  (IGRAPH_CHECK env x0).bind (fun x1 =>
    let x2 := IGRAPH_FINALLY Cleanup.igraph_vector_destroy x1
    let x3 := IGRAPH_FINALLY Cleanup.igraph_i_cliques_free_res
      { x2 with res := igraph_vector_ptr_clear x2.res }
    (allocate env x3).bind (fun x4 =>
      (allocate env (IGRAPH_FINALLY Cleanup.igraph_free x4)).bind (fun x5 =>
        (if min_size ≤ 1 then
            emitSingles_err env no_of_nodes (IGRAPH_FINALLY Cleanup.igraph_free x5)
          else Outcome.ok (IGRAPH_FINALLY Cleanup.igraph_free x5)).bind (fun x6 =>
          (cliquesLoop_err env G min_size max_size independent_vertices no_of_nodes 2
              (List.range no_of_nodes) no_of_nodes x6).bind (fun x7 =>
            Outcome.ok (IGRAPH_FINALLY_CLEAN 4 x7).res)))))

/-- The function `igraph_cliques` with its error paths. -/
def igraph_cliques_err (env : Nat → Option ErrorCode) (G : Graph)
    (res : List (Option (List Nat))) (min_size max_size : Int) :
    Outcome (List (Option (List Nat))) :=
  igraph_i_cliques_err env G res min_size max_size false

/-- The function `igraph_independent_vertex_sets` with its error paths. -/
def igraph_independent_vertex_sets_err (env : Nat → Option ErrorCode) (G : Graph)
    (res : List (Option (List Nat))) (min_size max_size : Int) :
    Outcome (List (Option (List Nat))) :=
  igraph_i_cliques_err env G res min_size max_size true

/-- The outcome `o` is a success whose values satisfy `Q`, or an error that leaves
the sink in `E` and whose code is the code of an operation that the environment
made fail; it is not a timeout. -/
def Post {α : Type} (env : Nat → Option ErrorCode) (o : Outcome α) (Q : α → Prop)
    (E : List (Option (List Nat)) → Prop) : Prop :=
  match o with
  | Outcome.ok a => Q a
  | Outcome.error code res => E res ∧ ∃ t kind e, env t = some e ∧ code = codeOf kind e
  | Outcome.timeout => False

/-- The sink is protected: `igraph_i_cliques_free_res` is registered. -/
def Guarded (x : Ctx) : Prop :=
  Cleanup.igraph_i_cliques_free_res ∈ x.finally_stack

/-- The speculative removal loop with its fallible operation `igraph_set_add`. -/
def removeLoop_err (env : Nat → Option ErrorCode) (adj_list : Nat → List Nat)
    (deg : Nat → Nat) (level : Nat) :
    List Nat → Nat → ((Nat → Int) × List Nat × Bool) × Ctx →
      Outcome (((Nat → Int) × List Nat × Bool) × Ctx)
  | [], _, s => Outcome.ok s
  | v2 :: rest, j, s =>
    (if s.1.1 v2 = 0 then
      (IGRAPH_CHECK env s.2).bind (fun x =>
        let p := removeInner s.1.1 s.1.2.2 (lowScan (adj_list v2) (deg v2) level)
        Outcome.ok ((p.1, igraph_set_add s.1.2.1 j, p.2), x))
    else Outcome.ok s).bind (fun s1 =>
      removeLoop_err env adj_list deg level rest (j + 1)
        ((upd s1.1.1 v2 (s1.1.1 v2 + 1), s1.1.2.1, s1.1.2.2), s1.2))

/-- The leaf of the backtrack procedure with its error paths; `has_res` says
whether `res` is non-null. With a sink, `vec` is allocated, initialised and
registered, filled by `igraph_vector_push_back`, pushed to the sink according to
the sink policy, and its registration is dropped. -/
def leafStep_err (env : Nat → Option ErrorCode) (has_res : Bool)
    (d : igraph_i_max_ind_vsets_data_t) (x : Ctx) :
    Outcome (igraph_i_max_ind_vsets_data_t × Ctx) :=
  let vec := (List.range d.matrix_size).filter (fun v1 => decide (d.IS v1 = 0))
  let size := vec.length
  let d2 := if size > d.largest_set_size then { d with largest_set_size := size } else d
  if has_res then
    (allocate env x).bind (fun x1 =>
      (IGRAPH_CHECK env x1).bind (fun x2 =>
        (Outcome.foldl (fun x _ => IGRAPH_CHECK env x) vec
            (IGRAPH_FINALLY Cleanup.igraph_vector_destroy x2)).bind (fun x3 =>
          (if !d.keep_only_largest then
            (IGRAPH_CHECK env x3).bind (fun x4 =>
              Outcome.ok { x4 with res := x4.res ++ [some vec] })
          else if size > d.largest_set_size then
            (IGRAPH_CHECK env { x3 with res := igraph_vector_ptr_clear x3.res }).bind (fun x4 =>
              Outcome.ok { x4 with res := x4.res ++ [some vec] })
          else if size = d.largest_set_size then
            (IGRAPH_CHECK env x3).bind (fun x4 =>
              Outcome.ok { x4 with res := x4.res ++ [some vec] })
          else Outcome.ok x3).bind (fun x5 =>
            Outcome.ok (d2, IGRAPH_FINALLY_CLEAN 1 x5)))))
  else Outcome.ok (d2, x)

/-- The function `igraph_i_maximal_independent_vertex_sets_backtrack` with its
error paths: the cancellation poll at the top of every call, the leaf, the
recursive calls under `IGRAPH_CHECK`, and `igraph_set_add` in the removal loop. -/
def igraph_i_maximal_independent_vertex_sets_backtrack_err
    (env : Nat → Option ErrorCode) (has_res : Bool) :
    Nat → igraph_i_max_ind_vsets_data_t → Nat → Ctx →
      Outcome (igraph_i_max_ind_vsets_data_t × Ctx)
  | 0, _, _, _ => Outcome.timeout
  | fuel + 1, d, level, x =>
    (IGRAPH_ALLOW_INTERRUPTION env x).bind (fun x0 =>
      if (level : Int) ≥ (d.matrix_size : Int) - 1 then
        leafStep_err env has_res d x0
      else
        let v1 := level + 1
        let neis1 := d.adj_list v1
        let low := lowScan neis1 (d.deg v1) level
        let c := countZero d.IS low
        if c = 0 then
          (igraph_i_maximal_independent_vertex_sets_backtrack_err env has_res fuel
              { d with IS := incrAll d.IS low } v1 x0).bind (fun r1 =>
            Outcome.ok ({ r1.1 with IS := decrAll r1.1.IS low }, r1.2))
        else
          (igraph_i_maximal_independent_vertex_sets_backtrack_err env has_res fuel
              { d with IS := upd d.IS v1 (c : Int) } v1 x0).bind (fun r1 =>
            (removeLoop_err env r1.1.adj_list r1.1.deg level low 0
                ((upd r1.1.IS v1 0, r1.1.buckets v1, true), r1.2)).bind (fun t =>
              (if t.1.2.2 then
                igraph_i_maximal_independent_vertex_sets_backtrack_err env has_res fuel
                  { r1.1 with IS := t.1.1, buckets := upd r1.1.buckets v1 t.1.2.1 } v1 t.2
              else
                Outcome.ok
                  ({ r1.1 with IS := t.1.1, buckets := upd r1.1.buckets v1 t.1.2.1 },
                    t.2)).bind (fun r3 =>
                Outcome.ok
                  ({ r3.1 with
                      IS := replayBucket r3.1.adj_list r3.1.deg level neis1
                        (decrAll r3.1.IS low) (r3.1.buckets v1)
                      buckets := upd r3.1.buckets v1 [] }, r3.2)))))

/-- The common prologue of the three drivers of the backtrack engine: the
adjacency lists, `IS`, `deg` and `buckets` are allocated and registered, and the
`no_of_nodes` sets of `buckets` are initialised. -/
def driverSetup_err (env : Nat → Option ErrorCode) (no_of_nodes : Nat) (x : Ctx) :
    Outcome Ctx :=
  (IGRAPH_CHECK env x).bind (fun x1 =>
    (allocate env (IGRAPH_FINALLY Cleanup.igraph_adjlist_destroy x1)).bind (fun x2 =>
      (IGRAPH_CHECK env (IGRAPH_FINALLY Cleanup.igraph_free x2)).bind (fun x3 =>
        (allocate env (IGRAPH_FINALLY Cleanup.igraph_vector_destroy x3)).bind (fun x4 =>
          Outcome.foldl (fun x _ => IGRAPH_CHECK env x) (List.range no_of_nodes)
            (IGRAPH_FINALLY Cleanup.igraph_i_free_set_array x4)))))

/-- The function `igraph_maximal_independent_vertex_sets` with its error paths,
called with the sink holding `res`; the value is the sink on return. -/
def igraph_maximal_independent_vertex_sets_err (env : Nat → Option ErrorCode) (G : Graph)
    (res : List (Option (List Nat))) : Outcome (List (Option (List Nat))) :=
  (driverSetup_err env G.n { tick := 0, finally_stack := [], res := res }).bind (fun x =>
    (igraph_i_maximal_independent_vertex_sets_backtrack_err env true (G.n + 1)
        (initData G.n (igraph_adjlist_init G) false) 0
        { x with res := igraph_vector_ptr_clear x.res }).bind (fun r =>
      Outcome.ok (IGRAPH_FINALLY_CLEAN 4 r.2).res))

/-- The function `igraph_i_maximal_or_largest_cliques_or_indsets` with its error
paths; `res = none` is the null sink. The value is the sink on return and what is
stored through `clique_number`. -/
def igraph_i_maximal_or_largest_cliques_or_indsets_err (env : Nat → Option ErrorCode)
    (G : Graph) (res : Option (List (Option (List Nat)))) (keep_only_largest complementer : Bool) :
    Outcome (Option (List (Option (List Nat))) × Nat) :=
  let adj := if complementer then igraph_adjlist_init_complementer G else igraph_adjlist_init G
  (driverSetup_err env G.n { tick := 0, finally_stack := [], res := res.getD [] }).bind (fun x =>
    (igraph_i_maximal_independent_vertex_sets_backtrack_err env res.isSome (G.n + 1)
        (initData G.n adj keep_only_largest) 0
        { x with res := if res.isSome then igraph_vector_ptr_clear x.res else x.res }).bind
      (fun r =>
        Outcome.ok
          (if res.isSome then some (IGRAPH_FINALLY_CLEAN 4 r.2).res else none,
            r.1.largest_set_size)))

/-- The function `igraph_maximal_cliques` with its error paths. -/
def igraph_maximal_cliques_err (env : Nat → Option ErrorCode) (G : Graph)
    (res : List (Option (List Nat))) : Outcome (List (Option (List Nat))) :=
  (igraph_i_maximal_or_largest_cliques_or_indsets_err env G (some res) false true).bind
    (fun p => Outcome.ok (p.1.getD []))

/-- The function `igraph_largest_cliques` with its error paths. -/
def igraph_largest_cliques_err (env : Nat → Option ErrorCode) (G : Graph)
    (res : List (Option (List Nat))) : Outcome (List (Option (List Nat))) :=
  (igraph_i_maximal_or_largest_cliques_or_indsets_err env G (some res) true true).bind
    (fun p => Outcome.ok (p.1.getD []))

/-- The function `igraph_largest_independent_vertex_sets` with its error paths. -/
def igraph_largest_independent_vertex_sets_err (env : Nat → Option ErrorCode) (G : Graph)
    (res : List (Option (List Nat))) : Outcome (List (Option (List Nat))) :=
  (igraph_i_maximal_or_largest_cliques_or_indsets_err env G (some res) true false).bind
    (fun p => Outcome.ok (p.1.getD []))

/-- The sink `s` of the error-aware run holds the sets of the sink `res` of the
error-free run (nothing is asked of a null sink). -/
def SinkRel (res : Option (List (List Nat))) (s : List (Option (List Nat))) : Prop :=
  match res with
  | some L => s = L.map some
  | none => True

/-- The sink a set-returning entry point produces does not depend on the prior
content of the sink: `run env res` is the call in the environment `env` with the
sink holding `res` at entry, `pure` the error-free run. Whenever the call
succeeds the sink holds exactly the sets of the error-free run, whatever `res`
was; the call succeeds when no operation fails; and a second successful call that
is given the sink of a first successful call produces the same sink. -/
def SinkDetermined
    (run : (Nat → Option ErrorCode) → List (Option (List Nat)) →
      Outcome (List (Option (List Nat))))
    (pure : Option (List (List Nat))) : Prop :=
  ∃ r, pure = some r ∧
    (∀ env res s, run env res = Outcome.ok s → s = r.map some) ∧
    (∀ res, run (fun _ => none) res = Outcome.ok (r.map some)) ∧
    (∀ env1 env2 res s1 s2, run env1 res = Outcome.ok s1 → run env2 s1 = Outcome.ok s2 →
      s2 = s1)

/-- The number of times the branch `l == size-1` ("possible bug in
igraph_cliques") is taken in the generation loop of `igraph_i_cliques`: the loop
is the one of `cliquesLoop`, and each call of `igraph_i_find_k_cliques`
contributes the warnings counted in its final state. -/
def cliquesLoopWarnings (G : Graph) (max_size : Int) (independent_vertices : Bool) :
    Nat → Nat → List Nat → Nat → Nat
  | 0, _, _, _ => 0
  | fuel + 1, i, new_member_storage, clique_count =>
    if (i : Int) ≤ max_size ∧ clique_count > 1 then
      (findLoop G i new_member_storage clique_count independent_vertices).warn
        + cliquesLoopWarnings G max_size independent_vertices fuel (i + 1)
            (igraph_i_find_k_cliques G i new_member_storage clique_count independent_vertices).1
            (igraph_i_find_k_cliques G i new_member_storage clique_count independent_vertices).2
    else 0

/-- The number of warnings "possible bug in igraph_cliques" in a run of
`igraph_i_cliques`. -/
def igraph_i_cliques_warnings (G : Graph) (max_size : Int) (independent_vertices : Bool) : Nat :=
  cliquesLoopWarnings G
    (if max_size > (G.n : Int) ∨ max_size ≤ 0 then (G.n : Int) else max_size)
    independent_vertices G.n 2 (List.range G.n) G.n

/-- The order of the result list of the bounded enumeration: by size, and within
a size by strict lexicographic order. -/
def sizeLex (A B : List Nat) : Prop :=
  A.length < B.length ∨ (A.length = B.length ∧ lexlt A B)

/-- The largest value that the write index `m` takes while one pair is processed
from the state `s`: the length of the written part before the step back `m = n`
or the commit `n = m`. The writes `(*new_member_storage)[m++] = ..` of the pair
are made one after the other at the indices from `s.st.length` up to, and not
including, this value. -/
def pairHigh (G : Graph) (independent_vertices : Bool) (size : Nat)
    (c1 c2 : Nat → Nat) (s : KState) : Nat :=
  let p := scanPrefix c1 c2 (size - 1) 0 s.st
  let l := p.1
  if l = size - 1 then p.2.length
  else
    let v1 := c1 l
    let q := scanRest c1 c2 v1 (size - 1 - (l + 1)) (l + 1) true (c2 l) (p.2 ++ [c1 l])
    let l2 := q.1
    let v2 := q.2.1
    let st2 := q.2.2
    if l2 ≠ size - 1 then st2.length
    else
      let found := decide (v2 ∈ G.nbrs v1)
      if (found && !independent_vertices) || (!found && independent_vertices) then
        if st2.length = s.n ∨ v2 > st2.getD (st2.length - 1) 0 then st2.length + 1
        else st2.length
      else st2.length

/-- The pairs `(j, k)` examined by the pair loops of `igraph_i_find_k_cliques`, in
the order of the loops. -/
def pairList (old_clique_count : Nat) : List (Nat × Nat) :=
  (List.range old_clique_count).flatMap
    (fun j => (List.range' (j + 1) (old_clique_count - (j + 1))).map (fun k => (j, k)))

/-- The state of `igraph_i_find_k_cliques` at the start of the pair number `i` of
`pairList` (after the last pair for `i` the number of pairs). -/
def stateBeforePair (G : Graph) (size : Nat) (member_storage : List Nat)
    (old_clique_count : Nat) (independent_vertices : Bool) (i : Nat) : KState :=
  ((pairList old_clique_count).take i).foldl
    (fun s p =>
      mergePair G independent_vertices size
        (slotAt member_storage (size - 1) p.1) (slotAt member_storage (size - 1) p.2) s)
    { st := [], n := 0, cap := size * old_clique_count, warn := 0 }

/-- The buffer invariant at the start of a pair: `m = n`, `n` is a multiple of
`size`, the capacity is the initial capacity doubled some number of times, and
`n` is below the capacity. -/
def CapInv (size old_clique_count : Nat) (s : KState) : Prop :=
  s.st.length = s.n ∧ size ∣ s.n ∧ (∃ e, s.cap = size * old_clique_count * 2 ^ e) ∧
    s.n < s.cap

/-- The calls of the backtrack procedure made in a run, in the order in which they
are entered: each entry is the argument `level` and the counters `IS` at entry.
The function follows the recursion of
`igraph_i_maximal_independent_vertex_sets_backtrack`; the state after the first
recursive call of the blocked case is the one that call returns. -/
def backtrackCalls :
    Nat → Option (List (List Nat)) → igraph_i_max_ind_vsets_data_t → Nat →
      List (Nat × (Nat → Int))
  | 0, _, _, _ => []
  | fuel + 1, res, d, level =>
    (level, d.IS) ::
      (if (level : Int) ≥ (d.matrix_size : Int) - 1 then []
      else
        let v1 := level + 1
        let neis1 := d.adj_list v1
        let low := lowScan neis1 (d.deg v1) level
        let c := countZero d.IS low
        if c = 0 then
          backtrackCalls fuel res { d with IS := incrAll d.IS low } v1
        else
          backtrackCalls fuel res { d with IS := upd d.IS v1 (c : Int) } v1 ++
            (match igraph_i_maximal_independent_vertex_sets_backtrack fuel res
                { d with IS := upd d.IS v1 (c : Int) } v1 with
            | none => []
            | some (res1, d1) =>
              let t := removeLoop d1.adj_list d1.deg level low 0
                (upd d1.IS v1 0, d1.buckets v1, true)
              if t.2.2 then
                backtrackCalls fuel res1
                  { d1 with IS := t.1, buckets := upd d1.buckets v1 t.2.1 } v1
              else []))

/-- The counters `IS` after each round of the speculative removal loop: round `i`
has handled the neighbours `low.take i`, starting from the counters `IS` and the
bucket `bucket`. -/
def removalRounds (adj_list : Nat → List Nat) (deg : Nat → Nat) (level : Nat)
    (low : List Nat) (IS : Nat → Int) (bucket : List Nat) : List (Nat → Int) :=
  (List.range low.length).map
    (fun i => (removeLoop adj_list deg level (low.take (i + 1)) 0 (IS, bucket, true)).1)

/-- The counters `IS` at the points of a run of the backtrack procedure, in order,
the points of nested calls included. Each point carries a flag: `true` for the
points between the start of the speculative removal loop and the end of its undo
(after each round of the removal loop, and after the undo loop `IS[v2]--`),
`false` for the others (entry of a call, return of a recursive call, after
`IS[v1] = 0`, after the decrements of the free case, after the replay of the
bucket). -/
def backtrackPoints :
    Nat → Option (List (List Nat)) → igraph_i_max_ind_vsets_data_t → Nat →
      List (Bool × (Nat → Int))
  | 0, _, _, _ => []
  | fuel + 1, res, d, level =>
    (false, d.IS) ::
      (if (level : Int) ≥ (d.matrix_size : Int) - 1 then []
      else
        let v1 := level + 1
        let neis1 := d.adj_list v1
        let low := lowScan neis1 (d.deg v1) level
        let c := countZero d.IS low
        if c = 0 then
          backtrackPoints fuel res { d with IS := incrAll d.IS low } v1 ++
            (match igraph_i_maximal_independent_vertex_sets_backtrack fuel res
                { d with IS := incrAll d.IS low } v1 with
            | none => []
            | some (_, d1) => [(false, d1.IS), (false, decrAll d1.IS low)])
        else
          backtrackPoints fuel res { d with IS := upd d.IS v1 (c : Int) } v1 ++
            (match igraph_i_maximal_independent_vertex_sets_backtrack fuel res
                { d with IS := upd d.IS v1 (c : Int) } v1 with
            | none => []
            | some (res1, d1) =>
              let t := removeLoop d1.adj_list d1.deg level low 0
                (upd d1.IS v1 0, d1.buckets v1, true)
              let d2 := { d1 with IS := t.1, buckets := upd d1.buckets v1 t.2.1 }
              (false, d1.IS) :: (false, upd d1.IS v1 0) ::
                ((removalRounds d1.adj_list d1.deg level low (upd d1.IS v1 0)
                    (d1.buckets v1)).map (fun s => (true, s)) ++
                  ((if t.2.2 then backtrackPoints fuel res1 d2 v1 else []) ++
                    (match (if t.2.2 then
                        igraph_i_maximal_independent_vertex_sets_backtrack fuel res1 d2 v1
                      else some (res1, d2)) with
                    | none => []
                    | some (_, d3) =>
                      [(true, decrAll d3.IS low),
                        (false, replayBucket d3.adj_list d3.deg level neis1
                          (decrAll d3.IS low) (d3.buckets v1))])))))

/-- The graph on `0..3` with the edges `0-1`, `0-2`, `1-2`, `0-3`, `2-3` (the
complete graph `K4` without the edge `1-3`). -/
def diamond4 : Graph :=
  { n := 4, nbrs := fun v => match v with
      | 0 => [1, 2, 3] | 1 => [0, 2] | 2 => [0, 1, 3] | 3 => [0, 2] | _ => [] }

/-- The state of a call of the backtrack procedure at `level` in a run on `G`: the
scratch record holds the adjacency lists of `G` with their lengths as degrees, the
counter invariant holds at `level`, the buckets above `level` are empty, and
`level` is a vertex. -/
def RunInv (G : Graph) (d : igraph_i_max_ind_vsets_data_t) (level : Nat) : Prop :=
  d.adj_list = G.nbrs ∧ d.deg = (fun i => (G.nbrs i).length) ∧ d.matrix_size = G.n ∧
    CounterInv G level d.IS ∧ (∀ v, level < v → d.buckets v = []) ∧ level < G.n

/-- The fallible operations of a loop, in the order in which an error-free run
performs them: `stepOps t b` are the operations of the iteration for `b` entered
with the data `t`, and `g t b` is the data after that iteration. -/
def foldOps {τ β : Type} (g : τ → β → τ) (stepOps : τ → β → List OpKind) :
    List β → τ → List OpKind
  | [], _ => []
  | b :: bs, t => stepOps t b ++ foldOps g stepOps bs (g t b)

/-- The fallible operations of one pair of `igraph_i_find_k_cliques`, entered with
the state `s`, in program order: the cancellation poll at the top of the body,
`igraph_neighbors` when the two slots differ in exactly one place
(`l == size-1` after the second scan), and the reallocation when the new storage
is full after the pair. -/
def mergePair_ops (G : Graph) (independent_vertices : Bool) (size : Nat)
    (c1 c2 : Nat → Nat) (s : KState) : List OpKind :=
  let pr := scanPrefix c1 c2 (size - 1) 0 s.st
  let l := pr.1
  OpKind.poll ::
    (if l = size - 1 then []
    else
      let v1 := c1 l
      let q := scanRest c1 c2 v1 (size - 1 - (l + 1)) (l + 1) true (c2 l) (pr.2 ++ [c1 l])
      let l2 := q.1
      let v2 := q.2.1
      let st2 := q.2.2
      if l2 ≠ size - 1 then
        (if (st2.take s.n).length = s.cap then [OpKind.allocation] else [])
      else
        let found := decide (v2 ∈ G.nbrs v1)
        let s2 : KState :=
          if (found && !independent_vertices) || (!found && independent_vertices) then
            if st2.length = s.n ∨ v2 > st2.getD (st2.length - 1) 0 then
              { s with st := st2 ++ [v2], n := st2.length + 1 }
            else
              { s with st := st2.take s.n }
          else
            { s with st := st2.take s.n }
        OpKind.callee :: (if s2.st.length = s2.cap then [OpKind.allocation] else []))

/-- The fallible operations of `igraph_i_find_k_cliques` in program order: the
first reallocation, then the operations of the pairs `(j, k)`, `j < k`, in the
order of the two loops. -/
def igraph_i_find_k_cliques_ops (G : Graph) (size : Nat) (member_storage : List Nat)
    (old_clique_count : Nat) (independent_vertices : Bool) : List OpKind :=
  OpKind.allocation ::
    foldOps
      (fun s j =>
        (List.range' (j + 1) (old_clique_count - (j + 1))).foldl
          (fun s k =>
            mergePair G independent_vertices size
              (slotAt member_storage (size - 1) j) (slotAt member_storage (size - 1) k) s)
          s)
      (fun s j =>
        foldOps
          (fun s k =>
            mergePair G independent_vertices size
              (slotAt member_storage (size - 1) j) (slotAt member_storage (size - 1) k) s)
          (fun s k =>
            mergePair_ops G independent_vertices size
              (slotAt member_storage (size - 1) j) (slotAt member_storage (size - 1) k) s)
          (List.range' (j + 1) (old_clique_count - (j + 1))) s)
      (List.range old_clique_count)
      { st := [], n := 0, cap := size * old_clique_count, warn := 0 }

/-- The fallible operations of the emission loop of `igraph_i_cliques`: for each
slot the allocation of `p`, `igraph_vector_init_copy` and
`igraph_vector_ptr_push_back`. -/
def emitSlots_ops (slots : List (List Nat)) : List OpKind :=
  foldOps (fun (u : Unit) (_ : List Nat) => u)
    (fun _ _ => [OpKind.allocation, OpKind.callee, OpKind.callee]) slots ()

/-- The fallible operations of the emission of the size-1 sets:
`igraph_vector_ptr_resize`, then for each vertex the allocation of `p` and
`igraph_vector_init`. -/
def emitSingles_ops (no_of_nodes : Nat) : List OpKind :=
  OpKind.callee ::
    foldOps (fun (u : Unit) (_ : Nat) => u)
      (fun _ _ => [OpKind.allocation, OpKind.callee]) (List.range no_of_nodes) ()

/-- The fallible operations of the generation loop of `igraph_i_cliques` in
program order: for each generation the cancellation poll, the operations of
`igraph_i_find_k_cliques` and, when the size is within the bounds, those of the
emission loop. -/
def cliquesLoop_ops (G : Graph) (min_size max_size : Int) (independent_vertices : Bool) :
    Nat → Nat → List Nat → Nat → List OpKind
  | 0, _, _, _ => []
  | fuel + 1, i, new_member_storage, clique_count =>
    if (i : Int) ≤ max_size ∧ clique_count > 1 then
      let r := igraph_i_find_k_cliques G i new_member_storage clique_count independent_vertices
      OpKind.poll ::
        (igraph_i_find_k_cliques_ops G i new_member_storage clique_count independent_vertices ++
          ((if (i : Int) ≥ min_size ∧ (i : Int) ≤ max_size then
              emitSlots_ops (emitSlots r.1 i r.2)
            else []) ++
            cliquesLoop_ops G min_size max_size independent_vertices fuel (i + 1) r.1 r.2))
    else []

/-- The fallible operations of `igraph_i_cliques` in program order, numbered from
0: `IGRAPH_VECTOR_INIT_FINALLY(&neis, 0)`, the two `Calloc`s, the emission of the
size-1 sets when `min_size <= 1`, and the generation loop. Entry `t` is the kind
of the operation that consumes tick `t` of a run in which no earlier operation
fails. -/
def igraph_i_cliques_ops (G : Graph) (min_size max_size : Int)
    (independent_vertices : Bool) : List OpKind :=
  let no_of_nodes := G.n
  let min_size := if min_size < 0 then 0 else min_size
  let max_size :=
    if max_size > (no_of_nodes : Int) ∨ max_size ≤ 0 then (no_of_nodes : Int) else max_size
  OpKind.callee :: OpKind.allocation :: OpKind.allocation ::
    ((if min_size ≤ 1 then emitSingles_ops no_of_nodes else []) ++
      cliquesLoop_ops G min_size max_size independent_vertices no_of_nodes 2
        (List.range no_of_nodes) no_of_nodes)

/-- The fallible operations of `igraph_cliques` in program order. -/
def igraph_cliques_ops (G : Graph) (min_size max_size : Int) : List OpKind :=
  igraph_i_cliques_ops G min_size max_size false

/-- The fallible operations of `igraph_independent_vertex_sets` in program
order. -/
def igraph_independent_vertex_sets_ops (G : Graph) (min_size max_size : Int) :
    List OpKind :=
  igraph_i_cliques_ops G min_size max_size true

/-- The outcome `o` of a computation entered at tick `t0` whose error-free run
performs the operations `ops`: either every operation succeeds, the tick of the
value is `t0 + ops.length` and the value satisfies `Q`; or operation number `i` of
`ops` is the first that the environment fails, the code is the code of that
operation (`codeOf` of its kind and of the report of the environment) and the sink
is in `E`. It is not a timeout. -/
def Traced {α : Type} (env : Nat → Option ErrorCode) (tick : α → Nat) (t0 : Nat)
    (ops : List OpKind) (o : Outcome α) (Q : α → Prop)
    (E : List (Option (List Nat)) → Prop) : Prop :=
  match o with
  | Outcome.ok a => (∀ i, i < ops.length → env (t0 + i) = none) ∧ tick a = t0 + ops.length ∧ Q a
  | Outcome.error code res =>
    E res ∧ ∃ i kind e, ops[i]? = some kind ∧ (∀ j, j < i → env (t0 + j) = none) ∧
      env (t0 + i) = some e ∧ code = codeOf kind e
  | Outcome.timeout => False

/-! ## Counter arithmetic of the backtrack engine -/

theorem upd_same {α : Type} (a : Nat → α) (i : Nat) (x : α) : upd a i x i = x := by
  simp [upd]

theorem upd_other {α : Type} (a : Nat → α) (i k : Nat) (x : α) (h : k ≠ i) :
    upd a i x k = a k := by
  simp [upd, h]

theorem incrAll_apply (vs : List Nat) (IS : Nat → Int) (k : Nat) :
    incrAll IS vs k = IS k + (vs.count k : Int) := by
  induction vs generalizing IS with
  | nil => simp [incrAll]
  | cons v vs ih =>
    have h1 : incrAll IS (v :: vs) = incrAll (upd IS v (IS v + 1)) vs := rfl
    rw [h1, ih]
    by_cases h : k = v
    · subst h
      simp [upd]
      ring
    · have h2 : v ≠ k := fun e => h e.symm
      simp [upd, h, List.count_cons, h2]

theorem decrAll_apply (vs : List Nat) (IS : Nat → Int) (k : Nat) :
    decrAll IS vs k = IS k - (vs.count k : Int) := by
  induction vs generalizing IS with
  | nil => simp [decrAll]
  | cons v vs ih =>
    have h1 : decrAll IS (v :: vs) = decrAll (upd IS v (IS v - 1)) vs := rfl
    rw [h1, ih]
    by_cases h : k = v
    · subst h
      simp [upd]
      ring
    · have h2 : v ≠ k := fun e => h e.symm
      simp [upd, h, List.count_cons, h2]

theorem removeInner_fst (vs : List Nat) (IS : Nat → Int) (f : Bool) :
    (removeInner IS f vs).1 = decrAll IS vs := by
  induction vs generalizing IS f with
  | nil => rfl
  | cons v vs ih =>
    have h1 : removeInner IS f (v :: vs)
        = removeInner (upd IS v (IS v - 1)) (if upd IS v (IS v - 1) v = 0 then false else f) vs := rfl
    rw [h1, ih]
    rfl

theorem igraph_set_add_append (bk : List Nat) (j : Nat) (h : ∀ x ∈ bk, x < j) :
    igraph_set_add bk j = bk ++ [j] := by
  induction bk with
  | nil => rfl
  | cons x xs ih =>
    have hx : x < j := h x (List.mem_cons_self _ _)
    have h1 : ¬ j < x := by omega
    have h2 : ¬ j = x := by omega
    simp [igraph_set_add, h1, h2, ih (fun y hy => h y (List.mem_cons_of_mem _ hy))]

theorem replayBucket_apply (adj_list : Nat → List Nat) (deg : Nat → Nat) (level : Nat)
    (neis1 : List Nat) (bk : List Nat) (IS : Nat → Int) (k : Nat) :
    replayBucket adj_list deg level neis1 IS bk k
      = IS k + (bk.map (fun j =>
          ((lowScan (adj_list (neis1.getD j 0)) (deg (neis1.getD j 0)) level).count k : Int))).sum := by
  induction bk generalizing IS with
  | nil => simp [replayBucket]
  | cons j js ih =>
    have h1 : replayBucket adj_list deg level neis1 IS (j :: js)
        = replayBucket adj_list deg level neis1
            (incrAll IS (lowScan (adj_list (neis1.getD j 0)) (deg (neis1.getD j 0)) level)) js := rfl
    rw [h1, ih, incrAll_apply]
    simp only [List.map_cons, List.sum_cons]
    ring

theorem removeLoop_spec (adj_list : Nat → List Nat) (deg : Nat → Nat) (level : Nat)
    (neis1 : List Nat) (rest : List Nat) :
    ∀ (j : Nat) (IS : Nat → Int) (bk : List Nat) (f : Bool),
      (∀ x ∈ bk, x < j) →
      (∀ i, i < rest.length → neis1.getD (j + i) 0 = rest.getD i 0) →
      ∃ js : List Nat,
        (removeLoop adj_list deg level rest j (IS, bk, f)).2.1 = bk ++ js ∧
        ∀ k, (removeLoop adj_list deg level rest j (IS, bk, f)).1 k
          = IS k + (rest.count k : Int) - (js.map (fun i =>
              ((lowScan (adj_list (neis1.getD i 0)) (deg (neis1.getD i 0)) level).count k : Int))).sum := by
  induction rest with
  | nil =>
    intro j IS bk f _ _
    exact ⟨[], by simp [removeLoop], by simp [removeLoop]⟩
  | cons v2 rest ih =>
    intro j IS bk f hbk hal
    have hv2 : neis1.getD j 0 = v2 := by
      have := hal 0 (by simp)
      simpa using this
    have hal2 : ∀ i, i < rest.length → neis1.getD (j + 1 + i) 0 = rest.getD i 0 := by
      intro i hi
      have := hal (i + 1) (by simp; omega)
      have e : j + (i + 1) = j + 1 + i := by omega
      rw [e] at this
      simpa using this
    by_cases hz : IS v2 = 0
    · have h1 : removeLoop adj_list deg level (v2 :: rest) j (IS, bk, f)
          = removeLoop adj_list deg level rest (j + 1)
              (upd (removeInner IS f (lowScan (adj_list v2) (deg v2) level)).1 v2
                ((removeInner IS f (lowScan (adj_list v2) (deg v2) level)).1 v2 + 1),
               igraph_set_add bk j,
               (removeInner IS f (lowScan (adj_list v2) (deg v2) level)).2) := by
        simp [removeLoop, hz]
      rw [h1, igraph_set_add_append bk j hbk, removeInner_fst]
      have hbk2 : ∀ x ∈ bk ++ [j], x < j + 1 := by
        intro x hx
        rcases List.mem_append.1 hx with h | h
        · have := hbk x h; omega
        · simp at h; omega
      obtain ⟨js, hjs, hval⟩ := ih (j + 1) _ (bk ++ [j]) _ hbk2 hal2
      refine ⟨j :: js, ?_, ?_⟩
      · rw [hjs]; simp
      · intro k
        rw [hval k]
        simp only [List.map_cons, List.sum_cons, hv2]
        by_cases hk : k = v2
        · subst hk
          simp [upd, decrAll_apply]
          ring
        · have hk2 : v2 ≠ k := fun e => hk e.symm
          simp [upd, hk, decrAll_apply, List.count_cons, hk2]
          ring
    · have h1 : removeLoop adj_list deg level (v2 :: rest) j (IS, bk, f)
          = removeLoop adj_list deg level rest (j + 1) (upd IS v2 (IS v2 + 1), bk, f) := by
        simp [removeLoop, hz]
      rw [h1]
      have hbk2 : ∀ x ∈ bk, x < j + 1 := fun x hx => by have := hbk x hx; omega
      obtain ⟨js, hjs, hval⟩ := ih (j + 1) _ bk f hbk2 hal2
      refine ⟨js, hjs, ?_⟩
      intro k
      rw [hval k]
      by_cases hk : k = v2
      · subst hk
        simp [upd]
        ring
      · have hk2 : v2 ≠ k := fun e => hk e.symm
        simp [upd, hk, List.count_cons, hk2]

theorem lowScan_getD (neis : List Nat) (deg level i : Nat)
    (hi : i < (lowScan neis deg level).length) :
    neis.getD i 0 = (lowScan neis deg level).getD i 0 := by
  unfold lowScan at *
  have h1 : ((neis.take deg).takeWhile (fun v2 => decide (v2 ≤ level))).getD i 0
      = (neis.take deg).getD i 0 := by
    have hpre := List.takeWhile_prefix (fun v2 => decide (v2 ≤ level)) (l := neis.take deg)
    obtain ⟨t, ht⟩ := hpre
    conv_rhs => rw [← ht]
    simp [List.getD_eq_getElem?_getD, List.getElem?_append_left hi]
  rw [h1]
  have hlen : i < (neis.take deg).length :=
    lt_of_lt_of_le hi (List.Sublist.length_le (List.takeWhile_sublist _))
  simp only [List.getD_eq_getElem?_getD]
  rw [List.getElem?_take_of_lt]
  simp at hlen
  omega

theorem leafStep_frame (res : Option (List (List Nat))) (d : igraph_i_max_ind_vsets_data_t) :
    (leafStep res d).2.adj_list = d.adj_list ∧ (leafStep res d).2.deg = d.deg ∧
    (leafStep res d).2.matrix_size = d.matrix_size ∧
    (leafStep res d).2.keep_only_largest = d.keep_only_largest ∧
    (leafStep res d).2.IS = d.IS ∧ (leafStep res d).2.buckets = d.buckets := by
  unfold leafStep
  simp only
  split <;> simp

theorem backtrack_neutral_aux :
    ∀ (fuel : Nat) (res : Option (List (List Nat))) (d : igraph_i_max_ind_vsets_data_t)
      (level : Nat) (res' : Option (List (List Nat))) (d' : igraph_i_max_ind_vsets_data_t),
      igraph_i_maximal_independent_vertex_sets_backtrack fuel res d level = some (res', d') →
      (d'.adj_list = d.adj_list ∧ d'.deg = d.deg ∧ d'.matrix_size = d.matrix_size ∧
        d'.keep_only_largest = d.keep_only_largest) ∧
      ((∀ v, level < v → d.IS v = 0 ∧ d.buckets v = []) →
        d'.IS = d.IS ∧ d'.buckets = d.buckets) := by
  intro fuel
  induction fuel with
  | zero =>
    intro res d level res' d' h
    simp [igraph_i_maximal_independent_vertex_sets_backtrack] at h
  | succ fuel ih =>
    intro res d level res' d' h
    rw [igraph_i_maximal_independent_vertex_sets_backtrack] at h
    split at h
    · -- leaf
      have hf := leafStep_frame res d
      simp only [Option.some.injEq] at h
      rw [h] at hf
      obtain ⟨h1, h2, h3, h4, h5, h6⟩ := hf
      exact ⟨⟨h1, h2, h3, h4⟩, fun _ => ⟨h5, h6⟩⟩
    · simp only at h
      split at h
      · -- c = 0
        split at h
        · simp at h
        · rename_i res1 d1 hrec
          simp only [Option.some.injEq, Prod.mk.injEq] at h
          obtain ⟨-, hd⟩ := h
          obtain ⟨⟨a1, a2, a3, a4⟩, hn⟩ := ih _ _ _ _ _ hrec
          subst hd
          refine ⟨⟨a1, a2, a3, a4⟩, ?_⟩
          intro h0
          have hpre : ∀ v, level + 1 < v →
              (incrAll d.IS (lowScan (d.adj_list (level + 1)) (d.deg (level + 1)) level)) v = 0
                ∧ d.buckets v = [] := by
            intro v hv
            have hc : (lowScan (d.adj_list (level + 1)) (d.deg (level + 1)) level).count v = 0 := by
              apply List.count_eq_zero_of_not_mem
              intro hm
              have := (List.mem_takeWhile_imp hm)
              simp at this
              omega
            rw [incrAll_apply, hc, (h0 v (by omega)).1]
            exact ⟨by simp, (h0 v (by omega)).2⟩
          obtain ⟨b1, b2⟩ := hn hpre
          simp only at b1 b2
          refine ⟨?_, b2⟩
          funext k
          simp only
          rw [decrAll_apply, b1, incrAll_apply]
          ring
      · -- c ≠ 0
        split at h
        · simp at h
        · rename_i res1 d1 hrec
          obtain ⟨⟨a1, a2, a3, a4⟩, hn⟩ := ih _ _ _ _ _ hrec
          simp only at a1 a2 a3 a4
          -- state after the speculative removal
          split at h
          · simp at h
          · rename_i res2 d3 hr2
            simp only [Option.some.injEq, Prod.mk.injEq] at h
            obtain ⟨-, hd⟩ := h
            -- frame of d3
            have hd3 : (d3.adj_list = d.adj_list ∧ d3.deg = d.deg ∧ d3.matrix_size = d.matrix_size ∧
                d3.keep_only_largest = d.keep_only_largest) := by
              by_cases hf : (removeLoop d1.adj_list d1.deg level
                  (lowScan (d.adj_list (level + 1)) (d.deg (level + 1)) level) 0
                  (upd d1.IS (level + 1) 0, d1.buckets (level + 1), true)).2.2 = true
              · rw [if_pos hf] at hr2
                obtain ⟨⟨c1, c2, c3, c4⟩, -⟩ := ih _ _ _ _ _ hr2
                simp only at c1 c2 c3 c4
                exact ⟨c1.trans a1, c2.trans a2, c3.trans a3, c4.trans a4⟩
              · rw [if_neg hf] at hr2
                simp only [Option.some.injEq, Prod.mk.injEq] at hr2
                obtain ⟨-, e⟩ := hr2
                subst e
                exact ⟨a1, a2, a3, a4⟩
            subst hd
            refine ⟨hd3, ?_⟩
            intro h0
            have hpre1 : ∀ v, level + 1 < v →
                (upd d.IS (level + 1)
                  ((countZero d.IS (lowScan (d.adj_list (level + 1)) (d.deg (level + 1)) level) : Nat) : Int)) v = 0
                  ∧ d.buckets v = [] := by
              intro v hv
              rw [upd_other _ _ _ _ (by omega)]
              exact h0 v (by omega)
            obtain ⟨b1, b2⟩ := hn hpre1
            simp only at b1 b2
            -- the removal loop
            have hbk0 : d1.buckets (level + 1) = [] := by
              rw [b2]; exact (h0 (level + 1) (by omega)).2
            obtain ⟨js, hjs, hval⟩ := removeLoop_spec d1.adj_list d1.deg level
              (d.adj_list (level + 1))
              (lowScan (d.adj_list (level + 1)) (d.deg (level + 1)) level)
              0 (upd d1.IS (level + 1) 0) (d1.buckets (level + 1)) true
              (by rw [hbk0]; simp)
              (by
                intro i hi
                rw [Nat.zero_add]
                exact lowScan_getD _ _ _ _ hi)
            rw [hbk0, List.nil_append] at hjs
            rw [← hbk0] at hjs
            -- state d3
            have hd3s : d3.IS = (removeLoop d1.adj_list d1.deg level
                  (lowScan (d.adj_list (level + 1)) (d.deg (level + 1)) level) 0
                  (upd d1.IS (level + 1) 0, d1.buckets (level + 1), true)).1
                ∧ d3.buckets = upd d1.buckets (level + 1) js := by
              by_cases hf : (removeLoop d1.adj_list d1.deg level
                  (lowScan (d.adj_list (level + 1)) (d.deg (level + 1)) level) 0
                  (upd d1.IS (level + 1) 0, d1.buckets (level + 1), true)).2.2 = true
              · rw [if_pos hf] at hr2
                obtain ⟨-, hn2⟩ := ih _ _ _ _ _ hr2
                have hpre2 : ∀ v, level + 1 < v →
                    (removeLoop d1.adj_list d1.deg level
                      (lowScan (d.adj_list (level + 1)) (d.deg (level + 1)) level) 0
                      (upd d1.IS (level + 1) 0, d1.buckets (level + 1), true)).1 v = 0 ∧
                    upd d1.buckets (level + 1) (removeLoop d1.adj_list d1.deg level
                      (lowScan (d.adj_list (level + 1)) (d.deg (level + 1)) level) 0
                      (upd d1.IS (level + 1) 0, d1.buckets (level + 1), true)).2.1 v = [] := by
                  intro v hv
                  constructor
                  · rw [hval v, upd_other _ _ _ _ (by omega), b1, upd_other _ _ _ _ (by omega),
                      (h0 v (by omega)).1]
                    have hc : (lowScan (d.adj_list (level + 1)) (d.deg (level + 1)) level).count v = 0 := by
                      apply List.count_eq_zero_of_not_mem
                      intro hm
                      have := (List.mem_takeWhile_imp hm)
                      simp at this
                      omega
                    have hs : (js.map (fun i =>
                        ((lowScan (d1.adj_list ((d.adj_list (level + 1)).getD i 0))
                          (d1.deg ((d.adj_list (level + 1)).getD i 0)) level).count v : Int))).sum = 0 := by
                      apply List.sum_eq_zero
                      intro x hx
                      obtain ⟨i, -, rfl⟩ := List.mem_map.1 hx
                      have : (lowScan (d1.adj_list ((d.adj_list (level + 1)).getD i 0))
                          (d1.deg ((d.adj_list (level + 1)).getD i 0)) level).count v = 0 := by
                        apply List.count_eq_zero_of_not_mem
                        intro hm
                        have := (List.mem_takeWhile_imp hm)
                        simp at this
                        omega
                      simp only [this, Nat.cast_zero]
                    rw [hc, hs]; simp
                  · rw [upd_other _ _ _ _ (by omega), b2]
                    exact (h0 v (by omega)).2
                obtain ⟨e1, e2⟩ := hn2 hpre2
                simp only at e1 e2
                exact ⟨e1, by rw [e2, hjs]⟩
              · rw [if_neg hf] at hr2
                simp only [Option.some.injEq, Prod.mk.injEq] at hr2
                obtain ⟨-, e⟩ := hr2
                subst e
                exact ⟨rfl, by simp only; rw [hjs]⟩
            obtain ⟨e1, e2⟩ := hd3s
            constructor
            · funext k
              simp only
              rw [replayBucket_apply, decrAll_apply, e1, hval k, e2, upd_same, hd3.1, hd3.2.1,
                a1, a2, b1]
              by_cases hk : k = level + 1
              · subst hk
                rw [upd_same, (h0 (level + 1) (by omega)).1]
                ring
              · rw [upd_other _ _ _ _ hk, upd_other _ _ _ _ hk]
                ring
            · funext k
              simp only
              rw [e2]
              by_cases hk : k = level + 1
              · subst hk
                rw [upd_same, (h0 (level + 1) (by omega)).2]
              · rw [upd_other _ _ _ _ hk, upd_other _ _ _ _ hk, b2]

theorem backtrack_total :
    ∀ (fuel : Nat) (res : Option (List (List Nat))) (d : igraph_i_max_ind_vsets_data_t)
      (level : Nat), 0 < fuel → d.matrix_size ≤ level + fuel →
      ∃ r, igraph_i_maximal_independent_vertex_sets_backtrack fuel res d level = some r := by
  intro fuel
  induction fuel with
  | zero => intro res d level h; omega
  | succ fuel ih =>
    intro res d level _ hle
    rw [igraph_i_maximal_independent_vertex_sets_backtrack]
    split
    · exact ⟨_, rfl⟩
    · rename_i hleaf
      have hlt : level + 1 < d.matrix_size := by
        have : ¬ ((d.matrix_size : Int) - 1 ≤ (level : Int)) := hleaf
        omega
      have hf : 0 < fuel := by omega
      simp only
      split
      · obtain ⟨⟨r1, d1⟩, h1⟩ := ih res
          { d with IS := incrAll d.IS (lowScan (d.adj_list (level + 1)) (d.deg (level + 1)) level) }
          (level + 1) hf (by simp only; omega)
        rw [h1]
        exact ⟨_, rfl⟩
      · obtain ⟨⟨r1, d1⟩, h1⟩ := ih res
          { d with IS := (upd d.IS (level + 1)
              ((countZero d.IS (lowScan (d.adj_list (level + 1)) (d.deg (level + 1)) level) : Nat) : Int)) }
          (level + 1) hf (by simp only; omega)
        rw [h1]
        simp only
        have hm : d1.matrix_size = d.matrix_size := (backtrack_neutral_aux _ _ _ _ _ _ h1).1.2.2.1
        split
        · rename_i hnone
          split at hnone
          · obtain ⟨r2, h2⟩ := ih r1
              { d1 with
                IS := (removeLoop d1.adj_list d1.deg level
                  (lowScan (d.adj_list (level + 1)) (d.deg (level + 1)) level) 0
                  (upd d1.IS (level + 1) 0, d1.buckets (level + 1), true)).1,
                buckets := upd d1.buckets (level + 1) (removeLoop d1.adj_list d1.deg level
                  (lowScan (d.adj_list (level + 1)) (d.deg (level + 1)) level) 0
                  (upd d1.IS (level + 1) 0, d1.buckets (level + 1), true)).2.1 }
              (level + 1) hf (by simp only; omega)
            rw [h2] at hnone
            simp at hnone
          · simp at hnone
        · exact ⟨_, rfl⟩

/-- C10: state neutrality of the backtrack procedure. If the counters and buckets
above the level are clear at entry and the call returns, then on return every
counter `IS[v]` and every bucket has its value of entry (so a bucket empty at
entry is empty again); from an all-zero state the counters sum to zero. -/
theorem backtrack_state_neutral (fuel : Nat) (res : Option (List (List Nat)))
    (d : igraph_i_max_ind_vsets_data_t) (level : Nat)
    (res' : Option (List (List Nat))) (d' : igraph_i_max_ind_vsets_data_t)
    (h0 : ∀ v, level < v → d.IS v = 0 ∧ d.buckets v = [])
    (hr : igraph_i_maximal_independent_vertex_sets_backtrack fuel res d level = some (res', d')) :
    (∀ v, d'.IS v = d.IS v) ∧ (∀ v, d'.buckets v = d.buckets v) ∧
    ((∀ v, d.IS v = 0) → ((List.range d.matrix_size).map d'.IS).sum = 0) := by
  obtain ⟨e1, e2⟩ := (backtrack_neutral_aux fuel res d level res' d' hr).2 h0
  refine ⟨fun v => by rw [e1], fun v => by rw [e2], ?_⟩
  intro hz
  apply List.sum_eq_zero
  intro x hx
  obtain ⟨v, -, rfl⟩ := List.mem_map.1 hx
  rw [e1]
  exact hz v

/-- Witness for C10: the top-level call on the path `0-1-2-3` returns, with all
counters and buckets back at their initial values. -/
theorem backtrack_state_neutral_witness :
    ∃ res' d',
      igraph_i_maximal_independent_vertex_sets_backtrack 5 (some [])
        (initData 4 (igraph_adjlist_init path4) false) 0 = some (res', d') ∧
      (∀ v, d'.IS v = 0) ∧ (∀ v, d'.buckets v = []) ∧
      ((List.range 4).map d'.IS).sum = 0 := by
  obtain ⟨⟨res', d'⟩, hr⟩ := backtrack_total 5 (some [])
    (initData 4 (igraph_adjlist_init path4) false) 0 (by decide) (by decide)
  have h := backtrack_state_neutral 5 (some []) (initData 4 (igraph_adjlist_init path4) false) 0
    res' d' (fun v _ => ⟨rfl, rfl⟩) hr
  exact ⟨res', d', hr, h.1, h.2.1, h.2.2 (fun _ => rfl)⟩

theorem count_lowScan_high (neis : List Nat) (deg level v : Nat) (hv : level < v) :
    (lowScan neis deg level).count v = 0 := by
  apply List.count_eq_zero_of_not_mem
  intro hm
  have := List.mem_takeWhile_imp hm
  simp at this
  omega

theorem removeLoop_high (adj_list : Nat → List Nat) (deg : Nat → Nat) (level : Nat)
    (neis1 : List Nat) (dg : Nat) (IS : Nat → Int) (v : Nat) (hv : level < v) :
    (removeLoop adj_list deg level (lowScan neis1 dg level) 0 (IS, [], true)).1 v = IS v := by
  obtain ⟨js, -, hval⟩ := removeLoop_spec adj_list deg level neis1 (lowScan neis1 dg level)
    0 IS [] true (by simp)
    (by intro i hi; rw [Nat.zero_add]; exact lowScan_getD _ _ _ _ hi)
  rw [hval v, count_lowScan_high _ _ _ _ hv]
  have hs : (js.map (fun i =>
      ((lowScan (adj_list (neis1.getD i 0)) (deg (neis1.getD i 0)) level).count v : Int))).sum = 0 := by
    apply List.sum_eq_zero
    intro x hx
    obtain ⟨i, -, rfl⟩ := List.mem_map.1 hx
    simp only [count_lowScan_high _ _ _ _ hv, Nat.cast_zero]
  rw [hs]
  simp

theorem removeLoop_undo (adj_list : Nat → List Nat) (deg : Nat → Nat) (level : Nat)
    (neis1 : List Nat) (dg : Nat) (IS : Nat → Int) :
    replayBucket adj_list deg level neis1
      (decrAll (removeLoop adj_list deg level (lowScan neis1 dg level) 0 (IS, [], true)).1
        (lowScan neis1 dg level))
      (removeLoop adj_list deg level (lowScan neis1 dg level) 0 (IS, [], true)).2.1 = IS := by
  obtain ⟨js, hjs, hval⟩ := removeLoop_spec adj_list deg level neis1 (lowScan neis1 dg level)
    0 IS [] true (by simp)
    (by intro i hi; rw [Nat.zero_add]; exact lowScan_getD _ _ _ _ hi)
  funext k
  rw [replayBucket_apply, decrAll_apply, hval k, hjs]
  simp only [List.nil_append]
  ring

theorem leafStep_eq (res : Option (List (List Nat))) (d : igraph_i_max_ind_vsets_data_t) :
    leafStep res d =
      ((sinkPush d.keep_only_largest (res, d.largest_set_size)
          ((List.range d.matrix_size).filter (fun v1 => decide (d.IS v1 = 0)))).1,
       { d with largest_set_size :=
          (sinkPush d.keep_only_largest (res, d.largest_set_size)
            ((List.range d.matrix_size).filter (fun v1 => decide (d.IS v1 = 0)))).2 }) := by
  unfold leafStep sinkPush
  by_cases h : ((List.range d.matrix_size).filter (fun v1 => decide (d.IS v1 = 0))).length
      > d.largest_set_size
  · simp only [if_pos h]
  · simp only [if_neg h]

theorem backtrack_eq :
    ∀ (fuel : Nat) (res : Option (List (List Nat))) (d : igraph_i_max_ind_vsets_data_t)
      (level : Nat), 0 < fuel → d.matrix_size ≤ level + fuel →
      (∀ v, level < v → d.IS v = 0 ∧ d.buckets v = []) →
      igraph_i_maximal_independent_vertex_sets_backtrack fuel res d level =
        some (((leafSets d.matrix_size d.adj_list d.deg fuel d.IS level).foldl
                (sinkPush d.keep_only_largest) (res, d.largest_set_size)).1,
              { d with largest_set_size :=
                ((leafSets d.matrix_size d.adj_list d.deg fuel d.IS level).foldl
                  (sinkPush d.keep_only_largest) (res, d.largest_set_size)).2 }) := by
  intro fuel
  induction fuel with
  | zero => intro res d level h; omega
  | succ fuel ih =>
    intro res d level _ hle h0
    rw [igraph_i_maximal_independent_vertex_sets_backtrack, leafSets]
    by_cases hleaf : (level : Int) ≥ (d.matrix_size : Int) - 1
    · rw [if_pos hleaf, if_pos hleaf, leafStep_eq]
      rfl
    · rw [if_neg hleaf, if_neg hleaf]
      have hlt : level + 1 < d.matrix_size := by
        have : ¬ ((d.matrix_size : Int) - 1 ≤ (level : Int)) := hleaf
        omega
      have hf : 0 < fuel := by omega
      simp only
      by_cases hc : countZero d.IS (lowScan (d.adj_list (level + 1)) (d.deg (level + 1)) level) = 0
      · rw [if_pos hc, if_pos hc]
        have hpre : ∀ v, level + 1 < v →
            (incrAll d.IS (lowScan (d.adj_list (level + 1)) (d.deg (level + 1)) level)) v = 0
              ∧ d.buckets v = [] := by
          intro v hv
          rw [incrAll_apply, count_lowScan_high _ _ _ _ (by omega), (h0 v (by omega)).1]
          exact ⟨by simp, (h0 v (by omega)).2⟩
        rw [ih res { d with IS := incrAll d.IS (lowScan (d.adj_list (level + 1)) (d.deg (level + 1)) level) }
          (level + 1) hf (by simp only; omega) hpre]
        simp only
        have e : decrAll (incrAll d.IS (lowScan (d.adj_list (level + 1)) (d.deg (level + 1)) level))
            (lowScan (d.adj_list (level + 1)) (d.deg (level + 1)) level) = d.IS := by
          funext k
          rw [decrAll_apply, incrAll_apply]
          ring
        rw [e]
      · rw [if_neg hc, if_neg hc]
        have hpre1 : ∀ v, level + 1 < v →
            (upd d.IS (level + 1)
              ((countZero d.IS (lowScan (d.adj_list (level + 1)) (d.deg (level + 1)) level) : Nat) : Int)) v = 0
              ∧ d.buckets v = [] := by
          intro v hv
          rw [upd_other _ _ _ _ (by omega)]
          exact h0 v (by omega)
        rw [ih res { d with IS := (upd d.IS (level + 1)
              ((countZero d.IS (lowScan (d.adj_list (level + 1)) (d.deg (level + 1)) level) : Nat) : Int)) }
          (level + 1) hf (by simp only; omega) hpre1]
        simp only
        have e0 : upd (upd d.IS (level + 1)
              ((countZero d.IS (lowScan (d.adj_list (level + 1)) (d.deg (level + 1)) level) : Nat) : Int))
              (level + 1) 0 = d.IS := by
          funext k
          by_cases hk : k = level + 1
          · subst hk; rw [upd_same, (h0 _ (by omega)).1]
          · rw [upd_other _ _ _ _ hk, upd_other _ _ _ _ hk]
        have eb : d.buckets (level + 1) = [] := (h0 _ (by omega)).2
        rw [e0, eb, List.foldl_append]
        have eb2 : ∀ js : List Nat, upd (upd d.buckets (level + 1) js) (level + 1) [] = d.buckets := by
          intro js
          funext k
          by_cases hk : k = level + 1
          · subst hk; rw [upd_same, eb]
          · rw [upd_other _ _ _ _ hk, upd_other _ _ _ _ hk]
        by_cases hfl : (removeLoop d.adj_list d.deg level
            (lowScan (d.adj_list (level + 1)) (d.deg (level + 1)) level) 0 (d.IS, [], true)).2.2 = true
        · rw [if_pos hfl, if_pos hfl]
          have hpre2 : ∀ v, level + 1 < v →
              (removeLoop d.adj_list d.deg level
                (lowScan (d.adj_list (level + 1)) (d.deg (level + 1)) level) 0 (d.IS, [], true)).1 v = 0
              ∧ upd d.buckets (level + 1) (removeLoop d.adj_list d.deg level
                (lowScan (d.adj_list (level + 1)) (d.deg (level + 1)) level) 0 (d.IS, [], true)).2.1 v = [] := by
            intro v hv
            rw [removeLoop_high _ _ _ _ _ _ _ (by omega), upd_other _ _ _ _ (by omega)]
            exact h0 v (by omega)
          rw [ih _ { d with
              IS := (removeLoop d.adj_list d.deg level
                (lowScan (d.adj_list (level + 1)) (d.deg (level + 1)) level) 0 (d.IS, [], true)).1,
              buckets := upd d.buckets (level + 1) (removeLoop d.adj_list d.deg level
                (lowScan (d.adj_list (level + 1)) (d.deg (level + 1)) level) 0 (d.IS, [], true)).2.1,
              largest_set_size := _ }
            (level + 1) hf (by simp only; omega) hpre2]
          simp only [upd_same]
          rw [removeLoop_undo, eb2]
        · rw [if_neg hfl, if_neg hfl]
          simp only [upd_same, List.foldl_nil]
          rw [removeLoop_undo, eb2]

theorem foldl_max_append_one (xs : List Nat) (a m : Nat) :
    (xs ++ [a]).foldl max m = max (xs.foldl max m) a := by
  rw [List.foldl_append]
  rfl

theorem sinkPush_fold_keepall (Ls : List (List Nat)) (r : List (List Nat)) (m : Nat) :
    Ls.foldl (sinkPush false) (some r, m)
      = (some (r ++ Ls), (Ls.map List.length).foldl max m) := by
  induction Ls generalizing r m with
  | nil => simp
  | cons x xs ih =>
    have h1 : sinkPush false (some r, m) x = (some (r ++ [x]), max m x.length) := by
      unfold sinkPush
      by_cases h : x.length > m
      · simp [h, Nat.max_eq_right (Nat.le_of_lt h)]
      · simp [h, Nat.max_eq_left (Nat.le_of_not_lt h)]
    rw [List.foldl_cons, h1, ih]
    simp

theorem sinkPush_fold_null (keep : Bool) (Ls : List (List Nat)) (m : Nat) :
    Ls.foldl (sinkPush keep) (none, m) = (none, (Ls.map List.length).foldl max m) := by
  induction Ls generalizing m with
  | nil => simp
  | cons x xs ih =>
    have h1 : sinkPush keep (none, m) x = (none, max m x.length) := by
      unfold sinkPush
      by_cases h : x.length > m
      · simp [h, Nat.max_eq_right (Nat.le_of_lt h)]
      · simp [h, Nat.max_eq_left (Nat.le_of_not_lt h)]
    rw [List.foldl_cons, h1, ih]
    simp

theorem foldl_max_ge (xs : List Nat) (m : Nat) : m ≤ xs.foldl max m := by
  induction xs generalizing m with
  | nil => simp
  | cons x xs ih =>
    rw [List.foldl_cons]
    exact le_trans (Nat.le_max_left m x) (ih _)

theorem foldl_max_mem_le (xs : List Nat) (m a : Nat) (ha : a ∈ xs) : a ≤ xs.foldl max m := by
  induction xs generalizing m with
  | nil => simp at ha
  | cons x xs ih =>
    rw [List.foldl_cons]
    rcases List.mem_cons.1 ha with h | h
    · subst h
      exact le_trans (Nat.le_max_right m a) (foldl_max_ge _ _)
    · exact ih _ h

theorem sinkPush_fold_largest (Ls : List (List Nat)) (r : List (List Nat)) (m : Nat)
    (hr : ∀ x ∈ r, x.length = m) :
    Ls.foldl (sinkPush true) (some r, m)
      = (some ((r ++ Ls).filter (fun x => decide (x.length = (Ls.map List.length).foldl max m))),
         (Ls.map List.length).foldl max m) := by
  induction Ls generalizing r m with
  | nil =>
    simp only [List.foldl_nil, List.map_nil, List.append_nil]
    congr 2
    symm
    rw [List.filter_eq_self]
    intro x hx
    simp [hr x hx]
  | cons x xs ih =>
    rw [List.foldl_cons]
    simp only [List.map_cons, List.foldl_cons]
    by_cases h : x.length > m
    · have h1 : sinkPush true (some r, m) x = (some [x], max m x.length) := by
        unfold sinkPush
        simp [h, Nat.max_eq_right (Nat.le_of_lt h)]
      rw [h1, ih [x] _ (by intro y hy; simp at hy; subst hy; exact (Nat.max_eq_right (Nat.le_of_lt h)).symm)]
      congr 2
      have hge := foldl_max_ge (xs.map List.length) (max m x.length)
      have hrn : r.filter (fun y => decide (y.length = (xs.map List.length).foldl max (max m x.length))) = [] := by
        rw [List.filter_eq_nil_iff]
        intro y hy
        have := hr y hy
        have : max m x.length = x.length := Nat.max_eq_right (Nat.le_of_lt h)
        simp
        omega
      rw [List.filter_append r, hrn]
      simp
    · by_cases h2 : x.length = m
      · have h1 : sinkPush true (some r, m) x = (some (r ++ [x]), max m x.length) := by
          unfold sinkPush
          simp [h, h2]
        rw [h1, ih (r ++ [x]) _ (by
          intro y hy
          rcases List.mem_append.1 hy with hy | hy
          · rw [hr y hy, h2]; simp
          · simp at hy; subst hy; rw [h2]; simp)]
        simp
      · have h1 : sinkPush true (some r, m) x = (some r, max m x.length) := by
          unfold sinkPush
          simp [h, h2, Nat.max_eq_left (Nat.le_of_not_lt h)]
        have hmx : max m x.length = m := Nat.max_eq_left (Nat.le_of_not_lt h)
        rw [h1, ih r _ (by intro y hy; rw [hr y hy, hmx])]
        congr 2
        have hge := foldl_max_ge (xs.map List.length) (max m x.length)
        rw [List.filter_append r, List.filter_append r, List.filter_cons]
        have : ¬ (x.length = (xs.map List.length).foldl max (max m x.length)) := by omega
        simp [this]

theorem backtrack_main (n : Nat) (adj_list : Nat → List Nat) (keep : Bool)
    (res : Option (List (List Nat))) :
    igraph_i_maximal_independent_vertex_sets_backtrack (n + 1) res (initData n adj_list keep) 0
      = some (((mainLeaves n adj_list).foldl (sinkPush keep) (res, 0)).1,
          { initData n adj_list keep with
            largest_set_size := ((mainLeaves n adj_list).foldl (sinkPush keep) (res, 0)).2 }) := by
  have h := backtrack_eq (n + 1) res (initData n adj_list keep) 0 (by omega)
    (by simp [initData]) (fun v _ => ⟨rfl, rfl⟩)
  rw [h]
  rfl

theorem maximal_independent_vertex_sets_eq (G : Graph) :
    igraph_maximal_independent_vertex_sets G = some (mainLeaves G.n (igraph_adjlist_init G)) := by
  unfold igraph_maximal_independent_vertex_sets
  rw [backtrack_main, sinkPush_fold_keepall]
  simp

theorem independence_number_eq (G : Graph) :
    igraph_independence_number G = some (maxSize (mainLeaves G.n (igraph_adjlist_init G))) := by
  unfold igraph_independence_number
  rw [backtrack_main, sinkPush_fold_null]
  rfl

theorem maximal_cliques_eq (G : Graph) :
    igraph_maximal_cliques G = some (mainLeaves G.n (igraph_adjlist_init_complementer G)) := by
  unfold igraph_maximal_cliques igraph_i_maximal_or_largest_cliques_or_indsets
  simp only [if_true]
  rw [backtrack_main, sinkPush_fold_keepall]
  simp

theorem clique_number_eq (G : Graph) :
    igraph_clique_number G
      = some (maxSize (mainLeaves G.n (igraph_adjlist_init_complementer G))) := by
  unfold igraph_clique_number igraph_i_maximal_or_largest_cliques_or_indsets
  simp only [if_true]
  rw [backtrack_main]
  simp only [Bool.false_eq_true, if_false]
  rw [sinkPush_fold_null]
  rfl

theorem largest_cliques_eq (G : Graph) :
    igraph_largest_cliques G
      = some ((mainLeaves G.n (igraph_adjlist_init_complementer G)).filter
          (fun s => decide (s.length = maxSize (mainLeaves G.n (igraph_adjlist_init_complementer G))))) := by
  unfold igraph_largest_cliques igraph_i_maximal_or_largest_cliques_or_indsets
  simp only [if_true]
  rw [backtrack_main, sinkPush_fold_largest _ _ _ (by simp)]
  simp [maxSize]

theorem largest_independent_vertex_sets_eq (G : Graph) :
    igraph_largest_independent_vertex_sets G
      = some ((mainLeaves G.n (igraph_adjlist_init G)).filter
          (fun s => decide (s.length = maxSize (mainLeaves G.n (igraph_adjlist_init G))))) := by
  unfold igraph_largest_independent_vertex_sets igraph_i_maximal_or_largest_cliques_or_indsets
  simp only [if_true, Bool.false_eq_true, if_false]
  rw [backtrack_main, sinkPush_fold_largest _ _ _ (by simp)]
  simp [maxSize]

theorem removeLoop_congr (adj_list adj_list' : Nat → List Nat) (deg deg' : Nat → Nat)
    (level : Nat) (rest : List Nat) :
    ∀ (j : Nat) (s : (Nat → Int) × List Nat × Bool),
      (∀ v ∈ rest, adj_list v = adj_list' v ∧ deg v = deg' v) →
      removeLoop adj_list deg level rest j s = removeLoop adj_list' deg' level rest j s := by
  induction rest with
  | nil => intro j s _; rfl
  | cons v2 rest ih =>
    intro j s h
    obtain ⟨IS, bk, f⟩ := s
    have h2 := h v2 (List.mem_cons_self _ _)
    simp only [removeLoop, h2.1, h2.2]
    exact ih _ _ (fun v hv => h v (List.mem_cons_of_mem _ hv))

theorem mem_lowScan_le (neis : List Nat) (deg level v : Nat)
    (hv : v ∈ lowScan neis deg level) : v ≤ level := by
  have := List.mem_takeWhile_imp hv
  simpa using this

theorem leafSets_congr (n : Nat) (adj_list adj_list' : Nat → List Nat) (deg deg' : Nat → Nat)
    (h : ∀ v, v < n → adj_list v = adj_list' v ∧ deg v = deg' v) :
    ∀ (fuel : Nat) (IS : Nat → Int) (level : Nat),
      leafSets n adj_list deg fuel IS level = leafSets n adj_list' deg' fuel IS level := by
  intro fuel
  induction fuel with
  | zero => intro IS level; rfl
  | succ fuel ih =>
    intro IS level
    rw [leafSets, leafSets]
    by_cases hleaf : (level : Int) ≥ (n : Int) - 1
    · rw [if_pos hleaf, if_pos hleaf]
    · rw [if_neg hleaf, if_neg hleaf]
      have hlt : level + 1 < n := by
        have : ¬ ((n : Int) - 1 ≤ (level : Int)) := hleaf
        omega
      have h1 := h (level + 1) hlt
      have hrl : removeLoop adj_list deg level (lowScan (adj_list' (level + 1)) (deg' (level + 1)) level) 0
          (IS, [], true)
          = removeLoop adj_list' deg' level (lowScan (adj_list' (level + 1)) (deg' (level + 1)) level) 0
            (IS, [], true) := by
        apply removeLoop_congr
        intro v hv
        exact h v (by have := mem_lowScan_le _ _ _ _ hv; omega)
      simp only [h1.1, h1.2, ih, hrl]

theorem sorted_eq_filter_range (l : List Nat) (n : Nat)
    (hs : l.Pairwise (fun a b => a < b)) (hb : ∀ u ∈ l, u < n) :
    l = (List.range n).filter (fun u => decide (u ∈ l)) := by
  apply List.eq_of_perm_of_sorted (r := (· < ·))
  · rw [List.perm_ext_iff_of_nodup]
    · intro a
      simp only [List.mem_filter, List.mem_range, decide_eq_true_eq]
      constructor
      · intro ha; exact ⟨hb a ha, ha⟩
      · intro ha; exact ha.2
    · exact hs.imp (fun h => Nat.ne_of_lt h)
    · exact (List.nodup_range n).filter _
  · exact hs
  · exact List.Pairwise.filter _ (List.pairwise_lt_range n)

theorem complementer_complement (G : Graph) (hG : G.Simple) (v : Nat) (hv : v < G.n) :
    igraph_adjlist_init_complementer (complement G) v = igraph_adjlist_init G v := by
  obtain ⟨hs, hm⟩ := hG v hv
  unfold igraph_adjlist_init
  rw [sorted_eq_filter_range (G.nbrs v) G.n hs (fun u hu => (hm u hu).1)]
  unfold igraph_adjlist_init_complementer complement igraph_adjlist_init_complementer
  simp only
  apply List.filter_congr
  intro u hu
  have hu' : u < G.n := List.mem_range.1 hu
  by_cases hmem : u ∈ G.nbrs v
  · have hne : u ≠ v := (hm u hmem).2.1
    simp [hmem, hne, hu', List.mem_filter]
  · by_cases hne : u = v
    · simp [hne, hmem, List.mem_filter]
      intro h; subst hne; exact absurd h hmem
    · simp [hmem, hne, hu', List.mem_filter]

/-! ## The visited neighbours in a simple graph -/

theorem takeWhile_eq_filter_of_sorted (L : Nat) (l : List Nat)
    (hs : l.Pairwise (fun a b => a < b)) :
    l.takeWhile (fun u => decide (u ≤ L)) = l.filter (fun u => decide (u ≤ L)) := by
  induction l with
  | nil => rfl
  | cons x xs ih =>
    rw [List.pairwise_cons] at hs
    by_cases hx : x ≤ L
    · simp [List.takeWhile_cons, List.filter_cons, hx, ih hs.2]
    · have : xs.filter (fun u => decide (u ≤ L)) = [] := by
        rw [List.filter_eq_nil_iff]
        intro y hy
        have := hs.1 y hy
        simp
        omega
      simp [List.takeWhile_cons, List.filter_cons, hx, this]

theorem lowScan_eq_low (G : Graph) (hG : G.Simple) (L v : Nat) (hv : v < G.n) :
    lowScan (G.nbrs v) (G.nbrs v).length L = low G L v := by
  unfold lowScan low
  rw [List.take_length]
  exact takeWhile_eq_filter_of_sorted L _ (hG v hv).1

theorem mem_low (G : Graph) (L v u : Nat) : u ∈ low G L v ↔ u ∈ G.nbrs v ∧ u ≤ L := by
  simp [low, List.mem_filter]

theorem low_sorted (G : Graph) (hG : G.Simple) (L v : Nat) (hv : v < G.n) :
    (low G L v).Pairwise (fun a b => a < b) :=
  List.Pairwise.filter _ (hG v hv).1

theorem low_nodup (G : Graph) (hG : G.Simple) (L v : Nat) (hv : v < G.n) :
    (low G L v).Nodup :=
  (low_sorted G hG L v hv).imp (fun h => Nat.ne_of_lt h)

theorem nbrs_nodup (G : Graph) (hG : G.Simple) (v : Nat) (hv : v < G.n) :
    (G.nbrs v).Nodup :=
  (hG v hv).1.imp (fun h => Nat.ne_of_lt h)

theorem countZero_eq (IS : Nat → Int) (vs : List Nat) :
    countZero IS vs = (zeros IS vs).length := by
  have h : ∀ (c : Nat), vs.foldl (fun c v2 => if IS v2 = 0 then c + 1 else c) c
      = c + (zeros IS vs).length := by
    induction vs with
    | nil => intro c; simp [zeros]
    | cons v vs ih =>
      intro c
      rw [List.foldl_cons, ih]
      by_cases hz : IS v = 0
      · simp [zeros, List.filter_cons, hz]; omega
      · simp [zeros, List.filter_cons, hz]
  unfold countZero
  rw [h]
  simp

theorem removeInner_snd (vs : List Nat) (hn : vs.Nodup) (IS : Nat → Int) (f : Bool) :
    (removeInner IS f vs).2 = (f && vs.all (fun k => decide (IS k - 1 ≠ 0))) := by
  induction vs generalizing IS f with
  | nil => simp [removeInner]
  | cons v vs ih =>
    have h1 : removeInner IS f (v :: vs)
        = removeInner (upd IS v (IS v - 1)) (if upd IS v (IS v - 1) v = 0 then false else f) vs := rfl
    rw [List.nodup_cons] at hn
    rw [h1, ih hn.2]
    have hall : vs.all (fun k => decide (upd IS v (IS v - 1) k - 1 ≠ 0))
        = vs.all (fun k => decide (IS k - 1 ≠ 0)) := by
      rw [Bool.eq_iff_iff]
      simp only [List.all_eq_true, decide_eq_true_eq]
      constructor
      · intro h k hk
        have hne : k ≠ v := fun e => hn.1 (e ▸ hk)
        have := h k hk
        rwa [upd_other _ _ _ _ hne] at this
      · intro h k hk
        have hne : k ≠ v := fun e => hn.1 (e ▸ hk)
        rw [upd_other _ _ _ _ hne]
        exact h k hk
    rw [hall, upd_same]
    by_cases hz : IS v - 1 = 0
    · simp [hz]
    · simp [hz]

theorem removeLoop_false (adj_list : Nat → List Nat) (deg : Nat → Nat) (level : Nat)
    (rest : List Nat) :
    ∀ (j : Nat) (IS : Nat → Int) (bk : List Nat),
      (removeLoop adj_list deg level rest j (IS, bk, false)).2.2 = false := by
  induction rest with
  | nil => intro j IS bk; rfl
  | cons v2 rest ih =>
    intro j IS bk
    by_cases hz : IS v2 = 0
    · have hin : (removeInner IS false (lowScan (adj_list v2) (deg v2) level)).2 = false := by
        have : ∀ (vs : List Nat) (a : Nat → Int), (removeInner a false vs).2 = false := by
          intro vs
          induction vs with
          | nil => intro a; rfl
          | cons x xs ihx =>
            intro a
            have h1 : removeInner a false (x :: xs)
                = removeInner (upd a x (a x - 1)) (if upd a x (a x - 1) x = 0 then false else false) xs := rfl
            rw [h1]
            simp only [ite_self]
            exact ihx _
        exact this _ _
      simp only [removeLoop, hz, if_true, hin]
      exact ih _ _ _
    · simp only [removeLoop, hz, if_false]
      exact ih _ _ _

/-! ## The speculative removal loop -/

theorem zeros_append (IS : Nat → Int) (a b : List Nat) :
    zeros IS (a ++ b) = zeros IS a ++ zeros IS b := by
  simp [zeros, List.filter_append]

theorem ideal_nil (G : Graph) (L : Nat) (IS : Nat → Int) : ideal G L IS [] = IS := by
  funext k
  simp [ideal, zeros]

theorem ideal_snoc_zero (G : Graph) (L : Nat) (IS : Nat → Int) (pre : List Nat) (w : Nat)
    (hz : IS w = 0) :
    ideal G L IS (pre ++ [w])
      = upd (decrAll (ideal G L IS pre) (low G L w)) w
          (decrAll (ideal G L IS pre) (low G L w) w + 1) := by
  funext k
  have hzs : zeros IS [w] = [w] := by simp [zeros, hz]
  by_cases hk : k = w
  · subst hk
    rw [upd_same, decrAll_apply]
    simp only [ideal, zeros_append, hzs, List.count_append, List.map_append, List.sum_append,
      List.map_cons, List.map_nil, List.sum_cons, List.sum_nil, List.count_singleton_self]
    push_cast
    ring
  · rw [upd_other _ _ _ _ hk, decrAll_apply]
    have hc : List.count k [w] = 0 := by
      rw [List.count_eq_zero]
      simpa using hk
    simp only [ideal, zeros_append, hzs, List.count_append, List.map_append, List.sum_append,
      List.map_cons, List.map_nil, List.sum_cons, List.sum_nil, hc]
    push_cast
    ring

theorem ideal_snoc_nonzero (G : Graph) (L : Nat) (IS : Nat → Int) (pre : List Nat) (w : Nat)
    (hz : IS w ≠ 0) :
    ideal G L IS (pre ++ [w]) = upd (ideal G L IS pre) w (ideal G L IS pre w + 1) := by
  funext k
  have hzs : zeros IS [w] = [] := by simp [zeros, hz]
  by_cases hk : k = w
  · subst hk
    rw [upd_same]
    simp only [ideal, zeros_append, hzs, List.count_append, List.append_nil,
      List.count_singleton_self]
    push_cast
    ring
  · rw [upd_other _ _ _ _ hk]
    have hc : List.count k [w] = 0 := by
      rw [List.count_eq_zero]
      simpa using hk
    simp only [ideal, zeros_append, hzs, List.count_append, List.append_nil, hc]
    push_cast
    ring

theorem ideal_at_zero (G : Graph) (L : Nat) (IS : Nat → Int) (pre : List Nat) (w : Nat)
    (hind : ∀ u w, u ≤ L → w ≤ L → IS u = 0 → IS w = 0 → w ∉ G.nbrs u)
    (hle : ∀ u ∈ pre, u ≤ L) (hwL : w ≤ L) (hw : w ∉ pre) (hz : IS w = 0) :
    ideal G L IS pre w = 0 := by
  have hs : ((zeros IS pre).map (fun u => ((low G L u).count w : Int))).sum = 0 := by
    apply List.sum_eq_zero
    intro x hx
    obtain ⟨u, hu, rfl⟩ := List.mem_map.1 hx
    have hu' : u ∈ pre ∧ IS u = 0 := by
      simpa [zeros, List.mem_filter] using hu
    have : (low G L u).count w = 0 := by
      apply List.count_eq_zero_of_not_mem
      intro hm
      exact hind u w (hle u hu'.1) hwL hu'.2 hz ((mem_low G L u w).1 hm).1
    simp only [this, Nat.cast_zero]
  simp only [ideal, hs, hz, List.count_eq_zero_of_not_mem hw]
  simp

theorem removeLoop_ideal (G : Graph) (hG : G.Simple) (L : Nat) (IS : Nat → Int)
    (lowv : List Nat) (hn : lowv.Nodup) (hlt : ∀ u ∈ lowv, u < G.n) (hle : ∀ u ∈ lowv, u ≤ L)
    (hind : ∀ u w, u ≤ L → w ≤ L → IS u = 0 → IS w = 0 → w ∉ G.nbrs u)
    (rest : List Nat) :
    ∀ (pre : List Nat) (j : Nat) (cur : Nat → Int) (bk : List Nat),
      lowv = pre ++ rest → cur = ideal G L IS pre → (∀ k, IS k ≠ 0 → 1 ≤ cur k) →
      ((removeLoop G.nbrs (fun i => (G.nbrs i).length) L rest j (cur, bk, true)).2.2 = true ↔
        ∀ pre' w rest', rest = pre' ++ w :: rest' → IS w = 0 →
          ∀ k ∈ low G L w, ideal G L IS (pre ++ pre') k ≠ 1) ∧
      ((removeLoop G.nbrs (fun i => (G.nbrs i).length) L rest j (cur, bk, true)).2.2 = true →
        (removeLoop G.nbrs (fun i => (G.nbrs i).length) L rest j (cur, bk, true)).1
            = ideal G L IS lowv ∧
        ∀ k, IS k ≠ 0 →
          1 ≤ (removeLoop G.nbrs (fun i => (G.nbrs i).length) L rest j (cur, bk, true)).1 k) := by
  induction rest with
  | nil =>
    intro pre j cur bk hsp hcur hpos
    simp only [removeLoop, true_iff]
    refine ⟨?_, fun _ => ⟨?_, hpos⟩⟩
    · intro pre' w rest' h
      simp at h
    · rw [hcur, hsp, List.append_nil]
  | cons w rest ih =>
    intro pre j cur bk hsp hcur hpos
    have hwmem : w ∈ lowv := by rw [hsp]; simp
    have hwn : w < G.n := hlt w hwmem
    have hwL : w ≤ L := hle w hwmem
    have hsp2 : lowv = (pre ++ [w]) ++ rest := by rw [hsp]; simp
    have hwpre : w ∉ pre := by
      rw [hsp] at hn
      have := (List.nodup_append.1 hn).2.2
      intro hm
      exact this hm (List.mem_cons_self _ _)
    have hpre_le : ∀ u ∈ pre, u ≤ L := fun u hu => hle u (by rw [hsp]; simp [hu])
    -- splitting lemma for the right-hand side
    have hsplit : (∀ pre' w' rest', w :: rest = pre' ++ w' :: rest' → IS w' = 0 →
          ∀ k ∈ low G L w', ideal G L IS (pre ++ pre') k ≠ 1) ↔
        ((IS w = 0 → ∀ k ∈ low G L w, ideal G L IS pre k ≠ 1) ∧
         (∀ pre' w' rest', rest = pre' ++ w' :: rest' → IS w' = 0 →
          ∀ k ∈ low G L w', ideal G L IS ((pre ++ [w]) ++ pre') k ≠ 1)) := by
      constructor
      · intro h
        refine ⟨?_, ?_⟩
        · intro hz k hk
          have := h [] w rest rfl hz k hk
          simpa using this
        · intro pre' w' rest' e hz k hk
          have := h (w :: pre') w' rest' (by rw [e]; rfl) hz k hk
          simpa using this
      · intro h pre' w' rest' e hz k hk
        cases pre' with
        | nil =>
          simp only [List.nil_append, List.cons.injEq] at e
          obtain ⟨e1, -⟩ := e
          subst e1
          simpa using h.1 hz k hk
        | cons x xs =>
          simp only [List.cons_append, List.cons.injEq] at e
          obtain ⟨e1, e2⟩ := e
          subst e1
          have := h.2 xs w' rest' e2 hz k hk
          simpa using this
    rw [hsplit]
    by_cases hz : IS w = 0
    · -- the test `IS[v2] == 0` succeeds in the current state as well
      have hcw : cur w = 0 := by
        rw [hcur]
        exact ideal_at_zero G L IS pre w hind hpre_le hwL hwpre hz
      have hlow : lowScan (G.nbrs w) (G.nbrs w).length L = low G L w :=
        lowScan_eq_low G hG L w hwn
      have hstep : removeLoop G.nbrs (fun i => (G.nbrs i).length) L (w :: rest) j (cur, bk, true)
          = removeLoop G.nbrs (fun i => (G.nbrs i).length) L rest (j + 1)
              (upd (decrAll cur (low G L w)) w (decrAll cur (low G L w) w + 1),
               igraph_set_add bk j,
               (low G L w).all (fun k => decide (cur k - 1 ≠ 0))) := by
        simp only [removeLoop, hcw, if_true, hlow]
        rw [removeInner_fst, removeInner_snd _ (low_nodup G hG L w hwn)]
        simp
      rw [hstep]
      have hnew : upd (decrAll cur (low G L w)) w (decrAll cur (low G L w) w + 1)
          = ideal G L IS (pre ++ [w]) := by
        rw [ideal_snoc_zero G L IS pre w hz, hcur]
      by_cases hall : (low G L w).all (fun k => decide (cur k - 1 ≠ 0)) = true
      · rw [hall]
        have hall' : ∀ k ∈ low G L w, cur k - 1 ≠ 0 := by
          simpa [List.all_eq_true] using hall
        have hpos2 : ∀ k, IS k ≠ 0 →
            1 ≤ upd (decrAll cur (low G L w)) w (decrAll cur (low G L w) w + 1) k := by
          intro k hk
          have hkw : k ≠ w := fun e => hk (e ▸ hz)
          rw [upd_other _ _ _ _ hkw, decrAll_apply]
          by_cases hm : k ∈ low G L w
          · have h1 := hall' k hm
            have h2 := hpos k hk
            have hc : (low G L w).count k = 1 :=
              List.count_eq_one_of_mem (low_nodup G hG L w hwn) hm
            rw [hc]
            push_cast
            omega
          · rw [List.count_eq_zero_of_not_mem hm]
            simpa using hpos k hk
        obtain ⟨ih1, ih2⟩ := ih (pre ++ [w]) (j + 1) _ (igraph_set_add bk j) hsp2 hnew hpos2
        refine ⟨?_, ih2⟩
        rw [ih1]
        constructor
        · intro h
          refine ⟨?_, h⟩
          intro _ k hk
          have := hall' k hk
          rw [hcur] at this
          intro e
          rw [e] at this
          exact this rfl
        · intro h
          exact h.2
      · have hall2 : (low G L w).all (fun k => decide (cur k - 1 ≠ 0)) = false := by
          simpa using hall
        rw [hall2, removeLoop_false]
        simp only [Bool.false_eq_true, false_iff, false_implies, and_true]
        intro h
        apply hall
        rw [List.all_eq_true]
        intro k hk
        have := h.1 hz k hk
        rw [hcur]
        simp only [decide_eq_true_eq]
        intro e
        apply this
        omega
    · have hcw : cur w ≠ 0 := by
        have := hpos w hz
        omega
      have hstep : removeLoop G.nbrs (fun i => (G.nbrs i).length) L (w :: rest) j (cur, bk, true)
          = removeLoop G.nbrs (fun i => (G.nbrs i).length) L rest (j + 1)
              (upd cur w (cur w + 1), bk, true) := by
        simp only [removeLoop, hcw, if_false]
      rw [hstep]
      have hnew : upd cur w (cur w + 1) = ideal G L IS (pre ++ [w]) := by
        rw [ideal_snoc_nonzero G L IS pre w hz, hcur]
      have hpos2 : ∀ k, IS k ≠ 0 → 1 ≤ upd cur w (cur w + 1) k := by
        intro k hk
        by_cases hkw : k = w
        · subst hkw
          rw [upd_same]
          have := hpos k hk
          omega
        · rw [upd_other _ _ _ _ hkw]
          exact hpos k hk
      obtain ⟨ih1, ih2⟩ := ih (pre ++ [w]) (j + 1) _ bk hsp2 hnew hpos2
      refine ⟨?_, ih2⟩
      rw [ih1]
      constructor
      · intro h
        exact ⟨fun hz' => absurd hz' hz, h⟩
      · intro h
        exact h.2

/-! ## Counting over neighbour lists -/

theorem flen_split (l : List Nat) (p q : Nat → Bool) :
    (l.filter p).length
      = (l.filter (fun u => p u && q u)).length + (l.filter (fun u => p u && !q u)).length := by
  induction l with
  | nil => rfl
  | cons x xs ih =>
    cases hp : p x <;> cases hq : q x <;> simp [List.filter_cons, hp, hq, ih] <;> omega

theorem flen_or (l : List Nat) (p q : Nat → Bool) (hd : ∀ u ∈ l, ¬ (p u = true ∧ q u = true)) :
    (l.filter (fun u => p u || q u)).length = (l.filter p).length + (l.filter q).length := by
  induction l with
  | nil => rfl
  | cons x xs ih =>
    have hx := hd x (List.mem_cons_self _ _)
    have ih' := ih (fun u hu => hd u (List.mem_cons_of_mem _ hu))
    cases hp : p x <;> cases hq : q x <;> simp [List.filter_cons, hp, hq, ih'] <;>
      first | omega | (exfalso; exact hx ⟨hp, hq⟩)

theorem flen_congr (l : List Nat) (p q : Nat → Bool) (h : ∀ u ∈ l, p u = q u) :
    (l.filter p).length = (l.filter q).length := by
  rw [List.filter_congr h]

theorem flen_eq_point (l : List Nat) (hn : l.Nodup) (a : Nat) :
    (l.filter (fun u => decide (u = a))).length = if a ∈ l then 1 else 0 := by
  induction l with
  | nil => simp
  | cons x xs ih =>
    rw [List.nodup_cons] at hn
    by_cases hx : x = a
    · subst hx
      have : xs.filter (fun u => decide (u = x)) = [] := by
        rw [List.filter_eq_nil_iff]
        intro y hy
        simp
        intro e
        exact hn.1 (e ▸ hy)
      simp [List.filter_cons, this]
    · have hxa : ¬ a = x := fun e => hx e.symm
      simp [List.filter_cons, hx, ih hn.2, List.mem_cons, hxa]

theorem flen_zero (l : List Nat) (p : Nat → Bool) (h : ∀ u ∈ l, p u = false) :
    (l.filter p).length = 0 := by
  rw [List.length_eq_zero, List.filter_eq_nil_iff]
  intro u hu
  simp [h u hu]

theorem sum_indicator (l : List Nat) (p : Nat → Bool) :
    ((l.map (fun u => if p u = true then (1 : Int) else 0)).sum) = ((l.filter p).length : Int) := by
  induction l with
  | nil => rfl
  | cons x xs ih =>
    rw [List.map_cons, List.sum_cons, ih]
    cases hp : p x
    · simp [List.filter_cons, hp]
    · simp [List.filter_cons, hp]
      ring

theorem length_eq_of_nodup_of_mem_iff (l1 l2 : List Nat) (h1 : l1.Nodup) (h2 : l2.Nodup)
    (h : ∀ x, x ∈ l1 ↔ x ∈ l2) : l1.length = l2.length :=
  List.Perm.length_eq ((List.perm_ext_iff_of_nodup h1 h2).2 h)

theorem nbrs_symm (G : Graph) (hG : G.Simple) (u v : Nat) (hu : u < G.n) (hv : v < G.n) :
    u ∈ G.nbrs v ↔ v ∈ G.nbrs u :=
  ⟨fun h => ((hG v hv).2 u h).2.2, fun h => ((hG u hu).2 v h).2.2⟩

theorem sum_swap (G : Graph) (hG : G.Simple) (L : Nat) (IS : Nat → Int) (pre : List Nat)
    (hn : pre.Nodup) (hlt : ∀ u ∈ pre, u < G.n) (k : Nat) (hk : k < G.n) (hkL : k ≤ L) :
    ((zeros IS pre).map (fun u => ((low G L u).count k : Int))).sum
      = (((G.nbrs k).filter (fun u => decide (u ∈ pre) && decide (IS u = 0))).length : Int) := by
  have h1 : (zeros IS pre).map (fun u => ((low G L u).count k : Int))
      = (zeros IS pre).map (fun u => if decide (k ∈ G.nbrs u) = true then (1 : Int) else 0) := by
    apply List.map_congr_left
    intro u hu
    have hu' : u ∈ pre ∧ IS u = 0 := by simpa [zeros, List.mem_filter] using hu
    have hun := hlt u hu'.1
    by_cases hm : k ∈ G.nbrs u
    · have : k ∈ low G L u := (mem_low G L u k).2 ⟨hm, hkL⟩
      rw [List.count_eq_one_of_mem (low_nodup G hG L u hun) this]
      simp [hm]
    · have : k ∉ low G L u := fun h => hm ((mem_low G L u k).1 h).1
      rw [List.count_eq_zero_of_not_mem this]
      simp [hm]
  rw [h1, sum_indicator]
  congr 1
  apply length_eq_of_nodup_of_mem_iff
  · exact (hn.filter _).filter _
  · exact (nbrs_nodup G hG k hk).filter _
  · intro x
    simp only [zeros, List.mem_filter, decide_eq_true_eq, Bool.and_eq_true]
    constructor
    · rintro ⟨⟨h1, h2⟩, h3⟩
      exact ⟨(nbrs_symm G hG x k (hlt x h1) hk).2 h3, h1, h2⟩
    · rintro ⟨h1, h2, h3⟩
      exact ⟨⟨h2, h3⟩, (nbrs_symm G hG x k (hlt x h2) hk).1 h1⟩

theorem counterInv_nonneg (G : Graph) (L : Nat) (IS : Nat → Int) (h : CounterInv G L IS)
    (k : Nat) : 0 ≤ IS k := by
  by_cases hk : k ≤ L
  · rw [h.1 k hk]; exact Int.natCast_nonneg _
  · rw [h.2 k (by omega)]

theorem counterInv_pos (G : Graph) (L : Nat) (IS : Nat → Int) (h : CounterInv G L IS)
    (k : Nat) (hk : IS k ≠ 0) : 1 ≤ IS k := by
  have := counterInv_nonneg G L IS h k
  omega

theorem counterInv_indep (G : Graph) (L : Nat) (IS : Nat → Int) (h : CounterInv G L IS)
    (u w : Nat) (hu : u ≤ L) (hw : w ≤ L) (hzu : IS u = 0) (hzw : IS w = 0) :
    w ∉ G.nbrs u := by
  intro hm
  have h1 := h.1 u hu
  rw [hzu] at h1
  have h2 : w ∈ zeros IS (low G L u) := by
    simp only [zeros, List.mem_filter, decide_eq_true_eq]
    exact ⟨(mem_low G L u w).2 ⟨hm, hw⟩, hzw⟩
  have h3 : 0 < (zeros IS (low G L u)).length := List.length_pos_of_mem h2
  omega

theorem counterInv_maximal (G : Graph) (L : Nat) (IS : Nat → Int) (h : CounterInv G L IS)
    (v : Nat) (hv : v ≤ L) (hz : IS v ≠ 0) : ∃ u ∈ G.nbrs v, u ≤ L ∧ IS u = 0 := by
  have h1 := h.1 v hv
  have h2 : zeros IS (low G L v) ≠ [] := by
    intro e
    rw [e] at h1
    exact hz (by simpa using h1)
  obtain ⟨u, hu⟩ := List.exists_mem_of_ne_nil _ h2
  simp only [zeros, List.mem_filter, decide_eq_true_eq] at hu
  exact ⟨u, ((mem_low G L v u).1 hu.1).1, ((mem_low G L v u).1 hu.1).2, hu.2⟩

theorem zeros_low_length (G : Graph) (L : Nat) (IS : Nat → Int) (v : Nat) :
    (zeros IS (low G L v)).length
      = ((G.nbrs v).filter (fun u => decide (u ≤ L) && decide (IS u = 0))).length := by
  simp [zeros, low, List.filter_filter, Bool.and_comm]

/-! ## The children of a node keep the counter invariant -/

theorem ideal_high (G : Graph) (L : Nat) (IS : Nat → Int) (pre : List Nat)
    (hle : ∀ u ∈ pre, u ≤ L) (k : Nat) (hk : L < k) :
    ideal G L IS pre k = IS k := by
  have hc : pre.count k = 0 := by
    apply List.count_eq_zero_of_not_mem
    intro hm
    have := hle k hm
    omega
  have hs : ((zeros IS pre).map (fun u => ((low G L u).count k : Int))).sum = 0 := by
    apply List.sum_eq_zero
    intro x hx
    obtain ⟨u, -, rfl⟩ := List.mem_map.1 hx
    have : (low G L u).count k = 0 := by
      apply List.count_eq_zero_of_not_mem
      intro hm
      have := ((mem_low G L u k).1 hm).2
      omega
    simp only [this, Nat.cast_zero]
  simp [ideal, hc, hs]

theorem ideal_low (G : Graph) (hG : G.Simple) (L : Nat) (IS : Nat → Int) (pre : List Nat)
    (hn : pre.Nodup) (hlt : ∀ u ∈ pre, u < G.n) (k : Nat) (hk : k < G.n) (hkL : k ≤ L) :
    ideal G L IS pre k
      = IS k + ((if k ∈ pre then 1 else 0 : Nat) : Int)
        - (((G.nbrs k).filter (fun u => decide (u ∈ pre) && decide (IS u = 0))).length : Int) := by
  unfold ideal
  rw [sum_swap G hG L IS pre hn hlt k hk hkL]
  by_cases hm : k ∈ pre
  · rw [List.count_eq_one_of_mem hn hm]; simp [hm]
  · rw [List.count_eq_zero_of_not_mem hm]; simp [hm]

theorem child_out_inv (G : Graph) (L : Nat)
    (IS : Nat → Int) (hinv : CounterInv G L IS)
    (hc : (zeros IS (low G L (L + 1))).length ≠ 0) :
    CounterInv G (L + 1) (upd IS (L + 1) ((zeros IS (low G L (L + 1))).length : Int)) := by
  have hup : ∀ u, u ≠ L + 1 →
      upd IS (L + 1) ((zeros IS (low G L (L + 1))).length : Int) u = IS u :=
    fun u hu => upd_other _ _ _ _ hu
  have hv1 : upd IS (L + 1) ((zeros IS (low G L (L + 1))).length : Int) (L + 1) ≠ 0 := by
    rw [upd_same]
    exact_mod_cast hc
  have key : ∀ v,
      ((G.nbrs v).filter (fun u => decide (u ≤ L + 1) &&
          decide (upd IS (L + 1) ((zeros IS (low G L (L + 1))).length : Int) u = 0))).length
        = ((G.nbrs v).filter (fun u => decide (u ≤ L) && decide (IS u = 0))).length := by
    intro v
    apply flen_congr
    intro u _
    by_cases hu : u = L + 1
    · subst hu
      simp [hv1]
    · rw [hup u hu]
      have : (u ≤ L + 1) ↔ (u ≤ L) := by omega
      simp [this]
  constructor
  · intro v hv
    rw [zeros_low_length G (L + 1) _ v, key v]
    by_cases hvv : v = L + 1
    · subst hvv
      rw [upd_same, zeros_low_length G L IS (L + 1)]
    · rw [hup v hvv, hinv.1 v (by omega), zeros_low_length G L IS v]
  · intro v hv
    rw [hup v (by omega)]
    exact hinv.2 v (by omega)

theorem child_in_zero (G : Graph) (hG : G.Simple) (L : Nat) (hL : L + 1 < G.n)
    (IS : Nat → Int) (hinv : CounterInv G L IS)
    (hpos : ∀ k, IS k ≠ 0 → 1 ≤ ideal G L IS (low G L (L + 1)) k) (u : Nat) (hu : u ≤ L) :
    ideal G L IS (low G L (L + 1)) u = 0 ↔ (IS u = 0 ∧ u ∉ G.nbrs (L + 1)) := by
  have hn := low_nodup G hG L (L + 1) hL
  have hlt : ∀ x ∈ low G L (L + 1), x < G.n := fun x hx => by
    have := ((mem_low G L (L + 1) x).1 hx).2
    omega
  have hval := ideal_low G hG L IS (low G L (L + 1)) hn hlt u (by omega) hu
  have hD : IS u = 0 →
      ((G.nbrs u).filter (fun x => decide (x ∈ low G L (L + 1)) && decide (IS x = 0))).length = 0 := by
    intro hz
    apply flen_zero
    intro x hx
    by_cases hx0 : IS x = 0
    · by_cases hxl : x ∈ low G L (L + 1)
      · exfalso
        exact counterInv_indep G L IS hinv u x hu ((mem_low G L (L + 1) x).1 hxl).2 hz hx0 hx
      · simp [hxl]
    · simp [hx0]
  have hmem : u ∈ low G L (L + 1) ↔ u ∈ G.nbrs (L + 1) := by
    rw [mem_low]
    exact ⟨fun h => h.1, fun h => ⟨h, hu⟩⟩
  constructor
  · intro h0
    have hz : IS u = 0 := by
      by_contra hne
      have := hpos u hne
      omega
    refine ⟨hz, ?_⟩
    rw [hval, hD hz, hz] at h0
    intro hm
    rw [if_pos (hmem.2 hm)] at h0
    simp at h0
  · rintro ⟨hz, hnm⟩
    rw [hval, hD hz, hz, if_neg (fun h => hnm (hmem.1 h))]
    simp

theorem child_in_inv (G : Graph) (hG : G.Simple) (L : Nat) (hL : L + 1 < G.n)
    (IS : Nat → Int) (hinv : CounterInv G L IS)
    (hpos : ∀ k, IS k ≠ 0 → 1 ≤ ideal G L IS (low G L (L + 1)) k) :
    CounterInv G (L + 1) (ideal G L IS (low G L (L + 1))) := by
  have hn := low_nodup G hG L (L + 1) hL
  have hle : ∀ x ∈ low G L (L + 1), x ≤ L := fun x hx => ((mem_low G L (L + 1) x).1 hx).2
  have hlt : ∀ x ∈ low G L (L + 1), x < G.n := fun x hx => by
    have := hle x hx
    omega
  have hz := child_in_zero G hG L hL IS hinv hpos
  have hv1 : ideal G L IS (low G L (L + 1)) (L + 1) = 0 := by
    rw [ideal_high G L IS _ hle (L + 1) (by omega)]
    exact hinv.2 (L + 1) (by omega)
  constructor
  · intro v hv
    rw [zeros_low_length]
    by_cases hvv : v = L + 1
    · subst hvv
      rw [hv1]
      symm
      have : ((G.nbrs (L + 1)).filter (fun u => decide (u ≤ L + 1) &&
          decide (ideal G L IS (low G L (L + 1)) u = 0))).length = 0 := by
        apply flen_zero
        intro u hu
        have hne : u ≠ L + 1 := ((hG (L + 1) hL).2 u hu).2.1
        by_cases hul : u ≤ L
        · have : ¬ ideal G L IS (low G L (L + 1)) u = 0 := by
            rw [hz u hul]
            intro h
            exact h.2 hu
          simp [this]
        · have : ¬ u ≤ L + 1 := by omega
          simp [this]
      rw [this]
      rfl
    · have hvL : v ≤ L := by omega
      have hvn : v < G.n := by omega
      rw [ideal_low G hG L IS (low G L (L + 1)) hn hlt v hvn hvL, hinv.1 v hvL, zeros_low_length]
      -- split the zero neighbours of `v` by membership in the visited list
      have hsplit := flen_split (G.nbrs v) (fun u => decide (u ≤ L) && decide (IS u = 0))
        (fun u => decide (u ∈ low G L (L + 1)))
      have h1 : ((G.nbrs v).filter (fun u => (decide (u ≤ L) && decide (IS u = 0))
            && decide (u ∈ low G L (L + 1)))).length
          = ((G.nbrs v).filter (fun u => decide (u ∈ low G L (L + 1)) && decide (IS u = 0))).length := by
        apply flen_congr
        intro u _
        by_cases hm : u ∈ low G L (L + 1)
        · have := hle u hm
          simp [hm, this]
        · simp [hm]
      have h2 : ((G.nbrs v).filter (fun u => decide (u ≤ L + 1) &&
            decide (ideal G L IS (low G L (L + 1)) u = 0))).length
          = ((G.nbrs v).filter (fun u => (decide (u ≤ L) && decide (IS u = 0))
              && !decide (u ∈ low G L (L + 1)))).length
            + ((G.nbrs v).filter (fun u => decide (u = L + 1))).length := by
        rw [← flen_or]
        · apply flen_congr
          intro u _
          by_cases hu1 : u = L + 1
          · subst hu1
            simp [hv1]
          · by_cases hul : u ≤ L
            · have e1 : u ≤ L + 1 := by omega
              have hm : u ∈ low G L (L + 1) ↔ u ∈ G.nbrs (L + 1) := by
                rw [mem_low]
                exact ⟨fun h => h.1, fun h => ⟨h, hul⟩⟩
              have := hz u hul
              by_cases h0 : ideal G L IS (low G L (L + 1)) u = 0
              · have h0' := this.1 h0
                simp [h0, e1, hul, hu1, h0'.1, hm, h0'.2]
              · have h0' : ¬ (IS u = 0 ∧ u ∉ G.nbrs (L + 1)) := fun h => h0 (this.2 h)
                by_cases hzu : IS u = 0
                · have : u ∈ G.nbrs (L + 1) := by
                    by_contra hc
                    exact h0' ⟨hzu, hc⟩
                  simp [h0, hu1, hm, this]
                · simp [h0, hu1, hzu]
            · have e1 : ¬ u ≤ L + 1 := by omega
              simp [e1, hul, hu1]
        · intro u _ h
          simp only [Bool.and_eq_true, decide_eq_true_eq, Bool.not_eq_true'] at h
          omega
      rw [h2, flen_eq_point _ (nbrs_nodup G hG v hvn)]
      have hmv : (L + 1 ∈ G.nbrs v) ↔ (v ∈ low G L (L + 1)) := by
        rw [mem_low, nbrs_symm G hG (L + 1) v hL hvn]
        exact ⟨fun h => ⟨h, hvL⟩, fun h => h.1⟩
      by_cases hm : v ∈ low G L (L + 1)
      · rw [if_pos hm, if_pos (hmv.2 hm)]
        rw [h1] at hsplit
        push_cast
        omega
      · rw [if_neg hm, if_neg (fun h => hm (hmv.1 h))]
        rw [h1] at hsplit
        push_cast
        omega
  · intro v hv
    rw [ideal_high G L IS _ hle v (by omega)]
    exact hinv.2 v (by omega)

/-! ## The recursion level by level -/

theorem leafSets_step (n : Nat) (adj_list : Nat → List Nat) (deg : Nat → Nat)
    (fuel : Nat) (IS : Nat → Int) (level : Nat) (h : level + 1 < n) :
    leafSets n adj_list deg (fuel + 1) IS level
      = (kids adj_list deg level IS).flatMap (fun s => leafSets n adj_list deg fuel s (level + 1)) := by
  have hleaf : ¬ ((level : Int) ≥ (n : Int) - 1) := by omega
  rw [leafSets, if_neg hleaf]
  unfold kids
  simp only
  split
  · simp
  · split <;> simp

theorem leafSets_leaf (n : Nat) (adj_list : Nat → List Nat) (deg : Nat → Nat)
    (fuel : Nat) (IS : Nat → Int) (level : Nat) (h : n ≤ level + 1) :
    leafSets n adj_list deg (fuel + 1) IS level = [leafSet n IS] := by
  have hleaf : ((level : Int) ≥ (n : Int) - 1) := by omega
  rw [leafSets, if_pos hleaf]
  rfl

theorem levelFrom_append (adj_list : Nat → List Nat) (deg : Nat → Nat) (m : Nat) :
    ∀ (L : Nat) (xs ys : List (Nat → Int)),
      levelFrom adj_list deg L m (xs ++ ys)
        = levelFrom adj_list deg L m xs ++ levelFrom adj_list deg L m ys := by
  induction m with
  | zero => intro L xs ys; rfl
  | succ m ih =>
    intro L xs ys
    simp only [levelFrom, List.flatMap_append, ih]

theorem levelFrom_flatMap (adj_list : Nat → List Nat) (deg : Nat → Nat) (m L : Nat)
    (xs : List (Nat → Int)) :
    levelFrom adj_list deg L m xs = xs.flatMap (fun s => levelFrom adj_list deg L m [s]) := by
  induction xs with
  | nil =>
    have : ∀ (m L : Nat), levelFrom adj_list deg L m [] = [] := by
      intro m
      induction m with
      | zero => intro L; rfl
      | succ m ih => intro L; simp only [levelFrom, List.flatMap_nil, ih]
    simp [this]
  | cons x xs ih =>
    have : x :: xs = [x] ++ xs := rfl
    rw [this, levelFrom_append, ih]
    simp

theorem leafSets_eq_level (n : Nat) (adj_list : Nat → List Nat) (deg : Nat → Nat) (m : Nat) :
    ∀ (L fuel : Nat) (IS : Nat → Int), L + m + 1 = n → m < fuel →
      leafSets n adj_list deg fuel IS L
        = (levelFrom adj_list deg L m [IS]).map (leafSet n) := by
  induction m with
  | zero =>
    intro L fuel IS hn hf
    obtain ⟨f, rfl⟩ : ∃ f, fuel = f + 1 := ⟨fuel - 1, by omega⟩
    rw [leafSets_leaf _ _ _ _ _ _ (by omega)]
    rfl
  | succ m ih =>
    intro L fuel IS hn hf
    obtain ⟨f, rfl⟩ : ∃ f, fuel = f + 1 := ⟨fuel - 1, by omega⟩
    rw [leafSets_step _ _ _ _ _ _ (by omega)]
    have : ∀ s, leafSets n adj_list deg f s (L + 1)
        = (levelFrom adj_list deg (L + 1) m [s]).map (leafSet n) :=
      fun s => ih (L + 1) f s (by omega) (by omega)
    simp only [this]
    simp only [levelFrom, List.flatMap_singleton]
    rw [levelFrom_flatMap, List.map_flatMap]

theorem incrAll_eq_ideal (G : Graph) (L : Nat) (IS : Nat → Int) (lowv : List Nat)
    (hz : zeros IS lowv = []) : incrAll IS lowv = ideal G L IS lowv := by
  funext k
  rw [incrAll_apply]
  simp [ideal, hz]

theorem removeLoop_main (G : Graph) (hG : G.Simple) (L : Nat) (hL : L + 1 < G.n)
    (IS : Nat → Int) (hinv : CounterInv G L IS) :
    ((removeLoop G.nbrs (fun i => (G.nbrs i).length) L (low G L (L + 1)) 0 (IS, [], true)).2.2 = true
        ↔ NoHit G L IS (low G L (L + 1))) ∧
    ((removeLoop G.nbrs (fun i => (G.nbrs i).length) L (low G L (L + 1)) 0 (IS, [], true)).2.2 = true →
      (removeLoop G.nbrs (fun i => (G.nbrs i).length) L (low G L (L + 1)) 0 (IS, [], true)).1
          = ideal G L IS (low G L (L + 1)) ∧
      ∀ k, IS k ≠ 0 → 1 ≤ ideal G L IS (low G L (L + 1)) k) := by
  have hle : ∀ x ∈ low G L (L + 1), x ≤ L := fun x hx => ((mem_low G L (L + 1) x).1 hx).2
  have hlt : ∀ x ∈ low G L (L + 1), x < G.n := fun x hx => by
    have := hle x hx
    omega
  obtain ⟨h1, h2⟩ := removeLoop_ideal G hG L IS (low G L (L + 1)) (low_nodup G hG L (L + 1) hL)
    hlt hle (counterInv_indep G L IS hinv) (low G L (L + 1)) [] 0 IS [] rfl
    (ideal_nil G L IS).symm (counterInv_pos G L IS hinv)
  refine ⟨?_, ?_⟩
  · rw [h1]
    unfold NoHit
    simp only [List.nil_append]
  · intro h
    obtain ⟨e, hp⟩ := h2 h
    refine ⟨e, ?_⟩
    rw [← e]
    exact hp

theorem mem_kids (G : Graph) (hG : G.Simple) (L : Nat) (hL : L + 1 < G.n)
    (IS : Nat → Int) (hinv : CounterInv G L IS) (k : Nat → Int)
    (hk : k ∈ kids G.nbrs (fun i => (G.nbrs i).length) L IS) :
    ((zeros IS (low G L (L + 1))).length ≠ 0 ∧
        k = upd IS (L + 1) ((zeros IS (low G L (L + 1))).length : Int)) ∨
    (k = ideal G L IS (low G L (L + 1)) ∧
      (∀ x, IS x ≠ 0 → 1 ≤ ideal G L IS (low G L (L + 1)) x) ∧
      ((zeros IS (low G L (L + 1))).length = 0 ∨ NoHit G L IS (low G L (L + 1)))) := by
  unfold kids at hk
  simp only at hk
  rw [lowScan_eq_low G hG L (L + 1) hL, countZero_eq] at hk
  obtain ⟨h1, h2⟩ := removeLoop_main G hG L hL IS hinv
  by_cases hc : (zeros IS (low G L (L + 1))).length = 0
  · rw [if_pos hc] at hk
    simp only [List.mem_singleton] at hk
    right
    have hz : zeros IS (low G L (L + 1)) = [] := List.length_eq_zero.1 hc
    refine ⟨by rw [hk, incrAll_eq_ideal G L IS _ hz], ?_, Or.inl hc⟩
    intro x hx
    have := counterInv_pos G L IS hinv x hx
    rw [← incrAll_eq_ideal G L IS _ hz, incrAll_apply]
    have : (0 : Int) ≤ ((low G L (L + 1)).count x : Int) := Int.natCast_nonneg _
    omega
  · rw [if_neg hc] at hk
    rcases List.mem_cons.1 hk with hk | hk
    · left
      exact ⟨hc, hk⟩
    · right
      by_cases hf : (removeLoop G.nbrs (fun i => (G.nbrs i).length) L (low G L (L + 1)) 0
          (IS, [], true)).2.2 = true
      · rw [if_pos hf] at hk
        simp only [List.mem_singleton] at hk
        obtain ⟨e, hp⟩ := h2 hf
        exact ⟨by rw [hk, e], hp, Or.inr (h1.1 hf)⟩
      · rw [if_neg hf] at hk
        simp at hk

theorem kids_out_mem (G : Graph) (hG : G.Simple) (L : Nat) (hL : L + 1 < G.n)
    (IS : Nat → Int) (hc : (zeros IS (low G L (L + 1))).length ≠ 0) :
    upd IS (L + 1) ((zeros IS (low G L (L + 1))).length : Int)
      ∈ kids G.nbrs (fun i => (G.nbrs i).length) L IS := by
  unfold kids
  simp only
  rw [lowScan_eq_low G hG L (L + 1) hL, countZero_eq, if_neg hc]
  exact List.mem_cons_self _ _

theorem kids_in_mem (G : Graph) (hG : G.Simple) (L : Nat) (hL : L + 1 < G.n)
    (IS : Nat → Int) (hinv : CounterInv G L IS)
    (h : (zeros IS (low G L (L + 1))).length = 0 ∨ NoHit G L IS (low G L (L + 1))) :
    ideal G L IS (low G L (L + 1)) ∈ kids G.nbrs (fun i => (G.nbrs i).length) L IS := by
  unfold kids
  simp only
  rw [lowScan_eq_low G hG L (L + 1) hL, countZero_eq]
  obtain ⟨h1, h2⟩ := removeLoop_main G hG L hL IS hinv
  by_cases hc : (zeros IS (low G L (L + 1))).length = 0
  · rw [if_pos hc, incrAll_eq_ideal G L IS _ (List.length_eq_zero.1 hc)]
    exact List.mem_singleton_self _
  · rw [if_neg hc]
    have hn : NoHit G L IS (low G L (L + 1)) := by
      rcases h with h | h
      · exact absurd h hc
      · exact h
    have hf := h1.2 hn
    rw [if_pos hf, (h2 hf).1]
    simp

theorem kids_inv (G : Graph) (hG : G.Simple) (L : Nat) (hL : L + 1 < G.n)
    (IS : Nat → Int) (hinv : CounterInv G L IS) (k : Nat → Int)
    (hk : k ∈ kids G.nbrs (fun i => (G.nbrs i).length) L IS) :
    CounterInv G (L + 1) k := by
  rcases mem_kids G hG L hL IS hinv k hk with ⟨hc, rfl⟩ | ⟨rfl, hp, -⟩
  · exact child_out_inv G L IS hinv hc
  · exact child_in_inv G hG L hL IS hinv hp

/-! ## Soundness of the backtrack engine -/

theorem levelFrom_inv (G : Graph) (hG : G.Simple) (m : Nat) :
    ∀ (L : Nat) (xs : List (Nat → Int)), L + m < G.n → (∀ s ∈ xs, CounterInv G L s) →
      ∀ s ∈ levelFrom G.nbrs (fun i => (G.nbrs i).length) L m xs, CounterInv G (L + m) s := by
  induction m with
  | zero => intro L xs _ h s hs; exact h s hs
  | succ m ih =>
    intro L xs hL h s hs
    rw [levelFrom] at hs
    have := ih (L + 1) (xs.flatMap (kids G.nbrs (fun i => (G.nbrs i).length) L)) (by omega)
      (by
        intro k hk
        obtain ⟨a, ha, hka⟩ := List.mem_flatMap.1 hk
        exact kids_inv G hG L (by omega) a (h a ha) k hka)
      s hs
    have e : L + 1 + m = L + (m + 1) := by omega
    rw [e] at this
    exact this

theorem counterInv_root (G : Graph) (hG : G.Simple) (hn : 0 < G.n) :
    CounterInv G 0 (fun _ => 0) := by
  constructor
  · intro v hv
    have hv0 : v = 0 := by omega
    subst hv0
    have : zeros (fun _ => (0 : Int)) (low G 0 0) = [] := by
      unfold zeros
      rw [List.filter_eq_nil_iff]
      intro u hu
      have h1 := (mem_low G 0 0 u).1 hu
      have h2 := ((hG 0 hn).2 u h1.1).2.1
      omega
    rw [this]
    rfl
  · intro v _
    rfl

theorem mem_leafSet (n : Nat) (IS : Nat → Int) (v : Nat) :
    v ∈ leafSet n IS ↔ v < n ∧ IS v = 0 := by
  simp [leafSet, List.mem_filter]

theorem leafSet_maximal (G : Graph) (L : Nat) (hL : L + 1 = G.n) (s : Nat → Int)
    (hinv : CounterInv G L s) : IsMaximalIndependentSet G (leafSet G.n s) := by
  refine ⟨List.Pairwise.filter _ (List.pairwise_lt_range _), ?_, ?_, ?_⟩
  · intro v hv
    exact ((mem_leafSet _ _ _).1 hv).1
  · intro u hu v hv
    have h1 := (mem_leafSet _ _ _).1 hu
    have h2 := (mem_leafSet _ _ _).1 hv
    exact counterInv_indep G L s hinv v u (by omega) (by omega) h2.2 h1.2
  · intro v hv hnm
    have hz : s v ≠ 0 := fun h => hnm ((mem_leafSet _ _ _).2 ⟨hv, h⟩)
    obtain ⟨u, hu, huL, hu0⟩ := counterInv_maximal G L s hinv v (by omega) hz
    exact ⟨u, (mem_leafSet _ _ _).2 ⟨by omega, hu0⟩, hu⟩

theorem mainLeaves_eq_level (G : Graph) (hn : 0 < G.n) :
    mainLeaves G.n G.nbrs
      = (levelFrom G.nbrs (fun i => (G.nbrs i).length) 0 (G.n - 1) [fun _ => 0]).map
          (leafSet G.n) := by
  unfold mainLeaves
  exact leafSets_eq_level G.n G.nbrs _ (G.n - 1) 0 (G.n + 1) _ (by omega) (by omega)

theorem mainLeaves_zero (G : Graph) (hn : G.n = 0) : mainLeaves G.n G.nbrs = [[]] := by
  unfold mainLeaves
  rw [hn]
  rfl

theorem mainLeaves_sound (G : Graph) (hG : G.Simple) (S : List Nat)
    (hS : S ∈ mainLeaves G.n G.nbrs) : IsMaximalIndependentSet G S := by
  by_cases hn : G.n = 0
  · rw [mainLeaves_zero G hn] at hS
    simp only [List.mem_singleton] at hS
    subst hS
    refine ⟨List.Pairwise.nil, by simp, by intro u hu; simp at hu, ?_⟩
    intro v hv
    omega
  · have hpos : 0 < G.n := Nat.pos_of_ne_zero hn
    rw [mainLeaves_eq_level G hpos] at hS
    obtain ⟨s, hs, rfl⟩ := List.mem_map.1 hS
    have := levelFrom_inv G hG (G.n - 1) 0 [fun _ => 0] (by omega)
      (by
        intro s hs
        simp only [List.mem_singleton] at hs
        subst hs
        exact counterInv_root G hG hpos)
      s hs
    exact leafSet_maximal G (0 + (G.n - 1)) (by omega) s this

/-! ## Every set is produced from one parent only -/

theorem exists_max_of_ne_nil (l : List Nat) (h : l ≠ []) : ∃ w ∈ l, ∀ u ∈ l, u ≤ w := by
  induction l with
  | nil => exact absurd rfl h
  | cons x xs ih =>
    by_cases hx : xs = []
    · subst hx
      exact ⟨x, List.mem_singleton_self x, fun u hu => by simp at hu; omega⟩
    · obtain ⟨w, hw, hmax⟩ := ih hx
      by_cases hxw : x ≤ w
      · refine ⟨w, List.mem_cons_of_mem _ hw, ?_⟩
        intro u hu
        rcases List.mem_cons.1 hu with h1 | h1
        · omega
        · exact hmax u h1
      · refine ⟨x, List.mem_cons_self _ _, ?_⟩
        intro u hu
        rcases List.mem_cons.1 hu with h1 | h1
        · omega
        · have := hmax u h1
          omega

theorem nohit_use (G : Graph) (hG : G.Simple) (L : Nat) (hL : L + 1 < G.n)
    (s : Nat → Int) (hinv : CounterInv G L s) (hno : NoHit G L s (low G L (L + 1)))
    (v : Nat) (hv : v ≤ L) (hz : s v ≠ 0)
    (hall : ∀ u ∈ G.nbrs v, u ≤ L → s u = 0 → u ∈ G.nbrs (L + 1)) :
    ∃ w ∈ G.nbrs v, w ≤ L ∧ s w = 0 ∧ v < w := by
  have hvn : v < G.n := by omega
  -- the largest zero neighbour of `v`
  have hne : (G.nbrs v).filter (fun u => decide (u ≤ L) && decide (s u = 0)) ≠ [] := by
    obtain ⟨u, hu, huL, hu0⟩ := counterInv_maximal G L s hinv v hv hz
    intro e
    have : u ∈ (G.nbrs v).filter (fun u => decide (u ≤ L) && decide (s u = 0)) := by
      simp [List.mem_filter, hu, huL, hu0]
    rw [e] at this
    simp at this
  obtain ⟨w, hw, hmax⟩ := exists_max_of_ne_nil _ hne
  simp only [List.mem_filter, Bool.and_eq_true, decide_eq_true_eq] at hw hmax
  obtain ⟨hwv, hwL, hw0⟩ := hw
  have hwn : w < G.n := by omega
  have hwlow : w ∈ low G L (L + 1) := (mem_low G L (L + 1) w).2 ⟨hall w hwv hwL hw0, hwL⟩
  obtain ⟨pre, rest, hsp⟩ := List.append_of_mem hwlow
  have hsorted := low_sorted G hG L (L + 1) hL
  rw [hsp] at hsorted
  have hs1 := List.pairwise_append.1 hsorted
  have hpre_lt : ∀ u ∈ pre, u < w := fun u hu => hs1.2.2 u hu w (List.mem_cons_self _ _)
  have hrest_gt : ∀ u ∈ rest, w < u := fun u hu => (List.pairwise_cons.1 hs1.2.1).1 u hu
  have hpre_mem : ∀ u ∈ pre, u ∈ low G L (L + 1) := fun u hu => by rw [hsp]; simp [hu]
  have hpre_le : ∀ u ∈ pre, u ≤ L := fun u hu => ((mem_low G L (L + 1) u).1 (hpre_mem u hu)).2
  have hpre_n : ∀ u ∈ pre, u < G.n := fun u hu => by have := hpre_le u hu; omega
  have hpre_nd : pre.Nodup := by
    have := low_nodup G hG L (L + 1) hL
    rw [hsp] at this
    exact (List.nodup_append.1 this).1
  have hvw : v ∈ low G L w :=
    (mem_low G L w v).2 ⟨(nbrs_symm G hG w v hwn hvn).1 hwv, hv⟩
  have hne1 := hno pre w rest hsp hw0 v hvw
  rw [ideal_low G hG L s pre hpre_nd hpre_n v hvn hv, hinv.1 v hv, zeros_low_length] at hne1
  have hsplit := flen_split (G.nbrs v) (fun u => decide (u ≤ L) && decide (s u = 0))
    (fun u => decide (u = w))
  have h1 : ((G.nbrs v).filter (fun u => (decide (u ≤ L) && decide (s u = 0))
      && decide (u = w))).length = 1 := by
    have : ((G.nbrs v).filter (fun u => (decide (u ≤ L) && decide (s u = 0))
        && decide (u = w))).length = ((G.nbrs v).filter (fun u => decide (u = w))).length := by
      apply flen_congr
      intro u _
      by_cases huw : u = w
      · subst huw
        simp [hwL, hw0]
      · simp [huw]
    rw [this, flen_eq_point _ (nbrs_nodup G hG v hvn), if_pos hwv]
  have h2 : ((G.nbrs v).filter (fun u => (decide (u ≤ L) && decide (s u = 0))
      && !decide (u = w))).length
      = ((G.nbrs v).filter (fun u => decide (u ∈ pre) && decide (s u = 0))).length := by
    apply flen_congr
    intro u hu
    by_cases hu0 : s u = 0
    · by_cases hup : u ∈ pre
      · have := hpre_lt u hup
        have := hpre_le u hup
        have hne : u ≠ w := by omega
        simp [hu0, hup, hne]
        omega
      · by_cases huL : u ≤ L
        · have hle := hmax u ⟨hu, huL, hu0⟩
          have hulow : u ∈ low G L (L + 1) := (mem_low G L (L + 1) u).2 ⟨hall u hu huL hu0, huL⟩
          rw [hsp] at hulow
          have : u = w := by
            rcases List.mem_append.1 hulow with h | h
            · exact absurd h hup
            · rcases List.mem_cons.1 h with h | h
              · exact h
              · have := hrest_gt u h
                omega
          subst this
          simp [hup]
        · simp [hup, huL]
    · simp [hu0]
  rw [h1, h2] at hsplit
  have hvpre : v ∈ pre := by
    by_contra hc
    rw [if_neg hc] at hne1
    apply hne1
    rw [hsplit]
    push_cast
    ring
  exact ⟨w, hwv, hwL, hw0, hpre_lt v hvpre⟩

theorem parent_core (G : Graph) (hG : G.Simple) (L : Nat) (hL : L + 1 < G.n)
    (s1 s2 : Nat → Int) (h1 : CounterInv G L s1) (h2 : CounterInv G L s2)
    (hin2 : (zeros s2 (low G L (L + 1))).length = 0 ∨ NoHit G L s2 (low G L (L + 1)))
    (hJ : ∀ u, u ≤ L → ((s1 u = 0 ∧ u ∉ G.nbrs (L + 1)) ↔ (s2 u = 0 ∧ u ∉ G.nbrs (L + 1))))
    (v : Nat) (hv : v ≤ L) (hhi : ∀ u, v < u → u ≤ L → (s1 u = 0 ↔ s2 u = 0))
    (hz : s1 v = 0) : s2 v = 0 := by
  by_contra hne
  have hall : ∀ u ∈ G.nbrs v, u ≤ L → s2 u = 0 → u ∈ G.nbrs (L + 1) := by
    intro u hu huL hu0
    by_contra hc
    have := ((hJ u huL).2 ⟨hu0, hc⟩).1
    exact counterInv_indep G L s1 h1 v u hv huL hz this hu
  rcases hin2 with hc | hno
  · obtain ⟨u, hu, huL, hu0⟩ := counterInv_maximal G L s2 h2 v hv hne
    have : u ∈ zeros s2 (low G L (L + 1)) := by
      simp only [zeros, List.mem_filter, decide_eq_true_eq]
      exact ⟨(mem_low G L (L + 1) u).2 ⟨hall u hu huL hu0, huL⟩, hu0⟩
    rw [List.length_eq_zero] at hc
    rw [hc] at this
    simp at this
  · obtain ⟨w, hw, hwL, hw0, hvw⟩ := nohit_use G hG L hL s2 h2 hno v hv hne hall
    have := (hhi w hvw hwL).2 hw0
    exact counterInv_indep G L s1 h1 v w hv hwL hz this hw

theorem parent_unique_in (G : Graph) (hG : G.Simple) (L : Nat) (hL : L + 1 < G.n)
    (s1 s2 : Nat → Int) (h1 : CounterInv G L s1) (h2 : CounterInv G L s2)
    (hin1 : (zeros s1 (low G L (L + 1))).length = 0 ∨ NoHit G L s1 (low G L (L + 1)))
    (hin2 : (zeros s2 (low G L (L + 1))).length = 0 ∨ NoHit G L s2 (low G L (L + 1)))
    (hJ : ∀ u, u ≤ L → ((s1 u = 0 ∧ u ∉ G.nbrs (L + 1)) ↔ (s2 u = 0 ∧ u ∉ G.nbrs (L + 1)))) :
    ∀ v, v ≤ L → (s1 v = 0 ↔ s2 v = 0) := by
  have key : ∀ d v, v ≤ L → L - v = d → (s1 v = 0 ↔ s2 v = 0) := by
    intro d
    induction d using Nat.strong_induction_on with
    | _ d ih =>
      intro v hv hd
      have hhi : ∀ u, v < u → u ≤ L → (s1 u = 0 ↔ s2 u = 0) :=
        fun u hu1 hu2 => ih (L - u) (by omega) u hu2 rfl
      constructor
      · exact parent_core G hG L hL s1 s2 h1 h2 hin2 hJ v hv hhi
      · exact parent_core G hG L hL s2 s1 h2 h1 hin1 (fun u hu => (hJ u hu).symm) v hv
          (fun u hu1 hu2 => (hhi u hu1 hu2).symm)
  intro v hv
  exact key (L - v) v hv rfl

theorem ideal_top (G : Graph) (L : Nat) (s : Nat → Int) (hinv : CounterInv G L s) :
    ideal G L s (low G L (L + 1)) (L + 1) = 0 := by
  rw [ideal_high G L s _ (fun x hx => ((mem_low G L (L + 1) x).1 hx).2) (L + 1) (by omega)]
  exact hinv.2 (L + 1) (by omega)

theorem parent_unique (G : Graph) (hG : G.Simple) (L : Nat) (hL : L + 1 < G.n)
    (s1 s2 : Nat → Int) (h1 : CounterInv G L s1) (h2 : CounterInv G L s2)
    (k1 k2 : Nat → Int)
    (hk1 : k1 ∈ kids G.nbrs (fun i => (G.nbrs i).length) L s1)
    (hk2 : k2 ∈ kids G.nbrs (fun i => (G.nbrs i).length) L s2)
    (heq : ∀ v, v ≤ L + 1 → (k1 v = 0 ↔ k2 v = 0)) :
    ∀ v, v ≤ L → (s1 v = 0 ↔ s2 v = 0) := by
  rcases mem_kids G hG L hL s1 h1 k1 hk1 with ⟨hc1, e1⟩ | ⟨e1, hp1, hin1⟩ <;>
    rcases mem_kids G hG L hL s2 h2 k2 hk2 with ⟨hc2, e2⟩ | ⟨e2, hp2, hin2⟩
  · intro v hv
    have := heq v (by omega)
    rw [e1, e2, upd_other _ _ _ _ (by omega), upd_other _ _ _ _ (by omega)] at this
    exact this
  · exfalso
    have := heq (L + 1) (by omega)
    rw [e1, e2, upd_same, ideal_top G L s2 h2] at this
    have h' : ((zeros s1 (low G L (L + 1))).length : Int) = 0 := this.2 rfl
    exact hc1 (by exact_mod_cast h')
  · exfalso
    have := heq (L + 1) (by omega)
    rw [e1, e2, upd_same, ideal_top G L s1 h1] at this
    have h' : ((zeros s2 (low G L (L + 1))).length : Int) = 0 := this.1 rfl
    exact hc2 (by exact_mod_cast h')
  · apply parent_unique_in G hG L hL s1 s2 h1 h2 hin1 hin2
    intro u hu
    have := heq u (by omega)
    rw [e1, e2, child_in_zero G hG L hL s1 h1 hp1 u hu,
      child_in_zero G hG L hL s2 h2 hp2 u hu] at this
    exact this

theorem kids_pairwise (G : Graph) (hG : G.Simple) (L : Nat) (hL : L + 1 < G.n)
    (s : Nat → Int) (hinv : CounterInv G L s) :
    (kids G.nbrs (fun i => (G.nbrs i).length) L s).Pairwise (Distinct (L + 1)) := by
  have hmem := mem_kids G hG L hL s hinv
  unfold kids at hmem ⊢
  simp only at hmem ⊢
  split
  · exact List.pairwise_singleton _ _
  · rename_i hc
    rw [if_neg hc] at hmem
    split
    · rename_i hf
      rw [if_pos hf] at hmem
      rw [List.pairwise_cons]
      refine ⟨?_, List.pairwise_singleton _ _⟩
      intro b hb
      simp only [List.mem_singleton] at hb
      refine ⟨L + 1, le_refl _, ?_⟩
      have hb' := hmem b (by rw [hb]; simp)
      rcases hb' with ⟨hc', e⟩ | ⟨e, -, -⟩
      · -- the second child cannot be of the first kind
        exfalso
        have h1 := removeLoop_main G hG L hL s hinv
        rw [lowScan_eq_low G hG L (L + 1) hL] at hf hb
        have := (h1.2 hf).1
        rw [← hb, e] at this
        have h2 := congrFun this (L + 1)
        rw [upd_same, ideal_top G L s hinv] at h2
        exact hc' (by exact_mod_cast h2)
      · rw [lowScan_eq_low G hG L (L + 1) hL, countZero_eq] at hc
        rw [e, upd_same, ideal_top G L s hinv, lowScan_eq_low G hG L (L + 1) hL, countZero_eq]
        intro h
        have h' : ((zeros s (low G L (L + 1))).length : Int) = 0 := h.2 rfl
        exact hc (by exact_mod_cast h')
    · exact List.pairwise_singleton _ _

theorem level_distinct_step (G : Graph) (hG : G.Simple) (L : Nat) (hL : L + 1 < G.n)
    (xs : List (Nat → Int)) (hinv : ∀ s ∈ xs, CounterInv G L s)
    (hd : xs.Pairwise (Distinct L)) :
    (xs.flatMap (kids G.nbrs (fun i => (G.nbrs i).length) L)).Pairwise (Distinct (L + 1)) := by
  rw [List.pairwise_flatMap]
  refine ⟨fun a ha => kids_pairwise G hG L hL a (hinv a ha), ?_⟩
  apply List.Pairwise.imp_of_mem _ hd
  intro a b ha hb hab x hx y hy
  by_contra hc
  obtain ⟨v, hv, hne⟩ := hab
  apply hne
  apply parent_unique G hG L hL a b (hinv a ha) (hinv b hb) x y hx hy _ v hv
  intro u hu
  by_contra hcu
  exact hc ⟨u, hu, hcu⟩

theorem levelFrom_distinct (G : Graph) (hG : G.Simple) (m : Nat) :
    ∀ (L : Nat) (xs : List (Nat → Int)), L + m < G.n → (∀ s ∈ xs, CounterInv G L s) →
      xs.Pairwise (Distinct L) →
      (levelFrom G.nbrs (fun i => (G.nbrs i).length) L m xs).Pairwise (Distinct (L + m)) := by
  induction m with
  | zero => intro L xs _ _ hd; exact hd
  | succ m ih =>
    intro L xs hL hinv hd
    rw [levelFrom]
    have := ih (L + 1) (xs.flatMap (kids G.nbrs (fun i => (G.nbrs i).length) L)) (by omega)
      (by
        intro k hk
        obtain ⟨a, ha, hka⟩ := List.mem_flatMap.1 hk
        exact kids_inv G hG L (by omega) a (hinv a ha) k hka)
      (level_distinct_step G hG L (by omega) xs hinv hd)
    have e : L + 1 + m = L + (m + 1) := by omega
    rw [e] at this
    exact this

theorem mainLeaves_nodup (G : Graph) (hG : G.Simple) : (mainLeaves G.n G.nbrs).Nodup := by
  by_cases hn : G.n = 0
  · rw [mainLeaves_zero G hn]
    simp
  · have hpos : 0 < G.n := Nat.pos_of_ne_zero hn
    rw [mainLeaves_eq_level G hpos]
    have hd := levelFrom_distinct G hG (G.n - 1) 0 [fun _ => 0] (by omega)
      (by
        intro s hs
        simp only [List.mem_singleton] at hs
        subst hs
        exact counterInv_root G hG hpos)
      (List.pairwise_singleton _ _)
    unfold List.Nodup
    rw [List.pairwise_map]
    apply List.Pairwise.imp _ hd
    intro a b hab heq
    obtain ⟨v, hv, hne⟩ := hab
    apply hne
    have hm : v ∈ leafSet G.n a ↔ v ∈ leafSet G.n b := by rw [heq]
    rw [mem_leafSet, mem_leafSet] at hm
    constructor
    · intro h
      exact (hm.1 ⟨by omega, h⟩).2
    · intro h
      exact (hm.2 ⟨by omega, h⟩).2

/-! ## Completeness of the backtrack engine -/

theorem canonical_step (G : Graph) (hG : G.Simple) (L : Nat) (hL : L < G.n) (J : Nat → Prop)
    (hJle : ∀ v, J v → v ≤ L) (hJi : ∀ u v, J u → J v → u ∉ G.nbrs v) (m : Nat) :
    m ≤ L + 1 →
    ∃ I : Nat → Prop, (∀ v, J v → I v) ∧ (∀ v, I v → v ≤ L) ∧
      (∀ u v, I u → I v → u ∉ G.nbrs v) ∧ (∀ v, I v → J v ∨ L + 1 ≤ v + m) ∧
      (∀ k, k ≤ L → L + 1 ≤ k + m → ¬ I k → ∃ u, I u ∧ u ∈ G.nbrs k ∧ (J u ∨ k < u)) := by
  induction m with
  | zero =>
    intro _
    refine ⟨J, fun v h => h, hJle, hJi, fun v h => Or.inl h, ?_⟩
    intro k hk hk2
    omega
  | succ m ih =>
    intro hm
    obtain ⟨I, h1, h2, h3, h4, h5⟩ := ih (by omega)
    by_cases hc : I (L - m) ∨ ∃ u, I u ∧ u ∈ G.nbrs (L - m)
    · refine ⟨I, h1, h2, h3, ?_, ?_⟩
      · intro v hv
        rcases h4 v hv with h | h
        · exact Or.inl h
        · exact Or.inr (by omega)
      · intro k hk hk2 hIk
        by_cases hk0 : k = L - m
        · subst hk0
          rcases hc with hc | ⟨u, hu, hun⟩
          · exact absurd hc hIk
          · refine ⟨u, hu, hun, ?_⟩
            rcases h4 u hu with h | h
            · exact Or.inl h
            · exact Or.inr (by omega)
        · exact h5 k hk (by omega) hIk
    · have hc1 : ¬ I (L - m) := fun h => hc (Or.inl h)
      have hc2 : ∀ u, I u → u ∉ G.nbrs (L - m) := fun u hu hun => hc (Or.inr ⟨u, hu, hun⟩)
      have hk0n : L - m < G.n := by omega
      refine ⟨fun v => v = L - m ∨ I v, fun v hv => Or.inr (h1 v hv), ?_, ?_, ?_, ?_⟩
      · intro v hv
        rcases hv with h | h
        · omega
        · exact h2 v h
      · intro u v hu hv
        rcases hu with hu | hu <;> rcases hv with hv | hv
        · subst hu; subst hv
          intro hmem
          exact ((hG _ hk0n).2 _ hmem).2.1 rfl
        · subst hu
          intro hmem
          have hvn : v < G.n := by have := h2 v hv; omega
          exact hc2 v hv ((nbrs_symm G hG v (L - m) hvn hk0n).2 hmem)
        · subst hv
          exact hc2 u hu
        · exact h3 u v hu hv
      · intro v hv
        rcases hv with h | h
        · exact Or.inr (by omega)
        · rcases h4 v h with h' | h'
          · exact Or.inl h'
          · exact Or.inr (by omega)
      · intro k hk hk2 hIk
        have hk0 : k ≠ L - m := fun e => hIk (Or.inl e)
        have hIk' : ¬ I k := fun h => hIk (Or.inr h)
        obtain ⟨u, hu, hun, hor⟩ := h5 k hk (by omega) hIk'
        exact ⟨u, Or.inr hu, hun, hor⟩

theorem canonical_exists (G : Graph) (hG : G.Simple) (L : Nat) (hL : L < G.n) (J : Nat → Prop)
    (hJle : ∀ v, J v → v ≤ L) (hJi : ∀ u v, J u → J v → u ∉ G.nbrs v) :
    ∃ I : Nat → Prop, (∀ v, J v → I v) ∧ (∀ v, I v → v ≤ L) ∧
      (∀ u v, I u → I v → u ∉ G.nbrs v) ∧
      (∀ k, k ≤ L → ¬ I k → ∃ u, I u ∧ u ∈ G.nbrs k ∧ (J u ∨ k < u)) := by
  obtain ⟨I, h1, h2, h3, -, h5⟩ := canonical_step G hG L hL J hJle hJi (L + 1) (le_refl _)
  exact ⟨I, h1, h2, h3, fun k hk hIk => h5 k hk (by omega) hIk⟩

theorem nohit_of_canonical (G : Graph) (hG : G.Simple) (L : Nat) (hL : L + 1 < G.n)
    (s : Nat → Int) (hinv : CounterInv G L s) (I' : Nat → Prop)
    (hI' : MaxIndepUpTo G (L + 1) I') (hv1 : I' (L + 1))
    (hsJ : ∀ u, u ≤ L → I' u → s u = 0)
    (hcan : ∀ k, k ≤ L → s k ≠ 0 → ∃ u, s u = 0 ∧ u ≤ L ∧ u ∈ G.nbrs k ∧ (I' u ∨ k < u)) :
    NoHit G L s (low G L (L + 1)) := by
  intro pre w rest hsp hw0 k hk heq
  have hkw : k ∈ G.nbrs w := ((mem_low G L w k).1 hk).1
  have hkL : k ≤ L := ((mem_low G L w k).1 hk).2
  have hwlow : w ∈ low G L (L + 1) := by rw [hsp]; simp
  have hwL : w ≤ L := ((mem_low G L (L + 1) w).1 hwlow).2
  have hkn : k < G.n := by omega
  have hwn : w < G.n := by omega
  have hwk : w ∈ G.nbrs k := (nbrs_symm G hG w k hwn hkn).2 hkw
  have hsk : s k ≠ 0 := fun h => counterInv_indep G L s hinv w k hwL hkL hw0 h hkw
  have hsorted := low_sorted G hG L (L + 1) hL
  rw [hsp] at hsorted
  have hs1 := List.pairwise_append.1 hsorted
  have hpre_lt : ∀ u ∈ pre, u < w := fun u hu => hs1.2.2 u hu w (List.mem_cons_self _ _)
  have hrest_gt : ∀ u ∈ rest, w < u := fun u hu => (List.pairwise_cons.1 hs1.2.1).1 u hu
  have hpre_mem : ∀ u ∈ pre, u ∈ low G L (L + 1) := fun u hu => by rw [hsp]; simp [hu]
  have hpre_le : ∀ u ∈ pre, u ≤ L := fun u hu => ((mem_low G L (L + 1) u).1 (hpre_mem u hu)).2
  have hpre_n : ∀ u ∈ pre, u < G.n := fun u hu => by have := hpre_le u hu; omega
  have hpre_nd : pre.Nodup := by
    have := low_nodup G hG L (L + 1) hL
    rw [hsp] at this
    exact (List.nodup_append.1 this).1
  have hwpre : w ∉ pre := fun h => by have := hpre_lt w h; omega
  rw [ideal_low G hG L s pre hpre_nd hpre_n k hkn hkL, hinv.1 k hkL, zeros_low_length] at heq
  have hsplit := flen_split (G.nbrs k) (fun u => decide (u ≤ L) && decide (s u = 0))
    (fun u => decide (u ∈ pre))
  have h1 : ((G.nbrs k).filter (fun u => (decide (u ≤ L) && decide (s u = 0))
      && decide (u ∈ pre))).length
      = ((G.nbrs k).filter (fun u => decide (u ∈ pre) && decide (s u = 0))).length := by
    apply flen_congr
    intro u _
    by_cases hup : u ∈ pre
    · have := hpre_le u hup
      simp [hup, this]
    · simp [hup]
  have hwF : w ∈ (G.nbrs k).filter (fun u => (decide (u ≤ L) && decide (s u = 0))
      && !decide (u ∈ pre)) := by
    simp [List.mem_filter, hwk, hwL, hw0, hwpre]
  have hYpos : 0 < ((G.nbrs k).filter (fun u => (decide (u ≤ L) && decide (s u = 0))
      && !decide (u ∈ pre))).length := List.length_pos_of_mem hwF
  rw [h1] at hsplit
  have hkpre : k ∉ pre := by
    intro h
    rw [if_pos h] at heq
    push_cast at heq
    omega
  rw [if_neg hkpre] at heq
  have hY1 : ((G.nbrs k).filter (fun u => (decide (u ≤ L) && decide (s u = 0))
      && !decide (u ∈ pre))).length = 1 := by
    push_cast at heq
    omega
  obtain ⟨a, ha⟩ := List.length_eq_one.1 hY1
  have haw : a = w := by
    rw [ha] at hwF
    exact (List.mem_singleton.1 hwF).symm
  have honly : ∀ u ∈ G.nbrs k, u ≤ L → s u = 0 → u ∉ pre → u = w := by
    intro u hu huL hu0 hup
    have : u ∈ (G.nbrs k).filter (fun u => (decide (u ≤ L) && decide (s u = 0))
        && !decide (u ∈ pre)) := by
      simp [List.mem_filter, hu, huL, hu0, hup]
    rw [ha] at this
    rw [← haw]
    exact List.mem_singleton.1 this
  have hzN : ∀ u ∈ G.nbrs k, u ≤ L → s u = 0 → u ∈ G.nbrs (L + 1) ∧ u ≤ w := by
    intro u hu huL hu0
    by_cases hup : u ∈ pre
    · exact ⟨((mem_low G L (L + 1) u).1 (hpre_mem u hup)).1, Nat.le_of_lt (hpre_lt u hup)⟩
    · have := honly u hu huL hu0 hup
      subst this
      exact ⟨((mem_low G L (L + 1) u).1 hwlow).1, le_refl _⟩
  -- the canonical choice puts `k` below `w`
  have hklt : k < w := by
    obtain ⟨u, hu0, huL, hu, hor⟩ := hcan k hkL hsk
    have := hzN u hu huL hu0
    rcases hor with h | h
    · exact absurd this.1 (hI'.2.1 u (L + 1) h hv1)
    · omega
  -- but `k` is a visited neighbour of `v1` outside `pre`, hence above `w`
  have hIk : ¬ I' k := fun h => hsk (hsJ k hkL h)
  obtain ⟨x, hx, hxk⟩ := hI'.2.2 k (by omega) hIk
  have hxle := hI'.1 x hx
  have hkN : k ∈ G.nbrs (L + 1) := by
    by_cases hx1 : x = L + 1
    · subst hx1
      exact (nbrs_symm G hG k (L + 1) hkn hL).2 hxk
    · have hxL : x ≤ L := by omega
      have := hzN x hxk hxL (hsJ x hxL hx)
      exact absurd this.1 (hI'.2.1 x (L + 1) hx hv1)
  have hklow : k ∈ low G L (L + 1) := (mem_low G L (L + 1) k).2 ⟨hkN, hkL⟩
  rw [hsp] at hklow
  rcases List.mem_append.1 hklow with h | h
  · exact hkpre h
  · rcases List.mem_cons.1 h with h | h
    · omega
    · have := hrest_gt k h
      omega

theorem level_complete_step (G : Graph) (hG : G.Simple) (L : Nat) (hL : L + 1 < G.n)
    (xs : List (Nat → Int)) (hinv : ∀ s ∈ xs, CounterInv G L s)
    (hcov : ∀ I : Nat → Prop, MaxIndepUpTo G L I →
      ∃ s ∈ xs, ∀ v, v ≤ L → (s v = 0 ↔ I v))
    (I' : Nat → Prop) (hI' : MaxIndepUpTo G (L + 1) I') :
    ∃ k ∈ xs.flatMap (kids G.nbrs (fun i => (G.nbrs i).length) L),
      ∀ v, v ≤ L + 1 → (k v = 0 ↔ I' v) := by
  by_cases hv1 : I' (L + 1)
  · -- `v1` belongs to the set: take the canonical parent
    obtain ⟨I, hJI, hIle, hIi, hIc⟩ := canonical_exists G hG L (by omega)
      (fun v => I' v ∧ v ≤ L) (fun v h => h.2) (fun u v hu hv => hI'.2.1 u v hu.1 hv.1)
    have hImax : MaxIndepUpTo G L I := by
      refine ⟨hIle, hIi, ?_⟩
      intro v hv hnv
      obtain ⟨u, hu, hun, -⟩ := hIc v hv hnv
      exact ⟨u, hu, hun⟩
    obtain ⟨s, hs, hsI⟩ := hcov I hImax
    have hsinv := hinv s hs
    have hno : NoHit G L s (low G L (L + 1)) := by
      apply nohit_of_canonical G hG L hL s hsinv I' hI' hv1
      · intro u hu hIu
        exact (hsI u hu).2 (hJI u ⟨hIu, hu⟩)
      · intro k hk hsk
        have hnk : ¬ I k := fun h => hsk ((hsI k hk).2 h)
        obtain ⟨u, hu, hun, hor⟩ := hIc k hk hnk
        refine ⟨u, (hsI u (hIle u hu)).2 hu, hIle u hu, hun, ?_⟩
        rcases hor with h | h
        · exact Or.inl h.1
        · exact Or.inr h
    have hmemk := kids_in_mem G hG L hL s hsinv (Or.inr hno)
    have hp : ∀ x, s x ≠ 0 → 1 ≤ ideal G L s (low G L (L + 1)) x := by
      rcases mem_kids G hG L hL s hsinv _ hmemk with ⟨hc, e⟩ | ⟨-, hp, -⟩
      · exfalso
        have h2 := congrFun e (L + 1)
        rw [upd_same, ideal_top G L s hsinv] at h2
        exact hc (by exact_mod_cast h2.symm)
      · exact hp
    refine ⟨_, List.mem_flatMap.2 ⟨s, hs, hmemk⟩, ?_⟩
    intro v hv
    by_cases hvv : v = L + 1
    · subst hvv
      rw [ideal_top G L s hsinv]
      exact ⟨fun _ => hv1, fun _ => rfl⟩
    · have hvL : v ≤ L := by omega
      have hvn : v < G.n := by omega
      rw [child_in_zero G hG L hL s hsinv hp v hvL, hsI v hvL]
      constructor
      · rintro ⟨hIv, hvN⟩
        by_contra hc
        obtain ⟨x, hx, hxv⟩ := hI'.2.2 v (by omega) hc
        have hxle := hI'.1 x hx
        by_cases hx1 : x = L + 1
        · subst hx1
          exact hvN ((nbrs_symm G hG v (L + 1) hvn hL).2 hxv)
        · exact hIi x v (hJI x ⟨hx, by omega⟩) hIv hxv
      · intro hIv
        exact ⟨hJI v ⟨hIv, hvL⟩, hI'.2.1 v (L + 1) hIv hv1⟩
  · -- `v1` stays outside: the set is already maximal one level below
    have hImax : MaxIndepUpTo G L I' := by
      refine ⟨?_, hI'.2.1, ?_⟩
      · intro v hv
        have := hI'.1 v hv
        have hne : v ≠ L + 1 := fun e => hv1 (e ▸ hv)
        omega
      · intro v hv hnv
        exact hI'.2.2 v (by omega) hnv
    obtain ⟨s, hs, hsI⟩ := hcov I' hImax
    have hc : (zeros s (low G L (L + 1))).length ≠ 0 := by
      obtain ⟨u, hu, hun⟩ := hI'.2.2 (L + 1) (le_refl _) hv1
      have huL := hImax.1 u hu
      have : u ∈ zeros s (low G L (L + 1)) := by
        simp only [zeros, List.mem_filter, decide_eq_true_eq]
        exact ⟨(mem_low G L (L + 1) u).2 ⟨hun, huL⟩, (hsI u huL).2 hu⟩
      intro e
      rw [List.length_eq_zero] at e
      rw [e] at this
      simp at this
    refine ⟨_, List.mem_flatMap.2 ⟨s, hs, kids_out_mem G hG L hL s hc⟩, ?_⟩
    intro v hv
    by_cases hvv : v = L + 1
    · subst hvv
      rw [upd_same]
      constructor
      · intro h
        exact absurd (by exact_mod_cast h) hc
      · intro h
        exact absurd h hv1
    · rw [upd_other _ _ _ _ hvv]
      exact hsI v (by omega)

theorem levelFrom_complete (G : Graph) (hG : G.Simple) (m : Nat) :
    ∀ (L : Nat) (xs : List (Nat → Int)), L + m < G.n → (∀ s ∈ xs, CounterInv G L s) →
      (∀ I : Nat → Prop, MaxIndepUpTo G L I → ∃ s ∈ xs, ∀ v, v ≤ L → (s v = 0 ↔ I v)) →
      ∀ I : Nat → Prop, MaxIndepUpTo G (L + m) I →
        ∃ s ∈ levelFrom G.nbrs (fun i => (G.nbrs i).length) L m xs,
          ∀ v, v ≤ L + m → (s v = 0 ↔ I v) := by
  induction m with
  | zero => intro L xs _ _ hcov I hI; exact hcov I hI
  | succ m ih =>
    intro L xs hL hinv hcov I hI
    rw [levelFrom]
    have e : L + 1 + m = L + (m + 1) := by omega
    have := ih (L + 1) (xs.flatMap (kids G.nbrs (fun i => (G.nbrs i).length) L)) (by omega)
      (by
        intro k hk
        obtain ⟨a, ha, hka⟩ := List.mem_flatMap.1 hk
        exact kids_inv G hG L (by omega) a (hinv a ha) k hka)
      (fun I' hI' => level_complete_step G hG L (by omega) xs hinv hcov I' hI')
      I (by rw [e]; exact hI)
    rw [e] at this
    exact this

theorem mainLeaves_complete (G : Graph) (hG : G.Simple) (S : List Nat)
    (hS : IsMaximalIndependentSet G S) : S ∈ mainLeaves G.n G.nbrs := by
  obtain ⟨hsort, hlt, hind, hmax⟩ := hS
  by_cases hn : G.n = 0
  · rw [mainLeaves_zero G hn]
    have : S = [] := by
      cases S with
      | nil => rfl
      | cons x xs =>
        have := hlt x (List.mem_cons_self _ _)
        omega
    rw [this]
    exact List.mem_singleton_self _
  · have hpos : 0 < G.n := Nat.pos_of_ne_zero hn
    rw [mainLeaves_eq_level G hpos]
    have hI : MaxIndepUpTo G (0 + (G.n - 1)) (fun v => v ∈ S) := by
      refine ⟨?_, ?_, ?_⟩
      · intro v hv
        have := hlt v hv
        omega
      · intro u v hu hv
        exact hind u hu v hv
      · intro v hv hnv
        exact hmax v (by omega) hnv
    obtain ⟨s, hs, hsS⟩ := levelFrom_complete G hG (G.n - 1) 0 [fun _ => 0] (by omega)
      (by
        intro s hs
        simp only [List.mem_singleton] at hs
        subst hs
        exact counterInv_root G hG hpos)
      (by
        intro I hI
        refine ⟨fun _ => 0, List.mem_singleton_self _, ?_⟩
        intro v hv
        have hv0 : v = 0 := by omega
        subst hv0
        refine ⟨fun _ => ?_, fun _ => rfl⟩
        by_contra hc
        obtain ⟨u, hu, hun⟩ := hI.2.2 0 (le_refl _) hc
        have hu0 : u = 0 := by have := hI.1 u hu; omega
        subst hu0
        exact ((hG 0 hpos).2 0 hun).2.1 rfl)
      (fun v => v ∈ S) hI
    refine List.mem_map.2 ⟨s, hs, ?_⟩
    rw [sorted_eq_filter_range S G.n hsort hlt]
    unfold leafSet
    apply List.filter_congr
    intro v hv
    have hvn : v < G.n := List.mem_range.1 hv
    have := hsS v (by omega)
    by_cases h0 : s v = 0
    · simp [h0, this.1 h0]
    · have : v ∉ S := fun h => h0 (this.2 h)
      simp [h0, this]

/-! ## The complement graph -/

theorem mem_complement_nbrs (G : Graph) (u v : Nat) :
    u ∈ (complement G).nbrs v ↔ u < G.n ∧ u ≠ v ∧ u ∉ G.nbrs v := by
  simp [complement, igraph_adjlist_init_complementer, List.mem_filter]

theorem complement_simple (G : Graph) (hG : G.Simple) : (complement G).Simple := by
  intro v hv
  have hv' : v < G.n := hv
  refine ⟨List.Pairwise.filter _ (List.pairwise_lt_range _), ?_⟩
  intro u hu
  rw [mem_complement_nbrs] at hu
  refine ⟨hu.1, hu.2.1, ?_⟩
  rw [mem_complement_nbrs]
  refine ⟨hv', fun e => hu.2.1 e.symm, ?_⟩
  intro h
  exact hu.2.2 ((nbrs_symm G hG u v hu.1 hv').2 h)

theorem maximalIndependent_complement (G : Graph) (S : List Nat) :
    IsMaximalIndependentSet (complement G) S ↔ IsMaximalClique G S := by
  constructor
  · rintro ⟨h1, h2, h3, h4⟩
    have h2' : ∀ v ∈ S, v < G.n := h2
    refine ⟨h1, h2', ?_, ?_⟩
    · intro u hu v hv hne
      have := h3 u hu v hv
      rw [mem_complement_nbrs] at this
      by_contra hc
      exact this ⟨h2' u hu, hne, hc⟩
    · intro v hv hvS
      obtain ⟨u, hu, hun⟩ := h4 v hv hvS
      rw [mem_complement_nbrs] at hun
      exact ⟨u, hu, hun.2.2⟩
  · rintro ⟨h1, h2, h3, h4⟩
    refine ⟨h1, h2, ?_, ?_⟩
    · intro u hu v hv
      rw [mem_complement_nbrs]
      rintro ⟨-, hne, hc⟩
      exact hc (h3 u hu v hv hne)
    · intro v hv hvS
      obtain ⟨u, hu, hun⟩ := h4 v hv hvS
      refine ⟨u, hu, ?_⟩
      rw [mem_complement_nbrs]
      exact ⟨h2 u hu, fun e => hvS (e ▸ hu), hun⟩

theorem mainLeaves_different (G : Graph) (hG : G.Simple) :
    (mainLeaves G.n G.nbrs).Pairwise DifferentSets := by
  by_cases hn : G.n = 0
  · rw [mainLeaves_zero G hn]
    exact List.pairwise_singleton _ _
  · have hpos : 0 < G.n := Nat.pos_of_ne_zero hn
    rw [mainLeaves_eq_level G hpos]
    have hd := levelFrom_distinct G hG (G.n - 1) 0 [fun _ => 0] (by omega)
      (by
        intro s hs
        simp only [List.mem_singleton] at hs
        subst hs
        exact counterInv_root G hG hpos)
      (List.pairwise_singleton _ _)
    rw [List.pairwise_map]
    apply List.Pairwise.imp _ hd
    intro a b hab
    obtain ⟨v, hv, hne⟩ := hab
    refine ⟨v, ?_⟩
    rw [mem_leafSet, mem_leafSet]
    intro h
    apply hne
    constructor
    · intro h0
      exact (h.1 ⟨by omega, h0⟩).2
    · intro h0
      exact (h.2 ⟨by omega, h0⟩).2

theorem nodup_of_different (r : List (List Nat)) (h : r.Pairwise DifferentSets) : r.Nodup := by
  apply List.Pairwise.imp _ h
  intro a b hab e
  obtain ⟨v, hv⟩ := hab
  apply hv
  rw [e]

theorem maxSize_ge (r : List (List Nat)) (s : List Nat) (hs : s ∈ r) :
    s.length ≤ maxSize r :=
  foldl_max_mem_le _ _ _ (List.mem_map_of_mem _ hs)

theorem foldl_max_attained (xs : List Nat) (m : Nat) :
    xs.foldl max m = m ∨ xs.foldl max m ∈ xs := by
  induction xs generalizing m with
  | nil => left; rfl
  | cons x xs ih =>
    rw [List.foldl_cons]
    rcases ih (max m x) with h | h
    · rw [h]
      rcases Nat.le_total m x with h1 | h1
      · right
        rw [Nat.max_eq_right h1]
        exact List.mem_cons_self _ _
      · left
        exact Nat.max_eq_left h1
    · right
      exact List.mem_cons_of_mem _ h

theorem maxSize_attained (r : List (List Nat)) (hr : r ≠ []) :
    ∃ s ∈ r, s.length = maxSize r := by
  unfold maxSize
  rcases foldl_max_attained (r.map List.length) 0 with h | h
  · obtain ⟨s, hs⟩ := List.exists_mem_of_ne_nil r hr
    refine ⟨s, hs, ?_⟩
    have := foldl_max_mem_le (r.map List.length) 0 s.length (List.mem_map_of_mem _ hs)
    omega
  · obtain ⟨s, hs, e⟩ := List.mem_map.1 h
    exact ⟨s, hs, e⟩

theorem leafSets_ne_nil (n : Nat) (adj_list : Nat → List Nat) (deg : Nat → Nat) :
    ∀ (fuel : Nat) (IS : Nat → Int) (level : Nat), n ≤ level + fuel → 0 < fuel →
      leafSets n adj_list deg fuel IS level ≠ [] := by
  intro fuel
  induction fuel with
  | zero => intro IS level _ h; omega
  | succ fuel ih =>
    intro IS level hle _
    rw [leafSets]
    split
    · simp
    · rename_i hleaf
      have hf : 0 < fuel := by omega
      simp only
      split
      · exact ih _ _ (by omega) hf
      · intro h
        have := (List.append_eq_nil.1 h).1
        exact ih _ _ (by omega) hf this

theorem mainLeaves_ne_nil (n : Nat) (adj_list : Nat → List Nat) : mainLeaves n adj_list ≠ [] :=
  leafSets_ne_nil n adj_list _ (n + 1) _ 0 (by omega) (by omega)

/-! ## The claims on the backtrack engine -/

theorem path4_simple : path4.Simple := by
  unfold Graph.Simple
  decide

theorem cycle4_simple : cycle4.Simple := by
  unfold Graph.Simple
  decide

theorem triangle_simple : triangle.Simple := by
  unfold Graph.Simple
  decide

theorem mainLeaves_init (G : Graph) :
    mainLeaves G.n (igraph_adjlist_init G) = mainLeaves G.n G.nbrs := rfl

theorem mainLeaves_complementer (G : Graph) :
    mainLeaves G.n (igraph_adjlist_init_complementer G)
      = mainLeaves (complement G).n (complement G).nbrs := rfl

/-- C2: completeness of the backtrack engine. On a finite simple undirected graph
every maximal independent set (as its strictly ascending vertex list) occurs in
the result of `igraph_maximal_independent_vertex_sets`. -/
theorem maximal_independent_vertex_sets_complete (G : Graph) (hG : G.Simple)
    (S : List Nat) (hS : IsMaximalIndependentSet G S) :
    ∃ r, igraph_maximal_independent_vertex_sets G = some r ∧ S ∈ r := by
  refine ⟨_, maximal_independent_vertex_sets_eq G, ?_⟩
  rw [mainLeaves_init]
  exact mainLeaves_complete G hG S hS

/-- Witness for C2: on the path `0-1-2-3` the maximal independent sets `{0,2}`,
`{0,3}` and `{1,3}` occur in the result, which is exactly these three sets. -/
theorem maximal_independent_vertex_sets_complete_witness :
    (∃ r, igraph_maximal_independent_vertex_sets path4 = some r ∧ [0, 2] ∈ r) ∧
    (∃ r, igraph_maximal_independent_vertex_sets path4 = some r ∧ [0, 3] ∈ r) ∧
    (∃ r, igraph_maximal_independent_vertex_sets path4 = some r ∧ [1, 3] ∈ r) ∧
    igraph_maximal_independent_vertex_sets path4 = some [[0, 2], [0, 3], [1, 3]] :=
  ⟨maximal_independent_vertex_sets_complete path4 path4_simple [0, 2]
      (by unfold IsMaximalIndependentSet IsIndependentSet; decide),
   maximal_independent_vertex_sets_complete path4 path4_simple [0, 3]
      (by unfold IsMaximalIndependentSet IsIndependentSet; decide),
   maximal_independent_vertex_sets_complete path4 path4_simple [1, 3]
      (by unfold IsMaximalIndependentSet IsIndependentSet; decide),
   by decide⟩

/-- C3: soundness of the backtrack engine. On a finite simple undirected graph
every set in the result of `igraph_maximal_independent_vertex_sets` is independent
and maximal: every vertex outside it has a neighbour in it. -/
theorem maximal_independent_vertex_sets_sound (G : Graph) (hG : G.Simple) :
    ∃ r, igraph_maximal_independent_vertex_sets G = some r ∧
      ∀ S ∈ r, IsIndependentSet G S ∧
        ∀ v, v < G.n → v ∉ S → ∃ u ∈ S, u ∈ G.nbrs v := by
  refine ⟨_, maximal_independent_vertex_sets_eq G, ?_⟩
  intro S hS
  rw [mainLeaves_init] at hS
  have := mainLeaves_sound G hG S hS
  exact ⟨this.2.2.1, this.2.2.2⟩

/-- Witness for C3: the sets returned on the path `0-1-2-3` are independent and
maximal. -/
theorem maximal_independent_vertex_sets_sound_witness :
    ∃ r, igraph_maximal_independent_vertex_sets path4 = some r ∧
      ∀ S ∈ r, IsIndependentSet path4 S ∧
        ∀ v, v < path4.n → v ∉ S → ∃ u ∈ S, u ∈ path4.nbrs v :=
  maximal_independent_vertex_sets_sound path4 path4_simple

/-- C4: on a finite simple undirected graph the result of
`igraph_maximal_independent_vertex_sets` holds no set twice: entries at different
positions are different vertex sets; the same holds for `igraph_maximal_cliques`,
`igraph_largest_cliques` and `igraph_largest_independent_vertex_sets`. -/
theorem results_without_repetition (G : Graph) (hG : G.Simple) :
    (∃ r, igraph_maximal_independent_vertex_sets G = some r ∧ r.Nodup ∧
      r.Pairwise DifferentSets) ∧
    (∃ r, igraph_maximal_cliques G = some r ∧ r.Nodup ∧ r.Pairwise DifferentSets) ∧
    (∃ r, igraph_largest_cliques G = some r ∧ r.Nodup ∧ r.Pairwise DifferentSets) ∧
    (∃ r, igraph_largest_independent_vertex_sets G = some r ∧ r.Nodup ∧
      r.Pairwise DifferentSets) := by
  have h1 := mainLeaves_different G hG
  have h2 := mainLeaves_different (complement G) (complement_simple G hG)
  rw [← mainLeaves_complementer] at h2
  rw [← mainLeaves_init] at h1
  refine ⟨⟨_, maximal_independent_vertex_sets_eq G, nodup_of_different _ h1, h1⟩,
    ⟨_, maximal_cliques_eq G, nodup_of_different _ h2, h2⟩,
    ⟨_, largest_cliques_eq G, ?_, ?_⟩,
    ⟨_, largest_independent_vertex_sets_eq G, ?_, ?_⟩⟩
  · exact nodup_of_different _ (h2.sublist (List.filter_sublist _))
  · exact h2.sublist (List.filter_sublist _)
  · exact nodup_of_different _ (h1.sublist (List.filter_sublist _))
  · exact h1.sublist (List.filter_sublist _)

/-- Witness for C4: the four results on the path `0-1-2-3` hold no set twice. -/
theorem results_without_repetition_witness :
    (∃ r, igraph_maximal_independent_vertex_sets path4 = some r ∧ r.Nodup ∧
      r.Pairwise DifferentSets) ∧
    (∃ r, igraph_maximal_cliques path4 = some r ∧ r.Nodup ∧ r.Pairwise DifferentSets) ∧
    (∃ r, igraph_largest_cliques path4 = some r ∧ r.Nodup ∧ r.Pairwise DifferentSets) ∧
    (∃ r, igraph_largest_independent_vertex_sets path4 = some r ∧ r.Nodup ∧
      r.Pairwise DifferentSets) :=
  results_without_repetition path4 path4_simple

/-- C5: with the complement adjacency builder listing `V \ ({v} ∪ N(v))` in
ascending order, `igraph_maximal_cliques G` returns the same list as
`igraph_maximal_independent_vertex_sets (complement G)`, and on a finite simple
undirected graph its entries are exactly the maximal cliques of `G`, each once. -/
theorem maximal_cliques_eq_complement (G : Graph) (hG : G.Simple) :
    igraph_maximal_cliques G = igraph_maximal_independent_vertex_sets (complement G) ∧
    ∃ r, igraph_maximal_cliques G = some r ∧ r.Nodup ∧ ∀ S, S ∈ r ↔ IsMaximalClique G S := by
  have hc := complement_simple G hG
  refine ⟨?_, _, maximal_cliques_eq G, ?_, ?_⟩
  · rw [maximal_cliques_eq, maximal_independent_vertex_sets_eq]
    rfl
  · rw [mainLeaves_complementer]
    exact mainLeaves_nodup (complement G) hc
  · intro S
    rw [mainLeaves_complementer, ← maximalIndependent_complement]
    exact ⟨mainLeaves_sound (complement G) hc S, mainLeaves_complete (complement G) hc S⟩

/-- Witness for C5: on the 4-cycle `0-1-2-3-0` the maximal cliques are the four
edges. -/
theorem maximal_cliques_eq_complement_witness :
    (igraph_maximal_cliques cycle4 = igraph_maximal_independent_vertex_sets (complement cycle4) ∧
      ∃ r, igraph_maximal_cliques cycle4 = some r ∧ r.Nodup ∧
        ∀ S, S ∈ r ↔ IsMaximalClique cycle4 S) ∧
    igraph_maximal_cliques cycle4 = some [[0, 1], [0, 3], [1, 2], [2, 3]] :=
  ⟨maximal_cliques_eq_complement cycle4 cycle4_simple, by decide⟩

/-- C6: the number returned by `igraph_independence_number` is the maximum of the
sizes of the sets returned by `igraph_maximal_independent_vertex_sets` (an upper
bound that is attained), the number returned by `igraph_clique_number` is the
maximum of the sizes of the sets returned by `igraph_maximal_cliques`, and both
are `0` on the graph with no vertices. -/
theorem numbers_are_maximum_sizes (G : Graph) :
    (∃ r no, igraph_maximal_independent_vertex_sets G = some r ∧
      igraph_independence_number G = some no ∧ no = maxSize r ∧
      (∀ S ∈ r, S.length ≤ no) ∧ ∃ S ∈ r, S.length = no) ∧
    (∃ r no, igraph_maximal_cliques G = some r ∧
      igraph_clique_number G = some no ∧ no = maxSize r ∧
      (∀ S ∈ r, S.length ≤ no) ∧ ∃ S ∈ r, S.length = no) ∧
    (G.n = 0 → igraph_independence_number G = some 0 ∧ igraph_clique_number G = some 0) := by
  refine ⟨⟨_, _, maximal_independent_vertex_sets_eq G, independence_number_eq G, rfl,
      fun S hS => maxSize_ge _ S hS, maxSize_attained _ (mainLeaves_ne_nil _ _)⟩,
    ⟨_, _, maximal_cliques_eq G, clique_number_eq G, rfl,
      fun S hS => maxSize_ge _ S hS, maxSize_attained _ (mainLeaves_ne_nil _ _)⟩, ?_⟩
  intro hn
  rw [independence_number_eq, clique_number_eq, mainLeaves_init, mainLeaves_complementer,
    mainLeaves_zero G hn, mainLeaves_zero (complement G) hn]
  exact ⟨rfl, rfl⟩

/-- Witness for C6: on the graph with no vertices both numbers are `0`. -/
theorem numbers_are_maximum_sizes_witness :
    igraph_independence_number { n := 0, nbrs := fun _ => [] } = some 0 ∧
      igraph_clique_number { n := 0, nbrs := fun _ => [] } = some 0 :=
  (numbers_are_maximum_sizes { n := 0, nbrs := fun _ => [] }).2.2 rfl

/-- C7: `igraph_largest_cliques G` is the sub-list of `igraph_maximal_cliques G` of
the entries whose size is `igraph_clique_number G`, in the same order, and
`igraph_largest_independent_vertex_sets G` is the sub-list of
`igraph_maximal_independent_vertex_sets G` of the entries whose size is
`igraph_independence_number G`; every largest clique returned is a maximal
clique of `G`. -/
theorem largest_are_filtered_maximal (G : Graph) (hG : G.Simple) :
    (∃ r no, igraph_maximal_cliques G = some r ∧ igraph_clique_number G = some no ∧
      igraph_largest_cliques G = some (r.filter (fun S => decide (S.length = no))) ∧
      ∀ S ∈ r.filter (fun S => decide (S.length = no)), S ∈ r ∧ IsMaximalClique G S) ∧
    (∃ r no, igraph_maximal_independent_vertex_sets G = some r ∧
      igraph_independence_number G = some no ∧
      igraph_largest_independent_vertex_sets G
        = some (r.filter (fun S => decide (S.length = no)))) := by
  refine ⟨⟨_, _, maximal_cliques_eq G, clique_number_eq G, largest_cliques_eq G, ?_⟩,
    ⟨_, _, maximal_independent_vertex_sets_eq G, independence_number_eq G,
      largest_independent_vertex_sets_eq G⟩⟩
  intro S hS
  have hS' := (List.mem_filter.1 hS).1
  refine ⟨hS', ?_⟩
  rw [mainLeaves_complementer] at hS'
  rw [← maximalIndependent_complement]
  exact mainLeaves_sound (complement G) (complement_simple G hG) S hS'

/-- Witness for C7: on the path `0-1-2-3` the largest independent sets are
`{0,2}`, `{0,3}`, `{1,3}`. -/
theorem largest_are_filtered_maximal_witness :
    ((∃ r no, igraph_maximal_cliques path4 = some r ∧ igraph_clique_number path4 = some no ∧
      igraph_largest_cliques path4 = some (r.filter (fun S => decide (S.length = no))) ∧
      ∀ S ∈ r.filter (fun S => decide (S.length = no)), S ∈ r ∧ IsMaximalClique path4 S) ∧
    (∃ r no, igraph_maximal_independent_vertex_sets path4 = some r ∧
      igraph_independence_number path4 = some no ∧
      igraph_largest_independent_vertex_sets path4
        = some (r.filter (fun S => decide (S.length = no))))) ∧
    igraph_largest_independent_vertex_sets path4 = some [[0, 2], [0, 3], [1, 3]] :=
  ⟨largest_are_filtered_maximal path4 path4_simple, by decide⟩

/-- C9: duality. With the complement adjacency builder listing
`V \ ({v} ∪ N(v))` in ascending order, on a finite simple undirected graph
`igraph_clique_number G` is `igraph_independence_number (complement G)` and
`igraph_independence_number G` is `igraph_clique_number (complement G)`. -/
theorem clique_independence_duality (G : Graph) (hG : G.Simple) :
    (∃ a, igraph_clique_number G = some a ∧
      igraph_independence_number (complement G) = some a) ∧
    (∃ b, igraph_independence_number G = some b ∧
      igraph_clique_number (complement G) = some b) := by
  refine ⟨⟨_, clique_number_eq G, ?_⟩, ⟨_, independence_number_eq G, ?_⟩⟩
  · rw [independence_number_eq]
    rfl
  · rw [clique_number_eq]
    have : mainLeaves (complement G).n (igraph_adjlist_init_complementer (complement G))
        = mainLeaves G.n (igraph_adjlist_init G) := by
      unfold mainLeaves
      apply leafSets_congr
      intro v hv
      have := complementer_complement G hG v hv
      exact ⟨this, by simp only [this]⟩
    rw [this]

/-- Witness for C9: on the path `0-1-2-3` both dual pairs agree. -/
theorem clique_independence_duality_witness :
    (∃ a, igraph_clique_number path4 = some a ∧
      igraph_independence_number (complement path4) = some a) ∧
    (∃ b, igraph_independence_number path4 = some b ∧
      igraph_clique_number (complement path4) = some b) :=
  clique_independence_duality path4 path4_simple

/-! ## The level expander on the complement graph -/

theorem getD_lt (ms : List Nat) (n : Nat) (hn : 0 < n) (h : ∀ x ∈ ms, x < n) (i : Nat) :
    ms.getD i 0 < n := by
  by_cases hi : i < ms.length
  · rw [List.getD_eq_getElem _ _ hi]
    exact h _ (List.getElem_mem _)
  · rw [List.getD_eq_default _ _ (by omega)]
    exact hn

theorem scanPrefix_stop (c1 c2 : Nat → Nat) (r : Nat) :
    ∀ (l : Nat) (st : List Nat),
      (scanPrefix c1 c2 r l st).1 = l + r ∨
        c1 (scanPrefix c1 c2 r l st).1 ≠ c2 (scanPrefix c1 c2 r l st).1 := by
  induction r with
  | zero => intro l st; left; rfl
  | succ r ih =>
    intro l st
    rw [scanPrefix]
    by_cases h : c1 l = c2 l
    · rw [if_pos h]
      rcases ih (l + 1) (st ++ [c1 l]) with h1 | h1
      · left; rw [h1]; omega
      · right; exact h1
    · rw [if_neg h]
      right
      exact h

theorem scanPrefix_bound (c1 c2 : Nat → Nat) (n : Nat) (hc : ∀ i, c1 i < n) (r : Nat) :
    ∀ (l : Nat) (st : List Nat), (∀ x ∈ st, x < n) →
      ∀ x ∈ (scanPrefix c1 c2 r l st).2, x < n := by
  induction r with
  | zero => intro l st h; exact h
  | succ r ih =>
    intro l st h
    rw [scanPrefix]
    by_cases he : c1 l = c2 l
    · rw [if_pos he]
      apply ih
      intro x hx
      rcases List.mem_append.1 hx with h1 | h1
      · exact h x h1
      · simp only [List.mem_singleton] at h1
        rw [h1]
        exact hc l
    · rw [if_neg he]
      exact h

theorem scanRest_bound (c1 c2 : Nat → Nat) (v1 n : Nat)
    (hc : ∀ i, c1 i < n ∧ c2 i < n) (r : Nat) :
    ∀ (l : Nat) (ok : Bool) (v2 : Nat) (st : List Nat),
      v2 ≠ v1 → v2 < n → (∀ x ∈ st, x < n) →
      (scanRest c1 c2 v1 r l ok v2 st).2.1 ≠ v1 ∧ (scanRest c1 c2 v1 r l ok v2 st).2.1 < n ∧
        ∀ x ∈ (scanRest c1 c2 v1 r l ok v2 st).2.2, x < n := by
  induction r with
  | zero => intro l ok v2 st h1 h2 h3; exact ⟨h1, h2, h3⟩
  | succ r ih =>
    intro l ok v2 st h1 h2 h3
    have hst1 : ∀ x ∈ st ++ [c1 l], x < n := by
      intro x hx
      rcases List.mem_append.1 hx with h | h
      · exact h3 x h
      · simp only [List.mem_singleton] at h
        rw [h]
        exact (hc l).1
    have hst2 : ∀ x ∈ st ++ [c2 l], x < n := by
      intro x hx
      rcases List.mem_append.1 hx with h | h
      · exact h3 x h
      · simp only [List.mem_singleton] at h
        rw [h]
        exact (hc l).2
    rw [scanRest]
    by_cases he : c1 l = c2 l
    · rw [if_pos he]
      exact ih _ _ _ _ h1 h2 hst1
    · rw [if_neg he]
      cases ok with
      | false => exact ⟨h1, h2, h3⟩
      | true =>
        simp only [if_true, Bool.true_and, decide_eq_true_eq]
        by_cases hlt : c1 l < c2 l
        · rw [if_pos hlt]
          by_cases hv : c1 l = v1
          · rw [if_pos hv]
            exact ih _ _ _ _ (fun e => he (hv.trans e.symm)) (hc l).2 hst1
          · rw [if_neg hv]
            exact ⟨h1, h2, h3⟩
        · rw [if_neg hlt]
          by_cases hv : c2 l = v1
          · rw [if_pos hv]
            exact ih _ _ _ _ (fun e => he (e.trans hv.symm)) (hc l).1 hst2
          · rw [if_neg hv]
            exact ⟨h1, h2, h3⟩

theorem mergePair_complement (G : Graph) (size : Nat) (c1 c2 : Nat → Nat)
    (hc : ∀ i, c1 i < G.n ∧ c2 i < G.n) (s : KState) (hs : ∀ x ∈ s.st, x < G.n) :
    mergePair G true size c1 c2 s = mergePair (complement G) false size c1 c2 s ∧
      ∀ x ∈ (mergePair G true size c1 c2 s).st, x < G.n := by
  have hp := scanPrefix_bound c1 c2 G.n (fun i => (hc i).1) (size - 1) 0 s.st hs
  have hstop := scanPrefix_stop c1 c2 (size - 1) 0 s.st
  have htake : ∀ (l : List Nat), (∀ x ∈ l, x < G.n) → ∀ x ∈ l.take s.n, x < G.n :=
    fun l hl x hx => hl x (List.mem_of_mem_take hx)
  have hgrow : ∀ t : KState, (growIfFull t).st = t.st := by
    intro t
    unfold growIfFull
    split <;> rfl
  unfold mergePair
  simp only
  by_cases hl : (scanPrefix c1 c2 (size - 1) 0 s.st).1 = size - 1
  · rw [if_pos hl, if_pos hl]
    exact ⟨rfl, htake _ hp⟩
  · rw [if_neg hl, if_neg hl]
    have hne : c2 (scanPrefix c1 c2 (size - 1) 0 s.st).1 ≠ c1 (scanPrefix c1 c2 (size - 1) 0 s.st).1 := by
      rcases hstop with h | h
      · exact absurd (by omega) hl
      · exact fun e => h e.symm
    have hst1 : ∀ x ∈ (scanPrefix c1 c2 (size - 1) 0 s.st).2
        ++ [c1 (scanPrefix c1 c2 (size - 1) 0 s.st).1], x < G.n := by
      intro x hx
      rcases List.mem_append.1 hx with h | h
      · exact hp x h
      · simp only [List.mem_singleton] at h
        rw [h]
        exact (hc _).1
    obtain ⟨q1, q2, q3⟩ := scanRest_bound c1 c2 (c1 (scanPrefix c1 c2 (size - 1) 0 s.st).1) G.n hc
      (size - 1 - ((scanPrefix c1 c2 (size - 1) 0 s.st).1 + 1))
      ((scanPrefix c1 c2 (size - 1) 0 s.st).1 + 1) true
      (c2 (scanPrefix c1 c2 (size - 1) 0 s.st).1) _ hne (hc _).2 hst1
    have hfound : decide ((scanRest c1 c2 (c1 (scanPrefix c1 c2 (size - 1) 0 s.st).1)
          (size - 1 - ((scanPrefix c1 c2 (size - 1) 0 s.st).1 + 1))
          ((scanPrefix c1 c2 (size - 1) 0 s.st).1 + 1) true
          (c2 (scanPrefix c1 c2 (size - 1) 0 s.st).1)
          ((scanPrefix c1 c2 (size - 1) 0 s.st).2 ++ [c1 (scanPrefix c1 c2 (size - 1) 0 s.st).1])).2.1
            ∈ (complement G).nbrs (c1 (scanPrefix c1 c2 (size - 1) 0 s.st).1))
        = !decide ((scanRest c1 c2 (c1 (scanPrefix c1 c2 (size - 1) 0 s.st).1)
          (size - 1 - ((scanPrefix c1 c2 (size - 1) 0 s.st).1 + 1))
          ((scanPrefix c1 c2 (size - 1) 0 s.st).1 + 1) true
          (c2 (scanPrefix c1 c2 (size - 1) 0 s.st).1)
          ((scanPrefix c1 c2 (size - 1) 0 s.st).2 ++ [c1 (scanPrefix c1 c2 (size - 1) 0 s.st).1])).2.1
            ∈ G.nbrs (c1 (scanPrefix c1 c2 (size - 1) 0 s.st).1)) := by
      rw [Bool.eq_iff_iff]
      simp only [decide_eq_true_eq, Bool.not_eq_true', decide_eq_false_iff_not,
        mem_complement_nbrs]
      exact ⟨fun h => h.2.2, fun h => ⟨q2, q1, h⟩⟩
    rw [hfound]
    constructor
    · congr 1
      split
      · rfl
      · cases hd : decide ((scanRest c1 c2 (c1 (scanPrefix c1 c2 (size - 1) 0 s.st).1)
          (size - 1 - ((scanPrefix c1 c2 (size - 1) 0 s.st).1 + 1))
          ((scanPrefix c1 c2 (size - 1) 0 s.st).1 + 1) true
          (c2 (scanPrefix c1 c2 (size - 1) 0 s.st).1)
          ((scanPrefix c1 c2 (size - 1) 0 s.st).2 ++ [c1 (scanPrefix c1 c2 (size - 1) 0 s.st).1])).2.1
            ∈ G.nbrs (c1 (scanPrefix c1 c2 (size - 1) 0 s.st).1)) <;> simp
    · rw [hgrow]
      intro x hx
      split at hx
      · exact htake _ q3 x hx
      · split at hx
        · split at hx
          · simp only at hx
            rcases List.mem_append.1 hx with h | h
            · exact q3 x h
            · simp only [List.mem_singleton] at h
              rw [h]
              exact q2
          · exact htake _ q3 x hx
        · exact htake _ q3 x hx

theorem foldl_congr_inv {α β : Type} (P : β → Prop) (f g : β → α → β) (l : List α)
    (h : ∀ s a, a ∈ l → P s → f s a = g s a ∧ P (f s a)) :
    ∀ s, P s → l.foldl f s = l.foldl g s ∧ P (l.foldl f s) := by
  induction l with
  | nil => intro s hs; exact ⟨rfl, hs⟩
  | cons a l ih =>
    intro s hs
    obtain ⟨h1, h2⟩ := h s a (List.mem_cons_self _ _) hs
    rw [List.foldl_cons, List.foldl_cons, ← h1]
    exact ih (fun s b hb hP => h s b (List.mem_cons_of_mem _ hb) hP) _ h2

theorem findLoop_complement (G : Graph) (hn : 0 < G.n) (size : Nat) (ms : List Nat)
    (hms : ∀ x ∈ ms, x < G.n) (cc : Nat) :
    findLoop G size ms cc true = findLoop (complement G) size ms cc false ∧
      ∀ x ∈ (findLoop G size ms cc true).st, x < G.n := by
  unfold findLoop
  apply foldl_congr_inv (fun s : KState => ∀ x ∈ s.st, x < G.n)
  · intro s j _ hs
    apply foldl_congr_inv (fun s : KState => ∀ x ∈ s.st, x < G.n)
    · intro s k _ hs
      exact mergePair_complement G size _ _
        (fun i => ⟨getD_lt ms G.n hn hms _, getD_lt ms G.n hn hms _⟩) s hs
    · exact hs
  · intro x hx
    simp at hx

theorem find_k_cliques_complement (G : Graph) (hn : 0 < G.n) (size : Nat) (ms : List Nat)
    (hms : ∀ x ∈ ms, x < G.n) (cc : Nat) :
    igraph_i_find_k_cliques G size ms cc true
        = igraph_i_find_k_cliques (complement G) size ms cc false ∧
      ∀ x ∈ (igraph_i_find_k_cliques G size ms cc true).1, x < G.n := by
  obtain ⟨h1, h2⟩ := findLoop_complement G hn size ms hms cc
  unfold igraph_i_find_k_cliques
  simp only
  rw [h1]
  refine ⟨rfl, ?_⟩
  intro x hx
  rw [← h1] at hx
  exact h2 x (List.mem_of_mem_take hx)

theorem cliquesLoop_complement (G : Graph) (hn : 0 < G.n) (min_size max_size : Int) :
    ∀ (fuel i : Nat) (ms : List Nat) (cc : Nat) (res : List (List Nat)),
      (∀ x ∈ ms, x < G.n) →
      cliquesLoop G min_size max_size true fuel i ms cc res
        = cliquesLoop (complement G) min_size max_size false fuel i ms cc res := by
  intro fuel
  induction fuel with
  | zero => intro i ms cc res _; rfl
  | succ fuel ih =>
    intro i ms cc res hms
    obtain ⟨h1, h2⟩ := find_k_cliques_complement G hn i ms hms cc
    rw [cliquesLoop, cliquesLoop]
    simp only
    rw [← h1]
    split
    · exact ih _ _ _ _ h2
    · rfl

theorem cliquesLoop_total (G : Graph) (min_size max_size : Int) (indep : Bool) :
    ∀ (fuel i : Nat) (ms : List Nat) (cc : Nat) (res : List (List Nat)),
      max_size < (i : Int) + (fuel : Int) →
      ∃ r, cliquesLoop G min_size max_size indep fuel i ms cc res = some r := by
  intro fuel
  induction fuel with
  | zero =>
    intro i ms cc res h
    rw [cliquesLoop]
    have : ¬ ((i : Int) ≤ max_size ∧ cc > 1) := by
      intro hc
      have := hc.1
      simp at h
      omega
    rw [if_neg this]
    exact ⟨_, rfl⟩
  | succ fuel ih =>
    intro i ms cc res h
    rw [cliquesLoop]
    split
    · apply ih
      push_cast at h ⊢
      omega
    · exact ⟨_, rfl⟩

theorem i_cliques_total (G : Graph) (min_size max_size : Int) (indep : Bool) :
    ∃ r, igraph_i_cliques G min_size max_size indep = some r := by
  unfold igraph_i_cliques
  simp only
  apply cliquesLoop_total
  split <;> omega

/-- C8: `igraph_independent_vertex_sets G min_size max_size` returns the same list
of sets, in the same order, as `igraph_cliques (complement G) min_size max_size`,
for every graph and all integer bounds. -/
theorem independent_vertex_sets_eq_cliques_complement (G : Graph) (min_size max_size : Int) :
    ∃ r, igraph_independent_vertex_sets G min_size max_size = some r ∧
      igraph_cliques (complement G) min_size max_size = some r := by
  obtain ⟨r, hr⟩ := i_cliques_total G min_size max_size true
  refine ⟨r, hr, ?_⟩
  rw [← hr]
  unfold igraph_cliques igraph_i_cliques
  simp only
  by_cases hn : 0 < G.n
  · symm
    have : (complement G).n = G.n := rfl
    rw [this]
    apply cliquesLoop_complement G hn
    intro x hx
    exact List.mem_range.1 hx
  · have h0 : G.n = 0 := by omega
    have : (complement G).n = 0 := h0
    rw [this, h0]
    rfl

/-! ## The merge of one pair of slots -/

theorem scanPrefix_spec (c1 c2 : Nat → Nat) (r : Nat) :
    ∀ (l : Nat) (st : List Nat),
      l ≤ (scanPrefix c1 c2 r l st).1 ∧ (scanPrefix c1 c2 r l st).1 ≤ l + r ∧
      (∀ i, l ≤ i → i < (scanPrefix c1 c2 r l st).1 → c1 i = c2 i) ∧
      ((scanPrefix c1 c2 r l st).1 < l + r →
        c1 (scanPrefix c1 c2 r l st).1 ≠ c2 (scanPrefix c1 c2 r l st).1) ∧
      (scanPrefix c1 c2 r l st).2
        = st ++ (List.range' l ((scanPrefix c1 c2 r l st).1 - l)).map c1 := by
  induction r with
  | zero =>
    intro l st
    refine ⟨le_refl _, le_refl _, ?_, ?_, ?_⟩
    · intro i h1 h2
      simp only [scanPrefix] at h2
      omega
    · intro h
      simp only [scanPrefix] at h
      omega
    · simp [scanPrefix]
  | succ r ih =>
    intro l st
    rw [scanPrefix]
    by_cases h : c1 l = c2 l
    · rw [if_pos h]
      obtain ⟨h1, h2, h3, h4, h5⟩ := ih (l + 1) (st ++ [c1 l])
      refine ⟨by omega, by omega, ?_, ?_, ?_⟩
      · intro i hi1 hi2
        by_cases hil : i = l
        · subst hil; exact h
        · exact h3 i (by omega) hi2
      · intro hlt
        exact h4 (by omega)
      · rw [h5]
        have e : (scanPrefix c1 c2 r (l + 1) (st ++ [c1 l])).1 - l
            = ((scanPrefix c1 c2 r (l + 1) (st ++ [c1 l])).1 - (l + 1)) + 1 := by omega
        rw [e, List.range'_succ]
        simp
    · rw [if_neg h]
      refine ⟨le_refl _, by omega, ?_, fun _ => h, by simp⟩
      intro i h1 h2
      omega

theorem scanRest_spec (c1 c2 : Nat → Nat) (v1 : Nat) (r : Nat) :
    ∀ (l : Nat) (ok : Bool) (v2 : Nat) (st : List Nat),
      (∀ i, l ≤ i → i < l + r → c1 i ≠ v1 ∧ c2 i ≠ v1) →
      (scanRest c1 c2 v1 r l ok v2 st).2.1 = v2 ∧
      l ≤ (scanRest c1 c2 v1 r l ok v2 st).1 ∧ (scanRest c1 c2 v1 r l ok v2 st).1 ≤ l + r ∧
      (∀ i, l ≤ i → i < (scanRest c1 c2 v1 r l ok v2 st).1 → c1 i = c2 i) ∧
      ((scanRest c1 c2 v1 r l ok v2 st).1 < l + r →
        c1 (scanRest c1 c2 v1 r l ok v2 st).1 ≠ c2 (scanRest c1 c2 v1 r l ok v2 st).1) ∧
      (scanRest c1 c2 v1 r l ok v2 st).2.2
        = st ++ (List.range' l ((scanRest c1 c2 v1 r l ok v2 st).1 - l)).map c1 := by
  induction r with
  | zero =>
    intro l ok v2 st _
    refine ⟨rfl, le_refl _, le_refl _, ?_, ?_, ?_⟩
    · intro i h1 h2
      simp only [scanRest] at h2
      omega
    · intro h
      simp only [scanRest] at h
      omega
    · simp [scanRest]
  | succ r ih =>
    intro l ok v2 st hne
    rw [scanRest]
    by_cases h : c1 l = c2 l
    · rw [if_pos h]
      obtain ⟨h0, h1, h2, h3, h4, h5⟩ := ih (l + 1) false v2 (st ++ [c1 l])
        (fun i hi1 hi2 => hne i (by omega) (by omega))
      refine ⟨h0, by omega, by omega, ?_, ?_, ?_⟩
      · intro i hi1 hi2
        by_cases hil : i = l
        · subst hil; exact h
        · exact h3 i (by omega) hi2
      · intro hlt
        exact h4 (by omega)
      · rw [h5]
        have e : (scanRest c1 c2 v1 r (l + 1) false v2 (st ++ [c1 l])).1 - l
            = ((scanRest c1 c2 v1 r (l + 1) false v2 (st ++ [c1 l])).1 - (l + 1)) + 1 := by omega
        rw [e, List.range'_succ]
        simp
    · rw [if_neg h]
      have hl := hne l (le_refl _) (by omega)
      have hbreak : (if ok = true then
            if c1 l < c2 l then
              if c1 l = v1 then scanRest c1 c2 v1 r (l + 1) ok (c2 l) (st ++ [c1 l])
              else (l, v2, st)
            else
              if (ok && decide (c2 l = v1)) = true then
                scanRest c1 c2 v1 r (l + 1) ok (c1 l) (st ++ [c2 l])
              else (l, v2, st)
          else (l, v2, st)) = (l, v2, st) := by
        cases ok with
        | false => rfl
        | true =>
          simp only [if_true, Bool.true_and, decide_eq_true_eq]
          rw [if_neg hl.1, if_neg hl.2]
          simp
      rw [hbreak]
      refine ⟨rfl, le_refl _, by simp, ?_, fun _ => h, by simp⟩
      intro i h1 h2
      simp only at h2
      omega

theorem range_split_map (f : Nat → Nat) (l k : Nat) :
    (List.range' 0 l).map f ++ [f l] ++ (List.range' (l + 1) k).map f
      = (List.range (l + 1 + k)).map f := by
  have h1 : [f l] = (List.range' l 1).map f := by simp
  rw [h1, ← List.map_append, ← List.map_append, List.range_eq_range']
  congr 1
  have h2 : List.range' 0 l ++ List.range' l 1 = List.range' 0 (l + 1) := by
    have := List.range'_append_1 0 l 1
    rw [Nat.zero_add, Nat.add_comm 1 l] at this
    exact this
  rw [h2]
  have h3 := List.range'_append_1 0 (l + 1) k
  rw [Nat.zero_add, Nat.add_comm k (l + 1)] at h3
  exact h3

theorem growIfFull_fields (t : KState) :
    (growIfFull t).st = t.st ∧ (growIfFull t).n = t.n ∧ (growIfFull t).warn = t.warn := by
  unfold growIfFull
  split <;> exact ⟨rfl, rfl, rfl⟩

theorem mergePair_spec (G : Graph) (indep : Bool) (w : Nat) (hw : 1 ≤ w) (c1 c2 : Nat → Nat)
    (h1 : ∀ i i', i < i' → i' < w → c1 i < c1 i')
    (h2 : ∀ i i', i < i' → i' < w → c2 i < c2 i')
    (hlex : ∃ i0, i0 < w ∧ (∀ t, t < i0 → c1 t = c2 t) ∧ c1 i0 < c2 i0)
    (s : KState) (hs : s.st.length = s.n) :
    (mergePair G indep (w + 1) c1 c2 s).warn = s.warn ∧
    (mergePair G indep (w + 1) c1 c2 s).n = (mergePair G indep (w + 1) c1 c2 s).st.length ∧
    (((∀ t, t < w - 1 → c1 t = c2 t) ∧ okPair G indep (c1 (w - 1)) (c2 (w - 1)) = true) →
      (mergePair G indep (w + 1) c1 c2 s).st
        = s.st ++ ((List.range w).map c1 ++ [c2 (w - 1)])) ∧
    (¬ ((∀ t, t < w - 1 → c1 t = c2 t) ∧ okPair G indep (c1 (w - 1)) (c2 (w - 1)) = true) →
      (mergePair G indep (w + 1) c1 c2 s).st = s.st) := by
  obtain ⟨i0, hi0, hagree, hlt0⟩ := hlex
  obtain ⟨p1, p2, p3, p4, p5⟩ := scanPrefix_spec c1 c2 w 0 s.st
  -- the common prefix ends at the first difference
  have hl : (scanPrefix c1 c2 w 0 s.st).1 = i0 := by
    have ha : ¬ i0 < (scanPrefix c1 c2 w 0 s.st).1 := by
      intro h
      have := p3 i0 (by omega) h
      omega
    have hb : ¬ (scanPrefix c1 c2 w 0 s.st).1 < i0 := by
      intro h
      have := p4 (by omega)
      exact this (hagree _ h)
    omega
  have hp : scanPrefix c1 c2 w 0 s.st = (i0, s.st ++ (List.range' 0 i0).map c1) := by
    apply Prod.ext
    · exact hl
    · rw [p5, hl]
      simp
  have hne : ∀ i, i0 + 1 ≤ i → i < i0 + 1 + (w - (i0 + 1)) → c1 i ≠ c1 i0 ∧ c2 i ≠ c1 i0 := by
    intro i hi1 hi2
    have a1 := h1 i0 i (by omega) (by omega)
    have a2 := h2 i0 i (by omega) (by omega)
    omega
  obtain ⟨q0, q1, q2, q3, q4, q5⟩ := scanRest_spec c1 c2 (c1 i0) (w - (i0 + 1)) (i0 + 1) true
    (c2 i0) ((s.st ++ (List.range' 0 i0).map c1) ++ [c1 i0]) hne
  generalize hq : scanRest c1 c2 (c1 i0) (w - (i0 + 1)) (i0 + 1) true (c2 i0)
    ((s.st ++ (List.range' 0 i0).map c1) ++ [c1 i0]) = q at q0 q1 q2 q3 q4 q5
  obtain ⟨l2, v2, st2⟩ := q
  simp only at q0 q1 q2 q3 q4 q5
  subst q0
  have hst2 : st2 = s.st ++ (List.range l2).map c1 := by
    rw [q5]
    have := range_split_map c1 i0 (l2 - (i0 + 1))
    have e : i0 + 1 + (l2 - (i0 + 1)) = l2 := by omega
    rw [e] at this
    rw [← this]
    simp
  have hunf : mergePair G indep (w + 1) c1 c2 s
      = growIfFull
          (if l2 ≠ w then { s with st := st2.take s.n }
           else if okPair G indep (c1 i0) (c2 i0) = true then
             if st2.length = s.n ∨ c2 i0 > st2.getD (st2.length - 1) 0 then
               { s with st := st2 ++ [c2 i0], n := st2.length + 1 }
             else { s with st := st2.take s.n }
           else { s with st := st2.take s.n }) := by
    unfold mergePair
    simp only [Nat.add_sub_cancel, hp]
    rw [if_neg (by omega), hq]
    rfl
  have htake : st2.take s.n = s.st := by
    rw [hst2, ← hs]
    simp
  have hrej : ({ s with st := st2.take s.n } : KState) = s := by
    rw [htake]
  have hcond_l : (∀ t, t < w - 1 → c1 t = c2 t) → i0 = w - 1 := by
    intro h
    by_contra hc
    have := h i0 (by omega)
    omega
  rw [hunf]
  obtain ⟨g1, g2, g3⟩ := growIfFull_fields
    (if l2 ≠ w then { s with st := st2.take s.n }
           else if okPair G indep (c1 i0) (c2 i0) = true then
             if st2.length = s.n ∨ c2 i0 > st2.getD (st2.length - 1) 0 then
               { s with st := st2 ++ [c2 i0], n := st2.length + 1 }
             else { s with st := st2.take s.n }
           else { s with st := st2.take s.n })
  rw [g1, g2, g3]
  by_cases hl2 : l2 ≠ w
  · rw [if_pos hl2, hrej]
    refine ⟨rfl, hs.symm, ?_, fun _ => rfl⟩
    rintro ⟨ha, -⟩
    have := hcond_l ha
    omega
  · rw [if_neg hl2]
    have hl2' : l2 = w := by omega
    subst hl2'
    have hlen : st2.length = s.n + l2 := by rw [hst2, ← hs]; simp
    have hlast : st2.getD (st2.length - 1) 0 = c1 (l2 - 1) := by
      rw [hlen, hst2, ← hs]
      have e : s.st.length + l2 - 1 = s.st.length + (l2 - 1) := by omega
      rw [e, List.getD_eq_getElem?_getD, List.getElem?_append_right (by omega)]
      have e2 : s.st.length + (l2 - 1) - s.st.length = l2 - 1 := by omega
      rw [e2, List.getElem?_map, List.getElem?_range (by omega)]
      rfl
    by_cases hi : i0 = l2 - 1
    · subst hi
      have hguard : st2.length = s.n ∨ c2 (l2 - 1) > st2.getD (st2.length - 1) 0 := by
        right
        rw [hlast]
        exact hlt0
      by_cases hok : okPair G indep (c1 (l2 - 1)) (c2 (l2 - 1)) = true
      · rw [if_pos hok, if_pos hguard]
        refine ⟨rfl, by simp, ?_, ?_⟩
        · intro _
          simp only
          rw [hst2]
          simp
        · intro hc
          exact absurd ⟨hagree, hok⟩ hc
      · rw [if_neg hok, hrej]
        refine ⟨rfl, hs.symm, ?_, fun _ => rfl⟩
        rintro ⟨-, hb⟩
        exact absurd hb hok
    · have hnc : ¬ (∀ t, t < l2 - 1 → c1 t = c2 t) := fun h => hi (hcond_l h)
      have hguard : ¬ (st2.length = s.n ∨ c2 i0 > st2.getD (st2.length - 1) 0) := by
        rw [hlast]
        intro h
        rcases h with h | h
        · omega
        · have e1 := q3 (l2 - 1) (by omega) (by omega)
          have e2 := h2 i0 (l2 - 1) (by omega) (by omega)
          omega
      have : (if okPair G indep (c1 i0) (c2 i0) = true then
             if st2.length = s.n ∨ c2 i0 > st2.getD (st2.length - 1) 0 then
               ({ s with st := st2 ++ [c2 i0], n := st2.length + 1 } : KState)
             else { s with st := st2.take s.n }
           else { s with st := st2.take s.n }) = s := by
        rw [if_neg hguard, hrej]
        simp
      rw [this]
      refine ⟨rfl, hs.symm, ?_, fun _ => rfl⟩
      rintro ⟨ha, -⟩
      exact absurd ha hnc

/-! ## The pair loops -/

theorem fold_append_inv {α : Type} (l : List α) (f : KState → α → KState)
    (X : α → Option (List Nat))
    (h : ∀ s a, a ∈ l → s.n = s.st.length →
      (f s a).st = s.st ++ (X a).getD [] ∧ (f s a).n = (f s a).st.length ∧
        (f s a).warn = s.warn) :
    ∀ s, s.n = s.st.length →
      (l.foldl f s).st = s.st ++ (l.filterMap X).flatten ∧
        (l.foldl f s).n = (l.foldl f s).st.length ∧ (l.foldl f s).warn = s.warn := by
  induction l with
  | nil => intro s hs; exact ⟨by simp, hs, rfl⟩
  | cons a l ih =>
    intro s hs
    obtain ⟨e1, e2, e3⟩ := h s a (List.mem_cons_self _ _) hs
    obtain ⟨g1, g2, g3⟩ := ih (fun s b hb hn => h s b (List.mem_cons_of_mem _ hb) hn) (f s a) e2
    rw [List.foldl_cons]
    refine ⟨?_, g2, by rw [g3, e3]⟩
    rw [g1, e1]
    cases hx : X a with
    | none => simp [List.filterMap_cons, hx]
    | some S => simp [List.filterMap_cons, hx]

theorem fold_append_outer {α : Type} (l : List α) (f : KState → α → KState)
    (Y : α → List (List Nat))
    (h : ∀ s a, a ∈ l → s.n = s.st.length →
      (f s a).st = s.st ++ (Y a).flatten ∧ (f s a).n = (f s a).st.length ∧
        (f s a).warn = s.warn) :
    ∀ s, s.n = s.st.length →
      (l.foldl f s).st = s.st ++ (l.flatMap Y).flatten ∧
        (l.foldl f s).n = (l.foldl f s).st.length ∧ (l.foldl f s).warn = s.warn := by
  induction l with
  | nil => intro s hs; exact ⟨by simp, hs, rfl⟩
  | cons a l ih =>
    intro s hs
    obtain ⟨e1, e2, e3⟩ := h s a (List.mem_cons_self _ _) hs
    obtain ⟨g1, g2, g3⟩ := ih (fun s b hb hn => h s b (List.mem_cons_of_mem _ hb) hn) (f s a) e2
    rw [List.foldl_cons]
    refine ⟨?_, g2, by rw [g3, e3]⟩
    rw [g1, e1]
    simp

theorem findLoop_spec (G : Graph) (indep : Bool) (ms : List Nat) (w cc : Nat) (hw : 1 ≤ w)
    (hok : SlotsOK ms w cc) :
    (findLoop G (w + 1) ms cc indep).st = (accSlots G indep ms w cc).flatten ∧
    (findLoop G (w + 1) ms cc indep).n = (findLoop G (w + 1) ms cc indep).st.length ∧
    (findLoop G (w + 1) ms cc indep).warn = 0 := by
  unfold findLoop accSlots
  simp only [Nat.add_sub_cancel]
  have := fold_append_outer (List.range cc)
    (fun s j =>
      (List.range' (j + 1) (cc - (j + 1))).foldl
        (fun s k => mergePair G indep (w + 1) (slotAt ms w j) (slotAt ms w k) s) s)
    (fun j => (List.range' (j + 1) (cc - (j + 1))).filterMap (fun k => mergeAt G indep ms w j k))
    (by
      intro s j hj hs
      have hjc : j < cc := List.mem_range.1 hj
      apply fold_append_inv (List.range' (j + 1) (cc - (j + 1)))
        (fun s k => mergePair G indep (w + 1) (slotAt ms w j) (slotAt ms w k) s)
        (fun k => mergeAt G indep ms w j k) _ s hs
      intro s k hk hs
      have hk' := List.mem_range'_1.1 hk
      have hjk : j < k := by omega
      have hkc : k < cc := by omega
      obtain ⟨m1, m2, m3, m4⟩ := mergePair_spec G indep w hw (slotAt ms w j) (slotAt ms w k)
        (hok.1 j hjc) (hok.1 k hkc) (hok.2 j k hjk hkc) s hs.symm
      refine ⟨?_, m2, m1⟩
      show (mergePair G indep (w + 1) (slotAt ms w j) (slotAt ms w k) s).st
        = s.st ++ (mergeAt G indep ms w j k).getD []
      unfold mergeAt
      by_cases hc : (∀ t, t < w - 1 → slotAt ms w j t = slotAt ms w k t) ∧
          okPair G indep (slotAt ms w j (w - 1)) (slotAt ms w k (w - 1)) = true
      · rw [if_pos hc, m3 hc]
        rfl
      · rw [if_neg hc, m4 hc]
        simp)
    { st := [], n := 0, cap := (w + 1) * cc, warn := 0 } rfl
  simpa using this

/-! ## Generations as lists of slots -/

theorem slotList_length (ms : List Nat) (w j : Nat) : (slotList ms w j).length = w := by
  simp [slotList]

theorem slotList_getD (ms : List Nat) (w j t : Nat) (ht : t < w) :
    (slotList ms w j).getD t 0 = slotAt ms w j t := by
  unfold slotList
  rw [List.getD_eq_getElem?_getD, List.getElem?_map, List.getElem?_range ht]
  rfl

theorem emitSlots_eq (ms : List Nat) (w cc : Nat) :
    emitSlots ms w cc = (List.range cc).map (slotList ms w) := rfl

theorem emitSlots_length (ms : List Nat) (w cc : Nat) : (emitSlots ms w cc).length = cc := by
  simp [emitSlots]

theorem emitSlots_getD (ms : List Nat) (w cc j : Nat) (hj : j < cc) :
    (emitSlots ms w cc).getD j [] = slotList ms w j := by
  rw [emitSlots_eq, List.getD_eq_getElem?_getD, List.getElem?_map, List.getElem?_range hj]
  rfl

theorem mem_emitSlots (ms : List Nat) (w cc : Nat) (S : List Nat) :
    S ∈ emitSlots ms w cc ↔ ∃ j, j < cc ∧ slotList ms w j = S := by
  rw [emitSlots_eq, List.mem_map]
  constructor
  · rintro ⟨j, hj, e⟩
    exact ⟨j, List.mem_range.1 hj, e⟩
  · rintro ⟨j, hj, e⟩
    exact ⟨j, List.mem_range.2 hj, e⟩

theorem list_ext_getD (A B : List Nat) (hl : A.length = B.length)
    (h : ∀ t, t < A.length → A.getD t 0 = B.getD t 0) : A = B := by
  apply List.ext_getElem hl
  intro t h1 h2
  have := h t h1
  rw [List.getD_eq_getElem _ _ h1, List.getD_eq_getElem _ _ h2] at this
  exact this

theorem slotList_of_flatten (k : Nat) :
    ∀ (L : List (List Nat)), (∀ S ∈ L, S.length = k) →
      L.flatten.length = k * L.length ∧
      ∀ j, j < L.length → slotList L.flatten k j = L.getD j [] := by
  intro L
  induction L with
  | nil =>
    intro _
    exact ⟨by simp, fun j hj => by simp at hj⟩
  | cons S L ih =>
    intro h
    have hS : S.length = k := h S (List.mem_cons_self _ _)
    obtain ⟨e1, e2⟩ := ih (fun T hT => h T (List.mem_cons_of_mem _ hT))
    refine ⟨?_, ?_⟩
    · simp only [List.flatten_cons, List.length_append, List.length_cons, e1, hS]
      rw [Nat.mul_succ]
      omega
    · intro j hj
      cases j with
      | zero =>
        simp only [List.getD_cons_zero]
        apply list_ext_getD
        · rw [slotList_length, hS]
        · intro t ht
          rw [slotList_length] at ht
          rw [slotList_getD _ _ _ _ ht]
          unfold slotAt
          simp only [Nat.zero_mul, Nat.zero_add, List.flatten_cons]
          rw [List.getD_eq_getElem?_getD, List.getElem?_append_left (by omega),
            List.getD_eq_getElem?_getD]
      | succ j =>
        simp only [List.getD_cons_succ]
        rw [← e2 j (by simpa using hj)]
        apply list_ext_getD
        · rw [slotList_length, slotList_length]
        · intro t ht
          rw [slotList_length] at ht
          rw [slotList_getD _ _ _ _ ht, slotList_getD _ _ _ _ ht]
          unfold slotAt
          simp only [List.flatten_cons]
          rw [List.getD_eq_getElem?_getD, List.getElem?_append_right (by rw [hS, Nat.succ_mul]; omega),
            List.getD_eq_getElem?_getD]
          congr 2
          rw [hS, Nat.succ_mul]
          omega

theorem emitSlots_flatten (k : Nat) (hk : 0 < k) (L : List (List Nat))
    (h : ∀ S ∈ L, S.length = k) :
    emitSlots L.flatten k (L.flatten.length / k) = L := by
  obtain ⟨e1, e2⟩ := slotList_of_flatten k L h
  have hc : L.flatten.length / k = L.length := by
    rw [e1, Nat.mul_div_cancel_left _ hk]
  rw [hc]
  apply List.ext_getElem
  · rw [emitSlots_length]
  · intro j h1 h2
    have := emitSlots_getD L.flatten k L.length j h2
    rw [List.getD_eq_getElem _ _ h1] at this
    rw [this, e2 j h2, List.getD_eq_getElem _ _ h2]

theorem accSlots_lengths (G : Graph) (indep : Bool) (ms : List Nat) (w cc : Nat) :
    ∀ S ∈ accSlots G indep ms w cc, S.length = w + 1 := by
  intro S hS
  unfold accSlots at hS
  obtain ⟨j, -, hj⟩ := List.mem_flatMap.1 hS
  obtain ⟨k, -, hk⟩ := List.mem_filterMap.1 hj
  unfold mergeAt at hk
  split at hk
  · simp only [Option.some.injEq] at hk
    rw [← hk]
    simp [slotList_length]
  · simp at hk

theorem find_k_cliques_spec (G : Graph) (indep : Bool) (ms : List Nat) (w cc : Nat)
    (hw : 1 ≤ w) (hok : SlotsOK ms w cc) :
    emitSlots (igraph_i_find_k_cliques G (w + 1) ms cc indep).1 (w + 1)
        (igraph_i_find_k_cliques G (w + 1) ms cc indep).2
      = accSlots G indep ms w cc ∧
    (igraph_i_find_k_cliques G (w + 1) ms cc indep).2 = (accSlots G indep ms w cc).length := by
  obtain ⟨e1, e2, -⟩ := findLoop_spec G indep ms w cc hw hok
  have hlen := (slotList_of_flatten (w + 1) (accSlots G indep ms w cc)
    (accSlots_lengths G indep ms w cc)).1
  unfold igraph_i_find_k_cliques
  simp only
  rw [e2, List.take_length, e1]
  refine ⟨emitSlots_flatten (w + 1) (by omega) _ (accSlots_lengths G indep ms w cc), ?_⟩
  rw [hlen, Nat.mul_div_cancel_left _ (by omega)]

/-! ## From one generation to the next -/

theorem mem_slotList (ms : List Nat) (w j : Nat) (a : Nat) :
    a ∈ slotList ms w j ↔ ∃ t, t < w ∧ slotAt ms w j t = a := by
  unfold slotList
  rw [List.mem_map]
  constructor
  · rintro ⟨t, ht, e⟩
    exact ⟨t, List.mem_range.1 ht, e⟩
  · rintro ⟨t, ht, e⟩
    exact ⟨t, List.mem_range.2 ht, e⟩

theorem pairwise_getD {α : Type} {R : α → α → Prop} (d : α) (A : List α) (h : A.Pairwise R)
    (i i' : Nat) (hi : i < i') (hi' : i' < A.length) : R (A.getD i d) (A.getD i' d) := by
  have := (List.pairwise_iff_getElem.1 h) i i' (by omega) hi' hi
  rw [List.getD_eq_getElem _ _ (by omega), List.getD_eq_getElem _ _ hi']
  exact this

theorem slot_good (G : Graph) (indep : Bool) (ms : List Nat) (w cc : Nat)
    (h : GenOK G indep w (emitSlots ms w cc)) (j : Nat) (hj : j < cc) :
    GoodSet G indep (slotList ms w j) :=
  ((h.2 _).1 ((mem_emitSlots ms w cc _).2 ⟨j, hj, rfl⟩)).1

theorem slot_pair (G : Graph) (indep : Bool) (ms : List Nat) (w cc : Nat)
    (h : GenOK G indep w (emitSlots ms w cc)) (j : Nat) (hj : j < cc)
    (i i' : Nat) (hi : i < i') (hi' : i' < w) :
    slotAt ms w j i < slotAt ms w j i' ∧
      okPair G indep (slotAt ms w j i) (slotAt ms w j i') = true := by
  have := pairwise_getD 0 _ (slot_good G indep ms w cc h j hj).1 i i' hi
    (by rw [slotList_length]; exact hi')
  rw [slotList_getD _ _ _ _ (by omega), slotList_getD _ _ _ _ hi'] at this
  exact this

theorem slotsOK_of_genOK (G : Graph) (indep : Bool) (ms : List Nat) (w cc : Nat)
    (h : GenOK G indep w (emitSlots ms w cc)) : SlotsOK ms w cc := by
  constructor
  · intro j hj i i' hi hi'
    exact (slot_pair G indep ms w cc h j hj i i' hi hi').1
  · intro j k hjk hk
    have hp := pairwise_getD [] _ h.1 j k hjk (by rw [emitSlots_length]; exact hk)
    rw [emitSlots_getD ms w cc j (by omega), emitSlots_getD ms w cc k hk] at hp
    obtain ⟨i0, h1, -, h3, h4⟩ := hp
    rw [slotList_length] at h1
    refine ⟨i0, h1, ?_, ?_⟩
    · intro t ht
      have := h3 t ht
      rw [slotList_getD _ _ _ _ (by omega), slotList_getD _ _ _ _ (by omega)] at this
      exact this
    · rw [slotList_getD _ _ _ _ h1, slotList_getD _ _ _ _ h1] at h4
      exact h4

theorem mem_accSlots (G : Graph) (indep : Bool) (ms : List Nat) (w cc : Nat) (S : List Nat) :
    S ∈ accSlots G indep ms w cc ↔
      ∃ j k, j < k ∧ k < cc ∧ mergeAt G indep ms w j k = some S := by
  unfold accSlots
  rw [List.mem_flatMap]
  constructor
  · rintro ⟨j, hj, hS⟩
    obtain ⟨k, hk, e⟩ := List.mem_filterMap.1 hS
    have hk' := List.mem_range'_1.1 hk
    have := List.mem_range.1 hj
    exact ⟨j, k, by omega, by omega, e⟩
  · rintro ⟨j, k, hjk, hk, e⟩
    refine ⟨j, List.mem_range.2 (by omega), List.mem_filterMap.2 ⟨k, ?_, e⟩⟩
    rw [List.mem_range'_1]
    omega

theorem mergeAt_some (G : Graph) (indep : Bool) (ms : List Nat) (w j k : Nat) (S : List Nat) :
    mergeAt G indep ms w j k = some S ↔
      ((∀ t, t < w - 1 → slotAt ms w j t = slotAt ms w k t) ∧
        okPair G indep (slotAt ms w j (w - 1)) (slotAt ms w k (w - 1)) = true) ∧
      S = slotList ms w j ++ [slotAt ms w k (w - 1)] := by
  unfold mergeAt
  constructor
  · intro h
    split at h
    · rename_i hc
      simp only [Option.some.injEq] at h
      exact ⟨hc, h.symm⟩
    · simp at h
  · rintro ⟨hc, e⟩
    rw [if_pos hc, e]

theorem slots_first_diff (ms : List Nat) (w cc : Nat) (hok : SlotsOK ms w cc) (j k : Nat)
    (hjk : j < k) (hk : k < cc) (hw : 1 ≤ w)
    (hag : ∀ t, t < w - 1 → slotAt ms w j t = slotAt ms w k t) :
    slotAt ms w j (w - 1) < slotAt ms w k (w - 1) := by
  obtain ⟨i0, h1, h2, h3⟩ := hok.2 j k hjk hk
  by_cases hi : i0 = w - 1
  · subst hi; exact h3
  · have := hag i0 (by omega)
    omega

theorem getD_snoc_left (A : List Nat) (x t : Nat) (ht : t < A.length) :
    (A ++ [x]).getD t 0 = A.getD t 0 := by
  rw [List.getD_eq_getElem?_getD, List.getElem?_append_left ht, List.getD_eq_getElem?_getD]

theorem getD_snoc_last (A : List Nat) (x : Nat) : (A ++ [x]).getD A.length 0 = x := by
  rw [List.getD_eq_getElem?_getD, List.getElem?_append_right (le_refl _)]
  simp

theorem genOK_step_sorted (G : Graph) (indep : Bool) (ms : List Nat) (w cc : Nat)
    (hw : 1 ≤ w) (hok : SlotsOK ms w cc) :
    (accSlots G indep ms w cc).Pairwise lexlt := by
  unfold accSlots
  rw [List.pairwise_flatMap]
  constructor
  · intro j hj
    have hjc := List.mem_range.1 hj
    rw [List.pairwise_filterMap]
    apply List.Pairwise.imp_of_mem _ (List.pairwise_lt_range' (j + 1) (cc - (j + 1)))
    intro k k' hk hk' hkk S hS S' hS'
    have hk1 := List.mem_range'_1.1 hk
    have hk2 := List.mem_range'_1.1 hk'
    obtain ⟨⟨a1, -⟩, e1⟩ := (mergeAt_some G indep ms w j k S).1 hS
    obtain ⟨⟨a2, -⟩, e2⟩ := (mergeAt_some G indep ms w j k' S').1 hS'
    have hlt := slots_first_diff ms w cc hok k k' hkk (by omega) hw
      (fun t ht => (a1 t ht).symm.trans (a2 t ht))
    refine ⟨w, by rw [e1]; simp [slotList_length], by rw [e2]; simp [slotList_length], ?_, ?_⟩
    · intro t ht
      rw [e1, e2, getD_snoc_left _ _ _ (by rw [slotList_length]; exact ht),
        getD_snoc_left _ _ _ (by rw [slotList_length]; exact ht)]
    · have hl : (slotList ms w j).length = w := slotList_length ms w j
      rw [e1, e2]
      have g1 := getD_snoc_last (slotList ms w j) (slotAt ms w k (w - 1))
      have g2 := getD_snoc_last (slotList ms w j) (slotAt ms w k' (w - 1))
      rw [hl] at g1 g2
      rw [g1, g2]
      exact hlt
  · apply List.Pairwise.imp_of_mem _ (List.pairwise_lt_range cc)
    intro j j' hj hj' hjj S hS S' hS'
    have hjc := List.mem_range.1 hj
    have hjc' := List.mem_range.1 hj'
    obtain ⟨k, -, hS⟩ := List.mem_filterMap.1 hS
    obtain ⟨k', -, hS'⟩ := List.mem_filterMap.1 hS'
    obtain ⟨-, e1⟩ := (mergeAt_some G indep ms w j k S).1 hS
    obtain ⟨-, e2⟩ := (mergeAt_some G indep ms w j' k' S').1 hS'
    obtain ⟨i0, h1, h2, h3⟩ := hok.2 j j' hjj hjc'
    refine ⟨i0, by rw [e1]; simp [slotList_length]; omega,
      by rw [e2]; simp [slotList_length]; omega, ?_, ?_⟩
    · intro t ht
      rw [e1, e2, getD_snoc_left _ _ _ (by rw [slotList_length]; omega),
        getD_snoc_left _ _ _ (by rw [slotList_length]; omega),
        slotList_getD _ _ _ _ (by omega), slotList_getD _ _ _ _ (by omega)]
      exact h2 t ht
    · rw [e1, e2, getD_snoc_left _ _ _ (by rw [slotList_length]; omega),
        getD_snoc_left _ _ _ (by rw [slotList_length]; omega),
        slotList_getD _ _ _ _ h1, slotList_getD _ _ _ _ h1]
      exact h3

theorem exists_snoc (S : List Nat) (h : 0 < S.length) : ∃ L b, S = L ++ [b] :=
  ⟨S.dropLast, S.getLast (List.ne_nil_of_length_pos h),
    (List.dropLast_append_getLast (List.ne_nil_of_length_pos h)).symm⟩

theorem exists_two_last (S : List Nat) (w : Nat) (hw : 1 ≤ w) (h : S.length = w + 1) :
    ∃ P a b, S = P ++ [a, b] ∧ P.length = w - 1 := by
  obtain ⟨L, b, e⟩ := exists_snoc S (by omega)
  subst e
  simp only [List.length_append, List.length_singleton] at h
  obtain ⟨P, a, e⟩ := exists_snoc L (by omega)
  subst e
  simp only [List.length_append, List.length_singleton] at h
  exact ⟨P, a, b, by simp, by omega⟩

theorem genOK_step_mem_sound (G : Graph) (indep : Bool) (ms : List Nat) (w cc : Nat)
    (hw : 1 ≤ w) (h : GenOK G indep w (emitSlots ms w cc)) (S : List Nat)
    (hS : S ∈ accSlots G indep ms w cc) : GoodSet G indep S ∧ S.length = w + 1 := by
  refine ⟨?_, accSlots_lengths G indep ms w cc S hS⟩
  obtain ⟨j, k, hjk, hk, hm⟩ := (mem_accSlots G indep ms w cc S).1 hS
  obtain ⟨⟨hag, hokp⟩, e⟩ := (mergeAt_some G indep ms w j k S).1 hm
  have hok := slotsOK_of_genOK G indep ms w cc h
  have hgj := slot_good G indep ms w cc h j (by omega)
  have hgk := slot_good G indep ms w cc h k hk
  have hlt := slots_first_diff ms w cc hok j k hjk hk hw hag
  rw [e]
  constructor
  · rw [List.pairwise_append]
    refine ⟨hgj.1, List.pairwise_singleton _ _, ?_⟩
    intro a ha b hb
    simp only [List.mem_singleton] at hb
    subst hb
    obtain ⟨t, ht, rfl⟩ := (mem_slotList ms w j a).1 ha
    by_cases htl : t = w - 1
    · subst htl
      exact ⟨hlt, hokp⟩
    · rw [hag t (by omega)]
      exact slot_pair G indep ms w cc h k hk t (w - 1) (by omega) (by omega)
  · intro v hv
    rcases List.mem_append.1 hv with h1 | h1
    · exact hgj.2 v h1
    · simp only [List.mem_singleton] at h1
      rw [h1]
      exact hgk.2 _ ((mem_slotList ms w k _).2 ⟨w - 1, by omega, rfl⟩)

theorem genOK_step_mem_complete (G : Graph) (indep : Bool) (ms : List Nat) (w cc : Nat)
    (hw : 1 ≤ w) (h : GenOK G indep w (emitSlots ms w cc)) (S : List Nat)
    (hS : GoodSet G indep S) (hl : S.length = w + 1) : S ∈ accSlots G indep ms w cc := by
  obtain ⟨P, a, b, e, hP⟩ := exists_two_last S w hw hl
  subst e
  have hok := slotsOK_of_genOK G indep ms w cc h
  have hsubA : (P ++ [a]).Sublist (P ++ [a, b]) := by
    have : P ++ [a, b] = (P ++ [a]) ++ [b] := by simp
    rw [this]
    exact List.sublist_append_left _ _
  have hsubB : (P ++ [b]).Sublist (P ++ [a, b]) :=
    List.Sublist.append_left (List.Sublist.cons a (List.Sublist.refl [b])) P
  have hA : GoodSet G indep (P ++ [a]) :=
    ⟨hS.1.sublist hsubA, fun v hv => hS.2 v (hsubA.subset hv)⟩
  have hB : GoodSet G indep (P ++ [b]) :=
    ⟨hS.1.sublist hsubB, fun v hv => hS.2 v (hsubB.subset hv)⟩
  have hab : a < b ∧ okPair G indep a b = true := by
    have := (List.pairwise_append.1 hS.1).2.1
    exact (List.pairwise_cons.1 this).1 b (List.mem_singleton_self _)
  obtain ⟨j, hj, ej⟩ := (mem_emitSlots ms w cc _).1 ((h.2 _).2 ⟨hA, by simp; omega⟩)
  obtain ⟨k, hk, ek⟩ := (mem_emitSlots ms w cc _).1 ((h.2 _).2 ⟨hB, by simp; omega⟩)
  -- the entries of the two slots
  have hjt : ∀ t, t < w - 1 → slotAt ms w j t = P.getD t 0 := by
    intro t ht
    rw [← slotList_getD _ _ _ _ (by omega), ej, getD_snoc_left _ _ _ (by omega)]
  have hkt : ∀ t, t < w - 1 → slotAt ms w k t = P.getD t 0 := by
    intro t ht
    rw [← slotList_getD _ _ _ _ (by omega), ek, getD_snoc_left _ _ _ (by omega)]
  have hjl : slotAt ms w j (w - 1) = a := by
    rw [← slotList_getD _ _ _ _ (by omega), ej, ← hP, getD_snoc_last]
  have hkl : slotAt ms w k (w - 1) = b := by
    rw [← slotList_getD _ _ _ _ (by omega), ek, ← hP, getD_snoc_last]
  have hjk : j < k := by
    rcases Nat.lt_trichotomy j k with h1 | h1 | h1
    · exact h1
    · exfalso
      subst h1
      rw [hjl] at hkl
      omega
    · exfalso
      have := slots_first_diff ms w cc hok k j h1 hj hw
        (fun t ht => (hkt t ht).trans (hjt t ht).symm)
      rw [hjl, hkl] at this
      omega
  rw [mem_accSlots]
  refine ⟨j, k, hjk, hk, ?_⟩
  rw [mergeAt_some]
  refine ⟨⟨fun t ht => (hjt t ht).trans (hkt t ht).symm, ?_⟩, ?_⟩
  · rw [hjl, hkl]
    exact hab.2
  · rw [ej, hkl]
    simp

theorem genOK_step (G : Graph) (indep : Bool) (ms : List Nat) (w cc : Nat)
    (hw : 1 ≤ w) (h : GenOK G indep w (emitSlots ms w cc)) :
    GenOK G indep (w + 1) (accSlots G indep ms w cc) :=
  ⟨genOK_step_sorted G indep ms w cc hw (slotsOK_of_genOK G indep ms w cc h),
   fun S => ⟨genOK_step_mem_sound G indep ms w cc hw h S,
     fun hS => genOK_step_mem_complete G indep ms w cc hw h S hS.1 hS.2⟩⟩

/-! ## The generation loop -/

theorem lexlt_irrefl (A : List Nat) : ¬ lexlt A A := by
  rintro ⟨i, -, -, -, h⟩
  omega

theorem nodup_of_lexlt (gen : List (List Nat)) (h : gen.Pairwise lexlt) : gen.Nodup := by
  apply List.Pairwise.imp _ h
  intro a b hab e
  rw [e] at hab
  exact lexlt_irrefl b hab

theorem slotList_range (n j : Nat) (hj : j < n) : slotList (List.range n) 1 j = [j] := by
  unfold slotList slotAt
  have h1 : List.range 1 = [0] := rfl
  rw [h1]
  simp only [List.map_cons, List.map_nil, Nat.mul_one, Nat.add_zero]
  rw [List.getD_eq_getElem?_getD, List.getElem?_range hj]
  rfl

theorem genOK_base (G : Graph) (indep : Bool) :
    GenOK G indep 1 (emitSlots (List.range G.n) 1 G.n) := by
  constructor
  · rw [emitSlots_eq, List.pairwise_map]
    apply List.Pairwise.imp_of_mem _ (List.pairwise_lt_range G.n)
    intro j k hj hk hjk
    rw [slotList_range _ _ (List.mem_range.1 hj), slotList_range _ _ (List.mem_range.1 hk)]
    exact ⟨0, by simp, by simp, fun t ht => by omega, by simpa using hjk⟩
  · intro S
    rw [mem_emitSlots]
    constructor
    · rintro ⟨j, hj, e⟩
      rw [slotList_range _ _ hj] at e
      subst e
      exact ⟨⟨List.pairwise_singleton _ _, fun v hv => by simp at hv; omega⟩, rfl⟩
    · rintro ⟨hg, hl⟩
      obtain ⟨v, rfl⟩ := List.length_eq_one.1 hl
      have hv := hg.2 v (List.mem_singleton_self _)
      exact ⟨v, hv, slotList_range _ _ hv⟩

theorem no_bigger (G : Graph) (indep : Bool) (w : Nat) (hw : 1 ≤ w) (gen : List (List Nat))
    (h : GenOK G indep w gen) (hlen : gen.length ≤ 1) (S : List Nat)
    (hS : GoodSet G indep S) (hl : w + 1 ≤ S.length) : False := by
  have h1 : S.take w ∈ gen := by
    apply (h.2 _).2
    refine ⟨⟨hS.1.sublist (List.take_sublist _ _),
      fun v hv => hS.2 v ((List.take_sublist _ _).subset hv)⟩, ?_⟩
    rw [List.length_take]
    omega
  have hsub : ((S.drop 1).take w).Sublist S :=
    (List.take_sublist _ _).trans (List.drop_sublist _ _)
  have h2 : (S.drop 1).take w ∈ gen := by
    apply (h.2 _).2
    refine ⟨⟨hS.1.sublist hsub, fun v hv => hS.2 v (hsub.subset hv)⟩, ?_⟩
    rw [List.length_take, List.length_drop]
    omega
  have heq : S.take w = (S.drop 1).take w := by
    cases gen with
    | nil => simp at h1
    | cons g gs =>
      have : gs = [] := by
        cases gs with
        | nil => rfl
        | cons _ _ => simp at hlen
      subst this
      simp only [List.mem_singleton] at h1 h2
      rw [h1, h2]
  obtain ⟨w', rfl⟩ : ∃ w', w = w' + 1 := ⟨w - 1, by omega⟩
  cases S with
  | nil => simp at hl
  | cons x S' =>
    cases S' with
    | nil => simp at hl
    | cons y S'' =>
      simp only [List.take_succ_cons, List.drop_succ_cons, List.drop_zero, List.cons.injEq] at heq
      have := (List.pairwise_cons.1 hS.1).1 y (List.mem_cons_self _ _)
      omega

theorem cliquesLoop_spec (G : Graph) (indep : Bool) (min_size max_size : Int) :
    ∀ (fuel i : Nat) (ms : List Nat) (cc : Nat) (res : List (List Nat)),
      2 ≤ i → GenOK G indep (i - 1) (emitSlots ms (i - 1) cc) → res.Nodup →
      (∀ S, S ∈ res ↔ (GoodSet G indep S ∧ min_size ≤ (S.length : Int) ∧
        (S.length : Int) ≤ max_size ∧ S.length < i)) →
      max_size < (i : Int) + (fuel : Int) →
      ∃ r, cliquesLoop G min_size max_size indep fuel i ms cc res = some r ∧ r.Nodup ∧
        ∀ S, S ∈ r ↔ (GoodSet G indep S ∧ min_size ≤ (S.length : Int) ∧
          (S.length : Int) ≤ max_size) := by
  intro fuel
  induction fuel with
  | zero =>
    intro i ms cc res _ _ hnd hres hfuel
    rw [cliquesLoop]
    have : ¬ ((i : Int) ≤ max_size ∧ cc > 1) := by
      intro hc
      have := hc.1
      simp at hfuel
      omega
    rw [if_neg this]
    refine ⟨res, rfl, hnd, ?_⟩
    intro S
    rw [hres S]
    constructor
    · rintro ⟨a, b, c, -⟩
      exact ⟨a, b, c⟩
    · rintro ⟨a, b, c⟩
      refine ⟨a, b, c, ?_⟩
      simp at hfuel
      omega
  | succ fuel ih =>
    intro i ms cc res hi hgen hnd hres hfuel
    rw [cliquesLoop]
    by_cases hc : (i : Int) ≤ max_size ∧ cc > 1
    · rw [if_pos hc]
      simp only
      obtain ⟨w, rfl⟩ : ∃ w, i = w + 1 := ⟨i - 1, by omega⟩
      simp only [Nat.add_sub_cancel] at hgen ⊢
      have hw : 1 ≤ w := by omega
      obtain ⟨e1, e2⟩ := find_k_cliques_spec G indep ms w cc hw
        (slotsOK_of_genOK G indep ms w cc hgen)
      have hgen' := genOK_step G indep ms w cc hw hgen
      rw [← e1] at hgen'
      apply ih (w + 1 + 1) _ _ _ (by omega) (by simpa using hgen')
      · -- no repetition
        split
        · rw [List.nodup_append]
          refine ⟨hnd, nodup_of_lexlt _ hgen'.1, ?_⟩
          intro S h1 h2
          have a1 := ((hres S).1 h1).2.2.2
          have a2 := ((hgen'.2 S).1 h2).2
          omega
        · exact hnd
      · -- membership
        intro S
        split
        · rename_i hmin
          rw [List.mem_append, hres S, hgen'.2 S]
          constructor
          · rintro (⟨a, b, c, d⟩ | ⟨a, b⟩)
            · exact ⟨a, b, c, by omega⟩
            · refine ⟨a, ?_, ?_, by omega⟩
              · rw [b]; exact hmin.1
              · rw [b]; exact hmin.2
          · rintro ⟨a, b, c, d⟩
            by_cases hlt : S.length < w + 1
            · exact Or.inl ⟨a, b, c, hlt⟩
            · exact Or.inr ⟨a, by omega⟩
        · rename_i hmin
          rw [hres S]
          constructor
          · rintro ⟨a, b, c, d⟩
            exact ⟨a, b, c, by omega⟩
          · rintro ⟨a, b, c, d⟩
            refine ⟨a, b, c, ?_⟩
            by_contra hge
            have : S.length = w + 1 := by omega
            apply hmin
            rw [this] at b
            exact ⟨b, hc.1⟩
      · push_cast at hfuel ⊢
        omega
    · rw [if_neg hc]
      refine ⟨res, rfl, hnd, ?_⟩
      intro S
      rw [hres S]
      constructor
      · rintro ⟨a, b, c, -⟩
        exact ⟨a, b, c⟩
      · rintro ⟨a, b, c⟩
        refine ⟨a, b, c, ?_⟩
        by_contra hge
        have hcc : cc ≤ 1 := by
          by_contra h1
          exact hc ⟨by omega, by omega⟩
        exact no_bigger G indep (i - 1) (by omega) _ hgen
          (by rw [emitSlots_length]; exact hcc) S a (by omega)

theorem i_cliques_spec (G : Graph) (indep : Bool) (min_size max_size : Int)
    (hmin : 1 ≤ min_size) :
    ∃ r, igraph_i_cliques G min_size max_size indep = some r ∧ r.Nodup ∧
      ∀ S, S ∈ r ↔ (GoodSet G indep S ∧ min_size ≤ (S.length : Int) ∧
        (S.length : Int) ≤
          (if max_size > (G.n : Int) ∨ max_size ≤ 0 then (G.n : Int) else max_size)) := by
  unfold igraph_i_cliques
  simp only
  have hm : (if min_size < 0 then 0 else min_size) = min_size := by
    rw [if_neg (by omega)]
  rw [hm]
  apply cliquesLoop_spec G indep min_size _ G.n 2 (List.range G.n) G.n _ (le_refl _)
    (genOK_base G indep)
  · split
    · rw [List.nodup_map_iff (fun a b h => by simpa using h)]
      exact List.nodup_range _
    · exact List.nodup_nil
  · intro S
    split
    · rename_i h1
      rw [List.mem_map]
      constructor
      · rintro ⟨j, hj, rfl⟩
        have hjn := List.mem_range.1 hj
        refine ⟨⟨List.pairwise_singleton _ _, fun v hv => by simp at hv; omega⟩, ?_, ?_, ?_⟩
        · simp only [List.length_singleton, Nat.cast_one]
          exact h1
        · simp only [List.length_singleton, Nat.cast_one]
          split <;> omega
        · simp
      · rintro ⟨hg, hb, -, hl⟩
        have hl1 : S.length = 1 := by
          have : (1 : Int) ≤ (S.length : Int) := le_trans hmin hb
          omega
        obtain ⟨v, rfl⟩ := List.length_eq_one.1 hl1
        exact ⟨v, List.mem_range.2 (hg.2 v (List.mem_singleton_self _)), rfl⟩
    · rename_i h1
      constructor
      · intro h
        simp at h
      · rintro ⟨-, b, -, d⟩
        exfalso
        have : (S.length : Int) < 2 := by exact_mod_cast d
        omega
  · push_cast
    split <;> omega

theorem okPair_clique (G : Graph) (a b : Nat) : okPair G false a b = true ↔ b ∈ G.nbrs a := by
  simp [okPair]

theorem goodSet_clique (G : Graph) (hG : G.Simple) (S : List Nat) :
    GoodSet G false S ↔
      (S.Pairwise (fun a b => a < b) ∧ (∀ v ∈ S, v < G.n) ∧ IsClique G S) := by
  constructor
  · rintro ⟨h1, h2⟩
    refine ⟨h1.imp (fun h => h.1), h2, ?_⟩
    have hsym : S.Pairwise (fun a b => a ∈ G.nbrs b ∧ b ∈ G.nbrs a) := by
      apply List.Pairwise.imp_of_mem _ h1
      intro a b ha hb hab
      have := (okPair_clique G a b).1 hab.2
      exact ⟨(nbrs_symm G hG a b (h2 a ha) (h2 b hb)).2 this, this⟩
    intro u hu v hv hne
    exact (List.Pairwise.forall (fun a b h => ⟨h.2, h.1⟩) hsym hu hv hne).1
  · rintro ⟨h1, h2, h3⟩
    refine ⟨?_, h2⟩
    apply List.Pairwise.imp_of_mem _ h1
    intro a b ha hb hab
    exact ⟨hab, (okPair_clique G a b).2 (h3 b hb a ha (by omega))⟩

/-- C1: on a finite simple undirected graph and for `min_size ≥ 1`,
`igraph_cliques` succeeds and its result holds exactly the cliques of `G` whose
size `k` satisfies `min_size ≤ k ≤ hi`, with `hi = n` when `max_size ≤ 0` or
`max_size > n` and `hi = max_size` otherwise: each such clique occurs exactly once,
as its strictly ascending vertex list, and nothing else occurs. -/
theorem cliques_exact (G : Graph) (hG : G.Simple) (min_size max_size : Int)
    (hmin : 1 ≤ min_size) :
    ∃ r, igraph_cliques G min_size max_size = some r ∧ r.Nodup ∧
      ∀ S, S ∈ r ↔
        (S.Pairwise (fun a b => a < b) ∧ (∀ v ∈ S, v < G.n) ∧ IsClique G S ∧
          min_size ≤ (S.length : Int) ∧
          (S.length : Int) ≤
            (if max_size ≤ 0 ∨ max_size > (G.n : Int) then (G.n : Int) else max_size)) := by
  obtain ⟨r, h1, h2, h3⟩ := i_cliques_spec G false min_size max_size hmin
  refine ⟨r, h1, h2, ?_⟩
  intro S
  rw [h3 S, goodSet_clique G hG S]
  have e : (if max_size > (G.n : Int) ∨ max_size ≤ 0 then (G.n : Int) else max_size)
      = (if max_size ≤ 0 ∨ max_size > (G.n : Int) then (G.n : Int) else max_size) := by
    split <;> split <;> omega
  rw [e]
  constructor
  · rintro ⟨⟨a, b, c⟩, d, f⟩
    exact ⟨a, b, c, d, f⟩
  · rintro ⟨a, b, c, d, f⟩
    exact ⟨⟨a, b, c⟩, d, f⟩

/-- Witness for C1: on the triangle `K3` with `min_size = 1`, `max_size = 0` the
result is `{0},{1},{2},{0,1},{0,2},{1,2},{0,1,2}`. -/
theorem cliques_exact_witness :
    (∃ r, igraph_cliques triangle 1 0 = some r ∧ r.Nodup ∧
      ∀ S, S ∈ r ↔
        (S.Pairwise (fun a b => a < b) ∧ (∀ v ∈ S, v < triangle.n) ∧ IsClique triangle S ∧
          (1 : Int) ≤ (S.length : Int) ∧
          (S.length : Int) ≤
            (if (0 : Int) ≤ 0 ∨ (0 : Int) > (triangle.n : Int) then (triangle.n : Int) else 0))) ∧
    igraph_cliques triangle 1 0
      = some [[0], [1], [2], [0, 1], [0, 2], [1, 2], [0, 1, 2]] :=
  ⟨cliques_exact triangle triangle_simple 1 0 (by decide), by decide⟩

/-! ## Argument normalisation of the level expander -/

theorem cliquesLoop_min (G : Graph) (indep : Bool) (min_size min_size2 max_size : Int) :
    ∀ (fuel i : Nat) (ms : List Nat) (cc : Nat) (res : List (List Nat)),
      min_size ≤ (i : Int) → min_size2 ≤ (i : Int) →
      cliquesLoop G min_size max_size indep fuel i ms cc res
        = cliquesLoop G min_size2 max_size indep fuel i ms cc res := by
  intro fuel
  induction fuel with
  | zero =>
    intro i ms cc res _ _
    rw [cliquesLoop, cliquesLoop]
  | succ fuel ih =>
    intro i ms cc res h1 h2
    rw [cliquesLoop, cliquesLoop]
    by_cases hc : (i : Int) ≤ max_size ∧ cc > 1
    · rw [if_pos hc, if_pos hc]
      simp only
      have e1 : ((i : Int) ≥ min_size ∧ (i : Int) ≤ max_size) := ⟨h1, hc.1⟩
      have e2 : ((i : Int) ≥ min_size2 ∧ (i : Int) ≤ max_size) := ⟨h2, hc.1⟩
      rw [if_pos e1, if_pos e2]
      apply ih
      · push_cast
        omega
      · push_cast
        omega
    · rw [if_neg hc, if_neg hc]

theorem i_cliques_min (G : Graph) (indep : Bool) (min_size max_size : Int)
    (hmin : min_size ≤ 1) :
    igraph_i_cliques G min_size max_size indep = igraph_i_cliques G 1 max_size indep := by
  unfold igraph_i_cliques
  simp only
  have h1 : (if min_size < 0 then 0 else min_size) ≤ 1 := by
    split <;> omega
  rw [if_neg (show ¬ ((1 : Int) < 0) by decide), if_pos h1, if_pos (le_refl _)]
  apply cliquesLoop_min
  · push_cast
    omega
  · norm_num

theorem i_cliques_max (G : Graph) (indep : Bool) (min_size max_size : Int)
    (hmax : max_size ≤ 0 ∨ max_size > (G.n : Int)) :
    igraph_i_cliques G min_size max_size indep = igraph_i_cliques G min_size (G.n : Int) indep := by
  unfold igraph_i_cliques
  simp only
  have h1 : (if max_size > (G.n : Int) ∨ max_size ≤ 0 then (G.n : Int) else max_size)
      = (G.n : Int) := by
    rw [if_pos (by omega)]
  have h2 : (if (G.n : Int) > (G.n : Int) ∨ (G.n : Int) ≤ 0 then (G.n : Int) else (G.n : Int))
      = (G.n : Int) := by
    split <;> rfl
  rw [h1, h2]

theorem i_cliques_spec_all (G : Graph) (indep : Bool) (min_size max_size : Int) :
    ∃ r, igraph_i_cliques G min_size max_size indep = some r ∧ r.Nodup ∧
      ∀ S, S ∈ r ↔ (GoodSet G indep S ∧ 1 ≤ S.length ∧ min_size ≤ (S.length : Int) ∧
        (S.length : Int) ≤
          (if max_size > (G.n : Int) ∨ max_size ≤ 0 then (G.n : Int) else max_size)) := by
  by_cases hmin : 1 ≤ min_size
  · obtain ⟨r, h1, h2, h3⟩ := i_cliques_spec G indep min_size max_size hmin
    refine ⟨r, h1, h2, ?_⟩
    intro S
    rw [h3 S]
    constructor
    · rintro ⟨a, b, c⟩
      exact ⟨a, by omega, b, c⟩
    · rintro ⟨a, -, b, c⟩
      exact ⟨a, b, c⟩
  · obtain ⟨r, h1, h2, h3⟩ := i_cliques_spec G indep 1 max_size (le_refl _)
    rw [← i_cliques_min G indep min_size max_size (by omega)] at h1
    refine ⟨r, h1, h2, ?_⟩
    intro S
    rw [h3 S]
    constructor
    · rintro ⟨a, b, c⟩
      exact ⟨a, by omega, by omega, c⟩
    · rintro ⟨a, b, -, c⟩
      exact ⟨a, by omega, c⟩

theorem goodSet_sorted (G : Graph) (indep : Bool) (S : List Nat) (h : GoodSet G indep S) :
    S.Pairwise (fun a b => a < b) ∧ ∀ v ∈ S, v < G.n :=
  ⟨h.1.imp (fun h => h.1), h.2⟩

theorem leafSets_sorted (n : Nat) (adj_list : Nat → List Nat) (deg : Nat → Nat) :
    ∀ (fuel : Nat) (IS : Nat → Int) (level : Nat) (S : List Nat),
      S ∈ leafSets n adj_list deg fuel IS level →
      S.Pairwise (fun a b => a < b) ∧ ∀ v ∈ S, v < n := by
  intro fuel
  induction fuel with
  | zero =>
    intro IS level S h
    simp [leafSets] at h
  | succ fuel ih =>
    intro IS level S h
    rw [leafSets] at h
    split at h
    · rw [List.mem_singleton] at h
      subst h
      exact ⟨(List.pairwise_lt_range n).sublist (List.filter_sublist _),
        fun v hv => List.mem_range.1 (List.mem_filter.1 hv).1⟩
    · simp only at h
      split at h
      · exact ih _ _ S h
      · rw [List.mem_append] at h
        rcases h with h | h
        · exact ih _ _ S h
        · split at h
          · exact ih _ _ S h
          · simp at h

theorem goodSet_length_le (G : Graph) (indep : Bool) (S : List Nat) (h : GoodSet G indep S) :
    S.length ≤ G.n := by
  have hs := goodSet_sorted G indep S h
  rw [sorted_eq_filter_range S G.n hs.1 hs.2]
  exact le_trans (List.length_filter_le _ _) (by rw [List.length_range])

theorem i_cliques_level (G : Graph) (indep : Bool) (k a b : Int) (h1 : a ≤ k) (h2 : k ≤ b) :
    ∃ r, igraph_i_cliques G a b indep = some r ∧ r.Nodup ∧
      ∀ S, S ∈ r.filter (fun S => decide ((S.length : Int) = k)) ↔
        (GoodSet G indep S ∧ 1 ≤ S.length ∧ (S.length : Int) = k) := by
  obtain ⟨r, e, hnd, hm⟩ := i_cliques_spec_all G indep a b
  refine ⟨r, e, hnd, ?_⟩
  intro S
  rw [List.mem_filter, hm S, decide_eq_true_eq]
  constructor
  · rintro ⟨⟨hg, hl, -, -⟩, hk⟩
    exact ⟨hg, hl, hk⟩
  · rintro ⟨hg, hl, hk⟩
    refine ⟨⟨hg, hl, by omega, ?_⟩, hk⟩
    have := goodSet_length_le G indep S hg
    split <;> omega

theorem mainLeaves_sorted (n : Nat) (adj_list : Nat → List Nat) (S : List Nat)
    (h : S ∈ mainLeaves n adj_list) : S.Pairwise (fun a b => a < b) ∧ ∀ v ∈ S, v < n :=
  leafSets_sorted n adj_list _ _ _ _ S h

/-- C11: for every graph and each of the six entry points that return sets, every
returned set lists its vertices in strictly ascending order (hence without
repetition) and every listed vertex lies in `0..n-1`. -/
theorem returned_sets_ascending (G : Graph) (min_size max_size : Int) (r : List (List Nat))
    (S : List Nat)
    (hr : igraph_cliques G min_size max_size = some r ∨
      igraph_independent_vertex_sets G min_size max_size = some r ∨
      igraph_maximal_cliques G = some r ∨
      igraph_maximal_independent_vertex_sets G = some r ∨
      igraph_largest_cliques G = some r ∨
      igraph_largest_independent_vertex_sets G = some r)
    (hS : S ∈ r) :
    S.Pairwise (fun a b => a < b) ∧ S.Nodup ∧ ∀ v ∈ S, v < G.n := by
  have key : S.Pairwise (fun a b => a < b) ∧ ∀ v ∈ S, v < G.n := by
    rcases hr with h | h | h | h | h | h
    · obtain ⟨r', e, -, hm⟩ := i_cliques_spec_all G false min_size max_size
      rw [igraph_cliques, e] at h
      cases h
      exact goodSet_sorted G false S ((hm S).1 hS).1
    · obtain ⟨r', e, -, hm⟩ := i_cliques_spec_all G true min_size max_size
      rw [igraph_independent_vertex_sets, e] at h
      cases h
      exact goodSet_sorted G true S ((hm S).1 hS).1
    · rw [maximal_cliques_eq] at h
      cases h
      exact mainLeaves_sorted _ _ S hS
    · rw [maximal_independent_vertex_sets_eq] at h
      cases h
      exact mainLeaves_sorted _ _ S hS
    · rw [largest_cliques_eq] at h
      cases h
      exact mainLeaves_sorted _ _ S (List.mem_filter.1 hS).1
    · rw [largest_independent_vertex_sets_eq] at h
      cases h
      exact mainLeaves_sorted _ _ S (List.mem_filter.1 hS).1
  exact ⟨key.1, (key.1.imp (fun h => Nat.ne_of_lt h)), key.2⟩

/-- Witness for C11: the set `{0,2}` returned by
`igraph_maximal_independent_vertex_sets` on the path `0-1-2-3`. -/
theorem returned_sets_ascending_witness :
    igraph_maximal_independent_vertex_sets path4 = some [[0, 2], [0, 3], [1, 3]] ∧
    ([0, 2] : List Nat).Pairwise (fun a b => a < b) ∧ ([0, 2] : List Nat).Nodup ∧
      ∀ v ∈ ([0, 2] : List Nat), v < path4.n :=
  ⟨by decide,
   returned_sets_ascending path4 0 0 [[0, 2], [0, 3], [1, 3]] [0, 2]
    (Or.inr (Or.inr (Or.inr (Or.inl (by decide))))) (by decide)⟩

/-- C12: for every graph `G` (simple or not), every size `k` and all bounds
`(a,b)`, `(a',b')` with `a ≤ k ≤ b` and `a' ≤ k ≤ b'`, both calls of
`igraph_cliques` succeed and the size-`k` sets of the two results are the same
multiset (the two sublists are permutations of each other). -/
theorem cliques_bounds_monotone (G : Graph) (k a b a' b' : Int)
    (h1 : a ≤ k) (h2 : k ≤ b) (h3 : a' ≤ k) (h4 : k ≤ b') :
    ∃ r r', igraph_cliques G a b = some r ∧ igraph_cliques G a' b' = some r' ∧
      (r.filter (fun S => decide ((S.length : Int) = k))).Perm
        (r'.filter (fun S => decide ((S.length : Int) = k))) := by
  obtain ⟨r, e, hnd, hm⟩ := i_cliques_level G false k a b h1 h2
  obtain ⟨r', e', hnd', hm'⟩ := i_cliques_level G false k a' b' h3 h4
  refine ⟨r, r', e, e', ?_⟩
  rw [List.perm_ext_iff_of_nodup (hnd.sublist (List.filter_sublist _))
    (hnd'.sublist (List.filter_sublist _))]
  intro S
  rw [hm S, hm' S]

/-- Witness for C12: on the path `0-1-2-3` with `k = 2`, the bounds `(1,2)` and
`(2,3)` give the same three 2-cliques. -/
theorem cliques_bounds_monotone_witness :
    ((1 : Int) ≤ 2 ∧ (2 : Int) ≤ 2 ∧ (2 : Int) ≤ 2 ∧ (2 : Int) ≤ 3) ∧
    (∃ r r', igraph_cliques path4 1 2 = some r ∧ igraph_cliques path4 2 3 = some r' ∧
      (r.filter (fun S => decide ((S.length : Int) = 2))).Perm
        (r'.filter (fun S => decide ((S.length : Int) = 2)))) ∧
    igraph_cliques path4 1 2 = some [[0], [1], [2], [3], [0, 1], [1, 2], [2, 3]] ∧
    igraph_cliques path4 2 3 = some [[0, 1], [1, 2], [2, 3]] :=
  ⟨by decide,
   cliques_bounds_monotone path4 2 1 2 2 3 (by decide) (by decide) (by decide) (by decide),
   by decide, by decide⟩

/-- C13: argument normalisation of `igraph_cliques` and
`igraph_independent_vertex_sets`: a call with `min_size ≤ 1` returns what the call
with `min_size = 1` returns, a call with `max_size ≤ 0` or `max_size > n` returns
what the call with `max_size = n` returns, and the empty set is never returned. -/
theorem cliques_argument_normalization (G : Graph) (min_size max_size : Int) :
    (min_size ≤ 1 →
      igraph_cliques G min_size max_size = igraph_cliques G 1 max_size ∧
      igraph_independent_vertex_sets G min_size max_size
        = igraph_independent_vertex_sets G 1 max_size) ∧
    ((max_size ≤ 0 ∨ max_size > (G.n : Int)) →
      igraph_cliques G min_size max_size = igraph_cliques G min_size (G.n : Int) ∧
      igraph_independent_vertex_sets G min_size max_size
        = igraph_independent_vertex_sets G min_size (G.n : Int)) ∧
    (∀ r, (igraph_cliques G min_size max_size = some r ∨
        igraph_independent_vertex_sets G min_size max_size = some r) → [] ∉ r) := by
  refine ⟨fun h => ⟨i_cliques_min G false _ _ h, i_cliques_min G true _ _ h⟩,
    fun h => ⟨i_cliques_max G false _ _ h, i_cliques_max G true _ _ h⟩, ?_⟩
  rintro r (h | h) hmem
  · obtain ⟨r', e, -, hm⟩ := i_cliques_spec_all G false min_size max_size
    rw [igraph_cliques, e] at h
    cases h
    have := ((hm []).1 hmem).2.1
    simp at this
  · obtain ⟨r', e, -, hm⟩ := i_cliques_spec_all G true min_size max_size
    rw [igraph_independent_vertex_sets, e] at h
    cases h
    have := ((hm []).1 hmem).2.1
    simp at this

/-- Witness for C13: on the path `0-1-2-3`, `min_size = -3` behaves as
`min_size = 1` and `max_size = 7` as `max_size = 4`. -/
theorem cliques_argument_normalization_witness :
    (igraph_cliques path4 (-3) 7 = igraph_cliques path4 1 7 ∧
      igraph_independent_vertex_sets path4 (-3) 7 = igraph_independent_vertex_sets path4 1 7) ∧
    (igraph_cliques path4 (-3) 7 = igraph_cliques path4 (-3) (path4.n : Int) ∧
      igraph_independent_vertex_sets path4 (-3) 7
        = igraph_independent_vertex_sets path4 (-3) (path4.n : Int)) ∧
    igraph_cliques path4 (-3) 7 = some [[0], [1], [2], [3], [0, 1], [1, 2], [2, 3]] :=
  ⟨(cliques_argument_normalization path4 (-3) 7).1 (by decide),
   (cliques_argument_normalization path4 (-3) 7).2.1 (Or.inr (by decide)),
   by decide⟩

/-! ## The edgeless and the complete graph -/

theorem emptyGraph_simple (n : Nat) : (emptyGraph n).Simple := by
  intro v _
  exact ⟨List.Pairwise.nil, fun u hu => by simp [emptyGraph] at hu⟩

theorem mem_completeGraph_nbrs (n u v : Nat) :
    u ∈ (completeGraph n).nbrs v ↔ (u < n ∧ u ≠ v) := by
  simp [completeGraph]

theorem completeGraph_simple (n : Nat) : (completeGraph n).Simple := by
  intro v hv
  refine ⟨(List.pairwise_lt_range n).sublist (List.filter_sublist _), ?_⟩
  intro u hu
  rw [mem_completeGraph_nbrs] at hu
  refine ⟨hu.1, hu.2, ?_⟩
  rw [mem_completeGraph_nbrs]
  exact ⟨hv, fun h => hu.2 h.symm⟩

theorem eq_singleton_of_nodup {α : Type} (r : List α) (x : α) (hnd : r.Nodup)
    (h : ∀ S, S ∈ r ↔ S = x) : r = [x] := by
  apply List.perm_singleton.1
  rw [List.perm_ext_iff_of_nodup hnd (List.nodup_singleton x)]
  intro S
  rw [h S, List.mem_singleton]

theorem emptyGraph_maximal (n : Nat) (S : List Nat) :
    IsMaximalIndependentSet (emptyGraph n) S ↔ S = List.range n := by
  constructor
  · rintro ⟨hs, hb, -, hm⟩
    rw [sorted_eq_filter_range S n hs hb]
    apply List.filter_eq_self.2
    intro v hv
    rw [decide_eq_true_eq]
    by_contra hc
    obtain ⟨u, -, hu⟩ := hm v (List.mem_range.1 hv) hc
    simp [emptyGraph] at hu
  · rintro rfl
    refine ⟨List.pairwise_lt_range n, fun v hv => List.mem_range.1 hv, ?_, ?_⟩
    · intro u _ v _ h
      simp [emptyGraph] at h
    · intro v hv hn
      exact absurd (List.mem_range.2 hv) hn

theorem completeGraph_maximal (n : Nat) (hn : 1 ≤ n) (S : List Nat) :
    IsMaximalIndependentSet (completeGraph n) S ↔ ∃ v, v < n ∧ S = [v] := by
  constructor
  · rintro ⟨hs, hb, hi, hm⟩
    have heq : ∀ u ∈ S, ∀ v ∈ S, u = v := by
      intro u hu v hv
      by_contra hne
      exact hi u hu v hv ((mem_completeGraph_nbrs n u v).2 ⟨hb u hu, hne⟩)
    cases S with
    | nil =>
      obtain ⟨u, hu, -⟩ := hm 0 (by simpa [completeGraph] using hn) (by simp)
      simp at hu
    | cons x rest =>
      cases rest with
      | nil => exact ⟨x, hb x (List.mem_cons_self _ _), rfl⟩
      | cons y rest2 =>
        have h1 := heq x (List.mem_cons_self _ _) y (by simp)
        have h2 := (List.pairwise_cons.1 hs).1 y (List.mem_cons_self _ _)
        omega
  · rintro ⟨v, hv, rfl⟩
    refine ⟨List.pairwise_singleton _ _, fun u hu => ?_, ?_, ?_⟩
    · rw [List.mem_singleton] at hu
      subst hu
      exact hv
    · intro u hu w hw h
      rw [List.mem_singleton] at hu hw
      rw [hu, hw] at h
      exact ((mem_completeGraph_nbrs n v v).1 h).2 rfl
    · intro w _ hw'
      rw [List.mem_singleton] at hw'
      exact ⟨v, List.mem_singleton_self _, (mem_completeGraph_nbrs n v w).2
        ⟨hv, fun h => hw' h.symm⟩⟩

/-- C14: for every `n ≥ 0`, on the graph with `n` vertices and no edges
`igraph_maximal_independent_vertex_sets` returns exactly one set, `[0,1,...,n-1]`
(the empty set for `n = 0`), and `igraph_independence_number` returns `n`. -/
theorem edgeless_graph_result (n : Nat) :
    igraph_maximal_independent_vertex_sets (emptyGraph n) = some [List.range n] ∧
    igraph_independence_number (emptyGraph n) = some n := by
  have key : mainLeaves (emptyGraph n).n (igraph_adjlist_init (emptyGraph n))
      = [List.range n] := by
    apply eq_singleton_of_nodup _ _ (mainLeaves_nodup (emptyGraph n) (emptyGraph_simple n))
    intro S
    rw [← emptyGraph_maximal n S]
    exact ⟨mainLeaves_sound _ (emptyGraph_simple n) S,
      mainLeaves_complete _ (emptyGraph_simple n) S⟩
  rw [maximal_independent_vertex_sets_eq, independence_number_eq, key]
  simp [maxSize]

/-- C15: for every `n ≥ 1`, on the complete graph `K_n`
`igraph_maximal_independent_vertex_sets` returns the `n` singletons
`{0},...,{n-1}`, each exactly once (the result is a permutation of the list of the
singletons), and `igraph_independence_number` returns `1`. -/
theorem complete_graph_result (n : Nat) (hn : 1 ≤ n) :
    (∃ r, igraph_maximal_independent_vertex_sets (completeGraph n) = some r ∧
      r.Perm ((List.range n).map (fun v => [v]))) ∧
    igraph_independence_number (completeGraph n) = some 1 := by
  have hS := completeGraph_simple n
  have hmem : ∀ S, S ∈ mainLeaves (completeGraph n).n (igraph_adjlist_init (completeGraph n))
      ↔ ∃ v, v < n ∧ S = [v] := by
    intro S
    rw [← completeGraph_maximal n hn S]
    exact ⟨mainLeaves_sound _ hS S, mainLeaves_complete _ hS S⟩
  rw [maximal_independent_vertex_sets_eq, independence_number_eq]
  constructor
  · refine ⟨_, rfl, ?_⟩
    have hnd2 : ((List.range n).map (fun v => [v])).Nodup := by
      rw [List.nodup_map_iff (fun a b h => by simpa using h)]
      exact List.nodup_range n
    refine (List.perm_ext_iff_of_nodup (mainLeaves_nodup _ hS) hnd2).2 ?_
    intro S
    refine (hmem S).trans ?_
    rw [List.mem_map]
    constructor
    · rintro ⟨v, hv, rfl⟩
      exact ⟨v, List.mem_range.2 hv, rfl⟩
    · rintro ⟨v, hv, rfl⟩
      exact ⟨v, List.mem_range.1 hv, rfl⟩
  · obtain ⟨s, hs, hl⟩ := maxSize_attained _ (mainLeaves_ne_nil (completeGraph n).n
      (igraph_adjlist_init (completeGraph n)))
    obtain ⟨v, -, rfl⟩ := (hmem s).1 hs
    rw [← hl]
    rfl

/-- Witness for C15: on `K_3` the result is `{0},{1},{2}` and the independence
number is `1`. -/
theorem complete_graph_result_witness :
    1 ≤ 3 ∧
    ((∃ r, igraph_maximal_independent_vertex_sets (completeGraph 3) = some r ∧
      r.Perm ((List.range 3).map (fun v => [v]))) ∧
    igraph_independence_number (completeGraph 3) = some 1) ∧
    igraph_maximal_independent_vertex_sets (completeGraph 3) = some [[0], [1], [2]] :=
  ⟨by decide, complete_graph_result 3 (by decide), by decide⟩

/-! ## One step of the level expander -/

theorem okPair_indep (G : Graph) (a b : Nat) : okPair G true a b = true ↔ b ∉ G.nbrs a := by
  simp [okPair]

theorem goodSet_indep (G : Graph) (hG : G.Simple) (S : List Nat) :
    GoodSet G true S ↔
      (S.Pairwise (fun a b => a < b) ∧ (∀ v ∈ S, v < G.n) ∧ IsIndependentSet G S) := by
  constructor
  · rintro ⟨h1, h2⟩
    refine ⟨h1.imp (fun h => h.1), h2, ?_⟩
    have hsym : S.Pairwise (fun a b => a ∉ G.nbrs b ∧ b ∉ G.nbrs a) := by
      apply List.Pairwise.imp_of_mem _ h1
      intro a b ha hb hab
      have := (okPair_indep G a b).1 hab.2
      exact ⟨fun h => this ((nbrs_symm G hG a b (h2 a ha) (h2 b hb)).1 h), this⟩
    intro u hu v hv
    by_cases hne : u = v
    · subst hne
      intro h
      exact ((hG u (h2 u hu)).2 u h).2.1 rfl
    · exact (List.Pairwise.forall (fun a b h => ⟨h.2, h.1⟩) hsym hu hv hne).1
  · rintro ⟨h1, h2, h3⟩
    refine ⟨?_, h2⟩
    apply List.Pairwise.imp_of_mem _ h1
    intro a b ha hb hab
    exact ⟨hab, (okPair_indep G a b).2 (h3 b hb a ha)⟩

theorem goodSet_levelSet (G : Graph) (hG : G.Simple) (indep : Bool) (S : List Nat) :
    GoodSet G indep S ↔ IsLevelSet G indep S := by
  cases indep with
  | false =>
    rw [goodSet_clique G hG S]
    simp [IsLevelSet]
  | true =>
    rw [goodSet_indep G hG S]
    simp [IsLevelSet]

theorem genOK_levelSet (G : Graph) (hG : G.Simple) (indep : Bool) (w : Nat)
    (gen : List (List Nat)) :
    GenOK G indep w gen ↔
      (gen.Pairwise lexlt ∧ ∀ S, S ∈ gen ↔ (IsLevelSet G indep S ∧ S.length = w)) := by
  unfold GenOK
  constructor
  · rintro ⟨h1, h2⟩
    exact ⟨h1, fun S => by rw [h2 S, goodSet_levelSet G hG indep S]⟩
  · rintro ⟨h1, h2⟩
    exact ⟨h1, fun S => by rw [h2 S, goodSet_levelSet G hG indep S]⟩

theorem find_k_cliques_buffer (G : Graph) (indep : Bool) (ms : List Nat) (w cc : Nat)
    (hw : 1 ≤ w) (hok : SlotsOK ms w cc) :
    (igraph_i_find_k_cliques G (w + 1) ms cc indep).1 = (accSlots G indep ms w cc).flatten := by
  obtain ⟨h1, h2, -⟩ := findLoop_spec G indep ms w cc hw hok
  unfold igraph_i_find_k_cliques
  simp only
  rw [h2, List.take_length, h1]

theorem accSlots_ascending (G : Graph) (indep : Bool) (ms : List Nat) (w cc : Nat)
    (hw : 1 ≤ w) (hok : SlotsOK ms w cc) :
    ∀ S ∈ accSlots G indep ms w cc, S.Pairwise (fun a b => a < b) := by
  intro S hS
  obtain ⟨j, k, hjk, hk, hm⟩ := (mem_accSlots G indep ms w cc S).1 hS
  obtain ⟨⟨hag, -⟩, rfl⟩ := (mergeAt_some G indep ms w j k S).1 hm
  have hlast := slots_first_diff ms w cc hok j k hjk hk hw hag
  rw [List.pairwise_append]
  refine ⟨?_, List.pairwise_singleton _ _, ?_⟩
  · unfold slotList
    rw [List.pairwise_map]
    apply List.Pairwise.imp_of_mem _ (List.pairwise_lt_range w)
    intro a b _ hb hab
    exact hok.1 j (by omega) a b hab (List.mem_range.1 hb)
  · intro a ha b hb
    rw [List.mem_singleton] at hb
    subst hb
    obtain ⟨t, ht, rfl⟩ := (mem_slotList ms w j a).1 ha
    by_cases hlt : t < w - 1
    · exact lt_trans (hok.1 j (by omega) t (w - 1) hlt (by omega)) hlast
    · have : t = w - 1 := by omega
      rw [this]
      exact hlast

theorem pairwise_lexlt_of_genInv (gen : List (List Nat)) (h : GenInv gen) :
    gen.Pairwise lexlt := by
  have := h.2.1.and h.2.2
  apply this.imp
  rintro A B ⟨h1 | h1, h2⟩
  · exact absurd h1 h2
  · exact h1

theorem genInv_of_lexlt (gen : List (List Nat))
    (h1 : ∀ S ∈ gen, S.Pairwise (fun a b => a < b)) (h2 : gen.Pairwise lexlt) : GenInv gen :=
  ⟨h1, h2.imp (fun h => Or.inr h), nodup_of_lexlt gen h2⟩

theorem slotsOK_of_genInv (ms : List Nat) (w cc : Nat) (h : GenInv (emitSlots ms w cc)) :
    SlotsOK ms w cc := by
  have hlex := pairwise_lexlt_of_genInv _ h
  constructor
  · intro j hj i i' hi hi'
    have hp := h.1 (slotList ms w j) ((mem_emitSlots ms w cc _).2 ⟨j, hj, rfl⟩)
    have := pairwise_getD 0 _ hp i i' hi (by rw [slotList_length]; exact hi')
    rwa [slotList_getD _ _ _ _ (by omega), slotList_getD _ _ _ _ hi'] at this
  · intro j k hjk hk
    have := pairwise_getD [] _ hlex j k hjk (by rw [emitSlots_length]; exact hk)
    rw [emitSlots_getD _ _ _ _ (by omega), emitSlots_getD _ _ _ _ hk] at this
    obtain ⟨i, hi1, -, hag, hlt⟩ := this
    rw [slotList_length] at hi1
    refine ⟨i, hi1, ?_, ?_⟩
    · intro t ht
      have := hag t ht
      rwa [slotList_getD _ _ _ _ (by omega), slotList_getD _ _ _ _ (by omega)] at this
    · rwa [slotList_getD _ _ _ _ hi1, slotList_getD _ _ _ _ hi1] at hlt

theorem genInv_step (G : Graph) (indep : Bool) (ms : List Nat) (w cc : Nat) (hw : 1 ≤ w)
    (h : GenInv (emitSlots ms w cc)) :
    GenInv (emitSlots (igraph_i_find_k_cliques G (w + 1) ms cc indep).1 (w + 1)
      (igraph_i_find_k_cliques G (w + 1) ms cc indep).2) := by
  have hok := slotsOK_of_genInv ms w cc h
  rw [(find_k_cliques_spec G indep ms w cc hw hok).1]
  exact genInv_of_lexlt _ (accSlots_ascending G indep ms w cc hw hok)
    (genOK_step_sorted G indep ms w cc hw hok)

theorem genInv_base (n : Nat) : GenInv (emitSlots (List.range n) 1 n) := by
  apply genInv_of_lexlt
  · intro S hS
    obtain ⟨j, hj, rfl⟩ := (mem_emitSlots _ _ _ _).1 hS
    rw [slotList_range _ _ hj]
    exact List.pairwise_singleton _ _
  · exact (genOK_base { n := n, nbrs := fun _ => [] } false).1

theorem genInv_run (G : Graph) (indep : Bool) :
    ∀ m, GenInv (emitSlots (runGeneration G indep m).1 (m + 1) (runGeneration G indep m).2) := by
  intro m
  induction m with
  | zero => exact genInv_base G.n
  | succ m ih => exact genInv_step G indep _ (m + 1) _ (by omega) ih

theorem levelGen_base (G : Graph) (hG : G.Simple) (indep : Bool) :
    (emitSlots (List.range G.n) 1 G.n).Pairwise lexlt ∧
      ∀ S, S ∈ emitSlots (List.range G.n) 1 G.n ↔ (IsLevelSet G indep S ∧ S.length = 1) :=
  (genOK_levelSet G hG indep 1 _).1 (genOK_base G indep)

/-- C19: inductive step of the level expander. For a simple graph `G` and `k ≥ 2`,
if the input buffer of `igraph_i_find_k_cliques` with `size = k` holds all
`(k-1)`-cliques of `G`, each exactly once, as strictly ascending slots in strictly
increasing lexicographic order, then the output buffer is the concatenation of its
slots, these slots are all `k`-cliques of `G`, each exactly once, strictly
ascending and in strictly increasing lexicographic order, and `*clique_count` is
the number of `k`-cliques; with `independent_vertices` the same holds for
independent vertex sets. -/
theorem find_k_cliques_inductive_step (G : Graph) (hG : G.Simple) (indep : Bool)
    (k : Nat) (hk : 2 ≤ k) (ms : List Nat) (cc : Nat)
    (hord : (emitSlots ms (k - 1) cc).Pairwise lexlt)
    (hall : ∀ S, S ∈ emitSlots ms (k - 1) cc ↔ (IsLevelSet G indep S ∧ S.length = k - 1)) :
    (igraph_i_find_k_cliques G k ms cc indep).1
      = (emitSlots (igraph_i_find_k_cliques G k ms cc indep).1 k
          (igraph_i_find_k_cliques G k ms cc indep).2).flatten ∧
    (emitSlots (igraph_i_find_k_cliques G k ms cc indep).1 k
      (igraph_i_find_k_cliques G k ms cc indep).2).Pairwise lexlt ∧
    (emitSlots (igraph_i_find_k_cliques G k ms cc indep).1 k
      (igraph_i_find_k_cliques G k ms cc indep).2).Nodup ∧
    (∀ S, S ∈ emitSlots (igraph_i_find_k_cliques G k ms cc indep).1 k
        (igraph_i_find_k_cliques G k ms cc indep).2 ↔ (IsLevelSet G indep S ∧ S.length = k)) ∧
    ∀ L : List (List Nat), L.Nodup → (∀ S, S ∈ L ↔ (IsLevelSet G indep S ∧ S.length = k)) →
      (igraph_i_find_k_cliques G k ms cc indep).2 = L.length := by
  obtain ⟨w, rfl⟩ : ∃ w, k = w + 1 := ⟨k - 1, by omega⟩
  simp only [Nat.add_sub_cancel] at hord hall
  have hw : 1 ≤ w := by omega
  have hgen : GenOK G indep w (emitSlots ms w cc) :=
    (genOK_levelSet G hG indep w _).2 ⟨hord, hall⟩
  have hok := slotsOK_of_genOK G indep ms w cc hgen
  obtain ⟨e1, e2⟩ := find_k_cliques_spec G indep ms w cc hw hok
  have hstep := (genOK_levelSet G hG indep (w + 1) _).1 (genOK_step G indep ms w cc hw hgen)
  rw [e1]
  refine ⟨find_k_cliques_buffer G indep ms w cc hw hok, hstep.1, nodup_of_lexlt _ hstep.1,
    hstep.2, ?_⟩
  intro L hnd hL
  rw [e2]
  apply List.Perm.length_eq
  rw [List.perm_ext_iff_of_nodup (nodup_of_lexlt _ hstep.1) hnd]
  intro S
  rw [hstep.2 S, hL S]

/-- Witness for C19: on the path `0-1-2-3` the generation of the four singletons
gives the generation of the three edges `{0,1},{1,2},{2,3}`. -/
theorem find_k_cliques_inductive_step_witness :
    igraph_i_find_k_cliques path4 2 (List.range 4) 4 false = ([0, 1, 1, 2, 2, 3], 3) ∧
    (igraph_i_find_k_cliques path4 2 (List.range 4) 4 false).1
      = (emitSlots (igraph_i_find_k_cliques path4 2 (List.range 4) 4 false).1 2
          (igraph_i_find_k_cliques path4 2 (List.range 4) 4 false).2).flatten ∧
    (emitSlots (igraph_i_find_k_cliques path4 2 (List.range 4) 4 false).1 2
      (igraph_i_find_k_cliques path4 2 (List.range 4) 4 false).2).Pairwise lexlt ∧
    (emitSlots (igraph_i_find_k_cliques path4 2 (List.range 4) 4 false).1 2
      (igraph_i_find_k_cliques path4 2 (List.range 4) 4 false).2).Nodup ∧
    (∀ S, S ∈ emitSlots (igraph_i_find_k_cliques path4 2 (List.range 4) 4 false).1 2
        (igraph_i_find_k_cliques path4 2 (List.range 4) 4 false).2 ↔
          (IsLevelSet path4 false S ∧ S.length = 2)) ∧
    ∀ L : List (List Nat), L.Nodup → (∀ S, S ∈ L ↔ (IsLevelSet path4 false S ∧ S.length = 2)) →
      (igraph_i_find_k_cliques path4 2 (List.range 4) 4 false).2 = L.length :=
  ⟨by decide,
   find_k_cliques_inductive_step path4 path4_simple false 2 (by decide) (List.range 4) 4
    (levelGen_base path4 path4_simple false).1 (levelGen_base path4 path4_simple false).2⟩

/-- C20: generation invariant of the level expander. For every graph and every
`k ≥ 2`, if the slots of the previous generation are strictly ascending, in
lexicographically non-decreasing order and pairwise distinct, then so are the slots
of the generation written by `igraph_i_find_k_cliques`; generation 1 (the
singletons `0..n-1`) satisfies the invariant, and so does every generation of a
run. -/
theorem generation_invariant (G : Graph) (indep : Bool) :
    (∀ (k : Nat) (ms : List Nat) (cc : Nat), 2 ≤ k → GenInv (emitSlots ms (k - 1) cc) →
      GenInv (emitSlots (igraph_i_find_k_cliques G k ms cc indep).1 k
        (igraph_i_find_k_cliques G k ms cc indep).2)) ∧
    GenInv (emitSlots (List.range G.n) 1 G.n) ∧
    ∀ m, GenInv (emitSlots (runGeneration G indep m).1 (m + 1) (runGeneration G indep m).2) := by
  refine ⟨?_, genInv_base G.n, genInv_run G indep⟩
  intro k ms cc hk h
  obtain ⟨w, rfl⟩ : ∃ w, k = w + 1 := ⟨k - 1, by omega⟩
  exact genInv_step G indep ms w cc (by omega) (by simpa using h)

/-- Witness for C20: on the cycle `0-1-2-3-0` the generation written from the four
singletons is `{0,1},{0,3},{1,2},{2,3}` and satisfies the invariant. -/
theorem generation_invariant_witness :
    igraph_i_find_k_cliques cycle4 2 (List.range 4) 4 false = ([0, 1, 0, 3, 1, 2, 2, 3], 4) ∧
    GenInv (emitSlots (igraph_i_find_k_cliques cycle4 2 (List.range 4) 4 false).1 2
      (igraph_i_find_k_cliques cycle4 2 (List.range 4) 4 false).2) :=
  ⟨by decide,
   (generation_invariant cycle4 false).1 2 (List.range 4) 4 (by decide)
    (generation_invariant cycle4 false).2.1⟩

/-! ## Error paths of the level expander -/

theorem post_ok {α : Type} (env : Nat → Option ErrorCode) (a : α) (Q : α → Prop)
    (E : List (Option (List Nat)) → Prop) (h : Q a) : Post env (Outcome.ok a) Q E := h

theorem post_bind {α β : Type} (env : Nat → Option ErrorCode) (o : Outcome α)
    (f : α → Outcome β) (P : α → Prop) (Q : β → Prop) (E : List (Option (List Nat)) → Prop)
    (h1 : Post env o P E) (h2 : ∀ a, P a → Post env (f a) Q E) :
    Post env (o.bind f) Q E := by
  cases o with
  | ok a => exact h2 a h1
  | error code res => exact h1
  | timeout => exact h1

theorem post_mono {α : Type} (env : Nat → Option ErrorCode) (o : Outcome α)
    (P Q : α → Prop) (E : List (Option (List Nat)) → Prop)
    (h1 : Post env o P E) (h2 : ∀ a, P a → Q a) : Post env o Q E := by
  cases o with
  | ok a => exact h2 a h1
  | error code res => exact h1
  | timeout => exact h1

theorem post_attempt (env : Nat → Option ErrorCode) (kind : OpKind) (x : Ctx)
    (E : List (Option (List Nat)) → Prop) (h : E (IGRAPH_FINALLY_FREE x)) :
    Post env (attempt env kind x) (fun x2 => x2 = { x with tick := x.tick + 1 }) E := by
  unfold attempt
  cases he : env x.tick with
  | none => exact rfl
  | some e => exact ⟨h, x.tick, kind, e, he, rfl⟩

theorem post_foldl {σ τ β : Type} (env : Nat → Option ErrorCode) (f : σ → β → Outcome σ)
    (g : τ → β → τ) (R : σ → τ → Prop) (E : List (Option (List Nat)) → Prop) :
    ∀ (l : List β), (∀ s t b, b ∈ l → R s t → Post env (f s b) (fun s2 => R s2 (g t b)) E) →
      ∀ s t, R s t → Post env (Outcome.foldl f l s) (fun s2 => R s2 (l.foldl g t)) E := by
  intro l
  induction l with
  | nil =>
    intro _ s t h
    exact h
  | cons b bs ih =>
    intro hf s t h
    rw [Outcome.foldl]
    apply post_bind env _ _ _ _ _ (hf s t b (List.mem_cons_self _ _) h)
    intro s2 hs2
    exact ih (fun s t b hb hR => hf s t b (List.mem_cons_of_mem _ hb) hR) s2 (g t b) hs2

theorem finally_free_fold (fs : List Cleanup) :
    ∀ res : List (Option (List Nat)),
      (Cleanup.igraph_i_cliques_free_res ∈ fs ∨ res = []) →
      fs.foldl (fun res f => runCleanup f res) res = [] := by
  induction fs with
  | nil =>
    intro res h
    rcases h with h | h
    · simp at h
    · exact h
  | cons f fs ih =>
    intro res h
    rw [List.foldl_cons]
    apply ih
    by_cases hf : f = Cleanup.igraph_i_cliques_free_res
    · right
      subst hf
      rfl
    · rcases h with h | h
      · left
        rcases List.mem_cons.1 h with h | h
        · exact absurd h.symm hf
        · exact h
      · right
        subst h
        cases f <;> rfl

theorem finally_free_guarded (x : Ctx) (h : Guarded x ∨ x.res = []) :
    IGRAPH_FINALLY_FREE x = [] :=
  finally_free_fold x.finally_stack x.res h

theorem post_attempt_guarded (env : Nat → Option ErrorCode) (kind : OpKind)
    (x : Ctx) (h : Guarded x ∨ x.res = []) :
    Post env (attempt env kind x)
      (fun x2 => x2.finally_stack = x.finally_stack ∧ x2.res = x.res) (fun res => res = []) :=
  post_mono env _ _ _ _ (post_attempt env kind x _ (finally_free_guarded x h))
    (fun a ha => by subst ha; exact ⟨rfl, rfl⟩)

theorem bind_ok {α β : Type} (a : α) (f : α → Outcome β) : (Outcome.ok a).bind f = f a := rfl

theorem growIfFull_err_spec (env : Nat → Option ErrorCode) (s : KState) (x x0 : Ctx)
    (hg : Guarded x) (hx : x.finally_stack = x0.finally_stack ∧ x.res = x0.res) :
    Post env
      (if s.st.length = s.cap then
        (allocate env x).bind (fun x3 =>
          Outcome.ok (({ s with cap := s.cap * 2 } : KState), x3))
      else Outcome.ok (s, x))
      (fun p2 => p2.1 = growIfFull s ∧
        p2.2.finally_stack = x0.finally_stack ∧ p2.2.res = x0.res)
      (fun res => res = []) := by
  unfold growIfFull
  by_cases h : s.st.length = s.cap
  · rw [if_pos h, if_pos h]
    apply post_bind env _ _ _ _ _ (post_attempt_guarded env _ x (Or.inl hg))
    intro x3 hx3
    exact ⟨rfl, hx3.1.trans hx.1, hx3.2.trans hx.2⟩
  · rw [if_neg h, if_neg h]
    exact ⟨rfl, hx⟩

theorem mergePair_err_spec (env : Nat → Option ErrorCode) (G : Graph) (indep : Bool)
    (size : Nat) (c1 c2 : Nat → Nat) (p : KState × Ctx) (hg : Guarded p.2) :
    Post env (mergePair_err env G indep size c1 c2 p)
      (fun p2 => p2.1 = mergePair G indep size c1 c2 p.1 ∧
        p2.2.finally_stack = p.2.finally_stack ∧ p2.2.res = p.2.res)
      (fun res => res = []) := by
  unfold mergePair_err
  apply post_bind env _ _ _ _ _ (post_attempt_guarded env _ p.2 (Or.inl hg))
  intro x hx
  unfold mergePair
  dsimp only
  by_cases h1 : (scanPrefix c1 c2 (size - 1) 0 p.1.st).1 = size - 1
  · rw [if_pos h1, if_pos h1]
    exact ⟨rfl, hx⟩
  · rw [if_neg h1, if_neg h1]
    have hgx : Guarded x := by
      unfold Guarded
      rw [hx.1]
      exact hg
    by_cases h2 : (scanRest c1 c2 (c1 (scanPrefix c1 c2 (size - 1) 0 p.1.st).1)
        (size - 1 - ((scanPrefix c1 c2 (size - 1) 0 p.1.st).1 + 1))
        ((scanPrefix c1 c2 (size - 1) 0 p.1.st).1 + 1) true
        (c2 (scanPrefix c1 c2 (size - 1) 0 p.1.st).1)
        ((scanPrefix c1 c2 (size - 1) 0 p.1.st).2
          ++ [c1 (scanPrefix c1 c2 (size - 1) 0 p.1.st).1])).1 ≠ size - 1
    · rw [if_pos h2, if_pos h2, bind_ok]
      exact growIfFull_err_spec env _ x p.2 hgx hx
    · rw [if_neg h2, if_neg h2]
      unfold Outcome.bind
      have h3 := post_attempt_guarded env OpKind.callee x (Or.inl hgx)
      unfold IGRAPH_CHECK
      cases ha : attempt env OpKind.callee x with
      | ok x2 =>
        rw [ha] at h3
        dsimp only
        have hgx2 : Guarded x2 := by
          unfold Guarded
          rw [h3.1]
          exact hgx
        exact growIfFull_err_spec env _ x2 p.2 hgx2 ⟨h3.1.trans hx.1, h3.2.trans hx.2⟩
      | error code res =>
        rw [ha] at h3
        exact h3
      | timeout =>
        rw [ha] at h3
        exact h3

theorem guarded_of_stack (x y : Ctx) (h : x.finally_stack = y.finally_stack) (hy : Guarded y) :
    Guarded x := by
  unfold Guarded
  rw [h]
  exact hy

theorem find_k_cliques_err_spec (env : Nat → Option ErrorCode) (G : Graph) (size : Nat)
    (ms : List Nat) (occ : Nat) (indep : Bool) (x : Ctx) (hg : Guarded x) :
    Post env (igraph_i_find_k_cliques_err env G size ms occ indep x)
      (fun r => r.1 = igraph_i_find_k_cliques G size ms occ indep ∧
        r.2.finally_stack = x.finally_stack ∧ r.2.res = x.res)
      (fun res => res = []) := by
  unfold igraph_i_find_k_cliques_err
  apply post_bind env _ _ _ _ _ (post_attempt_guarded env _ x (Or.inl hg))
  intro x1 hx1
  have hR : ∀ (l : List Nat) (f : KState × Ctx → Nat → Outcome (KState × Ctx))
      (g : KState → Nat → KState),
      (∀ s t b, b ∈ l →
        (s.1 = t ∧ s.2.finally_stack = Cleanup.igraph_free :: x.finally_stack ∧ s.2.res = x.res) →
        Post env (f s b) (fun s2 => s2.1 = g t b ∧
          s2.2.finally_stack = Cleanup.igraph_free :: x.finally_stack ∧ s2.2.res = x.res)
          (fun res => res = [])) →
      ∀ s t, (s.1 = t ∧ s.2.finally_stack = Cleanup.igraph_free :: x.finally_stack ∧
          s.2.res = x.res) →
        Post env (Outcome.foldl f l s) (fun s2 => s2.1 = l.foldl g t ∧
          s2.2.finally_stack = Cleanup.igraph_free :: x.finally_stack ∧ s2.2.res = x.res)
          (fun res => res = []) := by
    intro l f g hf s t hs
    exact post_foldl env f g
      (fun s t => s.1 = t ∧ s.2.finally_stack = Cleanup.igraph_free :: x.finally_stack ∧
        s.2.res = x.res) _ l hf s t hs
  have hloop := hR (List.range occ)
    (fun p j =>
      Outcome.foldl
        (fun p k =>
          mergePair_err env G indep size (slotAt ms (size - 1) j) (slotAt ms (size - 1) k) p)
        (List.range' (j + 1) (occ - (j + 1))) p)
    (fun s j =>
      (List.range' (j + 1) (occ - (j + 1))).foldl
        (fun s k =>
          mergePair G indep size (slotAt ms (size - 1) j) (slotAt ms (size - 1) k) s)
        s)
    (by
      intro s t j _ hs
      apply hR _ _ _ _ s t hs
      intro s t k _ hs
      have hgs : Guarded s.2 := by
        unfold Guarded
        rw [hs.2.1]
        exact List.mem_cons_of_mem _ hg
      apply post_mono env _ _ _ _ (mergePair_err_spec env G indep size _ _ s hgs)
      intro p2 hp2
      rw [← hs.1]
      exact ⟨hp2.1, hp2.2.1.trans hs.2.1, hp2.2.2.trans hs.2.2⟩)
    (({ st := [], n := 0, cap := size * occ, warn := 0 } : KState),
      IGRAPH_FINALLY Cleanup.igraph_free x1)
    { st := [], n := 0, cap := size * occ, warn := 0 }
    ⟨rfl, by rw [IGRAPH_FINALLY, hx1.1], by rw [IGRAPH_FINALLY]; exact hx1.2⟩
  apply post_bind env _ _ _ _ _ hloop
  intro p hp
  refine ⟨?_, ?_, hp.2.2⟩
  · unfold igraph_i_find_k_cliques findLoop
    dsimp only
    rw [← hp.1]
  · unfold IGRAPH_FINALLY_CLEAN
    dsimp only
    rw [hp.2.1]
    rfl

theorem foldl_push (slots : List (List Nat)) :
    ∀ r : List (Option (List Nat)),
      slots.foldl (fun r S => r ++ [some S]) r = r ++ slots.map some := by
  induction slots with
  | nil => intro r; simp
  | cons S rest ih =>
    intro r
    rw [List.foldl_cons, ih]
    simp

theorem emitSlots_err_spec (env : Nat → Option ErrorCode) (slots : List (List Nat)) (x : Ctx)
    (hg : Guarded x) :
    Post env (emitSlots_err env slots x)
      (fun x2 => x2.finally_stack = x.finally_stack ∧ x2.res = x.res ++ slots.map some)
      (fun res => res = []) := by
  unfold emitSlots_err
  rw [← foldl_push]
  apply post_foldl env _ (fun r S => r ++ [some S])
    (fun x2 r => x2.finally_stack = x.finally_stack ∧ x2.res = r) _ slots _ x x.res ⟨rfl, rfl⟩
  intro s t S _ hs
  have hgs : Guarded s := guarded_of_stack s x hs.1 hg
  apply post_bind env _ _ _ _ _ (post_attempt_guarded env _ s (Or.inl hgs))
  intro x1 hx1
  have hg1 : Guarded (IGRAPH_FINALLY Cleanup.igraph_free x1) := by
    unfold Guarded IGRAPH_FINALLY
    dsimp only
    rw [hx1.1]
    exact List.mem_cons_of_mem _ hgs
  apply post_bind env _ _ _ _ _ (post_attempt_guarded env _ _ (Or.inl hg1))
  intro x2 hx2
  have hg2 : Guarded (IGRAPH_FINALLY Cleanup.igraph_vector_destroy x2) := by
    unfold Guarded IGRAPH_FINALLY
    dsimp only
    rw [hx2.1]
    exact List.mem_cons_of_mem _ hg1
  apply post_bind env _ _ _ _ _ (post_attempt_guarded env _ _ (Or.inl hg2))
  intro x3 hx3
  unfold IGRAPH_FINALLY_CLEAN
  dsimp only
  constructor
  · rw [hx3.1]
    unfold IGRAPH_FINALLY
    dsimp only
    rw [hx2.1]
    unfold IGRAPH_FINALLY
    dsimp only
    rw [hx1.1, ← hs.1]
    rfl
  · rw [hx3.2]
    unfold IGRAPH_FINALLY
    dsimp only
    rw [hx2.2]
    unfold IGRAPH_FINALLY
    dsimp only
    rw [hx1.2, hs.2]

theorem foldl_set_singles (n : Nat) :
    ∀ m, m ≤ n →
      (List.range m).foldl (fun (r : List (Option (List Nat))) i => r.set i (some [i]))
          (List.replicate n none)
        = (List.range m).map (fun i => some [i]) ++ List.replicate (n - m) none := by
  intro m
  induction m with
  | zero => intro _; simp
  | succ m ih =>
    intro hm
    rw [List.range_succ, List.foldl_append, ih (by omega)]
    simp only [List.foldl_cons, List.foldl_nil, List.map_append, List.map_cons, List.map_nil]
    obtain ⟨d, hd⟩ : ∃ d, n - m = d + 1 := ⟨n - m - 1, by omega⟩
    have hd2 : n - (m + 1) = d := by omega
    rw [hd, hd2, List.replicate_succ, List.set_append_right _ _ (by simp)]
    simp

theorem emitSingles_err_spec (env : Nat → Option ErrorCode) (n : Nat) (x : Ctx)
    (hg : Guarded x) (hres : x.res = []) :
    Post env (emitSingles_err env n x)
      (fun x2 => x2.finally_stack = x.finally_stack ∧
        x2.res = (List.range n).map (fun i => some [i]))
      (fun res => res = []) := by
  unfold emitSingles_err
  apply post_bind env _ _ _ _ _ (post_attempt_guarded env _ x (Or.inl hg))
  intro x1 hx1
  have h0 : igraph_vector_ptr_null (igraph_vector_ptr_resize x1.res n)
      = List.replicate n none := by
    rw [hx1.2, hres]
    simp [igraph_vector_ptr_null, igraph_vector_ptr_resize]
  have hfin := foldl_set_singles n n (le_refl _)
  rw [Nat.sub_self, List.replicate_zero, List.append_nil] at hfin
  rw [← hfin, h0]
  refine post_foldl env _ (fun (r : List (Option (List Nat))) i => r.set i (some [i]))
    (fun (x2 : Ctx) (r : List (Option (List Nat))) =>
      x2.finally_stack = x.finally_stack ∧ x2.res = r) _ (List.range n) ?_ _ _
    ⟨hx1.1, rfl⟩
  intro s t i _ hs
  have hgs : Guarded s := guarded_of_stack s x hs.1 hg
  apply post_bind env _ _ _ _ _ (post_attempt_guarded env _ s (Or.inl hgs))
  intro x2 hx2
  have hg2 : Guarded (IGRAPH_FINALLY Cleanup.igraph_free x2) := by
    unfold Guarded IGRAPH_FINALLY
    dsimp only
    rw [hx2.1]
    exact List.mem_cons_of_mem _ hgs
  apply post_bind env _ _ _ _ _ (post_attempt_guarded env _ _ (Or.inl hg2))
  intro x3 hx3
  unfold IGRAPH_FINALLY_CLEAN
  dsimp only
  constructor
  · rw [hx3.1]
    unfold IGRAPH_FINALLY
    dsimp only
    rw [hx2.1, ← hs.1]
    rfl
  · rw [hx3.2]
    unfold IGRAPH_FINALLY
    dsimp only
    rw [hx2.2, hs.2]

theorem cliquesLoop_err_spec (env : Nat → Option ErrorCode) (G : Graph)
    (min_size max_size : Int) (indep : Bool) :
    ∀ (fuel i : Nat) (nms : List Nat) (cc : Nat) (x : Ctx) (pr r : List (List Nat)),
      x.finally_stack = [Cleanup.igraph_free, Cleanup.igraph_free,
        Cleanup.igraph_i_cliques_free_res, Cleanup.igraph_vector_destroy] →
      x.res = pr.map some →
      cliquesLoop G min_size max_size indep fuel i nms cc pr = some r →
      Post env (cliquesLoop_err env G min_size max_size indep fuel i nms cc x)
        (fun x2 => x2.finally_stack = [Cleanup.igraph_free, Cleanup.igraph_free,
            Cleanup.igraph_i_cliques_free_res, Cleanup.igraph_vector_destroy] ∧
          x2.res = r.map some)
        (fun res => res = []) := by
  intro fuel
  induction fuel with
  | zero =>
    intro i nms cc x pr r hst hres hpure
    rw [cliquesLoop] at hpure
    rw [cliquesLoop_err]
    by_cases hc : (i : Int) ≤ max_size ∧ cc > 1
    · rw [if_pos hc] at hpure
      cases hpure
    · rw [if_neg hc] at hpure
      rw [if_neg hc]
      cases hpure
      exact ⟨hst, hres⟩
  | succ fuel ih =>
    intro i nms cc x pr r hst hres hpure
    rw [cliquesLoop] at hpure
    rw [cliquesLoop_err]
    by_cases hc : (i : Int) ≤ max_size ∧ cc > 1
    · rw [if_pos hc] at hpure
      rw [if_pos hc]
      have hgx : Guarded x := by
        unfold Guarded
        rw [hst]
        decide
      apply post_bind env _ _ _ _ _ (post_attempt_guarded env _ x (Or.inl hgx))
      intro x1 hx1
      have hg1 : Guarded (IGRAPH_FINALLY_CLEAN 2 x1) := by
        unfold Guarded IGRAPH_FINALLY_CLEAN
        dsimp only
        rw [hx1.1, hst]
        decide
      apply post_bind env _ _ _ _ _
        (find_k_cliques_err_spec env G i nms cc indep _ hg1)
      intro rr hrr
      have hst2 : (IGRAPH_FINALLY Cleanup.igraph_free
          (IGRAPH_FINALLY Cleanup.igraph_free rr.2)).finally_stack
          = [Cleanup.igraph_free, Cleanup.igraph_free,
            Cleanup.igraph_i_cliques_free_res, Cleanup.igraph_vector_destroy] := by
        unfold IGRAPH_FINALLY
        dsimp only
        rw [hrr.2.1]
        unfold IGRAPH_FINALLY_CLEAN
        dsimp only
        rw [hx1.1, hst]
        rfl
      have hres2 : (IGRAPH_FINALLY Cleanup.igraph_free
          (IGRAPH_FINALLY Cleanup.igraph_free rr.2)).res = pr.map some := by
        unfold IGRAPH_FINALLY
        dsimp only
        rw [hrr.2.2]
        unfold IGRAPH_FINALLY_CLEAN
        dsimp only
        rw [hx1.2, hres]
      have hg2 : Guarded (IGRAPH_FINALLY Cleanup.igraph_free
          (IGRAPH_FINALLY Cleanup.igraph_free rr.2)) := by
        unfold Guarded
        rw [hst2]
        decide
      dsimp only at hpure
      rw [← hrr.1] at hpure
      by_cases hm : (i : Int) ≥ min_size ∧ (i : Int) ≤ max_size
      · rw [if_pos hm] at hpure
        rw [if_pos hm]
        apply post_bind env _ _ _ _ _ (emitSlots_err_spec env _ _ hg2)
        intro x2 hx2
        apply ih (i + 1) rr.1.1 rr.1.2 x2 _ r (hx2.1.trans hst2) _ hpure
        rw [hx2.2, hres2, List.map_append]
      · rw [if_neg hm] at hpure
        rw [if_neg hm, bind_ok]
        exact ih (i + 1) rr.1.1 rr.1.2 _ _ r hst2 hres2 hpure
    · rw [if_neg hc] at hpure
      rw [if_neg hc]
      cases hpure
      exact ⟨hst, hres⟩

theorem i_cliques_err_spec (env : Nat → Option ErrorCode) (G : Graph)
    (res : List (Option (List Nat))) (min_size max_size : Int) (indep : Bool)
    (r : List (List Nat)) (hpure : igraph_i_cliques G min_size max_size indep = some r) :
    Post env (igraph_i_cliques_err env G res min_size max_size indep)
      (fun s => s = r.map some) (fun res => res = []) := by
  unfold igraph_i_cliques at hpure
  unfold igraph_i_cliques_err
  dsimp only at hpure ⊢
  apply post_bind env _ _ _ _ _ (post_attempt_guarded env _ _ (Or.inr rfl))
  intro x1 hx1
  have hg3 : Guarded (IGRAPH_FINALLY Cleanup.igraph_i_cliques_free_res
      { IGRAPH_FINALLY Cleanup.igraph_vector_destroy x1 with
        res := igraph_vector_ptr_clear (IGRAPH_FINALLY Cleanup.igraph_vector_destroy x1).res }) :=
    List.mem_cons_self _ _
  apply post_bind env _ _ _ _ _ (post_attempt_guarded env _ _ (Or.inl hg3))
  intro x4 hx4
  have hst4 : x4.finally_stack
      = [Cleanup.igraph_i_cliques_free_res, Cleanup.igraph_vector_destroy] := by
    rw [hx4.1]
    unfold IGRAPH_FINALLY
    dsimp only
    rw [hx1.1]
  have hres4 : x4.res = [] := hx4.2
  have hg5 : Guarded (IGRAPH_FINALLY Cleanup.igraph_free x4) := by
    unfold Guarded IGRAPH_FINALLY
    dsimp only
    rw [hst4]
    decide
  apply post_bind env _ _ _ _ _ (post_attempt_guarded env _ _ (Or.inl hg5))
  intro x5 hx5
  have hst5 : (IGRAPH_FINALLY Cleanup.igraph_free x5).finally_stack
      = [Cleanup.igraph_free, Cleanup.igraph_free,
        Cleanup.igraph_i_cliques_free_res, Cleanup.igraph_vector_destroy] := by
    unfold IGRAPH_FINALLY
    dsimp only
    rw [hx5.1]
    unfold IGRAPH_FINALLY
    dsimp only
    rw [hst4]
  have hres5 : (IGRAPH_FINALLY Cleanup.igraph_free x5).res = [] := by
    unfold IGRAPH_FINALLY
    dsimp only
    rw [hx5.2]
    exact hres4
  have hg6 : Guarded (IGRAPH_FINALLY Cleanup.igraph_free x5) := by
    unfold Guarded
    rw [hst5]
    decide
  have hfin : ∀ x7 : Ctx,
      (x7.finally_stack = [Cleanup.igraph_free, Cleanup.igraph_free,
          Cleanup.igraph_i_cliques_free_res, Cleanup.igraph_vector_destroy] ∧
        x7.res = r.map some) →
      Post env (Outcome.ok (IGRAPH_FINALLY_CLEAN 4 x7).res) (fun s => s = r.map some)
        (fun res => res = []) := by
    intro x7 hx7
    exact hx7.2
  by_cases hm : (if min_size < 0 then 0 else min_size) ≤ 1
  · rw [if_pos hm] at hpure
    rw [if_pos hm]
    apply post_bind env _ _ _ _ _ (emitSingles_err_spec env G.n _ hg6 hres5)
    intro x6 hx6
    apply post_bind env _ _ _ _ _
      (cliquesLoop_err_spec env G _ _ indep G.n 2 (List.range G.n) G.n x6 _ r
        (hx6.1.trans hst5) _ hpure)
    · exact hfin
    · rw [hx6.2, List.map_map]
      rfl
  · rw [if_neg hm] at hpure
    rw [if_neg hm, bind_ok]
    apply post_bind env _ _ _ _ _
      (cliquesLoop_err_spec env G _ _ indep G.n 2 (List.range G.n) G.n _ _ r
        hst5 _ hpure)
    · exact hfin
    · rw [hres5]
      rfl

/-! ## Error paths of the backtrack engine -/

theorem post_attempt_any (env : Nat → Option ErrorCode) (kind : OpKind) (x : Ctx) :
    Post env (attempt env kind x)
      (fun x2 => x2.finally_stack = x.finally_stack ∧ x2.res = x.res) (fun _ => True) :=
  post_mono env _ _ _ _ (post_attempt env kind x _ trivial)
    (fun a ha => by subst ha; exact ⟨rfl, rfl⟩)

theorem post_foldl_check (env : Nat → Option ErrorCode) {β : Type} (l : List β) (x : Ctx) :
    Post env (Outcome.foldl (fun x _ => IGRAPH_CHECK env x) l x)
      (fun x2 => x2.finally_stack = x.finally_stack ∧ x2.res = x.res) (fun _ => True) := by
  have := post_foldl env (fun (x : Ctx) (_ : β) => IGRAPH_CHECK env x)
    (fun (u : Unit) (_ : β) => u)
    (fun (x2 : Ctx) (_ : Unit) => x2.finally_stack = x.finally_stack ∧ x2.res = x.res)
    (fun _ => True) l
    (by
      intro s t b _ hs
      apply post_mono env _ _ _ _ (post_attempt_any env _ s)
      intro a ha
      exact ⟨ha.1.trans hs.1, ha.2.trans hs.2⟩)
    x () ⟨rfl, rfl⟩
  exact this

theorem removeLoop_err_spec (env : Nat → Option ErrorCode) (adj_list : Nat → List Nat)
    (deg : Nat → Nat) (level : Nat) :
    ∀ (vs : List Nat) (j : Nat) (s : (Nat → Int) × List Nat × Bool) (x : Ctx),
      Post env (removeLoop_err env adj_list deg level vs j (s, x))
        (fun r => r.1 = removeLoop adj_list deg level vs j s ∧
          r.2.finally_stack = x.finally_stack ∧ r.2.res = x.res) (fun _ => True) := by
  intro vs
  induction vs with
  | nil =>
    intro j s x
    exact ⟨rfl, rfl, rfl⟩
  | cons v2 rest ih =>
    intro j s x
    obtain ⟨IS, bucket, f⟩ := s
    rw [removeLoop_err, removeLoop]
    dsimp only
    by_cases h0 : IS v2 = 0
    · rw [if_pos h0, if_pos h0]
      apply post_bind env _ _
        (fun (s1 : ((Nat → Int) × List Nat × Bool) × Ctx) =>
          s1.1 = ((removeInner IS f (lowScan (adj_list v2) (deg v2) level)).1,
            igraph_set_add bucket j,
            (removeInner IS f (lowScan (adj_list v2) (deg v2) level)).2) ∧
          s1.2.finally_stack = x.finally_stack ∧ s1.2.res = x.res) _ _
      · apply post_bind env _ _ _ _ _ (post_attempt_any env _ x)
        intro x1 hx1
        exact ⟨rfl, hx1⟩
      · rintro ⟨s1, x1⟩ ⟨e1, e2, e3⟩
        dsimp only at e1 e2 e3
        subst e1
        apply post_mono env _ _ _ _ (ih (j + 1) _ x1)
        intro r hr
        exact ⟨hr.1, hr.2.1.trans e2, hr.2.2.trans e3⟩
    · rw [if_neg h0, if_neg h0, bind_ok]
      apply post_mono env _ _ _ _ (ih (j + 1) _ x)
      intro r hr
      exact hr

theorem sinkRel_push (L : List (List Nat)) (s : List (Option (List Nat))) (vec : List Nat)
    (h : s = L.map some) : s ++ [some vec] = (L ++ [vec]).map some := by
  rw [h, List.map_append]
  rfl

theorem push_err_spec (env : Nat → Option ErrorCode) (x : Ctx) (L : List (List Nat))
    (vec : List Nat) (hres : x.res = L.map some) :
    Post env
      ((IGRAPH_CHECK env x).bind (fun x4 => Outcome.ok { x4 with res := x4.res ++ [some vec] }))
      (fun x5 => x5.finally_stack = x.finally_stack ∧ x5.res = (L ++ [vec]).map some)
      (fun _ => True) := by
  apply post_bind env _ _ _ _ _ (post_attempt_any env _ x)
  intro x4 hx4
  refine ⟨hx4.1, ?_⟩
  dsimp only
  rw [hx4.2]
  exact sinkRel_push L _ vec hres

theorem leaf_finish (env : Nat → Option ErrorCode) (o : Outcome Ctx)
    (d2 : igraph_i_max_ind_vsets_data_t) (x : Ctx) (L2 : List (List Nat))
    (h : Post env o
      (fun x5 => x5.finally_stack = Cleanup.igraph_vector_destroy :: x.finally_stack ∧
        x5.res = L2.map some) (fun _ => True)) :
    Post env (o.bind (fun x5 => Outcome.ok (d2, IGRAPH_FINALLY_CLEAN 1 x5)))
      (fun r => r.1 = d2 ∧ r.2.finally_stack = x.finally_stack ∧
        SinkRel (some L2) r.2.res ∧ (some L2).isSome = true) (fun _ => True) := by
  apply post_bind env _ _ _ _ _ h
  intro x5 hx5
  refine ⟨rfl, ?_, hx5.2, rfl⟩
  unfold IGRAPH_FINALLY_CLEAN
  dsimp only
  rw [hx5.1]
  rfl

theorem leafStep_err_spec (env : Nat → Option ErrorCode) (res : Option (List (List Nat)))
    (d : igraph_i_max_ind_vsets_data_t) (x : Ctx) (hrel : SinkRel res x.res) :
    Post env (leafStep_err env res.isSome d x)
      (fun r => r.1 = (leafStep res d).2 ∧ r.2.finally_stack = x.finally_stack ∧
        SinkRel (leafStep res d).1 r.2.res ∧ (leafStep res d).1.isSome = res.isSome)
      (fun _ => True) := by
  unfold leafStep_err leafStep
  dsimp only
  cases res with
  | none =>
    simp only [Option.isSome_none, Bool.false_eq_true, if_false]
    exact ⟨rfl, rfl, trivial, trivial⟩
  | some L =>
    simp only [Option.isSome_some, if_true]
    have hx : x.res = L.map some := hrel
    apply post_bind env _ _ _ _ _ (post_attempt_any env _ x)
    intro x1 hx1
    apply post_bind env _ _ _ _ _ (post_attempt_any env _ x1)
    intro x2 hx2
    apply post_bind env _ _ _ _ _ (post_foldl_check env _ _)
    intro x3 hx3
    have hst3 : x3.finally_stack = Cleanup.igraph_vector_destroy :: x.finally_stack := by
      rw [hx3.1]
      unfold IGRAPH_FINALLY
      dsimp only
      rw [hx2.1, hx1.1]
    have hres3 : x3.res = L.map some := by
      rw [hx3.2]
      unfold IGRAPH_FINALLY
      dsimp only
      rw [hx2.2, hx1.2, hx]
    generalize (List.filter (fun v1 => decide (d.IS v1 = 0)) (List.range d.matrix_size)) = vec
    by_cases hk : (!d.keep_only_largest) = true
    · simp only [if_pos hk]
      apply leaf_finish
      apply post_mono env _ _ _ _ (push_err_spec env x3 L vec hres3)
      intro x5 hx5
      exact ⟨hx5.1.trans hst3, hx5.2⟩
    · simp only [if_neg hk]
      by_cases hgt : vec.length > d.largest_set_size
      · simp only [if_pos hgt]
        apply leaf_finish
        apply post_mono env _ _ _ _
          (push_err_spec env { x3 with res := igraph_vector_ptr_clear x3.res } [] vec rfl)
        intro x5 hx5
        exact ⟨hx5.1.trans hst3, hx5.2⟩
      · simp only [if_neg hgt]
        by_cases heq : vec.length = d.largest_set_size
        · simp only [if_pos heq]
          apply leaf_finish
          apply post_mono env _ _ _ _ (push_err_spec env x3 L vec hres3)
          intro x5 hx5
          exact ⟨hx5.1.trans hst3, hx5.2⟩
        · simp only [if_neg heq]
          apply leaf_finish
          exact ⟨hst3, hres3⟩

theorem backtrack_err_spec (env : Nat → Option ErrorCode) :
    ∀ (fuel : Nat) (res : Option (List (List Nat))) (d : igraph_i_max_ind_vsets_data_t)
      (level : Nat) (x : Ctx) (resP : Option (List (List Nat)))
      (dP : igraph_i_max_ind_vsets_data_t),
      SinkRel res x.res →
      igraph_i_maximal_independent_vertex_sets_backtrack fuel res d level = some (resP, dP) →
      Post env
        (igraph_i_maximal_independent_vertex_sets_backtrack_err env res.isSome fuel d level x)
        (fun r => r.1 = dP ∧ r.2.finally_stack = x.finally_stack ∧
          SinkRel resP r.2.res ∧ resP.isSome = res.isSome)
        (fun _ => True) := by
  intro fuel
  induction fuel with
  | zero =>
    intro res d level x resP dP _ hpure
    rw [igraph_i_maximal_independent_vertex_sets_backtrack] at hpure
    cases hpure
  | succ fuel ih =>
    intro res d level x resP dP hrel hpure
    rw [igraph_i_maximal_independent_vertex_sets_backtrack] at hpure
    rw [igraph_i_maximal_independent_vertex_sets_backtrack_err]
    apply post_bind env _ _ _ _ _ (post_attempt_any env _ x)
    intro x0 hx0
    have hrel0 : SinkRel res x0.res := by
      rw [hx0.2]
      exact hrel
    by_cases hleaf : (level : Int) ≥ (d.matrix_size : Int) - 1
    · rw [if_pos hleaf] at hpure
      rw [if_pos hleaf]
      have e := Option.some.inj hpure
      apply post_mono env _ _ _ _ (leafStep_err_spec env res d x0 hrel0)
      intro r hr
      rw [e] at hr
      exact ⟨hr.1, hr.2.1.trans hx0.1, hr.2.2.1, hr.2.2.2⟩
    · rw [if_neg hleaf] at hpure
      rw [if_neg hleaf]
      dsimp only at hpure ⊢
      by_cases hc : countZero d.IS (lowScan (d.adj_list (level + 1)) (d.deg (level + 1)) level) = 0
      · rw [if_pos hc] at hpure
        rw [if_pos hc]
        split at hpure
        · cases hpure
        · rename_i res1 d1 h1
          have e := Option.some.inj hpure
          apply post_bind env _ _ _ _ _ (ih res _ (level + 1) x0 res1 d1 hrel0 h1)
          intro r1 hr1
          have e1 : resP = res1 := (congrArg Prod.fst e).symm
          have e2 := (congrArg Prod.snd e).symm
          dsimp only at e2
          subst e1
          refine ⟨?_, hr1.2.1.trans hx0.1, hr1.2.2.1, hr1.2.2.2⟩
          rw [e2, hr1.1]
      · rw [if_neg hc] at hpure
        rw [if_neg hc]
        split at hpure
        · cases hpure
        · rename_i res1 d1 h1
          apply post_bind env _ _ _ _ _ (ih res _ (level + 1) x0 res1 d1 hrel0 h1)
          rintro ⟨d1b, x1⟩ ⟨hd1, hst1, hrel1, hiso1⟩
          dsimp only at hd1 hst1 hrel1
          subst hd1
          apply post_bind env _ _ _ _ _ (removeLoop_err_spec env _ _ _ _ _ _ _)
          rintro ⟨tp, xt⟩ ⟨htp, hstt, hrest⟩
          dsimp only at htp hstt hrest
          subst htp
          dsimp only
          have hrelt : SinkRel res1 xt.res := by
            rw [hrest]
            exact hrel1
          rw [← hiso1]
          by_cases ht : (removeLoop d1b.adj_list d1b.deg level
              (lowScan (d.adj_list (level + 1)) (d.deg (level + 1)) level) 0
              (upd d1b.IS (level + 1) 0, d1b.buckets (level + 1), true)).2.2 = true
          · rw [if_pos ht] at hpure
            rw [if_pos ht]
            split at hpure
            · cases hpure
            · rename_i res2 d3 h3
              have e := Option.some.inj hpure
              apply post_bind env _ _ _ _ _ (ih res1 _ (level + 1) xt res2 d3 hrelt h3)
              rintro ⟨d3b, x3⟩ ⟨hd3, hst3, hrel3, hiso3⟩
              dsimp only at hd3 hst3 hrel3
              subst hd3
              have e1 : resP = res2 := (congrArg Prod.fst e).symm
              have e2 := (congrArg Prod.snd e).symm
              dsimp only at e2
              subst e1
              exact ⟨e2.symm, hst3.trans (hstt.trans (hst1.trans hx0.1)), hrel3, hiso3⟩
          · rw [if_neg ht] at hpure
            rw [if_neg ht, bind_ok]
            dsimp only at hpure
            have e := Option.some.inj hpure
            have e1 : resP = res1 := (congrArg Prod.fst e).symm
            have e2 := (congrArg Prod.snd e).symm
            dsimp only at e2
            subst e1
            exact ⟨e2.symm, hstt.trans (hst1.trans hx0.1), hrelt, rfl⟩

theorem driverSetup_err_spec (env : Nat → Option ErrorCode) (n : Nat) (x : Ctx) :
    Post env (driverSetup_err env n x)
      (fun x2 => x2.finally_stack = Cleanup.igraph_i_free_set_array ::
          Cleanup.igraph_vector_destroy :: Cleanup.igraph_free ::
          Cleanup.igraph_adjlist_destroy :: x.finally_stack ∧ x2.res = x.res)
      (fun _ => True) := by
  unfold driverSetup_err
  apply post_bind env _ _ _ _ _ (post_attempt_any env _ x)
  intro x1 hx1
  apply post_bind env _ _ _ _ _ (post_attempt_any env _ _)
  intro x2 hx2
  apply post_bind env _ _ _ _ _ (post_attempt_any env _ _)
  intro x3 hx3
  apply post_bind env _ _ _ _ _ (post_attempt_any env _ _)
  intro x4 hx4
  apply post_mono env _ _ _ _ (post_foldl_check env _ _)
  intro x5 hx5
  unfold IGRAPH_FINALLY at hx2 hx3 hx4 hx5
  dsimp only at hx2 hx3 hx4 hx5
  constructor
  · rw [hx5.1, hx4.1, hx3.1, hx2.1, hx1.1]
  · rw [hx5.2, hx4.2, hx3.2, hx2.2, hx1.2]

theorem backtrack_err_main (env : Nat → Option ErrorCode) (n : Nat) (adj : Nat → List Nat)
    (keep : Bool) (x : Ctx) (hres : x.res = []) :
    Post env
      (igraph_i_maximal_independent_vertex_sets_backtrack_err env true (n + 1)
        (initData n adj keep) 0 x)
      (fun r => ∃ L, igraph_i_maximal_independent_vertex_sets_backtrack (n + 1) (some [])
          (initData n adj keep) 0 = some (some L, r.1) ∧
        r.2.finally_stack = x.finally_stack ∧ r.2.res = L.map some)
      (fun _ => True) := by
  obtain ⟨⟨resP, dP⟩, hp⟩ := backtrack_total (n + 1) (some []) (initData n adj keep) 0
    (by omega) (by simp [initData])
  have := backtrack_err_spec env (n + 1) (some []) (initData n adj keep) 0 x resP dP
    (by rw [SinkRel, hres]; rfl) hp
  apply post_mono env _ _ _ _ this
  rintro r ⟨h1, h2, h3, h4⟩
  cases resP with
  | none => simp at h4
  | some L =>
    refine ⟨L, ?_, h2, h3⟩
    rw [hp, h1]

theorem maximal_independent_vertex_sets_err_spec (env : Nat → Option ErrorCode) (G : Graph)
    (res : List (Option (List Nat))) :
    Post env (igraph_maximal_independent_vertex_sets_err env G res)
      (fun s => ∃ r, igraph_maximal_independent_vertex_sets G = some r ∧ s = r.map some)
      (fun _ => True) := by
  unfold igraph_maximal_independent_vertex_sets_err
  apply post_bind env _ _ _ _ _ (driverSetup_err_spec env G.n _)
  intro x hx
  apply post_bind env _ _ _ _ _
    (backtrack_err_main env G.n (igraph_adjlist_init G) false _ rfl)
  rintro r ⟨L, hL, -, hr⟩
  refine ⟨L, ?_, ?_⟩
  · unfold igraph_maximal_independent_vertex_sets
    rw [hL]
  · exact hr

theorem driver_err_spec (env : Nat → Option ErrorCode) (G : Graph)
    (res : List (Option (List Nat))) (keep complementer : Bool) :
    Post env (igraph_i_maximal_or_largest_cliques_or_indsets_err env G (some res) keep complementer)
      (fun p => ∃ r, igraph_i_maximal_or_largest_cliques_or_indsets G true keep complementer
          = some (some r, p.2) ∧ p.1 = some (r.map some))
      (fun _ => True) := by
  unfold igraph_i_maximal_or_largest_cliques_or_indsets_err
  dsimp only
  apply post_bind env _ _ _ _ _ (driverSetup_err_spec env G.n _)
  intro x hx
  simp only [Option.isSome_some, if_true]
  apply post_bind env _ _ _ _ _ (backtrack_err_main env G.n _ keep _ rfl)
  rintro r ⟨L, hL, -, hr⟩
  refine ⟨L, ?_, ?_⟩
  · unfold igraph_i_maximal_or_largest_cliques_or_indsets
    simp only [if_true]
    rw [hL]
  · show some (IGRAPH_FINALLY_CLEAN 4 r.2).res = some (L.map some)
    rw [← hr]
    rfl

theorem maximal_cliques_err_spec (env : Nat → Option ErrorCode) (G : Graph)
    (res : List (Option (List Nat))) :
    Post env (igraph_maximal_cliques_err env G res)
      (fun s => ∃ r, igraph_maximal_cliques G = some r ∧ s = r.map some) (fun _ => True) := by
  unfold igraph_maximal_cliques_err
  apply post_bind env _ _ _ _ _ (driver_err_spec env G res false true)
  rintro p ⟨r, h1, h2⟩
  refine ⟨r, ?_, ?_⟩
  · unfold igraph_maximal_cliques
    rw [h1]
  · rw [h2]
    rfl

theorem largest_cliques_err_spec (env : Nat → Option ErrorCode) (G : Graph)
    (res : List (Option (List Nat))) :
    Post env (igraph_largest_cliques_err env G res)
      (fun s => ∃ r, igraph_largest_cliques G = some r ∧ s = r.map some) (fun _ => True) := by
  unfold igraph_largest_cliques_err
  apply post_bind env _ _ _ _ _ (driver_err_spec env G res true true)
  rintro p ⟨r, h1, h2⟩
  refine ⟨r, ?_, ?_⟩
  · unfold igraph_largest_cliques
    rw [h1]
  · rw [h2]
    rfl

theorem largest_independent_vertex_sets_err_spec (env : Nat → Option ErrorCode) (G : Graph)
    (res : List (Option (List Nat))) :
    Post env (igraph_largest_independent_vertex_sets_err env G res)
      (fun s => ∃ r, igraph_largest_independent_vertex_sets G = some r ∧ s = r.map some)
      (fun _ => True) := by
  unfold igraph_largest_independent_vertex_sets_err
  apply post_bind env _ _ _ _ _ (driver_err_spec env G res true false)
  rintro p ⟨r, h1, h2⟩
  refine ⟨r, ?_, ?_⟩
  · unfold igraph_largest_independent_vertex_sets
    rw [h1]
  · rw [h2]
    rfl

theorem i_cliques_err_spec2 (env : Nat → Option ErrorCode) (G : Graph)
    (res : List (Option (List Nat))) (min_size max_size : Int) (indep : Bool) :
    Post env (igraph_i_cliques_err env G res min_size max_size indep)
      (fun s => ∃ r, igraph_i_cliques G min_size max_size indep = some r ∧ s = r.map some)
      (fun res => res = []) := by
  obtain ⟨r, hr⟩ := i_cliques_total G min_size max_size indep
  apply post_mono env _ _ _ _ (i_cliques_err_spec env G res min_size max_size indep r hr)
  intro s hs
  exact ⟨r, hr, hs⟩

theorem post_use {α : Type} (env : Nat → Option ErrorCode) (o : Outcome α) (Q : α → Prop)
    (E : List (Option (List Nat)) → Prop) (h : Post env o Q E) :
    (∀ a, o = Outcome.ok a → Q a) ∧
    (∀ code s, o = Outcome.error code s →
      E s ∧ ∃ t kind e, env t = some e ∧ code = codeOf kind e) ∧
    ((∀ t, env t = none) → ∃ a, o = Outcome.ok a ∧ Q a) := by
  cases o with
  | ok a =>
    refine ⟨?_, ?_, fun _ => ⟨a, rfl, h⟩⟩
    · intro b hb
      cases hb
      exact h
    · intro code s hc
      cases hc
  | error code res =>
    refine ⟨?_, ?_, ?_⟩
    · intro b hb
      cases hb
    · intro c s hc
      cases hc
      exact h
    · intro hn
      obtain ⟨t, kind, e, he, -⟩ := h.2
      rw [hn t] at he
      cases he
  | timeout => exact absurd h id

/-! ## Idempotence and failure semantics -/

theorem sinkDetermined_of_post
    (run : (Nat → Option ErrorCode) → List (Option (List Nat)) →
      Outcome (List (Option (List Nat))))
    (pure : Option (List (List Nat))) (E : List (Option (List Nat)) → Prop)
    (h : ∀ env res, Post env (run env res)
      (fun s => ∃ r, pure = some r ∧ s = r.map some) E) :
    SinkDetermined run pure := by
  obtain ⟨s0, -, r, hr, -⟩ := (post_use _ _ _ _ (h (fun _ => none) [])).2.2 (fun _ => rfl)
  have key : ∀ env res s, run env res = Outcome.ok s → s = r.map some := by
    intro env res s hs
    obtain ⟨r2, hr2, hs2⟩ := (post_use _ _ _ _ (h env res)).1 s hs
    rw [hr] at hr2
    cases hr2
    exact hs2
  refine ⟨r, hr, key, ?_, ?_⟩
  · intro res
    obtain ⟨s, hs, -⟩ := (post_use _ _ _ _ (h (fun _ => none) res)).2.2 (fun _ => rfl)
    rw [hs, key _ _ _ hs]
  · intro env1 env2 res s1 s2 h1 h2
    rw [key _ _ _ h1, key _ _ _ h2]

/-- C16: idempotence. For every graph, every argument tuple and every prior
content `res` of the result sink, each of the six set-returning entry points
produces, whenever it succeeds, the sink of the error-free run, which depends on
the graph and the arguments only; it succeeds when no operation fails; and a
second call given the sink of the first produces the identical sink. -/
theorem sink_prior_content_irrelevant (G : Graph) (min_size max_size : Int) :
    SinkDetermined (fun env res => igraph_cliques_err env G res min_size max_size)
      (igraph_cliques G min_size max_size) ∧
    SinkDetermined (fun env res => igraph_independent_vertex_sets_err env G res min_size max_size)
      (igraph_independent_vertex_sets G min_size max_size) ∧
    SinkDetermined (fun env res => igraph_maximal_cliques_err env G res)
      (igraph_maximal_cliques G) ∧
    SinkDetermined (fun env res => igraph_maximal_independent_vertex_sets_err env G res)
      (igraph_maximal_independent_vertex_sets G) ∧
    SinkDetermined (fun env res => igraph_largest_cliques_err env G res)
      (igraph_largest_cliques G) ∧
    SinkDetermined (fun env res => igraph_largest_independent_vertex_sets_err env G res)
      (igraph_largest_independent_vertex_sets G) :=
  ⟨sinkDetermined_of_post _ _ _ (fun env res => i_cliques_err_spec2 env G res _ _ false),
   sinkDetermined_of_post _ _ _ (fun env res => i_cliques_err_spec2 env G res _ _ true),
   sinkDetermined_of_post _ _ _ (fun env res => maximal_cliques_err_spec env G res),
   sinkDetermined_of_post _ _ _ (fun env res => maximal_independent_vertex_sets_err_spec env G res),
   sinkDetermined_of_post _ _ _ (fun env res => largest_cliques_err_spec env G res),
   sinkDetermined_of_post _ _ _
    (fun env res => largest_independent_vertex_sets_err_spec env G res)⟩

/-- C18, evaluation at the failing input: on the path `0-1-2-3`, when the
cancellation poll at the top of the backtrack call entered after the first leaf
fires (the operation numbered 18, resp. 20; the returned code
`IGRAPH_INTERRUPTED` shows that the failing operation is a poll), the four entry
points return `IGRAPH_INTERRUPTED` with the set pushed at the first leaf still in
the sink. -/
theorem backtrack_cancellation_keeps_sink :
    igraph_maximal_independent_vertex_sets_err
        (fun t => if t = 18 then some (ErrorCode.other 0) else none) path4 []
      = Outcome.error ErrorCode.IGRAPH_INTERRUPTED [some [0, 2]] ∧
    igraph_largest_independent_vertex_sets_err
        (fun t => if t = 18 then some (ErrorCode.other 0) else none) path4 []
      = Outcome.error ErrorCode.IGRAPH_INTERRUPTED [some [0, 2]] ∧
    igraph_maximal_cliques_err
        (fun t => if t = 20 then some (ErrorCode.other 0) else none) path4 []
      = Outcome.error ErrorCode.IGRAPH_INTERRUPTED [some [0, 1]] ∧
    igraph_largest_cliques_err
        (fun t => if t = 20 then some (ErrorCode.other 0) else none) path4 []
      = Outcome.error ErrorCode.IGRAPH_INTERRUPTED [some [0, 1]] := by
  refine ⟨?_, ?_, ?_, ?_⟩ <;> decide

/-! ## Sink policy and the reported maximum -/

theorem sinkPush_fold_snd (keep : Bool) (Ls : List (List Nat)) :
    ∀ (p : Option (List (List Nat)) × Nat),
      (Ls.foldl (sinkPush keep) p).2 = (Ls.map List.length).foldl max p.2 := by
  induction Ls with
  | nil => intro p; rfl
  | cons T rest ih =>
    intro p
    rw [List.foldl_cons, ih, List.map_cons, List.foldl_cons]
    congr 1
    unfold sinkPush
    dsimp only
    split <;> omega

theorem backtrack_largest (n : Nat) (adj_list : Nat → List Nat) (keep : Bool)
    (res : Option (List (List Nat))) :
    (igraph_i_maximal_independent_vertex_sets_backtrack (n + 1) res
        (initData n adj_list keep) 0).map (fun p => p.2.largest_set_size)
      = some (maxSize (mainLeaves n adj_list)) := by
  rw [backtrack_main, Option.map_some', sinkPush_fold_snd]
  rfl

/-- C25: sink policy at a leaf. When a leaf produces `T = { v : IS[v] = 0 }` of
size `s` while the running maximum is `M`: with `keep_only_largest` false the sink
becomes `sink ++ [T]`; with `keep_only_largest` true it becomes `[T]` if `s > M`,
`sink ++ [T]` if `s = M`, and is unchanged if `s < M`; `largest_set_size` becomes
`max M s` and nothing else of the record changes. With `keep_only_largest` true,
if all sink entries had size `M` before the leaf, all have size `max M s` after
it (so this holds after every leaf of a run, which starts from the empty sink). -/
theorem leaf_sink_policy (sink : List (List Nat)) (d : igraph_i_max_ind_vsets_data_t) :
    (leafStep (some sink) d).1
      = some
        (if d.keep_only_largest = false then sink ++ [leafSet d.matrix_size d.IS]
        else if (leafSet d.matrix_size d.IS).length > d.largest_set_size then
          [leafSet d.matrix_size d.IS]
        else if (leafSet d.matrix_size d.IS).length = d.largest_set_size then
          sink ++ [leafSet d.matrix_size d.IS]
        else sink) ∧
    (leafStep (some sink) d).2
      = { d with largest_set_size := max d.largest_set_size (leafSet d.matrix_size d.IS).length } ∧
    (leafStep none d).1 = none ∧
    (leafStep none d).2
      = { d with largest_set_size := max d.largest_set_size (leafSet d.matrix_size d.IS).length } ∧
    (d.keep_only_largest = true → (∀ x ∈ sink, x.length = d.largest_set_size) →
      ∀ r, (leafStep (some sink) d).1 = some r →
        ∀ x ∈ r, x.length = max d.largest_set_size (leafSet d.matrix_size d.IS).length) := by
  have hd : ∀ res, (leafStep res d).2
      = { d with
          largest_set_size := (max d.largest_set_size (leafSet d.matrix_size d.IS).length) } := by
    intro res
    unfold leafStep leafSet
    dsimp only
    by_cases h : ((List.range d.matrix_size).filter (fun v1 => decide (d.IS v1 = 0))).length
        > d.largest_set_size
    · rw [if_pos h, Nat.max_eq_right (Nat.le_of_lt h)]
    · rw [if_neg h, Nat.max_eq_left (by omega)]
  have h1 : (leafStep (some sink) d).1
      = some
        (if d.keep_only_largest = false then sink ++ [leafSet d.matrix_size d.IS]
        else if (leafSet d.matrix_size d.IS).length > d.largest_set_size then
          [leafSet d.matrix_size d.IS]
        else if (leafSet d.matrix_size d.IS).length = d.largest_set_size then
          sink ++ [leafSet d.matrix_size d.IS]
        else sink) := by
    unfold leafStep leafSet
    dsimp only
    cases d.keep_only_largest with
    | false => simp
    | true =>
      simp only [Bool.not_true, Bool.false_eq_true, if_false]
      split
      · rfl
      · split <;> rfl
  refine ⟨h1, hd _, rfl, hd _, ?_⟩
  intro hk hall r hr x hx
  rw [h1, hk] at hr
  simp only [Bool.true_eq_false, if_false] at hr
  have e := Option.some.inj hr
  by_cases hgt : (leafSet d.matrix_size d.IS).length > d.largest_set_size
  · rw [if_pos hgt] at e
    rw [← e, List.mem_singleton] at hx
    rw [hx, Nat.max_eq_right (Nat.le_of_lt hgt)]
  · rw [if_neg hgt] at e
    by_cases heq : (leafSet d.matrix_size d.IS).length = d.largest_set_size
    · rw [if_pos heq] at e
      rw [← e, List.mem_append, List.mem_singleton] at hx
      rcases hx with hx | hx
      · rw [hall x hx]
        omega
      · rw [hx]
        omega
    · rw [if_neg heq] at e
      rw [← e] at hx
      rw [hall x hx, Nat.max_eq_left (by omega)]

/-- Witness for C25: with `keep_only_largest` true, running maximum 1 and sink
`[[2]]`, a leaf with `IS = 0` exactly on `{0, 3}` replaces the sink by `[[0,3]]`
and sets the maximum to 2. -/
theorem leaf_sink_policy_witness :
    (leafStep (some [[2]])
      { initData 4 path4.nbrs true with
        IS := (fun v => if v = 0 ∨ v = 3 then 0 else 1), largest_set_size := 1 }).1
      = some [[0, 3]] ∧
    (∀ r, (leafStep (some [[2]])
      { initData 4 path4.nbrs true with
        IS := (fun v => if v = 0 ∨ v = 3 then 0 else 1), largest_set_size := 1 }).1 = some r →
        ∀ x ∈ r, x.length = max 1 (leafSet 4 (fun v => if v = 0 ∨ v = 3 then 0 else 1)).length) :=
  ⟨by decide,
   (leaf_sink_policy [[2]]
      { initData 4 path4.nbrs true with
        IS := (fun v => if v = 0 ∨ v = 3 then 0 else 1), largest_set_size := 1 }).2.2.2.2 rfl
      (by decide)⟩

/-- C26: the reported maximum does not depend on how sets are collected. For
every adjacency structure, the final `largest_set_size` of the run of the
backtrack engine is the same (the largest size of a leaf set) with no sink, with
a sink and `keep_only_largest` false, and with a sink and `keep_only_largest`
true; so `igraph_clique_number` and `igraph_independence_number` report the number
a keep-only-largest run stores. -/
theorem largest_set_size_independent_of_sink (n : Nat) (adj_list : Nat → List Nat) (G : Graph) :
    (∀ (keep : Bool) (res : Option (List (List Nat))),
      (igraph_i_maximal_independent_vertex_sets_backtrack (n + 1) res
          (initData n adj_list keep) 0).map (fun p => p.2.largest_set_size)
        = (igraph_i_maximal_independent_vertex_sets_backtrack (n + 1) none
          (initData n adj_list false) 0).map (fun p => p.2.largest_set_size)) ∧
    (igraph_i_maximal_independent_vertex_sets_backtrack (n + 1) none
        (initData n adj_list false) 0).map (fun p => p.2.largest_set_size)
      = some (maxSize (mainLeaves n adj_list)) ∧
    igraph_clique_number G
      = (igraph_i_maximal_or_largest_cliques_or_indsets G true true true).map (fun p => p.2) ∧
    igraph_independence_number G
      = (igraph_i_maximal_or_largest_cliques_or_indsets G true true false).map (fun p => p.2) := by
  refine ⟨fun keep res => ?_, backtrack_largest n adj_list false none, ?_, ?_⟩
  · rw [backtrack_largest, backtrack_largest]
  · rw [clique_number_eq]
    unfold igraph_i_maximal_or_largest_cliques_or_indsets
    simp only [if_true]
    rw [backtrack_main, sinkPush_fold_snd]
    rfl
  · rw [independence_number_eq]
    unfold igraph_i_maximal_or_largest_cliques_or_indsets
    simp only [if_true, Bool.false_eq_true, if_false]
    rw [backtrack_main, sinkPush_fold_snd]
    rfl

/-! ## The defensive branch -/

theorem cliquesLoopWarnings_zero (G : Graph) (max_size : Int) (indep : Bool) :
    ∀ (fuel i : Nat) (nms : List Nat) (cc : Nat), 2 ≤ i →
      GenInv (emitSlots nms (i - 1) cc) →
      cliquesLoopWarnings G max_size indep fuel i nms cc = 0 := by
  intro fuel
  induction fuel with
  | zero => intro i nms cc _ _; rfl
  | succ fuel ih =>
    intro i nms cc hi hgen
    rw [cliquesLoopWarnings]
    split
    · obtain ⟨w, rfl⟩ : ∃ w, i = w + 1 := ⟨i - 1, by omega⟩
      simp only [Nat.add_sub_cancel] at hgen
      have hw : 1 ≤ w := by omega
      rw [(findLoop_spec G indep nms w cc hw (slotsOK_of_genInv nms w cc hgen)).2.2,
        ih (w + 1 + 1) _ _ (by omega) (by simpa using genInv_step G indep nms w cc hw hgen)]
    · rfl

theorem genInv_slots_ne (ms : List Nat) (w cc : Nat) (h : GenInv (emitSlots ms w cc))
    (j k : Nat) (hjk : j < k) (hk : k < cc) : slotList ms w j ≠ slotList ms w k := by
  have := pairwise_getD [] _ h.2.2 j k hjk (by rw [emitSlots_length]; exact hk)
  rwa [emitSlots_getD _ _ _ _ (by omega), emitSlots_getD _ _ _ _ hk] at this

/-- C24: the defensive branch is unreachable. In every run of `igraph_cliques` or
`igraph_independent_vertex_sets` on any graph the branch `l == size-1` that warns
"possible bug in igraph_cliques" is never taken (the number of warnings of the run
is 0), and in every generation of the run the slots of two positions `j < k` are
not entirely equal. -/
theorem defensive_branch_unreachable (G : Graph) (max_size : Int) (indep : Bool) :
    igraph_i_cliques_warnings G max_size indep = 0 ∧
    ∀ m j k, j < k → k < (runGeneration G indep m).2 →
      slotList (runGeneration G indep m).1 (m + 1) j
        ≠ slotList (runGeneration G indep m).1 (m + 1) k :=
  ⟨cliquesLoopWarnings_zero G _ indep G.n 2 (List.range G.n) G.n (le_refl _)
      (genInv_base G.n),
   fun m j k hjk hk => genInv_slots_ne _ _ _ (genInv_run G indep m) j k hjk hk⟩

/-- Witness for C24: on the cycle `0-1-2-3-0` the run has no warning, and the
slots 0 and 1 of the generation of 2-slots differ. -/
theorem defensive_branch_unreachable_witness :
    igraph_i_cliques_warnings cycle4 0 false = 0 ∧
    (runGeneration cycle4 false 1).2 = 4 ∧
    slotList (runGeneration cycle4 false 1).1 2 0 ≠ slotList (runGeneration cycle4 false 1).1 2 1 :=
  ⟨(defensive_branch_unreachable cycle4 0 false).1, by decide,
   (defensive_branch_unreachable cycle4 0 false).2 1 0 1 (by decide) (by decide)⟩

/-! ## Output order of the bounded enumeration -/

theorem emitSlots_lengths (ms : List Nat) (w cc : Nat) :
    ∀ S ∈ emitSlots ms w cc, S.length = w := by
  intro S hS
  obtain ⟨j, -, rfl⟩ := (mem_emitSlots ms w cc S).1 hS
  exact slotList_length ms w j

theorem cliquesLoop_order (G : Graph) (indep : Bool) (min_size max_size : Int) :
    ∀ (fuel i : Nat) (ms : List Nat) (cc : Nat) (res r : List (List Nat)),
      2 ≤ i → GenInv (emitSlots ms (i - 1) cc) → res.Pairwise sizeLex →
      (∀ S ∈ res, S.length < i) →
      cliquesLoop G min_size max_size indep fuel i ms cc res = some r →
      r.Pairwise sizeLex ∧ ∃ rest, r = res ++ rest ∧ ∀ S ∈ rest, i ≤ S.length := by
  intro fuel
  induction fuel with
  | zero =>
    intro i ms cc res r _ _ hp _ h
    rw [cliquesLoop] at h
    split at h
    · cases h
    · cases h
      exact ⟨hp, [], by simp, by simp⟩
  | succ fuel ih =>
    intro i ms cc res r hi hgen hp hlen h
    rw [cliquesLoop] at h
    split at h
    · obtain ⟨w, rfl⟩ : ∃ w, i = w + 1 := ⟨i - 1, by omega⟩
      simp only [Nat.add_sub_cancel] at hgen
      have hw : 1 ≤ w := by omega
      have hgen2 := genInv_step G indep ms w cc hw hgen
      dsimp only at h
      split at h
      · obtain ⟨h1, rest, h2, h3⟩ := ih (w + 1 + 1) _ _ _ r (by omega)
          (by simpa using hgen2)
          (by
            rw [List.pairwise_append]
            refine ⟨hp, ?_, ?_⟩
            · apply List.Pairwise.imp_of_mem _ (pairwise_lexlt_of_genInv _ hgen2)
              intro A B hA hB hAB
              exact Or.inr ⟨by rw [emitSlots_lengths _ _ _ A hA, emitSlots_lengths _ _ _ B hB],
                hAB⟩
            · intro A hA B hB
              left
              rw [emitSlots_lengths _ _ _ B hB]
              exact hlen A hA)
          (by
            intro S hS
            rcases List.mem_append.1 hS with hS | hS
            · have := hlen S hS
              omega
            · rw [emitSlots_lengths _ _ _ S hS]
              omega)
          h
        refine ⟨h1, _, h2.trans (List.append_assoc _ _ _), ?_⟩
        intro S hS
        rcases List.mem_append.1 hS with hS | hS
        · rw [emitSlots_lengths _ _ _ S hS]
        · have := h3 S hS
          omega
      · obtain ⟨h1, rest, h2, h3⟩ := ih (w + 1 + 1) _ _ _ r (by omega)
          (by simpa using hgen2) hp
          (by
            intro S hS
            have := hlen S hS
            omega)
          h
        refine ⟨h1, rest, h2, ?_⟩
        intro S hS
        have := h3 S hS
        omega
    · cases h
      exact ⟨hp, [], by simp, by simp⟩

theorem singles_sizeLex (n : Nat) : ((List.range n).map (fun i => [i])).Pairwise sizeLex := by
  rw [List.pairwise_map]
  apply (List.pairwise_lt_range n).imp
  intro a b hab
  exact Or.inr ⟨rfl, 0, by simp, by simp, fun t ht => by omega, by simpa using hab⟩

theorem i_cliques_order (G : Graph) (indep : Bool) (min_size max_size : Int)
    (r : List (List Nat)) (h : igraph_i_cliques G min_size max_size indep = some r) :
    r.Pairwise sizeLex ∧
    (min_size ≤ 1 → ∃ rest, r = (List.range G.n).map (fun i => [i]) ++ rest ∧
      ∀ S ∈ rest, 2 ≤ S.length) := by
  unfold igraph_i_cliques at h
  dsimp only at h
  by_cases hm : (if min_size < 0 then 0 else min_size) ≤ 1
  · rw [if_pos hm] at h
    obtain ⟨h1, rest, h2, h3⟩ := cliquesLoop_order G indep _ _ G.n 2 (List.range G.n) G.n _ r
      (le_refl _) (genInv_base G.n) (singles_sizeLex G.n)
      (by
        intro S hS
        obtain ⟨j, -, rfl⟩ := List.mem_map.1 hS
        simp)
      h
    exact ⟨h1, fun _ => ⟨rest, h2, h3⟩⟩
  · rw [if_neg hm] at h
    obtain ⟨h1, -⟩ := cliquesLoop_order G indep _ _ G.n 2 (List.range G.n) G.n _ r
      (le_refl _) (genInv_base G.n) List.Pairwise.nil (by simp) h
    refine ⟨h1, fun hmin => ?_⟩
    exfalso
    apply hm
    split <;> omega

/-- C28: output order of the bounded enumeration. For every graph and all bounds,
`igraph_cliques` and `igraph_independent_vertex_sets` succeed and the result list
is ordered by set size ascending and, within a size, in strictly increasing
lexicographic order of the ascending vertex lists; when `min_size ≤ 1` the list
starts with the singletons `[0],[1],...,[n-1]` in that order and every later set
has at least two vertices. -/
theorem bounded_enumeration_order (G : Graph) (min_size max_size : Int) :
    (∃ r, igraph_cliques G min_size max_size = some r ∧ r.Pairwise sizeLex ∧
      (min_size ≤ 1 → ∃ rest, r = (List.range G.n).map (fun i => [i]) ++ rest ∧
        ∀ S ∈ rest, 2 ≤ S.length)) ∧
    (∃ r, igraph_independent_vertex_sets G min_size max_size = some r ∧ r.Pairwise sizeLex ∧
      (min_size ≤ 1 → ∃ rest, r = (List.range G.n).map (fun i => [i]) ++ rest ∧
        ∀ S ∈ rest, 2 ≤ S.length)) := by
  constructor
  · obtain ⟨r, hr⟩ := i_cliques_total G min_size max_size false
    exact ⟨r, hr, i_cliques_order G false min_size max_size r hr⟩
  · obtain ⟨r, hr⟩ := i_cliques_total G min_size max_size true
    exact ⟨r, hr, i_cliques_order G true min_size max_size r hr⟩

/-- Witness for C28: on the triangle `K3` with no bounds the result is
`[0],[1],[2],[0,1],[0,2],[1,2],[0,1,2]`. -/
theorem bounded_enumeration_order_witness :
    igraph_cliques triangle 0 0 = some [[0], [1], [2], [0, 1], [0, 2], [1, 2], [0, 1, 2]] ∧
    (∃ r, igraph_cliques triangle 0 0 = some r ∧ r.Pairwise sizeLex ∧
      ((0 : Int) ≤ 1 → ∃ rest, r = (List.range triangle.n).map (fun i => [i]) ++ rest ∧
        ∀ S ∈ rest, 2 ≤ S.length)) :=
  ⟨by decide, (bounded_enumeration_order triangle 0 0).1⟩

/-! ## The merge rule of one pair -/

theorem scanRest_eq_scanPrefix (c1 c2 : Nat → Nat) (v1 : Nat) (r : Nat) :
    ∀ (l : Nat) (ok : Bool) (v2 : Nat) (st : List Nat),
      (∀ i, l ≤ i → i < l + r → c1 i ≠ v1 ∧ c2 i ≠ v1) →
      scanRest c1 c2 v1 r l ok v2 st
        = ((scanPrefix c1 c2 r l st).1, v2, (scanPrefix c1 c2 r l st).2) := by
  induction r with
  | zero => intro l ok v2 st _; rfl
  | succ r ih =>
    intro l ok v2 st h
    rw [scanRest, scanPrefix]
    have hl := h l (le_refl _) (by omega)
    by_cases he : c1 l = c2 l
    · rw [if_pos he, if_pos he]
      exact ih (l + 1) false v2 _ (fun i hi1 hi2 => h i (by omega) (by omega))
    · rw [if_neg he, if_neg he]
      cases ok with
      | false => rfl
      | true =>
        simp only [if_true, Bool.true_and, decide_eq_true_eq]
        rw [if_neg hl.1, if_neg hl.2]
        split <;> rfl

theorem slots_after_diff (ms : List Nat) (w cc : Nat) (hok : SlotsOK ms w cc) (j k : Nat)
    (hjk : j < k) (hk : k < cc) (l0 : Nat) (hl0 : l0 < w)
    (hag : ∀ t, t < l0 → slotAt ms w j t = slotAt ms w k t)
    (hne : slotAt ms w j l0 ≠ slotAt ms w k l0) :
    slotAt ms w j l0 < slotAt ms w k l0 ∧
    ∀ i, l0 < i → i < w →
      slotAt ms w j i ≠ slotAt ms w j l0 ∧ slotAt ms w k i ≠ slotAt ms w j l0 := by
  obtain ⟨i0, hi0, hag0, hlt0⟩ := hok.2 j k hjk hk
  have hi : i0 = l0 := by
    rcases Nat.lt_trichotomy i0 l0 with h | h | h
    · have := hag i0 h
      omega
    · exact h
    · exact absurd (hag0 l0 h) hne
  subst hi
  refine ⟨hlt0, fun i h1 h2 => ⟨?_, ?_⟩⟩
  · have := hok.1 j (by omega) i0 i h1 h2
    omega
  · have := hok.1 k hk i0 i h1 h2
    omega

/-- C21: exact merge rule. For `k ≥ 2` and a previous generation whose slots are
strictly ascending and strictly increasing lexicographically, the pair `(A, B)` of
the slots at positions `a < b`, processed from a state with `m = n`, appends a slot
if and only if `A` and `B` agree on their first `k-2` entries and the adjacency test
on (last entry of `A`, last entry of `B`) passes; the appended slot is `A` followed
by the last entry of `B`, and otherwise the buffer is unchanged. When `A` and `B`
agree on their first `k-2` entries their last entries differ. After the first
difference the three-way scan advances over equal entries only (it is the scan of
the common prefix, `v2` is never replaced), and a pair with a difference before
the last position is rejected. -/
theorem exact_merge_rule (G : Graph) (indep : Bool) (k : Nat) (hk : 2 ≤ k) (ms : List Nat)
    (cc : Nat) (hok : SlotsOK ms (k - 1) cc) (a b : Nat) (hab : a < b) (hb : b < cc)
    (s : KState) (hs : s.st.length = s.n) :
    ((((∀ t, t < k - 2 → slotAt ms (k - 1) a t = slotAt ms (k - 1) b t) ∧
        okPair G indep (slotAt ms (k - 1) a (k - 2)) (slotAt ms (k - 1) b (k - 2)) = true) →
      (mergePair G indep k (slotAt ms (k - 1) a) (slotAt ms (k - 1) b) s).st
          = s.st ++ (slotList ms (k - 1) a ++ [slotAt ms (k - 1) b (k - 2)]) ∧
        (mergePair G indep k (slotAt ms (k - 1) a) (slotAt ms (k - 1) b) s).n = s.n + k) ∧
    (¬ ((∀ t, t < k - 2 → slotAt ms (k - 1) a t = slotAt ms (k - 1) b t) ∧
        okPair G indep (slotAt ms (k - 1) a (k - 2)) (slotAt ms (k - 1) b (k - 2)) = true) →
      (mergePair G indep k (slotAt ms (k - 1) a) (slotAt ms (k - 1) b) s).st = s.st ∧
        (mergePair G indep k (slotAt ms (k - 1) a) (slotAt ms (k - 1) b) s).n = s.n)) ∧
    (mergePair G indep k (slotAt ms (k - 1) a) (slotAt ms (k - 1) b) s).warn = s.warn ∧
    ((∀ t, t < k - 2 → slotAt ms (k - 1) a t = slotAt ms (k - 1) b t) →
      slotAt ms (k - 1) a (k - 2) < slotAt ms (k - 1) b (k - 2)) ∧
    (∀ l0, l0 < k - 1 → (∀ t, t < l0 → slotAt ms (k - 1) a t = slotAt ms (k - 1) b t) →
      slotAt ms (k - 1) a l0 ≠ slotAt ms (k - 1) b l0 →
      ∀ st, scanRest (slotAt ms (k - 1) a) (slotAt ms (k - 1) b) (slotAt ms (k - 1) a l0)
          (k - 1 - (l0 + 1)) (l0 + 1) true (slotAt ms (k - 1) b l0) st
        = ((scanPrefix (slotAt ms (k - 1) a) (slotAt ms (k - 1) b)
              (k - 1 - (l0 + 1)) (l0 + 1) st).1,
            slotAt ms (k - 1) b l0,
            (scanPrefix (slotAt ms (k - 1) a) (slotAt ms (k - 1) b)
              (k - 1 - (l0 + 1)) (l0 + 1) st).2)) ∧
    (∀ l0, l0 < k - 2 → slotAt ms (k - 1) a l0 ≠ slotAt ms (k - 1) b l0 →
      (mergePair G indep k (slotAt ms (k - 1) a) (slotAt ms (k - 1) b) s).st = s.st ∧
        (mergePair G indep k (slotAt ms (k - 1) a) (slotAt ms (k - 1) b) s).n = s.n) := by
  obtain ⟨w, rfl⟩ : ∃ w, k = w + 1 := ⟨k - 1, by omega⟩
  have hw : 1 ≤ w := by omega
  have e1 : w + 1 - 1 = w := by omega
  have e2 : w + 1 - 2 = w - 1 := by omega
  rw [e1] at hok
  rw [e1, e2]
  obtain ⟨m1, m2, m3, m4⟩ := mergePair_spec G indep w hw (slotAt ms w a) (slotAt ms w b)
    (hok.1 a (by omega)) (hok.1 b hb) (hok.2 a b hab hb) s hs
  have hrej : ¬ ((∀ t, t < w - 1 → slotAt ms w a t = slotAt ms w b t) ∧
        okPair G indep (slotAt ms w a (w - 1)) (slotAt ms w b (w - 1)) = true) →
      (mergePair G indep (w + 1) (slotAt ms w a) (slotAt ms w b) s).st = s.st ∧
        (mergePair G indep (w + 1) (slotAt ms w a) (slotAt ms w b) s).n = s.n := by
    intro hc
    have := m4 hc
    exact ⟨this, by rw [m2, this, hs]⟩
  refine ⟨⟨?_, hrej⟩, m1, ?_, ?_, ?_⟩
  · intro hc
    have := m3 hc
    refine ⟨this, ?_⟩
    rw [m2, this]
    simp only [List.length_append, List.length_map, List.length_range, List.length_singleton]
    omega
  · exact slots_first_diff ms w cc hok a b hab hb hw
  · intro l0 hl0 hag hne st
    have := (slots_after_diff ms w cc hok a b hab hb l0 hl0 hag hne).2
    apply scanRest_eq_scanPrefix
    intro i hi1 hi2
    exact this i (by omega) (by omega)
  · intro l0 hl0 hne
    apply hrej
    rintro ⟨hag, -⟩
    exact hne (hag l0 hl0)

/-- Witness for C21: in the run on the triangle `K3`, the generation of 2-slots
is `{0,1},{0,2},{1,2}`; the pair of the slots 0 and 1 agrees on the first entry,
the vertices 1 and 2 are adjacent, and the slot `{0,1,2}` is appended. -/
theorem exact_merge_rule_witness :
    runGeneration triangle false 1 = ([0, 1, 0, 2, 1, 2], 3) ∧
    mergePair triangle false 3 (slotAt (runGeneration triangle false 1).1 2 0)
        (slotAt (runGeneration triangle false 1).1 2 1)
        { st := [], n := 0, cap := 9, warn := 0 }
      = { st := [0, 1, 2], n := 3, cap := 9, warn := 0 } ∧
    (mergePair triangle false 3 (slotAt (runGeneration triangle false 1).1 2 0)
        (slotAt (runGeneration triangle false 1).1 2 1)
        { st := [], n := 0, cap := 9, warn := 0 }).warn = 0 :=
  ⟨by decide, by decide,
   (exact_merge_rule triangle false 3 (by decide) (runGeneration triangle false 1).1
    (runGeneration triangle false 1).2
    (slotsOK_of_genInv _ _ _ (genInv_run triangle false 1)) 0 1 (by decide) (by decide)
    { st := [], n := 0, cap := 9, warn := 0 } rfl).2.1⟩

/-! ## Writes stay inside the output buffer -/

theorem scanRest_length (c1 c2 : Nat → Nat) (v1 : Nat) (r : Nat) :
    ∀ (l : Nat) (ok : Bool) (v2 : Nat) (st : List Nat),
      l ≤ (scanRest c1 c2 v1 r l ok v2 st).1 ∧ (scanRest c1 c2 v1 r l ok v2 st).1 ≤ l + r ∧
      (scanRest c1 c2 v1 r l ok v2 st).2.2.length
        = st.length + ((scanRest c1 c2 v1 r l ok v2 st).1 - l) := by
  induction r with
  | zero =>
    intro l ok v2 st
    simp [scanRest]
  | succ r ih =>
    intro l ok v2 st
    have step : ∀ (ok2 : Bool) (v3 x : Nat),
        l ≤ (scanRest c1 c2 v1 r (l + 1) ok2 v3 (st ++ [x])).1 ∧
        (scanRest c1 c2 v1 r (l + 1) ok2 v3 (st ++ [x])).1 ≤ l + (r + 1) ∧
        (scanRest c1 c2 v1 r (l + 1) ok2 v3 (st ++ [x])).2.2.length
          = st.length + ((scanRest c1 c2 v1 r (l + 1) ok2 v3 (st ++ [x])).1 - l) := by
      intro ok2 v3 x
      obtain ⟨a, b, c⟩ := ih (l + 1) ok2 v3 (st ++ [x])
      refine ⟨by omega, by omega, ?_⟩
      rw [c, List.length_append, List.length_singleton]
      omega
    have stop : l ≤ l ∧ l ≤ l + (r + 1) ∧ st.length = st.length + (l - l) := by
      refine ⟨le_refl _, by omega, by omega⟩
    rw [scanRest]
    split
    · exact step _ _ _
    · split
      · split
        · split
          · exact step _ _ _
          · exact stop
        · split
          · exact step _ _ _
          · exact stop
      · exact stop

theorem scanPrefix_length (c1 c2 : Nat → Nat) (r : Nat) (l : Nat) (st : List Nat) :
    (scanPrefix c1 c2 r l st).2.length = st.length + ((scanPrefix c1 c2 r l st).1 - l) := by
  rw [(scanPrefix_spec c1 c2 r l st).2.2.2.2]
  simp

theorem mul_step_le (size a c : Nat) (h1 : size ∣ a) (h2 : size ∣ c) (h3 : a < c) :
    a + size ≤ c := by
  obtain ⟨x, rfl⟩ := h1
  obtain ⟨y, rfl⟩ := h2
  have hxy : x < y := Nat.lt_of_mul_lt_mul_left h3
  calc size * x + size = size * (x + 1) := by rw [Nat.mul_succ]
    _ ≤ size * y := Nat.mul_le_mul_left size hxy

theorem capInv_dvd (size occ : Nat) (s : KState) (h : CapInv size occ s) : size ∣ s.cap := by
  obtain ⟨e, he⟩ := h.2.2.1
  rw [he, Nat.mul_assoc]
  exact Nat.dvd_mul_right _ _

theorem capInv_keep (size occ : Nat) (s : KState) (h : CapInv size occ s) (st : List Nat)
    (hst : s.n ≤ st.length) :
    CapInv size occ (growIfFull { s with st := st.take s.n }) := by
  have hlen : (st.take s.n).length = s.n := by
    rw [List.length_take]
    omega
  unfold growIfFull
  dsimp only
  rw [if_neg (by rw [hlen]; exact Nat.ne_of_lt h.2.2.2)]
  exact ⟨hlen, h.2.1, h.2.2.1, h.2.2.2⟩

theorem capInv_commit (size occ : Nat) (s : KState) (h : CapInv size occ s)
    (st2 : List Nat) (v2 : Nat) (hst : st2.length + 1 = s.n + size) :
    CapInv size occ (growIfFull { s with st := st2 ++ [v2], n := st2.length + 1 }) := by
  have hle : s.n + size ≤ s.cap := mul_step_le size s.n s.cap h.2.1 (capInv_dvd size occ s h) h.2.2.2
  have hdvd : size ∣ st2.length + 1 := by
    rw [hst]
    exact Nat.dvd_add h.2.1 (Nat.dvd_refl _)
  have hlen : (st2 ++ [v2]).length = st2.length + 1 := by
    rw [List.length_append, List.length_singleton]
  unfold growIfFull
  dsimp only
  by_cases hfull : (st2 ++ [v2]).length = s.cap
  · rw [if_pos hfull]
    refine ⟨hlen, hdvd, ?_, ?_⟩
    · obtain ⟨e, he⟩ := h.2.2.1
      exact ⟨e + 1, by show s.cap * 2 = _; rw [he, Nat.pow_succ, Nat.mul_assoc]⟩
    · show st2.length + 1 < s.cap * 2
      omega
  · rw [if_neg hfull]
    refine ⟨hlen, hdvd, h.2.2.1, ?_⟩
    show st2.length + 1 < s.cap
    omega

theorem mergePair_cap (G : Graph) (indep : Bool) (size occ : Nat) (hsize : 1 ≤ size)
    (c1 c2 : Nat → Nat) (s : KState) (h : CapInv size occ s) :
    pairHigh G indep size c1 c2 s ≤ s.n + size ∧ s.n + size ≤ s.cap ∧
    CapInv size occ (mergePair G indep size c1 c2 s) := by
  have hle : s.n + size ≤ s.cap := mul_step_le size s.n s.cap h.2.1 (capInv_dvd size occ s h) h.2.2.2
  have hp := scanPrefix_spec c1 c2 (size - 1) 0 s.st
  have hpl := scanPrefix_length c1 c2 (size - 1) 0 s.st
  rw [h.1] at hpl
  unfold pairHigh mergePair
  dsimp only
  by_cases h1 : (scanPrefix c1 c2 (size - 1) 0 s.st).1 = size - 1
  · rw [if_pos h1, if_pos h1]
    refine ⟨by omega, hle, ?_⟩
    have hlen : ((scanPrefix c1 c2 (size - 1) 0 s.st).2.take s.n).length = s.n := by
      rw [List.length_take]
      omega
    exact ⟨hlen, h.2.1, h.2.2.1, h.2.2.2⟩
  · rw [if_neg h1, if_neg h1]
    have hq := scanRest_length c1 c2 (c1 (scanPrefix c1 c2 (size - 1) 0 s.st).1)
      (size - 1 - ((scanPrefix c1 c2 (size - 1) 0 s.st).1 + 1))
      ((scanPrefix c1 c2 (size - 1) 0 s.st).1 + 1) true
      (c2 (scanPrefix c1 c2 (size - 1) 0 s.st).1)
      ((scanPrefix c1 c2 (size - 1) 0 s.st).2 ++ [c1 (scanPrefix c1 c2 (size - 1) 0 s.st).1])
    rw [List.length_append, List.length_singleton, hpl] at hq
    generalize scanRest c1 c2 (c1 (scanPrefix c1 c2 (size - 1) 0 s.st).1)
      (size - 1 - ((scanPrefix c1 c2 (size - 1) 0 s.st).1 + 1))
      ((scanPrefix c1 c2 (size - 1) 0 s.st).1 + 1) true
      (c2 (scanPrefix c1 c2 (size - 1) 0 s.st).1)
      ((scanPrefix c1 c2 (size - 1) 0 s.st).2 ++ [c1 (scanPrefix c1 c2 (size - 1) 0 s.st).1])
      = q at hq ⊢
    have hl := hp.2.1
    by_cases h2 : q.1 ≠ size - 1
    · rw [if_pos h2, if_pos h2]
      exact ⟨by omega, hle, capInv_keep size occ s h _ (by omega)⟩
    · rw [if_neg h2, if_neg h2]
      have h2e : q.1 = size - 1 := by
        by_contra hc
        exact h2 hc
      have hst2 : q.2.2.length + 1 = s.n + size := by omega
      split
      · split
        · exact ⟨by omega, hle, capInv_commit size occ s h _ _ hst2⟩
        · exact ⟨by omega, hle, capInv_keep size occ s h _ (by omega)⟩
      · exact ⟨by omega, hle, capInv_keep size occ s h _ (by omega)⟩

theorem foldl_pairs {σ : Type} (f : σ → Nat × Nat → σ) (K : Nat → List Nat) (js : List Nat) :
    ∀ s, (js.flatMap (fun j => (K j).map (fun k => (j, k)))).foldl f s
      = js.foldl (fun s j => (K j).foldl (fun s k => f s (j, k)) s) s := by
  induction js with
  | nil => intro s; rfl
  | cons j js ih =>
    intro s
    rw [List.flatMap_cons, List.foldl_append, List.foldl_cons, ih, List.foldl_map]

theorem findLoop_eq_stateBeforePair (G : Graph) (size : Nat) (ms : List Nat) (occ : Nat)
    (indep : Bool) :
    findLoop G size ms occ indep = stateBeforePair G size ms occ indep (pairList occ).length := by
  unfold findLoop stateBeforePair pairList
  rw [List.take_length, foldl_pairs]

theorem stateBeforePair_succ (G : Graph) (size : Nat) (ms : List Nat) (occ : Nat)
    (indep : Bool) (i : Nat) (p : Nat × Nat) (hp : (pairList occ)[i]? = some p) :
    stateBeforePair G size ms occ indep (i + 1)
      = mergePair G indep size (slotAt ms (size - 1) p.1) (slotAt ms (size - 1) p.2)
          (stateBeforePair G size ms occ indep i) := by
  unfold stateBeforePair
  rw [List.take_succ, hp, List.foldl_append]
  rfl

theorem stateBeforePair_stop (G : Graph) (size : Nat) (ms : List Nat) (occ : Nat)
    (indep : Bool) (i : Nat) (hp : (pairList occ)[i]? = none) :
    stateBeforePair G size ms occ indep (i + 1) = stateBeforePair G size ms occ indep i := by
  unfold stateBeforePair
  rw [List.take_succ, hp]
  simp

theorem capInv_states (G : Graph) (size : Nat) (ms : List Nat) (occ : Nat) (indep : Bool)
    (hsize : 1 ≤ size) (hocc : 1 ≤ occ) :
    ∀ i, CapInv size occ (stateBeforePair G size ms occ indep i) := by
  intro i
  induction i with
  | zero =>
    refine ⟨rfl, Nat.dvd_zero _, ⟨0, by simp [stateBeforePair]⟩, ?_⟩
    show 0 < size * occ
    exact Nat.mul_pos (by omega) (by omega)
  | succ i ih =>
    cases hp : (pairList occ)[i]? with
    | none =>
      rw [stateBeforePair_stop G size ms occ indep i hp]
      exact ih
    | some p =>
      rw [stateBeforePair_succ G size ms occ indep i p hp]
      exact (mergePair_cap G indep size occ hsize _ _ _ ih).2.2

/-- C29: writes stay inside the output buffer. For every call of
`igraph_i_find_k_cliques` with `size ≥ 2`, `old_clique_count ≥ 2` and any content of
the input buffer, the final state is the state after the last pair, and at the
start of every pair: `m = n`, `n` is a multiple of `size`, the capacity is
`size*old_clique_count` doubled some number of times, and `n` is below the
capacity; every write index of the pair is below `n + size`, which is at most the
capacity; and the next pair starts from the state the pair leaves. -/
theorem writes_inside_buffer (G : Graph) (indep : Bool) (size occ : Nat) (hsize : 2 ≤ size)
    (hocc : 2 ≤ occ) (ms : List Nat) :
    findLoop G size ms occ indep = stateBeforePair G size ms occ indep (pairList occ).length ∧
    ∀ i p, (pairList occ)[i]? = some p →
      CapInv size occ (stateBeforePair G size ms occ indep i) ∧
      pairHigh G indep size (slotAt ms (size - 1) p.1) (slotAt ms (size - 1) p.2)
          (stateBeforePair G size ms occ indep i)
        ≤ (stateBeforePair G size ms occ indep i).n + size ∧
      (stateBeforePair G size ms occ indep i).n + size
        ≤ (stateBeforePair G size ms occ indep i).cap ∧
      stateBeforePair G size ms occ indep (i + 1)
        = mergePair G indep size (slotAt ms (size - 1) p.1) (slotAt ms (size - 1) p.2)
            (stateBeforePair G size ms occ indep i) := by
  refine ⟨findLoop_eq_stateBeforePair G size ms occ indep, ?_⟩
  intro i p hp
  have hinv := capInv_states G size ms occ indep (by omega) (by omega) i
  have h := mergePair_cap G indep size occ (by omega) (slotAt ms (size - 1) p.1)
    (slotAt ms (size - 1) p.2) _ hinv
  exact ⟨hinv, h.1, h.2.1, stateBeforePair_succ G size ms occ indep i p hp⟩

/-- Witness for C29: for the triangle `K3` and the generation of the three
singletons, the third pair `(1,2)` starts with `m = n = 4` in a buffer of capacity
6, writes up to index 5 and fills the buffer, whose capacity is doubled to 12. -/
theorem writes_inside_buffer_witness :
    (pairList 3)[2]? = some (1, 2) ∧
    stateBeforePair triangle 2 (List.range 3) 3 false 2
      = { st := [0, 1, 0, 2], n := 4, cap := 6, warn := 0 } ∧
    pairHigh triangle false 2 (slotAt (List.range 3) 1 1) (slotAt (List.range 3) 1 2)
      (stateBeforePair triangle 2 (List.range 3) 3 false 2) = 6 ∧
    findLoop triangle 2 (List.range 3) 3 false
      = { st := [0, 1, 0, 2, 1, 2], n := 6, cap := 12, warn := 0 } ∧
    (CapInv 2 3 (stateBeforePair triangle 2 (List.range 3) 3 false 2) ∧
      pairHigh triangle false 2 (slotAt (List.range 3) (2 - 1) (1, 2).1)
          (slotAt (List.range 3) (2 - 1) (1, 2).2)
          (stateBeforePair triangle 2 (List.range 3) 3 false 2)
        ≤ (stateBeforePair triangle 2 (List.range 3) 3 false 2).n + 2 ∧
      (stateBeforePair triangle 2 (List.range 3) 3 false 2).n + 2
        ≤ (stateBeforePair triangle 2 (List.range 3) 3 false 2).cap ∧
      stateBeforePair triangle 2 (List.range 3) 3 false (2 + 1)
        = mergePair triangle false 2 (slotAt (List.range 3) (2 - 1) (1, 2).1)
            (slotAt (List.range 3) (2 - 1) (1, 2).2)
            (stateBeforePair triangle 2 (List.range 3) 3 false 2)) :=
  ⟨by decide, by decide, by decide, by decide,
   (writes_inside_buffer triangle false 2 3 (by decide) (by decide) (List.range 3)).2 2 (1, 2)
    (by decide)⟩

/-! ## The calls of a run of the backtrack engine -/

theorem backtrackCalls_tail :
    ∀ (fuel : Nat) (res : Option (List (List Nat))) (d : igraph_i_max_ind_vsets_data_t)
      (level : Nat) (q : Nat × (Nat → Int)),
      q ∈ backtrackCalls (fuel + 1) res d level →
      q = (level, d.IS) ∨
        (¬ ((level : Int) ≥ (d.matrix_size : Int) - 1) ∧
          ∃ res2 d2, d2.matrix_size = d.matrix_size ∧
            q ∈ backtrackCalls fuel res2 d2 (level + 1)) := by
  intro fuel res d level q hq
  rw [backtrackCalls, List.mem_cons] at hq
  rcases hq with hq | hq
  · exact Or.inl hq
  · right
    by_cases hleaf : (level : Int) ≥ (d.matrix_size : Int) - 1
    · rw [if_pos hleaf] at hq
      simp at hq
    · rw [if_neg hleaf] at hq
      refine ⟨hleaf, ?_⟩
      dsimp only at hq
      split at hq
      · refine ⟨_, _, ?_, hq⟩
        rfl
      · rcases List.mem_append.1 hq with hq | hq
        · refine ⟨_, _, ?_, hq⟩
          rfl
        · split at hq
          · simp at hq
          · rename_i res1 d1 h1
            split at hq
            · refine ⟨_, _, ?_, hq⟩
              exact (backtrack_neutral_aux _ _ _ _ _ _ h1).1.2.2.1
            · simp at hq

theorem backtrackCalls_levels :
    ∀ (fuel : Nat) (res : Option (List (List Nat))) (d : igraph_i_max_ind_vsets_data_t)
      (level : Nat) (q : Nat × (Nat → Int)),
      q ∈ backtrackCalls fuel res d level →
      level ≤ q.1 ∧ (level < d.matrix_size → q.1 < d.matrix_size) := by
  intro fuel
  induction fuel with
  | zero =>
    intro res d level q hq
    simp [backtrackCalls] at hq
  | succ fuel ih =>
    intro res d level q hq
    rcases backtrackCalls_tail fuel res d level q hq with h | ⟨hleaf, res2, d2, hm, h⟩
    · rw [h]
      exact ⟨le_refl _, fun h => h⟩
    · obtain ⟨a, b⟩ := ih res2 d2 (level + 1) q h
      rw [hm] at b
      refine ⟨by omega, fun _ => b ?_⟩
      have : ¬ ((level : Int) ≥ (d.matrix_size : Int) - 1) := hleaf
      omega

/-- C27: level bound of the recursion. For every adjacency structure on `n ≥ 1`
vertices, every call of the backtrack procedure in the run started by `solve(0)`
has `level ≤ n-1`; a call is a leaf (`level ≥ n-1`) exactly when `level = n-1`, so
`level = n` never occurs; in a non-leaf call `v1 = level+1 ≤ n-1`; the calls made
by a call at `level` are made at `level+1`; and `n` nested calls suffice (the
procedure returns with fuel `n`). -/
theorem recursion_level_bound (n : Nat) (hn : 1 ≤ n) (adj_list : Nat → List Nat)
    (keep : Bool) (res : Option (List (List Nat))) :
    (∀ q ∈ backtrackCalls (n + 1) res (initData n adj_list keep) 0,
      q.1 ≤ n - 1 ∧ (((q.1 : Int) ≥ (n : Int) - 1) ↔ q.1 = n - 1) ∧
        (¬ ((q.1 : Int) ≥ (n : Int) - 1) → q.1 + 1 ≤ n - 1)) ∧
    (∀ (fuel : Nat) (res1 : Option (List (List Nat))) (d : igraph_i_max_ind_vsets_data_t)
      (level : Nat) (q : Nat × (Nat → Int)),
      q ∈ backtrackCalls (fuel + 1) res1 d level →
      q = (level, d.IS) ∨
        (¬ ((level : Int) ≥ (d.matrix_size : Int) - 1) ∧
          ∃ res2 d2, d2.matrix_size = d.matrix_size ∧
            q ∈ backtrackCalls fuel res2 d2 (level + 1))) ∧
    ∃ r, igraph_i_maximal_independent_vertex_sets_backtrack n res
      (initData n adj_list keep) 0 = some r := by
  refine ⟨?_, backtrackCalls_tail, ?_⟩
  · intro q hq
    have h := (backtrackCalls_levels _ _ _ _ q hq).2 (by simp [initData]; omega)
    have hm : (initData n adj_list keep).matrix_size = n := rfl
    rw [hm] at h
    refine ⟨by omega, ?_, ?_⟩
    · constructor
      · intro h1
        omega
      · intro h1
        omega
    · intro h1
      omega
  · exact backtrack_total n res (initData n adj_list keep) 0 (by omega) (by simp [initData])

/-- Witness for C27: in the run on the path `0-1-2-3` the calls are made at the
levels 0,1,2,3,3,1,2,3. -/
theorem recursion_level_bound_witness :
    (backtrackCalls 5 (some []) (initData 4 path4.nbrs false) 0).map (fun q => q.1)
      = [0, 1, 2, 3, 3, 1, 2, 3] ∧
    (∀ q ∈ backtrackCalls (4 + 1) (some []) (initData 4 path4.nbrs false) 0,
      q.1 ≤ 4 - 1 ∧ (((q.1 : Int) ≥ ((4 : Nat) : Int) - 1) ↔ q.1 = 4 - 1) ∧
        (¬ ((q.1 : Int) ≥ ((4 : Nat) : Int) - 1) → q.1 + 1 ≤ 4 - 1)) :=
  ⟨by decide, (recursion_level_bound 4 (by decide) path4.nbrs false (some [])).1⟩

theorem counterInv_kid_free (G : Graph) (hG : G.Simple) (L : Nat) (hL : L + 1 < G.n)
    (IS : Nat → Int) (hinv : CounterInv G L IS)
    (hc : countZero IS (lowScan (G.nbrs (L + 1)) (G.nbrs (L + 1)).length L) = 0) :
    CounterInv G (L + 1) (incrAll IS (lowScan (G.nbrs (L + 1)) (G.nbrs (L + 1)).length L)) := by
  apply kids_inv G hG L hL IS hinv
  unfold kids
  dsimp only
  rw [if_pos hc]
  exact List.mem_singleton_self _

theorem counterInv_kid_out (G : Graph) (hG : G.Simple) (L : Nat) (hL : L + 1 < G.n)
    (IS : Nat → Int) (hinv : CounterInv G L IS)
    (hc : ¬ countZero IS (lowScan (G.nbrs (L + 1)) (G.nbrs (L + 1)).length L) = 0) :
    CounterInv G (L + 1) (upd IS (L + 1)
      ((countZero IS (lowScan (G.nbrs (L + 1)) (G.nbrs (L + 1)).length L) : Nat) : Int)) := by
  apply kids_inv G hG L hL IS hinv
  unfold kids
  dsimp only
  rw [if_neg hc]
  exact List.mem_cons_self _ _

theorem counterInv_kid_in (G : Graph) (hG : G.Simple) (L : Nat) (hL : L + 1 < G.n)
    (IS : Nat → Int) (hinv : CounterInv G L IS)
    (hc : ¬ countZero IS (lowScan (G.nbrs (L + 1)) (G.nbrs (L + 1)).length L) = 0)
    (ht : (removeLoop G.nbrs (fun i => (G.nbrs i).length) L
      (lowScan (G.nbrs (L + 1)) (G.nbrs (L + 1)).length L) 0 (IS, [], true)).2.2 = true) :
    CounterInv G (L + 1) (removeLoop G.nbrs (fun i => (G.nbrs i).length) L
      (lowScan (G.nbrs (L + 1)) (G.nbrs (L + 1)).length L) 0 (IS, [], true)).1 := by
  apply kids_inv G hG L hL IS hinv
  unfold kids
  dsimp only
  rw [if_neg hc, if_pos ht]
  exact List.mem_cons_of_mem _ (List.mem_singleton_self _)

theorem decrAll_incrAll (IS : Nat → Int) (vs : List Nat) : decrAll (incrAll IS vs) vs = IS := by
  funext k
  rw [decrAll_apply, incrAll_apply]
  omega

theorem upd_upd_zero (IS : Nat → Int) (v : Nat) (c : Int) (h : IS v = 0) :
    upd (upd IS v c) v 0 = IS := by
  funext k
  by_cases hk : k = v
  · subst hk
    rw [upd_same, h]
  · rw [upd_other _ _ _ _ hk, upd_other _ _ _ _ hk]

theorem runInv_return (G : Graph) (d : igraph_i_max_ind_vsets_data_t) (level : Nat)
    (h : RunInv G d level) (fuel : Nat) (res res1 : Option (List (List Nat)))
    (d1 : igraph_i_max_ind_vsets_data_t)
    (hr : igraph_i_maximal_independent_vertex_sets_backtrack fuel res d level = some (res1, d1)) :
    d1.adj_list = d.adj_list ∧ d1.deg = d.deg ∧ d1.matrix_size = d.matrix_size ∧
      d1.IS = d.IS ∧ d1.buckets = d.buckets := by
  obtain ⟨⟨a, b, c, -⟩, e⟩ := backtrack_neutral_aux fuel res d level res1 d1 hr
  obtain ⟨f, g⟩ := e (fun v hv => ⟨h.2.2.2.1.2 v hv, h.2.2.2.2.1 v hv⟩)
  exact ⟨a, b, c, f, g⟩

theorem backtrackCalls_inv (G : Graph) (hG : G.Simple) :
    ∀ (fuel : Nat) (res : Option (List (List Nat))) (d : igraph_i_max_ind_vsets_data_t)
      (level : Nat), RunInv G d level →
      ∀ q ∈ backtrackCalls fuel res d level, CounterInv G q.1 q.2 := by
  intro fuel
  induction fuel with
  | zero =>
    intro res d level _ q hq
    simp [backtrackCalls] at hq
  | succ fuel ih =>
    intro res d level h q hq
    obtain ⟨ms, adj, deg, bks, IS, lss, keep⟩ := d
    obtain ⟨hadj, hdeg, hms, hinv, hbk, hlt⟩ := h
    dsimp only at hadj hdeg hms hinv hbk
    subst hadj hdeg hms
    rw [backtrackCalls, List.mem_cons] at hq
    rcases hq with hq | hq
    · rw [hq]
      exact hinv
    · dsimp only at hq
      by_cases hleaf : (level : Int) ≥ (G.n : Int) - 1
      · rw [if_pos hleaf] at hq
        simp at hq
      · rw [if_neg hleaf] at hq
        have hL : level + 1 < G.n := by omega
        by_cases hc : countZero IS
            (lowScan (G.nbrs (level + 1)) (G.nbrs (level + 1)).length level) = 0
        · rw [if_pos hc] at hq
          exact ih res _ (level + 1)
            ⟨rfl, rfl, rfl, counterInv_kid_free G hG level hL IS hinv hc,
              fun v hv => hbk v (by omega), hL⟩ q hq
        · rw [if_neg hc] at hq
          have hout := counterInv_kid_out G hG level hL IS hinv hc
          have hrun1 : RunInv G
              { matrix_size := G.n, adj_list := G.nbrs, deg := fun i => (G.nbrs i).length,
                buckets := bks,
                IS := upd IS (level + 1)
                  ((countZero IS
                    (lowScan (G.nbrs (level + 1)) (G.nbrs (level + 1)).length level) : Nat) : Int),
                largest_set_size := lss, keep_only_largest := keep } (level + 1) :=
            ⟨rfl, rfl, rfl, hout, fun v hv => hbk v (by omega), hL⟩
          rcases List.mem_append.1 hq with hq1 | hq2
          · exact ih res _ (level + 1) hrun1 q hq1
          · clear hq
            split at hq2
            · simp at hq2
            · rename_i res1 d1 h1
              obtain ⟨e1, e2, e3, e4, e5⟩ := runInv_return G _ (level + 1) hrun1 fuel res res1 d1 h1
              obtain ⟨ms1, adj1, deg1, bks1, IS1, lss1, keep1⟩ := d1
              dsimp only at e1 e2 e3 e4 e5 hq2
              subst e1 e2 e3 e4 e5
              rw [upd_upd_zero IS (level + 1) _ (hinv.2 (level + 1) (by omega)),
                hbk (level + 1) (by omega)] at hq2
              split at hq2
              · rename_i ht
                exact ih res1 _ (level + 1)
                  ⟨rfl, rfl, rfl, counterInv_kid_in G hG level hL IS hinv hc ht,
                    fun v hv => by
                      show upd bks1 (level + 1) _ v = []
                      rw [upd_other _ _ _ _ (by omega)]
                      exact hbk v (by omega), hL⟩ q hq2
              · simp at hq2

theorem backtrackPoints_nonneg (G : Graph) (hG : G.Simple) :
    ∀ (fuel : Nat) (res : Option (List (List Nat))) (d : igraph_i_max_ind_vsets_data_t)
      (level : Nat), RunInv G d level →
      ∀ q ∈ backtrackPoints fuel res d level, q.1 = false → ∀ v, 0 ≤ q.2 v := by
  intro fuel
  induction fuel with
  | zero =>
    intro res d level _ q hq
    simp [backtrackPoints] at hq
  | succ fuel ih =>
    intro res d level h q hq hflag
    obtain ⟨ms, adj, deg, bks, IS, lss, keep⟩ := d
    obtain ⟨hadj, hdeg, hms, hinv, hbk, hlt⟩ := h
    dsimp only at hadj hdeg hms hinv hbk
    subst hadj hdeg hms
    have hIS : ∀ v, 0 ≤ IS v := counterInv_nonneg G level IS hinv
    rw [backtrackPoints, List.mem_cons] at hq
    rcases hq with hq | hq
    · rw [hq]
      exact hIS
    · dsimp only at hq
      by_cases hleaf : (level : Int) ≥ (G.n : Int) - 1
      · rw [if_pos hleaf] at hq
        simp at hq
      · rw [if_neg hleaf] at hq
        have hL : level + 1 < G.n := by omega
        by_cases hc : countZero IS
            (lowScan (G.nbrs (level + 1)) (G.nbrs (level + 1)).length level) = 0
        · rw [if_pos hc] at hq
          have hfree := counterInv_kid_free G hG level hL IS hinv hc
          have hrun1 : RunInv G
              { matrix_size := G.n, adj_list := G.nbrs, deg := fun i => (G.nbrs i).length,
                buckets := bks,
                IS := incrAll IS
                  (lowScan (G.nbrs (level + 1)) (G.nbrs (level + 1)).length level),
                largest_set_size := lss, keep_only_largest := keep } (level + 1) :=
            ⟨rfl, rfl, rfl, hfree, fun v hv => hbk v (by omega), hL⟩
          rcases List.mem_append.1 hq with hq1 | hq2
          · exact ih res _ (level + 1) hrun1 q hq1 hflag
          · clear hq
            split at hq2
            · simp at hq2
            · rename_i res1 d1 h1
              obtain ⟨-, -, -, e4, -⟩ := runInv_return G _ (level + 1) hrun1 fuel res _ d1 h1
              dsimp only at e4
              rw [e4, decrAll_incrAll] at hq2
              simp only [List.mem_cons, List.mem_singleton, List.not_mem_nil, or_false] at hq2
              rcases hq2 with hq2 | hq2
              · rw [hq2]
                exact counterInv_nonneg G (level + 1) _ hfree
              · rw [hq2]
                exact hIS
        · rw [if_neg hc] at hq
          have hout := counterInv_kid_out G hG level hL IS hinv hc
          have hrun1 : RunInv G
              { matrix_size := G.n, adj_list := G.nbrs, deg := fun i => (G.nbrs i).length,
                buckets := bks,
                IS := upd IS (level + 1)
                  ((countZero IS
                    (lowScan (G.nbrs (level + 1)) (G.nbrs (level + 1)).length level) : Nat) : Int),
                largest_set_size := lss, keep_only_largest := keep } (level + 1) :=
            ⟨rfl, rfl, rfl, hout, fun v hv => hbk v (by omega), hL⟩
          rcases List.mem_append.1 hq with hq1 | hq2
          · exact ih res _ (level + 1) hrun1 q hq1 hflag
          · clear hq
            split at hq2
            · simp at hq2
            · rename_i res1 d1 h1
              obtain ⟨e1, e2, e3, e4, e5⟩ := runInv_return G _ (level + 1) hrun1 fuel res res1 d1 h1
              obtain ⟨ms1, adj1, deg1, bks1, IS1, lss1, keep1⟩ := d1
              dsimp only at e1 e2 e3 e4 e5 hq2
              subst e1 e2 e3 e4 e5
              rw [upd_upd_zero IS (level + 1) _ (hinv.2 (level + 1) (by omega)),
                hbk (level + 1) (by omega)] at hq2
              rw [List.mem_cons] at hq2
              rcases hq2 with hq2 | hq2
              · rw [hq2]
                exact counterInv_nonneg G (level + 1) _ hout
              rw [List.mem_cons] at hq2
              rcases hq2 with hq2 | hq2
              · rw [hq2]
                exact hIS
              rcases List.mem_append.1 hq2 with hq3 | hq3
              · obtain ⟨s, -, hs⟩ := List.mem_map.1 hq3
                rw [← hs] at hflag
                cases hflag
              clear hq2
              have hrun2 : (removeLoop G.nbrs (fun i => (G.nbrs i).length) level
                    (lowScan (G.nbrs (level + 1)) (G.nbrs (level + 1)).length level) 0
                    (IS, [], true)).2.2 = true →
                  RunInv G
                    { matrix_size := G.n, adj_list := G.nbrs,
                      deg := fun i => (G.nbrs i).length,
                      buckets := upd bks1 (level + 1)
                        (removeLoop G.nbrs (fun i => (G.nbrs i).length) level
                          (lowScan (G.nbrs (level + 1)) (G.nbrs (level + 1)).length level) 0
                          (IS, [], true)).2.1,
                      IS := (removeLoop G.nbrs (fun i => (G.nbrs i).length) level
                          (lowScan (G.nbrs (level + 1)) (G.nbrs (level + 1)).length level) 0
                          (IS, [], true)).1,
                      largest_set_size := lss1, keep_only_largest := keep1 } (level + 1) := by
                intro ht
                exact ⟨rfl, rfl, rfl, counterInv_kid_in G hG level hL IS hinv hc ht,
                  fun v hv => by
                    show upd bks1 (level + 1) _ v = []
                    rw [upd_other _ _ _ _ (by omega)]
                    exact hbk v (by omega), hL⟩
              rcases List.mem_append.1 hq3 with hq4 | hq4
              · clear hq3
                split at hq4
                · rename_i ht
                  exact ih res1 _ (level + 1) (hrun2 ht) q hq4 hflag
                · simp at hq4
              · clear hq3
                by_cases ht : (removeLoop G.nbrs (fun i => (G.nbrs i).length) level
                    (lowScan (G.nbrs (level + 1)) (G.nbrs (level + 1)).length level) 0
                    (IS, [], true)).2.2 = true
                · rw [if_pos ht] at hq4
                  split at hq4
                  · simp at hq4
                  · rename_i res3 d3 h3
                    obtain ⟨f1, f2, -, f4, f5⟩ :=
                      runInv_return G _ (level + 1) (hrun2 ht) fuel res1 _ d3 h3
                    dsimp only at f1 f2 f4 f5
                    rw [f1, f2, f4, f5, upd_same, removeLoop_undo] at hq4
                    simp only [List.mem_cons, List.mem_singleton, List.not_mem_nil,
                      or_false] at hq4
                    rcases hq4 with hq4 | hq4
                    · rw [hq4] at hflag
                      cases hflag
                    · rw [hq4]
                      exact hIS
                · rw [if_neg ht] at hq4
                  dsimp only at hq4
                  rw [upd_same, removeLoop_undo] at hq4
                  simp only [List.mem_cons, List.mem_singleton, List.not_mem_nil,
                    or_false] at hq4
                  rcases hq4 with hq4 | hq4
                  · rw [hq4] at hflag
                    cases hflag
                  · rw [hq4]
                    exact hIS

theorem diamond4_simple : diamond4.Simple := by
  unfold Graph.Simple
  decide

theorem runInv_init (G : Graph) (hG : G.Simple) (hn : 0 < G.n) (keep : Bool) :
    RunInv G (initData G.n (igraph_adjlist_init G) keep) 0 :=
  ⟨rfl, rfl, rfl, counterInv_root G hG hn, fun _ _ => rfl, hn⟩

/-- C22: counter invariant of the backtrack engine. On a finite simple undirected
graph with ascending adjacency lists, at entry to every call `solve(L)` of the run
started by `solve(0)` with `IS` all zero and all buckets empty, for every vertex
`v ≤ L` the counter `IS[v]` is the number of neighbours `u ≤ L` of `v` with
`IS[u] = 0`, and `IS[v] = 0` for every `v > L`. -/
theorem counter_invariant_at_every_call (G : Graph) (hG : G.Simple) (keep : Bool)
    (res : Option (List (List Nat))) (q : Nat × (Nat → Int))
    (hq : q ∈ backtrackCalls (G.n + 1) res (initData G.n (igraph_adjlist_init G) keep) 0) :
    (∀ v, v ≤ q.1 → v < G.n → q.2 v = ((zeros q.2 (low G q.1 v)).length : Int)) ∧
    (∀ v, q.1 < v → q.2 v = 0) := by
  by_cases hn : 0 < G.n
  · have h := backtrackCalls_inv G hG (G.n + 1) res _ 0 (runInv_init G hG hn keep) q hq
    exact ⟨fun v hv _ => h.1 v hv, h.2⟩
  · have h0 : G.n = 0 := by omega
    rw [h0] at hq
    simp only [backtrackCalls, initData] at hq
    simp at hq
    subst hq
    exact ⟨fun v _ hv => by omega, fun _ _ => rfl⟩

/-- Witness for C22: the second call of the run on the path `0-1-2-3` is
`solve(1)` with `IS = [0,1,0,0]`. -/
theorem counter_invariant_at_every_call_witness :
    ((backtrackCalls (path4.n + 1) (some [])
        (initData path4.n (igraph_adjlist_init path4) false) 0).get ⟨1, by decide⟩).1 = 1 ∧
    (List.range 4).map ((backtrackCalls (path4.n + 1) (some [])
        (initData path4.n (igraph_adjlist_init path4) false) 0).get ⟨1, by decide⟩).2
      = [0, 1, 0, 0] ∧
    ((∀ v, v ≤ ((backtrackCalls (path4.n + 1) (some [])
          (initData path4.n (igraph_adjlist_init path4) false) 0).get ⟨1, by decide⟩).1 →
        v < path4.n →
        ((backtrackCalls (path4.n + 1) (some [])
          (initData path4.n (igraph_adjlist_init path4) false) 0).get ⟨1, by decide⟩).2 v
          = ((zeros ((backtrackCalls (path4.n + 1) (some [])
              (initData path4.n (igraph_adjlist_init path4) false) 0).get ⟨1, by decide⟩).2
            (low path4 ((backtrackCalls (path4.n + 1) (some [])
              (initData path4.n (igraph_adjlist_init path4) false) 0).get ⟨1, by decide⟩).1
              v)).length : Int)) ∧
      (∀ v, ((backtrackCalls (path4.n + 1) (some [])
          (initData path4.n (igraph_adjlist_init path4) false) 0).get ⟨1, by decide⟩).1 < v →
        ((backtrackCalls (path4.n + 1) (some [])
          (initData path4.n (igraph_adjlist_init path4) false) 0).get ⟨1, by decide⟩).2 v = 0)) :=
  ⟨by decide, by decide,
   counter_invariant_at_every_call path4 path4_simple false (some []) _ (List.get_mem _ _ _)⟩

/-- C23, counterexample: the counters are not non-negative at every point of a
run. On the triangle `K3` the counter `IS[0]` is `-1` after the undo loop
`IS[v2]--` of the call `solve(1)`; on the graph `diamond4` the counter `IS[1]` is
`-1` after the second round of the speculative removal loop of the call
`solve(2)`. Both graphs are simple. -/
theorem is_counters_can_be_negative :
    triangle.Simple ∧
    (∃ q ∈ backtrackPoints (triangle.n + 1) (some [])
        (initData triangle.n (igraph_adjlist_init triangle) false) 0,
      ∃ v, v < triangle.n ∧ q.2 v < 0) ∧
    diamond4.Simple ∧
    (∃ q ∈ backtrackPoints (diamond4.n + 1) (some [])
        (initData diamond4.n (igraph_adjlist_init diamond4) false) 0,
      ∃ v, v < diamond4.n ∧ q.2 v < 0) ∧
    (backtrackPoints (triangle.n + 1) (some [])
        (initData triangle.n (igraph_adjlist_init triangle) false) 0).map
          (fun q => (q.1, (List.range 3).map q.2))
      = [(false, [0, 0, 0]), (false, [0, 1, 0]), (false, [0, 1, 1]), (false, [0, 1, 1]),
         (false, [0, 1, 0]), (true, [1, 0, 0]), (true, [0, 1, 0]), (true, [-1, 0, 0]),
         (false, [0, 1, 0]), (false, [0, 1, 0]), (false, [0, 0, 0]), (true, [1, 0, 0]),
         (false, [1, 0, 0]), (false, [1, 0, 1]), (false, [1, 0, 1]), (false, [1, 0, 0]),
         (true, [2, 0, 0]), (true, [1, 1, 0]), (false, [1, 1, 0]), (true, [0, 0, 0]),
         (false, [1, 0, 0]), (true, [0, 0, 0]), (false, [0, 0, 0])] :=
  ⟨triangle_simple,
   ⟨_, List.get_mem _ 7 (by decide), 0, by decide, by decide⟩,
   diamond4_simple,
   ⟨_, List.get_mem _ 7 (by decide), 1, by decide, by decide⟩,
   by decide⟩

/-- C23, amended: on a finite simple undirected graph, at every point of the run
started by `solve(0)` with `IS` all zero that does not lie between the start of
the speculative removal loop and the end of its undo (entry of a call, return of a
recursive call, after `IS[v1] = 0`, after the decrements of the free case, after
the replay of the bucket), every counter `IS[v]` is `≥ 0`. -/
theorem is_counters_nonneg_outside_speculation (G : Graph) (hG : G.Simple) (keep : Bool)
    (res : Option (List (List Nat))) (q : Bool × (Nat → Int))
    (hq : q ∈ backtrackPoints (G.n + 1) res (initData G.n (igraph_adjlist_init G) keep) 0)
    (hflag : q.1 = false) : ∀ v, 0 ≤ q.2 v := by
  by_cases hn : 0 < G.n
  · exact backtrackPoints_nonneg G hG (G.n + 1) res _ 0 (runInv_init G hG hn keep) q hq hflag
  · have h0 : G.n = 0 := by omega
    rw [h0] at hq
    simp only [backtrackPoints, initData] at hq
    simp at hq
    subst hq
    intro v
    exact le_refl _

/-- Witness for C23 (amended): the point number 8 of the run on the triangle `K3`,
after the replay of the bucket in `solve(1)`, has `IS = [0,1,0]`. -/
theorem is_counters_nonneg_outside_speculation_witness :
    ((backtrackPoints (triangle.n + 1) (some [])
        (initData triangle.n (igraph_adjlist_init triangle) false) 0).get ⟨8, by decide⟩).1
      = false ∧
    (List.range 3).map ((backtrackPoints (triangle.n + 1) (some [])
        (initData triangle.n (igraph_adjlist_init triangle) false) 0).get ⟨8, by decide⟩).2
      = [0, 1, 0] ∧
    ∀ v, 0 ≤ ((backtrackPoints (triangle.n + 1) (some [])
        (initData triangle.n (igraph_adjlist_init triangle) false) 0).get ⟨8, by decide⟩).2 v :=
  ⟨by decide, by decide,
   is_counters_nonneg_outside_speculation triangle triangle_simple false (some []) _
    (List.get_mem _ _ _) (by decide)⟩

/-! ## Operation traces of the level expander -/

theorem traced_ok {α : Type} (env : Nat → Option ErrorCode) (tick : α → Nat) (t0 : Nat)
    (a : α) (Q : α → Prop) (E : List (Option (List Nat)) → Prop)
    (ht : tick a = t0) (h : Q a) : Traced env tick t0 [] (Outcome.ok a) Q E :=
  ⟨fun _ hi => absurd hi (Nat.not_lt_zero _), ht, h⟩

theorem traced_mono {α : Type} (env : Nat → Option ErrorCode) (tick : α → Nat) (t0 : Nat)
    (ops : List OpKind) (o : Outcome α) (P Q : α → Prop)
    (E : List (Option (List Nat)) → Prop)
    (h1 : Traced env tick t0 ops o P E) (h2 : ∀ a, P a → Q a) :
    Traced env tick t0 ops o Q E := by
  cases o with
  | ok a => exact ⟨h1.1, h1.2.1, h2 a h1.2.2⟩
  | error code res => exact h1
  | timeout => exact h1

theorem traced_bind {α β : Type} (env : Nat → Option ErrorCode) (tickα : α → Nat)
    (tickβ : β → Nat) (t0 : Nat) (ops1 ops2 : List OpKind) (o : Outcome α)
    (f : α → Outcome β) (P : α → Prop) (Q : β → Prop)
    (E : List (Option (List Nat)) → Prop)
    (h1 : Traced env tickα t0 ops1 o P E)
    (h2 : ∀ a, P a → tickα a = t0 + ops1.length →
      Traced env tickβ (t0 + ops1.length) ops2 (f a) Q E) :
    Traced env tickβ t0 (ops1 ++ ops2) (o.bind f) Q E := by
  cases o with
  | ok a =>
    obtain ⟨hn, ht, hp⟩ := h1
    have h := h2 a hp ht
    show Traced env tickβ t0 (ops1 ++ ops2) (f a) Q E
    cases hfa : f a with
    | ok b =>
      rw [hfa] at h
      obtain ⟨hn2, ht2, hq⟩ := h
      refine ⟨?_, ?_, hq⟩
      · intro i hi
        rw [List.length_append] at hi
        by_cases hlt : i < ops1.length
        · exact hn i hlt
        · have h3 := hn2 (i - ops1.length) (by omega)
          rwa [show t0 + ops1.length + (i - ops1.length) = t0 + i by omega] at h3
      · rw [ht2, List.length_append]
        omega
    | error code res =>
      rw [hfa] at h
      obtain ⟨he, i, kind, e, hk, hb, hi, hc⟩ := h
      refine ⟨he, ops1.length + i, kind, e, ?_, ?_, ?_, hc⟩
      · rw [List.getElem?_append_right (Nat.le_add_right _ _)]
        simpa using hk
      · intro j hj
        by_cases hlt : j < ops1.length
        · exact hn j hlt
        · have h3 := hb (j - ops1.length) (by omega)
          rwa [show t0 + ops1.length + (j - ops1.length) = t0 + j by omega] at h3
      · rw [← Nat.add_assoc]
        exact hi
    | timeout =>
      rw [hfa] at h
      exact h
  | error code res =>
    obtain ⟨he, i, kind, e, hk, hb, hi, hc⟩ := h1
    refine ⟨he, i, kind, e, ?_, hb, hi, hc⟩
    have hlt : i < ops1.length := by
      by_contra hge
      rw [List.getElem?_eq_none (by omega)] at hk
      cases hk
    rw [List.getElem?_append_left hlt]
    exact hk
  | timeout => exact h1

theorem traced_map {α β : Type} (env : Nat → Option ErrorCode) (tickα : α → Nat)
    (tickβ : β → Nat) (t0 : Nat) (ops : List OpKind) (o : Outcome α)
    (g : α → β) (P : α → Prop) (Q : β → Prop) (E : List (Option (List Nat)) → Prop)
    (h1 : Traced env tickα t0 ops o P E)
    (h2 : ∀ a, P a → tickα a = t0 + ops.length → tickβ (g a) = t0 + ops.length ∧ Q (g a)) :
    Traced env tickβ t0 ops (o.bind (fun a => Outcome.ok (g a))) Q E := by
  cases o with
  | ok a => exact ⟨h1.1, (h2 a h1.2.2 h1.2.1).1, (h2 a h1.2.2 h1.2.1).2⟩
  | error code res => exact h1
  | timeout => exact h1

theorem traced_attempt (env : Nat → Option ErrorCode) (kind : OpKind) (x : Ctx)
    (h : Guarded x ∨ x.res = []) :
    Traced env Ctx.tick x.tick [kind] (attempt env kind x)
      (fun x2 => x2.finally_stack = x.finally_stack ∧ x2.res = x.res)
      (fun res => res = []) := by
  unfold attempt
  cases he : env x.tick with
  | none =>
    refine ⟨?_, rfl, rfl, rfl⟩
    intro i hi
    have h0 : i = 0 := by simpa using hi
    subst h0
    exact he
  | some e =>
    exact ⟨finally_free_guarded x h, 0, kind, e, rfl,
      fun j hj => absurd hj (Nat.not_lt_zero _), he, rfl⟩

theorem traced_step {β : Type} (env : Nat → Option ErrorCode) (kind : OpKind) (x : Ctx)
    (tickβ : β → Nat) (ops : List OpKind) (f : Ctx → Outcome β) (Q : β → Prop)
    (h : Guarded x ∨ x.res = [])
    (hf : ∀ x2 : Ctx, x2.finally_stack = x.finally_stack → x2.res = x.res →
      x2.tick = x.tick + 1 → Traced env tickβ x2.tick ops (f x2) Q (fun res => res = [])) :
    Traced env tickβ x.tick (kind :: ops) ((attempt env kind x).bind f) Q
      (fun res => res = []) := by
  apply traced_bind env Ctx.tick tickβ x.tick [kind] ops _ f _ Q _ (traced_attempt env kind x h)
  intro x2 hx2 ht
  have h3 := hf x2 hx2.1 hx2.2 ht
  rw [ht] at h3
  exact h3

theorem traced_foldl {σ τ β : Type} (env : Nat → Option ErrorCode) (tick : σ → Nat)
    (f : σ → β → Outcome σ) (g : τ → β → τ) (stepOps : τ → β → List OpKind)
    (R : σ → τ → Prop) (E : List (Option (List Nat)) → Prop) :
    ∀ (l : List β),
      (∀ s t b, b ∈ l → R s t →
        Traced env tick (tick s) (stepOps t b) (f s b) (fun s2 => R s2 (g t b)) E) →
      ∀ s t, R s t →
        Traced env tick (tick s) (foldOps g stepOps l t) (Outcome.foldl f l s)
          (fun s2 => R s2 (l.foldl g t)) E := by
  intro l
  induction l with
  | nil =>
    intro _ s t h
    exact traced_ok env tick _ s _ E rfl h
  | cons b bs ih =>
    intro hf s t h
    rw [Outcome.foldl, foldOps]
    apply traced_bind env tick tick _ _ _ _ _ _ _ _ (hf s t b (List.mem_cons_self _ _) h)
    intro s2 hs2 ht
    have h3 := ih (fun s t b hb hR => hf s t b (List.mem_cons_of_mem _ hb) hR) s2 (g t b) hs2
    rw [ht] at h3
    exact h3

theorem foldOps_const {τ τ2 β : Type} (g : τ → β → τ) (g2 : τ2 → β → τ2)
    (k : β → List OpKind) :
    ∀ (l : List β) (t : τ) (t2 : τ2),
      foldOps g (fun _ b => k b) l t = foldOps g2 (fun _ b => k b) l t2 := by
  intro l
  induction l with
  | nil => intro t t2; rfl
  | cons b bs ih =>
    intro t t2
    rw [foldOps, foldOps, ih (g t b) (g2 t2 b)]

theorem bind_bind {α β γ : Type} (o : Outcome α) (f : α → Outcome β) (g : β → Outcome γ) :
    (o.bind f).bind g = o.bind (fun a => (f a).bind g) := by
  cases o <;> rfl

theorem traced_use {α : Type} (env : Nat → Option ErrorCode) (tick : α → Nat)
    (ops : List OpKind) (o : Outcome α) (Q : α → Prop)
    (h : Traced env tick 0 ops o Q (fun res => res = [])) (code : ErrorCode)
    (s : List (Option (List Nat))) :
    o = Outcome.error code s ↔
      s = [] ∧ ∃ t kind e, ops[t]? = some kind ∧ (∀ j, j < t → env j = none) ∧
        env t = some e ∧ code = codeOf kind e := by
  cases o with
  | ok a =>
    constructor
    · intro hc
      cases hc
    · rintro ⟨-, t, kind, e, hk, -, he, -⟩
      have hlt : t < ops.length := by
        by_contra hge
        rw [List.getElem?_eq_none (by omega)] at hk
        cases hk
      have h3 := h.1 t hlt
      rw [Nat.zero_add, he] at h3
      cases h3
  | error c r =>
    obtain ⟨hr, i, kind, e, hk, hb, hi, hc⟩ := h
    rw [Nat.zero_add] at hi
    have hb2 : ∀ j, j < i → env j = none := by
      intro j hj
      have h3 := hb j hj
      rwa [Nat.zero_add] at h3
    constructor
    · intro heq
      cases heq
      exact ⟨hr, i, kind, e, hk, hb2, hi, hc⟩
    · rintro ⟨hs, t, kind2, e2, hk2, hb3, he2, hc2⟩
      have hti : t = i := by
        rcases Nat.lt_trichotomy t i with hlt | heq | hgt
        · rw [hb2 t hlt] at he2
          cases he2
        · exact heq
        · rw [hb3 i hgt] at hi
          cases hi
      subst hti
      rw [hk] at hk2
      rw [hi] at he2
      cases hk2
      cases he2
      rw [hs, hc2, hc, hr]
  | timeout => exact absurd h id

theorem growIfFull_err_trace (env : Nat → Option ErrorCode) (s : KState) (x : Ctx)
    (hg : Guarded x) :
    Traced env (fun p : KState × Ctx => p.2.tick) x.tick
      (if s.st.length = s.cap then [OpKind.allocation] else [])
      (if s.st.length = s.cap then
        (allocate env x).bind (fun x3 =>
          Outcome.ok (({ s with cap := s.cap * 2 } : KState), x3))
      else Outcome.ok (s, x))
      (fun p2 => p2.1 = growIfFull s ∧
        p2.2.finally_stack = x.finally_stack ∧ p2.2.res = x.res)
      (fun res => res = []) := by
  unfold growIfFull
  by_cases h : s.st.length = s.cap
  · rw [if_pos h, if_pos h, if_pos h]
    apply traced_step env OpKind.allocation x _ _ _ _ (Or.inl hg)
    intro x3 h1 h2 _
    exact traced_ok env _ _ _ _ _ rfl ⟨rfl, h1, h2⟩
  · rw [if_neg h, if_neg h, if_neg h]
    exact traced_ok env _ _ _ _ _ rfl ⟨rfl, rfl, rfl⟩

theorem mergePair_err_trace (env : Nat → Option ErrorCode) (G : Graph) (indep : Bool)
    (size : Nat) (c1 c2 : Nat → Nat) (p : KState × Ctx) (hg : Guarded p.2) :
    Traced env (fun p : KState × Ctx => p.2.tick) p.2.tick
      (mergePair_ops G indep size c1 c2 p.1)
      (mergePair_err env G indep size c1 c2 p)
      (fun p2 => p2.1 = mergePair G indep size c1 c2 p.1 ∧
        p2.2.finally_stack = p.2.finally_stack ∧ p2.2.res = p.2.res)
      (fun res => res = []) := by
  unfold mergePair_err mergePair_ops
  apply traced_step env OpKind.poll p.2 _ _ _ _ (Or.inl hg)
  intro x hx1 hx2 _
  unfold mergePair
  dsimp only
  have hgx : Guarded x := guarded_of_stack x p.2 hx1 hg
  by_cases h1 : (scanPrefix c1 c2 (size - 1) 0 p.1.st).1 = size - 1
  · rw [if_pos h1, if_pos h1, if_pos h1]
    exact traced_ok env _ _ _ _ _ rfl ⟨rfl, hx1, hx2⟩
  · rw [if_neg h1, if_neg h1, if_neg h1]
    by_cases h2 : (scanRest c1 c2 (c1 (scanPrefix c1 c2 (size - 1) 0 p.1.st).1)
        (size - 1 - ((scanPrefix c1 c2 (size - 1) 0 p.1.st).1 + 1))
        ((scanPrefix c1 c2 (size - 1) 0 p.1.st).1 + 1) true
        (c2 (scanPrefix c1 c2 (size - 1) 0 p.1.st).1)
        ((scanPrefix c1 c2 (size - 1) 0 p.1.st).2
          ++ [c1 (scanPrefix c1 c2 (size - 1) 0 p.1.st).1])).1 ≠ size - 1
    · rw [if_pos h2, if_pos h2, if_pos h2, bind_ok]
      apply traced_mono env _ _ _ _ _ _ _ (growIfFull_err_trace env _ x hgx)
      intro p2 hp2
      exact ⟨hp2.1, hp2.2.1.trans hx1, hp2.2.2.trans hx2⟩
    · rw [if_neg h2, if_neg h2, if_neg h2, bind_bind]
      apply traced_step env OpKind.callee x _ _ _ _ (Or.inl hgx)
      intro x2 hy1 hy2 _
      rw [bind_ok]
      have hgx2 : Guarded x2 := guarded_of_stack x2 x hy1 hgx
      apply traced_mono env _ _ _ _ _ _ _ (growIfFull_err_trace env _ x2 hgx2)
      intro p2 hp2
      exact ⟨hp2.1, hp2.2.1.trans (hy1.trans hx1), hp2.2.2.trans (hy2.trans hx2)⟩

theorem find_k_cliques_err_trace (env : Nat → Option ErrorCode) (G : Graph) (size : Nat)
    (ms : List Nat) (occ : Nat) (indep : Bool) (x : Ctx) (hg : Guarded x) :
    Traced env (fun r : (List Nat × Nat) × Ctx => r.2.tick) x.tick
      (igraph_i_find_k_cliques_ops G size ms occ indep)
      (igraph_i_find_k_cliques_err env G size ms occ indep x)
      (fun r => r.1 = igraph_i_find_k_cliques G size ms occ indep ∧
        r.2.finally_stack = x.finally_stack ∧ r.2.res = x.res)
      (fun res => res = []) := by
  unfold igraph_i_find_k_cliques_err igraph_i_find_k_cliques_ops
  apply traced_step env OpKind.allocation x _ _ _ _ (Or.inl hg)
  intro x1 hx1 hx2 _
  have hR : ∀ (l : List Nat) (f : KState × Ctx → Nat → Outcome (KState × Ctx))
      (g : KState → Nat → KState) (stepOps : KState → Nat → List OpKind),
      (∀ s t b, b ∈ l →
        (s.1 = t ∧ s.2.finally_stack = Cleanup.igraph_free :: x.finally_stack ∧ s.2.res = x.res) →
        Traced env (fun p : KState × Ctx => p.2.tick) s.2.tick (stepOps t b) (f s b)
          (fun s2 => s2.1 = g t b ∧
            s2.2.finally_stack = Cleanup.igraph_free :: x.finally_stack ∧ s2.2.res = x.res)
          (fun res => res = [])) →
      ∀ s t, (s.1 = t ∧ s.2.finally_stack = Cleanup.igraph_free :: x.finally_stack ∧
          s.2.res = x.res) →
        Traced env (fun p : KState × Ctx => p.2.tick) s.2.tick (foldOps g stepOps l t)
          (Outcome.foldl f l s)
          (fun s2 => s2.1 = l.foldl g t ∧
            s2.2.finally_stack = Cleanup.igraph_free :: x.finally_stack ∧ s2.2.res = x.res)
          (fun res => res = []) := by
    intro l f g stepOps hf s t hs
    exact traced_foldl env (fun p : KState × Ctx => p.2.tick) f g stepOps
      (fun s t => s.1 = t ∧ s.2.finally_stack = Cleanup.igraph_free :: x.finally_stack ∧
        s.2.res = x.res) _ l hf s t hs
  have hloop := hR (List.range occ)
    (fun p j =>
      Outcome.foldl
        (fun p k =>
          mergePair_err env G indep size (slotAt ms (size - 1) j) (slotAt ms (size - 1) k) p)
        (List.range' (j + 1) (occ - (j + 1))) p)
    (fun s j =>
      (List.range' (j + 1) (occ - (j + 1))).foldl
        (fun s k =>
          mergePair G indep size (slotAt ms (size - 1) j) (slotAt ms (size - 1) k) s)
        s)
    (fun s j =>
      foldOps
        (fun s k =>
          mergePair G indep size (slotAt ms (size - 1) j) (slotAt ms (size - 1) k) s)
        (fun s k =>
          mergePair_ops G indep size (slotAt ms (size - 1) j) (slotAt ms (size - 1) k) s)
        (List.range' (j + 1) (occ - (j + 1))) s)
    (by
      intro s t j _ hs
      apply hR _ _ _ _ _ s t hs
      intro s t k _ hs
      have hgs : Guarded s.2 := by
        unfold Guarded
        rw [hs.2.1]
        exact List.mem_cons_of_mem _ hg
      rw [← hs.1]
      apply traced_mono env _ _ _ _ _ _ _ (mergePair_err_trace env G indep size _ _ s hgs)
      intro p2 hp2
      exact ⟨hp2.1, hp2.2.1.trans hs.2.1, hp2.2.2.trans hs.2.2⟩)
    (({ st := [], n := 0, cap := size * occ, warn := 0 } : KState),
      IGRAPH_FINALLY Cleanup.igraph_free x1)
    { st := [], n := 0, cap := size * occ, warn := 0 }
    ⟨rfl, by rw [IGRAPH_FINALLY, hx1], by rw [IGRAPH_FINALLY]; exact hx2⟩
  apply traced_map env _ _ _ _ _ _ _ _ _ hloop
  intro p hp ht
  refine ⟨ht, ?_, ?_, hp.2.2⟩
  · unfold igraph_i_find_k_cliques findLoop
    dsimp only
    rw [← hp.1]
  · unfold IGRAPH_FINALLY_CLEAN
    dsimp only
    rw [hp.2.1]
    rfl

theorem emitSlots_err_trace (env : Nat → Option ErrorCode) (slots : List (List Nat)) (x : Ctx)
    (hg : Guarded x) :
    Traced env Ctx.tick x.tick (emitSlots_ops slots) (emitSlots_err env slots x)
      (fun x2 => x2.finally_stack = x.finally_stack ∧ x2.res = x.res ++ slots.map some)
      (fun res => res = []) := by
  unfold emitSlots_err emitSlots_ops
  rw [← foldl_push,
    foldOps_const (fun (u : Unit) (_ : List Nat) => u)
      (fun (r : List (Option (List Nat))) S => r ++ [some S])
      (fun _ => [OpKind.allocation, OpKind.callee, OpKind.callee]) slots () x.res]
  refine traced_foldl env Ctx.tick _ (fun (r : List (Option (List Nat))) S => r ++ [some S])
    (fun _ _ => [OpKind.allocation, OpKind.callee, OpKind.callee])
    (fun (x2 : Ctx) (r : List (Option (List Nat))) =>
      x2.finally_stack = x.finally_stack ∧ x2.res = r) _ slots ?_ x x.res ⟨rfl, rfl⟩
  intro s t S _ hs
  have hgs : Guarded s := guarded_of_stack s x hs.1 hg
  apply traced_step env OpKind.allocation s _ _ _ _ (Or.inl hgs)
  intro x1 hx1 hx1r _
  have hg1 : Guarded (IGRAPH_FINALLY Cleanup.igraph_free x1) := by
    unfold Guarded IGRAPH_FINALLY
    dsimp only
    rw [hx1]
    exact List.mem_cons_of_mem _ hgs
  apply traced_step env OpKind.callee (IGRAPH_FINALLY Cleanup.igraph_free x1) _ _ _ _
    (Or.inl hg1)
  intro x2 hx2 hx2r _
  have hg2 : Guarded (IGRAPH_FINALLY Cleanup.igraph_vector_destroy x2) := by
    unfold Guarded IGRAPH_FINALLY
    dsimp only
    rw [hx2]
    exact List.mem_cons_of_mem _ hg1
  apply traced_step env OpKind.callee (IGRAPH_FINALLY Cleanup.igraph_vector_destroy x2)
    _ _ _ _ (Or.inl hg2)
  intro x3 hx3 hx3r _
  refine traced_ok env _ _ _ _ _ rfl ⟨?_, ?_⟩
  · unfold IGRAPH_FINALLY_CLEAN
    dsimp only
    rw [hx3]
    unfold IGRAPH_FINALLY
    dsimp only
    rw [hx2]
    unfold IGRAPH_FINALLY
    dsimp only
    rw [hx1, ← hs.1]
    rfl
  · unfold IGRAPH_FINALLY_CLEAN
    dsimp only
    rw [hx3r]
    unfold IGRAPH_FINALLY
    dsimp only
    rw [hx2r]
    unfold IGRAPH_FINALLY
    dsimp only
    rw [hx1r, hs.2]

theorem emitSingles_err_trace (env : Nat → Option ErrorCode) (n : Nat) (x : Ctx)
    (hg : Guarded x) (hres : x.res = []) :
    Traced env Ctx.tick x.tick (emitSingles_ops n) (emitSingles_err env n x)
      (fun x2 => x2.finally_stack = x.finally_stack ∧
        x2.res = (List.range n).map (fun i => some [i]))
      (fun res => res = []) := by
  unfold emitSingles_err emitSingles_ops
  apply traced_step env OpKind.callee x _ _ _ _ (Or.inl hg)
  intro x1 hx1 hx1r _
  have h0 : igraph_vector_ptr_null (igraph_vector_ptr_resize x1.res n)
      = List.replicate n none := by
    rw [hx1r, hres]
    simp [igraph_vector_ptr_null, igraph_vector_ptr_resize]
  have hfin := foldl_set_singles n n (le_refl _)
  rw [Nat.sub_self, List.replicate_zero, List.append_nil] at hfin
  rw [← hfin, h0,
    foldOps_const (fun (u : Unit) (_ : Nat) => u)
      (fun (r : List (Option (List Nat))) i => r.set i (some [i]))
      (fun _ => [OpKind.allocation, OpKind.callee]) (List.range n) ()
      (List.replicate n none)]
  refine traced_foldl env Ctx.tick _
    (fun (r : List (Option (List Nat))) i => r.set i (some [i]))
    (fun _ _ => [OpKind.allocation, OpKind.callee])
    (fun (x2 : Ctx) (r : List (Option (List Nat))) =>
      x2.finally_stack = x.finally_stack ∧ x2.res = r) _ (List.range n) ?_
    ({ x1 with res := List.replicate n none } : Ctx) _ ⟨hx1, rfl⟩
  intro s t i _ hs
  have hgs : Guarded s := guarded_of_stack s x hs.1 hg
  apply traced_step env OpKind.allocation s _ _ _ _ (Or.inl hgs)
  intro x2 hx2 hx2r _
  have hg2 : Guarded (IGRAPH_FINALLY Cleanup.igraph_free x2) := by
    unfold Guarded IGRAPH_FINALLY
    dsimp only
    rw [hx2]
    exact List.mem_cons_of_mem _ hgs
  apply traced_step env OpKind.callee (IGRAPH_FINALLY Cleanup.igraph_free x2) _ _ _ _
    (Or.inl hg2)
  intro x3 hx3 hx3r _
  refine traced_ok env _ _ _ _ _ rfl ⟨?_, ?_⟩
  · unfold IGRAPH_FINALLY_CLEAN
    dsimp only
    rw [hx3]
    unfold IGRAPH_FINALLY
    dsimp only
    rw [hx2, ← hs.1]
    rfl
  · unfold IGRAPH_FINALLY_CLEAN
    dsimp only
    rw [hx3r]
    unfold IGRAPH_FINALLY
    dsimp only
    rw [hx2r, hs.2]

theorem cliquesLoop_err_trace (env : Nat → Option ErrorCode) (G : Graph)
    (min_size max_size : Int) (indep : Bool) :
    ∀ (fuel i : Nat) (nms : List Nat) (cc : Nat) (x : Ctx) (pr r : List (List Nat)),
      x.finally_stack = [Cleanup.igraph_free, Cleanup.igraph_free,
        Cleanup.igraph_i_cliques_free_res, Cleanup.igraph_vector_destroy] →
      x.res = pr.map some →
      cliquesLoop G min_size max_size indep fuel i nms cc pr = some r →
      Traced env Ctx.tick x.tick (cliquesLoop_ops G min_size max_size indep fuel i nms cc)
        (cliquesLoop_err env G min_size max_size indep fuel i nms cc x)
        (fun x2 => x2.finally_stack = [Cleanup.igraph_free, Cleanup.igraph_free,
            Cleanup.igraph_i_cliques_free_res, Cleanup.igraph_vector_destroy] ∧
          x2.res = r.map some)
        (fun res => res = []) := by
  intro fuel
  induction fuel with
  | zero =>
    intro i nms cc x pr r hst hres hpure
    rw [cliquesLoop] at hpure
    rw [cliquesLoop_err, cliquesLoop_ops]
    by_cases hc : (i : Int) ≤ max_size ∧ cc > 1
    · rw [if_pos hc] at hpure
      cases hpure
    · rw [if_neg hc] at hpure
      rw [if_neg hc]
      cases hpure
      exact traced_ok env _ _ _ _ _ rfl ⟨hst, hres⟩
  | succ fuel ih =>
    intro i nms cc x pr r hst hres hpure
    rw [cliquesLoop] at hpure
    rw [cliquesLoop_err, cliquesLoop_ops]
    by_cases hc : (i : Int) ≤ max_size ∧ cc > 1
    · rw [if_pos hc] at hpure
      rw [if_pos hc, if_pos hc]
      have hgx : Guarded x := by
        unfold Guarded
        rw [hst]
        decide
      dsimp only
      apply traced_step env OpKind.poll x _ _ _ _ (Or.inl hgx)
      intro x1 hx1 hx1r hx1t
      have hg1 : Guarded (IGRAPH_FINALLY_CLEAN 2 x1) := by
        unfold Guarded IGRAPH_FINALLY_CLEAN
        dsimp only
        rw [hx1, hst]
        decide
      apply traced_bind env (fun r : (List Nat × Nat) × Ctx => r.2.tick) Ctx.tick _ _ _ _ _ _ _ _
        (find_k_cliques_err_trace env G i nms cc indep (IGRAPH_FINALLY_CLEAN 2 x1) hg1)
      intro rr hrr hrt
      have hst2 : (IGRAPH_FINALLY Cleanup.igraph_free
          (IGRAPH_FINALLY Cleanup.igraph_free rr.2)).finally_stack
          = [Cleanup.igraph_free, Cleanup.igraph_free,
            Cleanup.igraph_i_cliques_free_res, Cleanup.igraph_vector_destroy] := by
        unfold IGRAPH_FINALLY
        dsimp only
        rw [hrr.2.1]
        unfold IGRAPH_FINALLY_CLEAN
        dsimp only
        rw [hx1, hst]
        rfl
      have hres2 : (IGRAPH_FINALLY Cleanup.igraph_free
          (IGRAPH_FINALLY Cleanup.igraph_free rr.2)).res = pr.map some := by
        unfold IGRAPH_FINALLY
        dsimp only
        rw [hrr.2.2]
        unfold IGRAPH_FINALLY_CLEAN
        dsimp only
        rw [hx1r, hres]
      have hg2 : Guarded (IGRAPH_FINALLY Cleanup.igraph_free
          (IGRAPH_FINALLY Cleanup.igraph_free rr.2)) := by
        unfold Guarded
        rw [hst2]
        decide
      have htk : (IGRAPH_FINALLY Cleanup.igraph_free
          (IGRAPH_FINALLY Cleanup.igraph_free rr.2)).tick
          = (IGRAPH_FINALLY_CLEAN 2 x1).tick
            + (igraph_i_find_k_cliques_ops G i nms cc indep).length := hrt
      dsimp only at hpure
      rw [← hrr.1] at hpure ⊢
      rw [← htk]
      by_cases hm : (i : Int) ≥ min_size ∧ (i : Int) ≤ max_size
      · rw [if_pos hm] at hpure
        rw [if_pos hm, if_pos hm]
        apply traced_bind env Ctx.tick Ctx.tick _ _ _ _ _ _ _ _
          (emitSlots_err_trace env _ _ hg2)
        intro x2 hx2 hx2t
        rw [← hx2t]
        apply ih (i + 1) rr.1.1 rr.1.2 x2 _ r (hx2.1.trans hst2) _ hpure
        rw [hx2.2, hres2, List.map_append]
      · rw [if_neg hm] at hpure
        rw [if_neg hm, if_neg hm, bind_ok]
        exact ih (i + 1) rr.1.1 rr.1.2 _ _ r hst2 hres2 hpure
    · rw [if_neg hc] at hpure
      rw [if_neg hc, if_neg hc]
      cases hpure
      exact traced_ok env _ _ _ _ _ rfl ⟨hst, hres⟩

theorem i_cliques_err_trace (env : Nat → Option ErrorCode) (G : Graph)
    (res : List (Option (List Nat))) (min_size max_size : Int) (indep : Bool) :
    Traced env
      (fun _ : List (Option (List Nat)) =>
        0 + (igraph_i_cliques_ops G min_size max_size indep).length) 0
      (igraph_i_cliques_ops G min_size max_size indep)
      (igraph_i_cliques_err env G res min_size max_size indep)
      (fun s => ∃ r, igraph_i_cliques G min_size max_size indep = some r ∧ s = r.map some)
      (fun res => res = []) := by
  obtain ⟨r, hpure0⟩ := i_cliques_total G min_size max_size indep
  have hpure := hpure0
  unfold igraph_i_cliques at hpure
  unfold igraph_i_cliques_err igraph_i_cliques_ops
  dsimp only at hpure ⊢
  apply traced_step env OpKind.callee
    ({ tick := 0, finally_stack := [], res := igraph_vector_ptr_clear res } : Ctx)
    _ _ _ _ (Or.inr rfl)
  intro x1 hx1 _ hx1t
  have hg3 : Guarded (IGRAPH_FINALLY Cleanup.igraph_i_cliques_free_res
      { IGRAPH_FINALLY Cleanup.igraph_vector_destroy x1 with
        res := igraph_vector_ptr_clear (IGRAPH_FINALLY Cleanup.igraph_vector_destroy x1).res }) :=
    List.mem_cons_self _ _
  apply traced_step env OpKind.allocation
    (IGRAPH_FINALLY Cleanup.igraph_i_cliques_free_res
      { IGRAPH_FINALLY Cleanup.igraph_vector_destroy x1 with
        res := igraph_vector_ptr_clear (IGRAPH_FINALLY Cleanup.igraph_vector_destroy x1).res })
    _ _ _ _ (Or.inl hg3)
  intro x4 hx4 hx4r hx4t
  have hst4 : x4.finally_stack
      = [Cleanup.igraph_i_cliques_free_res, Cleanup.igraph_vector_destroy] := by
    rw [hx4]
    unfold IGRAPH_FINALLY
    dsimp only
    rw [hx1]
  have hres4 : x4.res = [] := hx4r
  have hg5 : Guarded (IGRAPH_FINALLY Cleanup.igraph_free x4) := by
    unfold Guarded IGRAPH_FINALLY
    dsimp only
    rw [hst4]
    decide
  apply traced_step env OpKind.allocation (IGRAPH_FINALLY Cleanup.igraph_free x4)
    _ _ _ _ (Or.inl hg5)
  intro x5 hx5 hx5r hx5t
  have hst5 : (IGRAPH_FINALLY Cleanup.igraph_free x5).finally_stack
      = [Cleanup.igraph_free, Cleanup.igraph_free,
        Cleanup.igraph_i_cliques_free_res, Cleanup.igraph_vector_destroy] := by
    unfold IGRAPH_FINALLY
    dsimp only
    rw [hx5]
    unfold IGRAPH_FINALLY
    dsimp only
    rw [hst4]
  have hres5 : (IGRAPH_FINALLY Cleanup.igraph_free x5).res = [] := by
    unfold IGRAPH_FINALLY
    dsimp only
    rw [hx5r]
    exact hres4
  have hg6 : Guarded (IGRAPH_FINALLY Cleanup.igraph_free x5) := by
    unfold Guarded
    rw [hst5]
    decide
  have htick5 : x5.tick = 3 := by
    rw [hx5t]
    unfold IGRAPH_FINALLY
    dsimp only
    rw [hx4t]
    unfold IGRAPH_FINALLY
    dsimp only
    rw [hx1t]
  by_cases hm : (if min_size < 0 then 0 else min_size) ≤ 1
  · rw [if_pos hm] at hpure
    rw [if_pos hm, if_pos hm]
    apply traced_bind env Ctx.tick _ _ _ _ _ _ _ _ _
      (emitSingles_err_trace env G.n (IGRAPH_FINALLY Cleanup.igraph_free x5) hg6 hres5)
    intro x6 hx6 hx6t
    rw [← hx6t]
    apply traced_map env Ctx.tick _ _ _ _ _ _ _ _
      (cliquesLoop_err_trace env G _ _ indep G.n 2 (List.range G.n) G.n x6 _ r
        (hx6.1.trans hst5) (by rw [hx6.2, List.map_map]; rfl) hpure)
    intro x7 hx7 _
    refine ⟨?_, r, hpure0, hx7.2⟩
    have h5 : (IGRAPH_FINALLY Cleanup.igraph_free x5).tick = 3 := htick5
    rw [hx6t, h5]
    simp only [List.length_cons, List.length_append]
    omega
  · rw [if_neg hm] at hpure
    rw [if_neg hm, if_neg hm, bind_ok, List.nil_append]
    apply traced_map env Ctx.tick _ _ _ _ _ _ _ _
      (cliquesLoop_err_trace env G _ _ indep G.n 2 (List.range G.n) G.n
        (IGRAPH_FINALLY Cleanup.igraph_free x5) _ r hst5 (by rw [hres5]; rfl) hpure)
    intro x7 hx7 _
    refine ⟨?_, r, hpure0, hx7.2⟩
    have h5 : (IGRAPH_FINALLY Cleanup.igraph_free x5).tick = 3 := htick5
    rw [h5]
    simp only [List.length_cons]
    omega

/-- C17: failure semantics of the level expander. The fallible operations of a
call of `igraph_cliques` (resp. `igraph_independent_vertex_sets`) are numbered in
program order by `igraph_cliques_ops` (resp. `igraph_independent_vertex_sets_ops`).
For every graph, bounds, prior sink content and environment, the call returns the
error `code` with the sink `s` exactly when `s` is empty and `code` is the code of
the first operation that the environment fails: operation number `t`, of kind
`kind`, fails with the report `e` while every earlier operation succeeds, and
`code = codeOf kind e`, that is `IGRAPH_INTERRUPTED` for a cancellation poll,
`IGRAPH_ENOMEM` for an allocation, and the code `e` of the callee for the
neighbour query and the vector operations. -/
theorem level_expander_failure (env : Nat → Option ErrorCode) (G : Graph)
    (res : List (Option (List Nat))) (min_size max_size : Int) (code : ErrorCode)
    (s : List (Option (List Nat))) :
    (igraph_cliques_err env G res min_size max_size = Outcome.error code s ↔
      s = [] ∧ ∃ t kind e, (igraph_cliques_ops G min_size max_size)[t]? = some kind ∧
        (∀ j, j < t → env j = none) ∧ env t = some e ∧ code = codeOf kind e) ∧
    (igraph_independent_vertex_sets_err env G res min_size max_size = Outcome.error code s ↔
      s = [] ∧ ∃ t kind e,
        (igraph_independent_vertex_sets_ops G min_size max_size)[t]? = some kind ∧
        (∀ j, j < t → env j = none) ∧ env t = some e ∧ code = codeOf kind e) :=
  ⟨traced_use env _ _ _ _ (i_cliques_err_trace env G res min_size max_size false) code s,
   traced_use env _ _ _ _ (i_cliques_err_trace env G res min_size max_size true) code s⟩

/-- Witness for C17 on the path `0-1-2-3` with a non-empty prior sink. Operation 15
of `igraph_cliques` is the neighbour query of the first pair; when it fails with
code 5 (and operation 20 would fail with code 9), the call returns code 5 with an
empty sink, although the four singletons had been emitted. Operation 14 of
`igraph_independent_vertex_sets` is the cancellation poll of the first pair; when
it fails, the call returns `IGRAPH_INTERRUPTED` with an empty sink. -/
theorem level_expander_failure_witness :
    (igraph_cliques_ops path4 0 0)[15]? = some OpKind.callee ∧
    igraph_cliques_err
        (fun t => if t = 15 then some (ErrorCode.other 5)
          else if t = 20 then some (ErrorCode.other 9) else none)
        path4 [some [7]] 0 0
      = Outcome.error (ErrorCode.other 5) [] ∧
    (igraph_independent_vertex_sets_ops path4 0 0)[14]? = some OpKind.poll ∧
    igraph_independent_vertex_sets_err
        (fun t => if t = 14 then some (ErrorCode.other 5) else none) path4 [some [7]] 0 0
      = Outcome.error ErrorCode.IGRAPH_INTERRUPTED [] :=
  ⟨by decide,
   (level_expander_failure
      (fun t => if t = 15 then some (ErrorCode.other 5)
        else if t = 20 then some (ErrorCode.other 9) else none)
      path4 [some [7]] 0 0 (ErrorCode.other 5) []).1.2
     ⟨rfl, 15, OpKind.callee, ErrorCode.other 5, by decide, by decide, by decide, rfl⟩,
   by decide,
   (level_expander_failure (fun t => if t = 14 then some (ErrorCode.other 5) else none)
      path4 [some [7]] 0 0 ErrorCode.IGRAPH_INTERRUPTED []).2.2
     ⟨rfl, 14, OpKind.poll, ErrorCode.other 5, by decide, by decide, by decide, rfl⟩⟩

end Igraph
